import Mathlib

/-!
# Region-lock table of `rl_lock_library.c`

A shallow embedding of the shared lock table of `src/src/rl_lock_library.c`
(structures of `src/include/rl_lock_library.h`) and of the functions that read
and mutate it, followed by theorems about them.

Conventions of the embedding

* `off_t`, `pid_t`, `int` and `short` values are `Int`; offsets are assumed to stay
  inside the range of `off_t`, so no wrap-around is modelled.
* `lock_owners[0 .. nb_owners-1]` is the list `lock_owners`; `nb_owners` is its length.
* `lock_table[NB_LOCKS]` is a list of slots; a read of a slot outside the list is
  undefined behaviour in C and gives `none` here.
* A handle `lfd` used by process `getpid()` is passed as the owner
  `h = (getpid(), lfd.d)`; the table `*lfd.f` is passed and returned explicitly.
* Every `while (lockIdx >= 0)` loop is a function recursive on a fuel argument;
  running out of fuel gives `none`, as does a traversal that the C code never ends.
* `kill(pid, 0) == 0` is the parameter `alive pid`.
-/

set_option autoImplicit false

namespace RlLock

/-! ## Constants -/

/-- Capacity of the owner array of one lock (`NB_OWNERS`). -/
def NB_OWNERS : Nat := 20

/-- Number of slots of the lock table (`NB_LOCKS`). -/
def NB_LOCKS : Nat := 10

/-- Marks a slot that is not linked (`NEXT_NULL`). -/
def NEXT_NULL : Int := -2

/-- Marks the last element of the list (`NEXT_LAST`). -/
def NEXT_LAST : Int := -1

/-- Descriptor value of a handle that failed to open (`FILE_UNK`). -/
def FILE_UNK : Int := -1

/-- Value of `F_RDLCK` in the Linux `fcntl.h`. -/
def F_RDLCK : Int := 0

/-- Value of `F_WRLCK` in the Linux `fcntl.h`. -/
def F_WRLCK : Int := 1

/-- Value of `F_UNLCK` in the Linux `fcntl.h`. -/
def F_UNLCK : Int := 2

/-- Value of `F_GETLK` in the Linux `fcntl.h`. -/
def F_GETLK : Int := 5

/-- Value of `F_SETLK` in the Linux `fcntl.h`. -/
def F_SETLK : Int := 6

/-- Value of `F_SETLKW` in the Linux `fcntl.h`. -/
def F_SETLKW : Int := 7

/-- Value of `SEEK_SET`. -/
def SEEK_SET : Int := 0

/-- Value of `SEEK_CUR`. -/
def SEEK_CUR : Int := 1

/-- Value of `SEEK_END`. -/
def SEEK_END : Int := 2

/-- Fuel of a loop that walks the list once: one step per slot and the final test. -/
def SCAN_FUEL : Nat := NB_LOCKS + 1

/-- Fuel of the loop of `delete_lock_region`, which restarts from the head after a split. -/
def RESCAN_FUEL : Nat := (NB_LOCKS + 1) * (NB_LOCKS + 1)

/-! ## Structures -/

/-- The struct `owner`: a process id and a file descriptor. -/
structure owner where
  proc : Int
  des : Int
deriving DecidableEq, Repr

/-- The struct `rl_lock`: one slot of the lock table. -/
structure rl_lock where
  next_lock : Int
  starting_offset : Int
  len : Int
  type : Int
  lock_owners : List owner
deriving DecidableEq, Repr

/-- The struct `rl_open_file` without its mutex and condition variable. -/
structure rl_open_file where
  first : Int
  lock_table : List rl_lock
  blockCnt : Int
  refCnt : Int
deriving DecidableEq, Repr

/-- The fields of `struct flock` that the library reads or writes. -/
structure flock where
  l_type : Int
  l_whence : Int
  l_start : Int
  l_len : Int
  l_pid : Int
deriving DecidableEq, Repr

/-- What a call of `rl_fcntl` comes to. -/
inductive outcome where
  | ret (code : Int) (f : rl_open_file)
  | wait (f : rl_open_file)
  | undef
deriving DecidableEq, Repr

/-- The field `nb_owners`. -/
def rl_lock.nb_owners (l : rl_lock) : Nat := l.lock_owners.length

/-- A slot after `memset(.., 0, ..)` and `next_lock = NEXT_NULL`, also what `delete_lock` leaves. -/
def empty_slot : rl_lock := ⟨NEXT_NULL, 0, 0, 0, []⟩

/-- The table that `rl_open` sets up for a new shared file, before `refCnt++`. -/
def new_open_file : rl_open_file := ⟨NEXT_NULL, List.replicate NB_LOCKS empty_slot, 0, 0⟩

/-! ## Owner predicates -/

/-- The function `is_owners_are_equal`. -/
def is_owners_are_equal (o1 o2 : owner) : Bool :=
  o1.des == o2.des && o1.proc == o2.proc

/-- The function `has_owner`. -/
def has_owner (l : rl_lock) (o : owner) : Bool :=
  l.lock_owners.any (fun x => is_owners_are_equal x o)

/-- The function `is_owner`, for descriptor `h.des` in process `h.proc`. -/
def is_owner (h : owner) (lck : rl_lock) : Bool :=
  lck.lock_owners.any (fun o => o.des == h.des && o.proc == h.proc)

/-- The function `is_other_owner`, for descriptor `h.des` in process `h.proc`. -/
def is_other_owner (h : owner) (lck : rl_lock) : Bool :=
  lck.lock_owners.any (fun o => o.des != h.des || o.proc != h.proc)

/-! ## Interval predicates -/

/-- The function `is_region_intersection`. -/
def is_region_intersection (offset len : Int) (lck : rl_lock) : Bool :=
  (decide (offset ≥ lck.starting_offset) && decide (offset < lck.starting_offset + lck.len))
  || (decide (offset + len > lck.starting_offset)
        && decide (offset + len ≤ lck.starting_offset + lck.len))
  || (decide (offset ≤ lck.starting_offset)
        && decide (offset + len ≥ lck.starting_offset + lck.len))

/-- The function `is_region_intersection_or_neighbour`. -/
def is_region_intersection_or_neighbour (offset len : Int) (lck : rl_lock) : Bool :=
  (decide (offset ≥ lck.starting_offset) && decide (offset ≤ lck.starting_offset + lck.len))
  || (decide (offset + len ≥ lck.starting_offset)
        && decide (offset + len ≤ lck.starting_offset + lck.len))
  || (decide (offset ≤ lck.starting_offset)
        && decide (offset + len ≥ lck.starting_offset + lck.len))

/-- The function `is_region_equal`. -/
def is_region_equal (offset len : Int) (lck : rl_lock) : Bool :=
  decide (offset = lck.starting_offset) && decide (len = lck.len)

/-! ## Primitive mutators -/

/-- The loop of `delete_lock`: unlink slot `index` and reset it. -/
def delete_lock_loop (index : Int) : Nat → rl_open_file → Int → Int → Option rl_open_file
  | 0, _, _, _ => none
  | n + 1, f, prevIdx, lockIdx =>
    if lockIdx ≥ 0 then
      match f.lock_table[lockIdx.toNat]? with
      | none => none
      | some cur =>
        if index = lockIdx then
          if prevIdx ≠ NEXT_NULL then
            match f.lock_table[prevIdx.toNat]? with
            | none => none
            | some p =>
              some { f with
                lock_table :=
                  (f.lock_table.set prevIdx.toNat { p with next_lock := cur.next_lock }).set
                    lockIdx.toNat empty_slot }
          else
            some { f with
              first := cur.next_lock
              lock_table := f.lock_table.set lockIdx.toNat empty_slot }
        else delete_lock_loop index n f lockIdx cur.next_lock
    else some f

/-- The function `delete_lock`. -/
def delete_lock (f : rl_open_file) (index : Int) : Option rl_open_file :=
  delete_lock_loop index SCAN_FUEL f NEXT_NULL f.first

/-- The owners that the loop of `delete_owner` keeps: it erases every entry
equal to `(getpid(), d)` and shifts the rest left. -/
def drop_owner (h : owner) (os : List owner) : List owner :=
  os.filter (fun o => !(o.proc == h.proc && o.des == h.des))

/-- The function `delete_owner`, called on a slot index of the list. -/
def delete_owner (h : owner) (f : rl_open_file) (index : Int) : Option rl_open_file :=
  if index < 0 then none
  else
    match f.lock_table[index.toNat]? with
    | none => none
    | some r =>
      let f1 : rl_open_file :=
        { f with
          lock_table :=
            f.lock_table.set index.toNat { r with lock_owners := drop_owner h r.lock_owners } }
      if (drop_owner h r.lock_owners).length = 0 then delete_lock f1 index else some f1

/-- The function `add_owner`: the result code and the lock after the call. -/
def add_owner (h : owner) (lck : rl_lock) : Int × rl_lock :=
  if lck.nb_owners ≥ NB_OWNERS then (-1, lck)
  else if !has_owner lck h then (0, { lck with lock_owners := lck.lock_owners ++ [h] })
  else (0, lck)

/-- The lowest slot index whose `len` is 0, as found by the loop of `add_lock`. -/
def find_free : List rl_lock → Option Nat
  | [] => none
  | r :: rs => if r.len = 0 then some 0 else (find_free rs).map (fun k => k + 1)

/-- The function `add_lock`: the result code and the table after the call. -/
def add_lock (h : owner) (f : rl_open_file) (lck : flock) (type : Int) : Int × rl_open_file :=
  match find_free (f.lock_table.take NB_LOCKS) with
  | some szI =>
    (0, { f with
          first := (szI : Int)
          lock_table :=
            f.lock_table.set szI ⟨f.first, lck.l_start, lck.l_len, type, [⟨h.proc, h.des⟩]⟩ })
  | none => (-1, f)

/-! ## The compatibility oracle -/

/-- The loop of `is_rl_compatible`. -/
def is_rl_compatible_loop (h : owner) (f : rl_open_file) (lck : flock) : Nat → Int → Option Bool
  | 0, _ => none
  | n + 1, lockIdx =>
    if lockIdx ≥ 0 then
      match f.lock_table[lockIdx.toNat]? with
      | none => none
      | some r =>
        if is_region_intersection lck.l_start lck.l_len r && is_other_owner h r then
          if lck.l_type = F_WRLCK then some false
          else if lck.l_type = F_RDLCK ∧ r.type = F_WRLCK then some false
          else is_rl_compatible_loop h f lck n r.next_lock
        else is_rl_compatible_loop h f lck n r.next_lock
    else some true

/-- The function `is_rl_compatible`. -/
def is_rl_compatible (h : owner) (f : rl_open_file) (lck : flock) : Option Bool :=
  is_rl_compatible_loop h f lck SCAN_FUEL f.first

/-! ## The liveness sweep -/

/-- The loop of `rl_clear_dead_owners`; `alive p` stands for `kill(p, 0) == 0`. -/
def rl_clear_dead_owners_loop (alive : Int → Bool) :
    Nat → rl_open_file → Int → Option rl_open_file
  | 0, _, _ => none
  | n + 1, f, lockIdx =>
    if lockIdx ≥ 0 then
      match f.lock_table[lockIdx.toNat]? with
      | none => none
      | some r =>
        let owners := r.lock_owners.filter (fun o => alive o.proc)
        if owners.length = 0 then
          let nextLock := r.next_lock
          let f2 : rl_open_file :=
            { f with
              lock_table :=
                f.lock_table.set lockIdx.toNat
                  { r with lock_owners := owners, next_lock := NEXT_NULL } }
          let f3 : rl_open_file := if f2.first = lockIdx then { f2 with first := nextLock } else f2
          rl_clear_dead_owners_loop alive n f3 nextLock
        else
          rl_clear_dead_owners_loop alive n
            { f with lock_table := f.lock_table.set lockIdx.toNat { r with lock_owners := owners } }
            r.next_lock
    else some f

/-- The function `rl_clear_dead_owners`. -/
def rl_clear_dead_owners (alive : Int → Bool) (f : rl_open_file) : Option rl_open_file :=
  rl_clear_dead_owners_loop alive SCAN_FUEL f f.first

/-! ## The region mutators -/

/-- The first loop of `add_read_lock_region`: look for a lock with exactly the
requested region. `some none` means that the loop ended without a `return`. -/
def add_read_search (h : owner) (lck : flock) :
    Nat → rl_open_file → Int → Option (Option (Int × rl_open_file))
  | 0, _, _ => none
  | n + 1, f, lockIdx =>
    if lockIdx ≥ 0 then
      match f.lock_table[lockIdx.toNat]? with
      | none => none
      | some r =>
        if is_region_equal lck.l_start lck.l_len r then
          if is_owner h r then some (some (0, f))
          else
            some (some ((add_owner h r).1,
              { f with lock_table := f.lock_table.set lockIdx.toNat (add_owner h r).2 }))
        else add_read_search h lck n f r.next_lock
    else some none

/-- The region written back to `*lck` when a lock is absorbed. The macros `MIN` and
`MAX` are defined without parentheses, so
`MAX(newEnd1, newEnd2) - newStart` is `newEnd1 > newEnd2 ? newEnd1 : newEnd2 - newStart`. -/
def absorb (lck : flock) (r : rl_lock) : flock :=
  let newStart := if lck.l_start < r.starting_offset then lck.l_start else r.starting_offset
  let newEnd1 := lck.l_start + lck.l_len
  let newEnd2 := r.starting_offset + r.len
  let newLen := if newEnd1 > newEnd2 then newEnd1 else newEnd2 - newStart
  { lck with l_start := newStart, l_len := newLen }

/-- The second loop of `add_read_lock_region`: absorb the locks of `h` that touch the region. -/
def add_read_merge (h : owner) : Nat → rl_open_file → flock → Int → Option (rl_open_file × flock)
  | 0, _, _, _ => none
  | n + 1, f, lck, lockIdx =>
    if lockIdx ≥ 0 then
      match f.lock_table[lockIdx.toNat]? with
      | none => none
      | some r =>
        if is_region_intersection_or_neighbour lck.l_start lck.l_len r && is_owner h r then
          match delete_owner h f lockIdx with
          | none => none
          | some f1 => add_read_merge h n f1 (absorb lck r) r.next_lock
        else add_read_merge h n f lck r.next_lock
    else some (f, lck)

/-- The function `add_read_lock_region`. -/
def add_read_lock_region (h : owner) (f : rl_open_file) (lck : flock) :
    Option (Int × rl_open_file) :=
  match add_read_search h lck SCAN_FUEL f f.first with
  | none => none
  | some (some res) => some res
  | some none =>
    match add_read_merge h SCAN_FUEL f lck f.first with
    | none => none
    | some (f1, lck1) => some (add_lock h f1 lck1 F_RDLCK)

/-- The loop of `add_write_lock_region`. -/
def add_write_merge (h : owner) : Nat → rl_open_file → flock → Int → Option (rl_open_file × flock)
  | 0, _, _, _ => none
  | n + 1, f, lck, lockIdx =>
    if lockIdx ≥ 0 then
      match f.lock_table[lockIdx.toNat]? with
      | none => none
      | some r =>
        if ((is_region_intersection_or_neighbour lck.l_start lck.l_len r
              && decide (r.type = lck.l_type))
            || is_region_intersection lck.l_start lck.l_len r)
           && is_owner h r then
          match delete_owner h f lockIdx with
          | none => none
          | some f1 => add_write_merge h n f1 (absorb lck r) r.next_lock
        else add_write_merge h n f lck r.next_lock
    else some (f, lck)

/-- The function `add_write_lock_region`. -/
def add_write_lock_region (h : owner) (f : rl_open_file) (lck : flock) :
    Option (Int × rl_open_file) :=
  match add_write_merge h SCAN_FUEL f lck f.first with
  | none => none
  | some (f1, lck1) => some (add_lock h f1 lck1 F_WRLCK)

/-- The type field of slot `lockIdx`, read when `add_lock` is called in `delete_lock_region`. -/
def type_at (f : rl_open_file) (lockIdx : Int) : Int :=
  match f.lock_table[lockIdx.toNat]? with
  | some r => r.type
  | none => 0

/-- The loop of `delete_lock_region`. -/
def delete_lock_region_loop (h : owner) (lck : flock) :
    Nat → rl_open_file → Int → Option (Int × rl_open_file)
  | 0, _, _ => none
  | n + 1, f, lockIdx =>
    if lockIdx ≥ 0 then
      match f.lock_table[lockIdx.toNat]? with
      | none => none
      | some r =>
        if is_region_intersection lck.l_start lck.l_len r && is_owner h r then
          let unlStart := lck.l_start
          let unlEnd := lck.l_start + lck.l_len
          let lckStart := r.starting_offset
          let lckEnd := r.starting_offset + r.len
          if unlStart ≤ lckStart ∧ unlEnd ≥ lckEnd then
            match delete_owner h f lockIdx with
            | none => none
            | some f1 => delete_lock_region_loop h lck n f1 r.next_lock
          else if unlStart > lckStart ∧ unlEnd < lckEnd then
            let lckLeft : flock := { lck with l_start := lckStart, l_len := unlStart - lckStart }
            let lckRight : flock := { lck with l_start := unlEnd, l_len := lckEnd - unlEnd }
            let a1 := add_lock h f lckLeft (type_at f lockIdx)
            if a1.1 ≠ 0 then some (-1, a1.2)
            else
              let a2 := add_lock h a1.2 lckRight (type_at a1.2 lockIdx)
              if a2.1 ≠ 0 then some (-1, a2.2)
              else
                match delete_owner h a2.2 lockIdx with
                | none => none
                | some f1 => delete_lock_region_loop h lck n f1 f1.first
          else if unlStart ≤ lckStart ∧ unlEnd ≤ lckEnd then
            let lckRight : flock := { lck with l_start := unlEnd, l_len := lckEnd - unlEnd }
            let a1 := add_lock h f lckRight (type_at f lockIdx)
            if a1.1 ≠ 0 then some (-1, a1.2)
            else
              match delete_owner h a1.2 lockIdx with
              | none => none
              | some f1 => delete_lock_region_loop h lck n f1 f1.first
          else if unlStart ≥ lckStart ∧ unlEnd ≥ lckEnd then
            let lckLeft : flock := { lck with l_start := lckStart, l_len := unlStart - lckStart }
            let a1 := add_lock h f lckLeft (type_at f lockIdx)
            if a1.1 ≠ 0 then some (-1, a1.2)
            else
              match delete_owner h a1.2 lockIdx with
              | none => none
              | some f1 => delete_lock_region_loop h lck n f1 f1.first
          else delete_lock_region_loop h lck n f lockIdx
        else delete_lock_region_loop h lck n f r.next_lock
    else some (0, f)

/-- The function `delete_lock_region`. -/
def delete_lock_region (h : owner) (f : rl_open_file) (lck : flock) :
    Option (Int × rl_open_file) :=
  delete_lock_region_loop h lck RESCAN_FUEL f f.first

/-! ## `rl_fcntl` -/

/-- The alignment of `l_start` and `l_len` at the start of `rl_fcntl`; `pos` is the
value of `get_current_position` and `size` that of `get_file_size`. -/
def normalize (pos size : Int) (h : owner) (lck : flock) : flock :=
  let start1 :=
    if lck.l_whence = SEEK_CUR then pos + lck.l_start
    else if lck.l_whence = SEEK_END then size + lck.l_start
    else lck.l_start
  let len1 := if lck.l_len = 0 then size - start1 else lck.l_len
  let start2 := if len1 < 0 then start1 + len1 else start1
  let len2 := if len1 < 0 then -len1 else len1
  { l_type := lck.l_type, l_whence := SEEK_SET, l_start := start2, l_len := len2,
    l_pid := h.proc }

/-- The function `rl_fcntl` for a handle with a mapped table and a non-null `lck`. -/
def rl_fcntl (alive : Int → Bool) (pos size : Int) (h : owner) (f : rl_open_file) (cmd : Int)
    (lck : flock) : outcome :=
  if h.des = FILE_UNK ∨ cmd = F_GETLK then outcome.ret (-1) f
  else
    let lc := normalize pos size h lck
    match rl_clear_dead_owners alive f with
    | none => outcome.undef
    | some f0 =>
      if lc.l_type = F_UNLCK then
        match delete_lock_region h f0 lc with
        | none => outcome.undef
        | some (ret, f1) =>
          if f1.blockCnt ≠ 0 then outcome.ret ret { f1 with blockCnt := 0 }
          else outcome.ret ret f1
      else
        match is_rl_compatible h f0 lc with
        | none => outcome.undef
        | some false =>
          if cmd = F_SETLKW then outcome.wait { f0 with blockCnt := f0.blockCnt + 1 }
          else outcome.ret (-1) f0
        | some true =>
          if lc.l_type = F_RDLCK then
            match add_read_lock_region h f0 lc with
            | none => outcome.undef
            | some (ret, f1) => outcome.ret ret f1
          else if lc.l_type = F_WRLCK then
            match add_write_lock_region h f0 lc with
            | none => outcome.undef
            | some (ret, f1) => outcome.ret ret f1
          else outcome.ret 0 f0

/-! ## Reachable records, well-formed tables and the list view -/

/-- The slot indices visited by `for (i = first; i >= 0; i = lock_table[i].next_lock)`
within `n` steps; `none` when a slot index is out of range or the walk is longer. -/
def chain (tbl : List rl_lock) : Nat → Int → Option (List Nat)
  | 0, idx => if idx < 0 then some [] else none
  | n + 1, idx =>
    if idx < 0 then some []
    else
      match tbl[idx.toNat]? with
      | none => none
      | some r => (chain tbl n r.next_lock).map (fun l => idx.toNat :: l)

/-- The slot indices reachable from `first`, in list order (empty when the walk does not end). -/
def reachable_idx (f : rl_open_file) : List Nat :=
  (chain f.lock_table f.lock_table.length f.first).getD []

/-- The records reachable from `first`, in list order. -/
def reachable (f : rl_open_file) : List rl_lock :=
  (reachable_idx f).filterMap (fun i => f.lock_table[i]?)

/-- The walk from `idx` visits exactly the slots `l` and ends at a negative index. -/
inductive Chain (tbl : List rl_lock) : Int → List Nat → Prop
  | nil (idx : Int) : idx < 0 → Chain tbl idx []
  | cons (i : Nat) (r : rl_lock) (l : List Nat) :
      tbl[i]? = some r → Chain tbl r.next_lock l → Chain tbl (i : Int) (i :: l)

/-- A record without its link field. -/
def core (r : rl_lock) : rl_lock := { r with next_lock := 0 }

/-- The record of slot `i` without its link field. -/
def slot_core (tbl : List rl_lock) (i : Nat) : rl_lock :=
  match tbl[i]? with
  | some r => core r
  | none => empty_slot

/-- The records of the slots `l` without their link fields. -/
def view (tbl : List rl_lock) (l : List Nat) : List rl_lock := l.map (slot_core tbl)

/-- Number of slots that `add_lock` regards as free. -/
def free_count (tbl : List rl_lock) : Nat := tbl.countP (fun r => decide (r.len = 0))

/-- The value of `prevIdx` after walking over the slots `l`. -/
def last_or (prev : Int) : List Nat → Int
  | [] => prev
  | a :: l => last_or (a : Int) l

/-- The list of the table is acyclic and in range, and its records have positive length. -/
def well_formed (f : rl_open_file) : Prop :=
  f.lock_table.length = NB_LOCKS
    ∧ (chain f.lock_table NB_LOCKS f.first).isSome
    ∧ ∀ r ∈ reachable f, 0 < r.len

instance (f : rl_open_file) : Decidable (well_formed f) := by
  unfold well_formed
  exact inferInstance

/-- The list of `f` is `P ++ S` (link fields dropped), the walk from `idx` visits `S`,
the table has `NB_LOCKS` slots and no listed record has length 0. -/
def At (f : rl_open_file) (idx : Int) (P S : List rl_lock) : Prop :=
  f.lock_table.length = NB_LOCKS ∧ (∀ r ∈ P ++ S, r.len ≠ 0) ∧
    ∃ p s, Chain f.lock_table f.first (p ++ s) ∧ Chain f.lock_table idx s
      ∧ view f.lock_table p = P ∧ view f.lock_table s = S

/-- The records that `delete_owner` leaves in place of `r`. -/
def drop_rec (h : owner) (r : rl_lock) : List rl_lock :=
  if (drop_owner h r.lock_owners).length = 0 then []
  else [{ r with lock_owners := drop_owner h r.lock_owners }]

/-- The number of slots that `delete_owner` frees when called on `r`. -/
def dropped (h : owner) (r : rl_lock) : Nat :=
  if (drop_owner h r.lock_owners).length = 0 then 1 else 0

/-- The record that `add_lock` writes, without its link field. -/
def new_rec (h : owner) (start len type : Int) : rl_lock := ⟨0, start, len, type, [h]⟩

/-- Byte `x` lies in the region of record `r`. -/
def covers (r : rl_lock) (x : Int) : Prop :=
  r.starting_offset ≤ x ∧ x < r.starting_offset + r.len

instance (r : rl_lock) (x : Int) : Decidable (covers r x) := by
  unfold covers
  exact inferInstance

/-- The region `[start, start + len)` and the region of `r` share a byte. -/
def intersects (start len : Int) (r : rl_lock) : Prop :=
  ∃ x, (start ≤ x ∧ x < start + len) ∧ covers r x

/-- The region `[start, start + len)` and the region of `r` share a byte or a boundary. -/
def touches (start len : Int) (r : rl_lock) : Prop :=
  start ≤ r.starting_offset + r.len ∧ r.starting_offset ≤ start + len

instance (start len : Int) (r : rl_lock) : Decidable (touches start len r) := by
  unfold touches
  exact inferInstance

/-- Every byte of `[start, start + len)` lies in the region of `r`. -/
def contains (r : rl_lock) (start len : Int) : Prop :=
  r.starting_offset ≤ start ∧ start + len ≤ r.starting_offset + r.len

instance (r : rl_lock) (start len : Int) : Decidable (contains r start len) := by
  unfold contains
  exact inferInstance

/-- Record `r` makes the oracle answer `false` to the proposal `lck` of `h`. -/
def conflict (h : owner) (lck : flock) (r : rl_lock) : Bool :=
  (is_region_intersection lck.l_start lck.l_len r && is_other_owner h r)
    && (decide (lck.l_type = F_WRLCK)
        || (decide (lck.l_type = F_RDLCK) && decide (r.type = F_WRLCK)))

/-! ## Example handles and tables -/

/-- A handle of process 100 on descriptor 3. -/
def hA : owner := ⟨100, 3⟩

/-- A second handle of process 100, on descriptor 4. -/
def hB : owner := ⟨100, 4⟩

/-- A handle of another process, 200, on descriptor 3. -/
def hC : owner := ⟨200, 3⟩

/-- A table with `NB_LOCKS` slots whose first slots are `rs` and whose head is `first`. -/
def table_of (first : Int) (rs : List rl_lock) : rl_open_file :=
  ⟨first, rs ++ List.replicate (NB_LOCKS - rs.length) empty_slot, 0, 2⟩

/-- A request on `[start, start + len)` measured from the start of the file. -/
def request (type start len : Int) : flock := ⟨type, SEEK_SET, start, len, 0⟩

/-- Every process is alive. -/
def all_alive : Int → Bool := fun _ => true

/-- The table in which `hA` holds READ `[0, 100)`. -/
def table_read_A : rl_open_file := table_of 0 [⟨NEXT_NULL, 0, 100, F_RDLCK, [hA]⟩]

/-- The table in which `hA` and `hC` share READ `[0, 10)`. -/
def table_shared : rl_open_file := table_of 0 [⟨NEXT_NULL, 0, 10, F_RDLCK, [hA, hC]⟩]

/-! ## The mutators on the list of records -/

/-- The test of the second loop of `add_read_lock_region`. -/
def read_match (h : owner) (lck : flock) (r : rl_lock) : Bool :=
  is_region_intersection_or_neighbour lck.l_start lck.l_len r && is_owner h r

/-- The test of the loop of `add_write_lock_region`. -/
def write_match (h : owner) (lck : flock) (r : rl_lock) : Bool :=
  ((is_region_intersection_or_neighbour lck.l_start lck.l_len r && decide (r.type = lck.l_type))
      || is_region_intersection lck.l_start lck.l_len r)
    && is_owner h r

/-- One pass of a merge loop over the records `S`: the region written back to `*lck`
and the records that remain. -/
def merge_list (h : owner) (m : flock → rl_lock → Bool) :
    flock → List rl_lock → flock × List rl_lock
  | lck, [] => (lck, [])
  | lck, r :: S =>
    if m lck r then
      ((merge_list h m (absorb lck r) S).1, drop_rec h r ++ (merge_list h m (absorb lck r) S).2)
    else ((merge_list h m lck S).1, r :: (merge_list h m lck S).2)

/-- The requests `reqs` issued one after the other with `F_SETLK`: the result codes and
the final table, `none` when a call does not return. -/
def run_requests (alive : Int → Bool) :
    rl_open_file → List (owner × flock) → Option (List Int × rl_open_file)
  | f, [] => some ([], f)
  | f, (h, lck) :: rest =>
    match rl_fcntl alive 0 0 h f F_SETLK lck with
    | outcome.ret code g =>
      match run_requests alive g rest with
      | some (codes, g2) => some (code :: codes, g2)
      | none => none
    | _ => none

/-- The start of every reachable record is a non-negative byte offset. -/
def starts_nonneg (f : rl_open_file) : Prop :=
  ∀ r ∈ reachable f, 0 ≤ r.starting_offset

instance (f : rl_open_file) : Decidable (starts_nonneg f) := by
  unfold starts_nonneg
  exact inferInstance

/-- Every reachable record has an owner and all its owners are alive. -/
def owners_alive (alive : Int → Bool) (f : rl_open_file) : Prop :=
  ∀ r ∈ reachable f, r.lock_owners ≠ [] ∧ ∀ o ∈ r.lock_owners, alive o.proc = true

instance (alive : Int → Bool) (f : rl_open_file) : Decidable (owners_alive alive f) := by
  unfold owners_alive
  exact inferInstance

/-- The region of `lck2` contains that of `lck`, starts at a non-negative offset and has
positive length; the type is the same. -/
def extends_region (lck lck2 : flock) : Prop :=
  lck2.l_start ≤ lck.l_start ∧ lck.l_start + lck.l_len ≤ lck2.l_start + lck2.l_len
    ∧ 0 ≤ lck2.l_start ∧ 0 < lck2.l_len ∧ lck2.l_type = lck.l_type

/-- The first loop of `add_read_lock_region` on the list of records: `none` when no
record has the requested region, else the result code and the records after the call. -/
def search_list (h : owner) (lck : flock) : List rl_lock → Option (Int × List rl_lock)
  | [] => none
  | r :: S =>
    if is_region_equal lck.l_start lck.l_len r then
      if is_owner h r then some (0, r :: S)
      else some ((add_owner h r).1, core (add_owner h r).2 :: S)
    else (search_list h lck S).map (fun res => (res.1, r :: res.2))

/-- The table in which `hA` holds READ `[0, 500)` and READ `[1000, 1500)`. -/
def table_two_reads : rl_open_file :=
  table_of 1 [⟨NEXT_NULL, 0, 500, F_RDLCK, [hA]⟩, ⟨0, 1000, 500, F_RDLCK, [hA]⟩]

/-- The table in which `hA` holds WRITE `[0, 1500)`. -/
def table_write_A : rl_open_file := table_of 0 [⟨NEXT_NULL, 0, 1500, F_WRLCK, [hA]⟩]

/-- The table in which `hA` holds READ `[0, 100)` and WRITE `[100, 200)`. -/
def table_read_write_A : rl_open_file :=
  table_of 1 [⟨NEXT_NULL, 0, 100, F_RDLCK, [hA]⟩, ⟨0, 100, 100, F_WRLCK, [hA]⟩]

/-- The piece of `r` to the left of the unlocked region. -/
def left_piece (h : owner) (lck : flock) (r : rl_lock) : rl_lock :=
  new_rec h r.starting_offset (lck.l_start - r.starting_offset) r.type

/-- The piece of `r` to the right of the unlocked region. -/
def right_piece (h : owner) (lck : flock) (r : rl_lock) : rl_lock :=
  new_rec h (lck.l_start + lck.l_len) (r.starting_offset + r.len - (lck.l_start + lck.l_len))
    r.type

/-- The loop of `delete_lock_region` on the list of records: `P` are the records before
the cursor, the last argument those from the cursor on, `k` the number of free slots. -/
def unlock_list (h : owner) (lck : flock) :
    Nat → Nat → List rl_lock → List rl_lock → Option (Int × List rl_lock)
  | 0, _, _, _ => none
  | _ + 1, _, P, [] => some (0, P)
  | n + 1, k, P, r :: S =>
    if is_region_intersection lck.l_start lck.l_len r && is_owner h r then
      if lck.l_start ≤ r.starting_offset
          ∧ lck.l_start + lck.l_len ≥ r.starting_offset + r.len then
        unlock_list h lck n (k + dropped h r) (P ++ drop_rec h r) S
      else if lck.l_start > r.starting_offset
          ∧ lck.l_start + lck.l_len < r.starting_offset + r.len then
        if k = 0 then some (-1, P ++ r :: S)
        else if k = 1 then some (-1, left_piece h lck r :: (P ++ r :: S))
        else
          unlock_list h lck n (k - 2 + dropped h r) []
            (right_piece h lck r :: left_piece h lck r :: (P ++ drop_rec h r ++ S))
      else if lck.l_start ≤ r.starting_offset
          ∧ lck.l_start + lck.l_len ≤ r.starting_offset + r.len then
        if k = 0 then some (-1, P ++ r :: S)
        else
          unlock_list h lck n (k - 1 + dropped h r) []
            (right_piece h lck r :: (P ++ drop_rec h r ++ S))
      else if lck.l_start ≥ r.starting_offset
          ∧ lck.l_start + lck.l_len ≥ r.starting_offset + r.len then
        if k = 0 then some (-1, P ++ r :: S)
        else
          unlock_list h lck n (k - 1 + dropped h r) []
            (left_piece h lck r :: (P ++ drop_rec h r ++ S))
      else unlock_list h lck n k P (r :: S)
    else unlock_list h lck n k (P ++ [r]) S

/-- The concrete result `res` agrees with the result `ares` on the list of records. -/
def refines (f0 : rl_open_file) (res : Option (Int × rl_open_file))
    (ares : Option (Int × List rl_lock)) : Prop :=
  match ares with
  | none => res = none
  | some (c, L) =>
    ∃ g, res = some (c, g) ∧ At g g.first [] L
      ∧ g.blockCnt = f0.blockCnt ∧ g.refCnt = f0.refCnt

/-- Handle `h` owns, among the records `L`, one of type `t` that covers byte `x`. -/
def holds (h : owner) (L : List rl_lock) (x t : Int) : Prop :=
  ∃ r ∈ L, h ∈ r.lock_owners ∧ r.type = t ∧ covers r x

/-- Byte `x` lies in the region of the request `lck`. -/
def in_region (lck : flock) (x : Int) : Prop :=
  lck.l_start ≤ x ∧ x < lck.l_start + lck.l_len

/-- The table in which `hA` holds READ `[0, 50)`, in slot 1. -/
def table_read_A_half : rl_open_file :=
  table_of 1 [empty_slot, ⟨NEXT_NULL, 0, 50, F_RDLCK, [hA]⟩]

/-- The table in which `hA` holds WRITE `[0, 1000)`. -/
def table_write_1000 : rl_open_file := table_of 0 [⟨NEXT_NULL, 0, 1000, F_WRLCK, [hA]⟩]

/-- Twenty handles of twenty processes, pids 300 to 319, each on descriptor 3. -/
def twenty_owners : List owner := (List.range 20).map (fun i => ⟨300 + (i : Int), 3⟩)

/-- The table in which twenty handles share READ `[0, 100)`. -/
def table_full_owners : rl_open_file :=
  table_of 0 [⟨NEXT_NULL, 0, 100, F_RDLCK, twenty_owners⟩]

/-! ## Normalisation, reference definition -/

/-- The normalised region as the specification defines it: the base offset is the start
plus the current position, the file size or 0; a length of 0 stands for "up to the end of
the file"; a negative length is flipped. The result is the pair (start, length). -/
def normalize_ref (whence start len pos size : Int) : Int × Int :=
  let base := start + (if whence = SEEK_CUR then pos else if whence = SEEK_END then size else 0)
  let len1 := if len = 0 then size - base else len
  if len1 < 0 then (base + len1, -len1) else (base, len1)

/-! ## The list view without the length condition -/

/-- The list of `f` is `P ++ S` (link fields dropped) and the walk from `idx` visits `S`,
in a table of `NB_LOCKS` slots. Unlike `At`, a listed record may have length 0. -/
def Lk (f : rl_open_file) (idx : Int) (P S : List rl_lock) : Prop :=
  f.lock_table.length = NB_LOCKS ∧
    ∃ p s, Chain f.lock_table f.first (p ++ s) ∧ Chain f.lock_table idx s
      ∧ view f.lock_table p = P ∧ view f.lock_table s = S

/-! ## The liveness sweep on the list of records -/

/-- The record that the sweep writes back: the owners whose process is alive, in order. -/
def sweep_rec (alive : Int → Bool) (r : rl_lock) : rl_lock :=
  { r with lock_owners := r.lock_owners.filter (fun o => alive o.proc) }

/-- The sweep on the records behind a record that stays in the list: the first record
left without an owner stays linked, with `next_lock = NEXT_NULL`, and ends the list. -/
def sweep_tail (alive : Int → Bool) : List rl_lock → List rl_lock
  | [] => []
  | r :: S =>
    if (r.lock_owners.filter (fun o => alive o.proc)).length = 0 then [sweep_rec alive r]
    else sweep_rec alive r :: sweep_tail alive S

/-- The sweep on the list of records: records left without an owner are unlinked as long
as they are at the head; behind the first record that stays, `sweep_tail` applies. -/
def sweep_list (alive : Int → Bool) : List rl_lock → List rl_lock
  | [] => []
  | r :: S =>
    if (r.lock_owners.filter (fun o => alive o.proc)).length = 0 then sweep_list alive S
    else sweep_rec alive r :: sweep_tail alive S

/-- A liveness oracle: every process but 200 is alive. -/
def alive_but_200 : Int → Bool := fun p => p != 200

/-- The table after `hC` took WRITE `[20, 30)` and then `hA` took READ `[0, 10)`: the
record of `hA` is at the head, the record of `hC` behind it. -/
def table_dead_tail : rl_open_file :=
  ⟨1, [⟨NEXT_NULL, 20, 10, F_WRLCK, [hC]⟩, ⟨0, 0, 10, F_RDLCK, [hA]⟩]
        ++ List.replicate 8 empty_slot, 0, 0⟩

/-- The table `table_dead_tail` after the sweep, process 200 being dead. -/
def table_dead_tail_swept : rl_open_file :=
  ⟨1, [⟨NEXT_NULL, 20, 10, F_WRLCK, []⟩, ⟨0, 0, 10, F_RDLCK, [hA]⟩]
        ++ List.replicate 8 empty_slot, 0, 0⟩

/-- The table in which `hC` holds WRITE `[20, 30)` and nothing else is locked. -/
def table_dead_only : rl_open_file :=
  ⟨0, ⟨NEXT_NULL, 20, 10, F_WRLCK, [hC]⟩ :: List.replicate 9 empty_slot, 0, 0⟩

/-- The table after `hC` took READ `[-120, -95)`, `hA` took READ `[-100, 0)` and `hA`
joined the record of `hC` by asking READ `[-120, -95)` as well. -/
def table_neg_starts : rl_open_file :=
  ⟨1, [⟨NEXT_NULL, -120, 25, F_RDLCK, [hC, hA]⟩, ⟨0, -100, 100, F_RDLCK, [hA]⟩]
        ++ List.replicate 8 empty_slot, 0, 0⟩

/-- The table `table_neg_starts` after `hA` asked READ `[0, 10)`. -/
def table_neg_len : rl_open_file :=
  ⟨1, [⟨NEXT_NULL, -120, 25, F_RDLCK, [hC]⟩, ⟨0, -120, -90, F_RDLCK, [hA]⟩]
        ++ List.replicate 8 empty_slot, 0, 0⟩

/-- The empty table after `hA` asked READ with `l_start = 100`, `l_len = 0` on a file of
100 bytes. -/
def table_empty_range : rl_open_file :=
  ⟨0, ⟨NEXT_NULL, 100, 0, F_RDLCK, [hA]⟩ :: List.replicate 9 empty_slot, 0, 0⟩

/-- The table `table_empty_range` after `hA` asked READ `[0, 10)`: slot 0 links to itself. -/
def table_self_loop : rl_open_file :=
  ⟨0, ⟨0, 0, 10, F_RDLCK, [hA]⟩ :: List.replicate 9 empty_slot, 0, 0⟩

/-- The table after `hA` took READ `[0, 10)` and then WRITE `[10, 20)`. -/
def table_read_then_write : rl_open_file :=
  ⟨1, [⟨NEXT_NULL, 0, 10, F_RDLCK, [hA]⟩, ⟨0, 10, 10, F_WRLCK, [hA]⟩]
        ++ List.replicate 8 empty_slot, 0, 0⟩

/-- The table `table_read_then_write` after `hA` asked READ `[0, 5)` once. -/
def table_read_once : rl_open_file :=
  ⟨0, [⟨1, 0, 10, F_RDLCK, [hA]⟩, ⟨NEXT_NULL, 10, 10, F_WRLCK, [hA]⟩]
        ++ List.replicate 8 empty_slot, 0, 0⟩

/-- The table `table_read_then_write` after `hA` asked READ `[0, 5)` twice. -/
def table_read_twice : rl_open_file :=
  ⟨0, ⟨NEXT_NULL, 0, 20, F_RDLCK, [hA]⟩ :: List.replicate 9 empty_slot, 0, 0⟩

/-! ## Copying owners: `rl_dup` and `rl_fork` -/

/-- Fuel of a loop over the owners of one record: its bound `nb_owners` is read again at
each step and grows when the loop appends an owner. -/
def OWNER_FUEL : Nat := 2 * NB_OWNERS + 2

/-- The inner loop of `can_add_new_owner` over the owners of one record with `nb` owners:
`none` stands for `return -1`, else the value of `res` after the loop. -/
def can_add_new_owner_scan (own : owner) (nb : Nat) : List owner → Int → Option Int
  | [], res => some res
  | o :: os, res =>
    if is_owners_are_equal o own then
      if nb ≥ NB_OWNERS then none else can_add_new_owner_scan own nb os 1
    else can_add_new_owner_scan own nb os res

/-- The loop of `can_add_new_owner`. -/
def can_add_new_owner_loop (own : owner) : Nat → rl_open_file → Int → Int → Option Int
  | 0, _, _, _ => none
  | n + 1, f, ind, res =>
    if ind ≥ 0 then
      match f.lock_table[ind.toNat]? with
      | none => none
      | some r =>
        match can_add_new_owner_scan own r.nb_owners r.lock_owners res with
        | none => some (-1)
        | some res2 => can_add_new_owner_loop own n f r.next_lock res2
    else some res

/-- The function `can_add_new_owner`. -/
def can_add_new_owner (own : owner) (f : rl_open_file) : Option Int :=
  can_add_new_owner_loop own SCAN_FUEL f f.first 0

/-- The inner loop of `add_new_owner` over the owners of the record `r`, from index `i`. -/
def add_new_owner_scan (own new_owner : owner) : Nat → Nat → rl_lock → Option rl_lock
  | 0, _, _ => none
  | n + 1, i, r =>
    match r.lock_owners[i]? with
    | none => some r
    | some o =>
      if is_owners_are_equal o own then
        if !has_owner r new_owner then
          add_new_owner_scan own new_owner n (i + 1)
            { r with lock_owners := r.lock_owners ++ [new_owner] }
        else add_new_owner_scan own new_owner n (i + 1) r
      else add_new_owner_scan own new_owner n (i + 1) r

/-- The loop of `add_new_owner`. -/
def add_new_owner_loop (own new_owner : owner) : Nat → rl_open_file → Int → Option rl_open_file
  | 0, _, _ => none
  | n + 1, f, ind =>
    if ind ≥ 0 then
      match f.lock_table[ind.toNat]? with
      | none => none
      | some r =>
        if r.type = F_RDLCK then
          match add_new_owner_scan own new_owner OWNER_FUEL 0 r with
          | none => none
          | some r2 =>
            add_new_owner_loop own new_owner n
              { f with lock_table := f.lock_table.set ind.toNat r2 } r2.next_lock
        else add_new_owner_loop own new_owner n f r.next_lock
    else some f

/-- The function `add_new_owner`: it always returns 0. -/
def add_new_owner (own new_owner : owner) (f : rl_open_file) : Option (Int × rl_open_file) :=
  (add_new_owner_loop own new_owner SCAN_FUEL f f.first).map (fun g => (0, g))

/-- The inner loop of `add_new_owner_by_pid` over the owners of the record `r`, from index
`i`; `res` is the result code so far. -/
def add_new_owner_by_pid_scan (parent fils : Int) :
    Nat → Nat → rl_lock → Int → Option (rl_lock × Int)
  | 0, _, _, _ => none
  | n + 1, i, r, res =>
    match r.lock_owners[i]? with
    | none => some (r, res)
    | some o =>
      if o.proc = parent then
        if r.nb_owners < NB_OWNERS then
          if !has_owner r ⟨fils, o.des⟩ then
            add_new_owner_by_pid_scan parent fils n (i + 1)
              { r with lock_owners := r.lock_owners ++ [⟨fils, o.des⟩] } res
          else add_new_owner_by_pid_scan parent fils n (i + 1) r res
        else add_new_owner_by_pid_scan parent fils n (i + 1) r (-1)
      else add_new_owner_by_pid_scan parent fils n (i + 1) r res

/-- The loop of `add_new_owner_by_pid`. -/
def add_new_owner_by_pid_loop (parent fils : Int) :
    Nat → rl_open_file → Int → Int → Option (Int × rl_open_file)
  | 0, _, _, _ => none
  | n + 1, f, ind, res =>
    if ind ≥ 0 then
      match f.lock_table[ind.toNat]? with
      | none => none
      | some r =>
        if r.type = F_RDLCK then
          match add_new_owner_by_pid_scan parent fils OWNER_FUEL 0 r res with
          | none => none
          | some (r2, res2) =>
            add_new_owner_by_pid_loop parent fils n
              { f with lock_table := f.lock_table.set ind.toNat r2 } r2.next_lock res2
        else add_new_owner_by_pid_loop parent fils n f r.next_lock res
    else some (res, f)

/-- The function `add_new_owner_by_pid`. -/
def add_new_owner_by_pid (parent fils : Int) (f : rl_open_file) : Option (Int × rl_open_file) :=
  add_new_owner_by_pid_loop parent fils SCAN_FUEL f f.first 0

/-- Record `r` has between 1 and `NB_OWNERS` owners. -/
def owner_count_ok (r : rl_lock) : Prop :=
  1 ≤ r.lock_owners.length ∧ r.lock_owners.length ≤ NB_OWNERS

instance (r : rl_lock) : Decidable (owner_count_ok r) := by
  unfold owner_count_ok
  exact inferInstance

/-- Every reachable record has between 1 and `NB_OWNERS` owners. -/
def owners_bounded (f : rl_open_file) : Prop :=
  ∀ r ∈ reachable f, owner_count_ok r

instance (f : rl_open_file) : Decidable (owners_bounded f) := by
  unfold owners_bounded
  exact inferInstance

/-- The test of the loop of `delete_lock_region`. -/
def unlock_match (h : owner) (lck : flock) (r : rl_lock) : Bool :=
  is_region_intersection lck.l_start lck.l_len r && is_owner h r

/-- The table `table_read_A` while two requests are blocked on it. -/
def table_read_A_blocked : rl_open_file := { table_read_A with blockCnt := 2 }

/-- The table after `hA` released `[0, 50)` on `table_read_A_blocked`. -/
def table_read_A_released : rl_open_file :=
  { first := 1
    lock_table :=
      [empty_slot, ⟨NEXT_NULL, 50, 50, F_RDLCK, [hA]⟩] ++ List.replicate 8 empty_slot
    blockCnt := 0
    refCnt := table_read_A.refCnt }

/-- The claims of owner `K` among the records `L`: start, length and type of every record
that has `K` among its owners, in list order. -/
def claims_of (K : owner) (L : List rl_lock) : List (Int × Int × Int) :=
  (L.filter (fun r => decide (K ∈ r.lock_owners))).map
    (fun r => (r.starting_offset, r.len, r.type))

/-- The number of records that the loop of `delete_lock_region` adds with `add_lock` when
it meets record `r`: none when `r` is not a record of `h` that intersects the region or
lies inside the region, two when the region lies strictly inside `r`, else one. -/
def pieces_needed (h : owner) (lck : flock) (r : rl_lock) : Nat :=
  if is_region_intersection lck.l_start lck.l_len r && is_owner h r then
    if lck.l_start ≤ r.starting_offset
        ∧ lck.l_start + lck.l_len ≥ r.starting_offset + r.len then 0
    else if lck.l_start > r.starting_offset
        ∧ lck.l_start + lck.l_len < r.starting_offset + r.len then 2
    else 1
  else 0

/-- The number of records that `delete_lock_region` adds over the records `L`. -/
def pieces_total (h : owner) (lck : flock) (L : List rl_lock) : Nat :=
  (L.map (pieces_needed h lck)).sum

/-- A table without a free slot: `hA` holds WRITE `[1000 i, 1000 i + 100)` for
`i = 0, ..., 9`; the record of slot `i + 1` is linked to that of slot `i`. -/
def table_ten_writes : rl_open_file :=
  ⟨9, ⟨NEXT_NULL, 0, 100, F_WRLCK, [hA]⟩
      :: (List.range 9).map (fun i => ⟨(i : Int), 1000 * ((i : Int) + 1), 100, F_WRLCK, [hA]⟩),
    0, 2⟩

/-- The result of a failed call (`RES_ERR`). -/
def RES_ERR : Int := -1

/-- Capacity of `rl_all_files.tab_open_files` (`NB_FILES`). -/
def NB_FILES : Nat := 256

/-- The loop of `rl_close` over the list of records: the link of the slot is read before
`delete_owner` is called on it. -/
def rl_close_loop (h : owner) : Nat → rl_open_file → Int → Option rl_open_file
  | 0, _, _ => none
  | n + 1, f, lockIdx =>
    if lockIdx ≥ 0 then
      match f.lock_table[lockIdx.toNat]? with
      | none => none
      | some r =>
        match delete_owner h f lockIdx with
        | none => none
        | some f1 => rl_close_loop h n f1 r.next_lock
    else some f

/-- The function `rl_close` for a handle with a mapped table: the result and the table
after the call. `envOk` tells whether the shared names are made and the semaphore is
obtained; if not, `isError` is set and the table is not touched. The removal of the table
from `rl_all_files` and the unmapping after the last reference are not part of the table. -/
def rl_close (envOk : Bool) (h : owner) (f : rl_open_file) : Option (Int × rl_open_file) :=
  if h.des = FILE_UNK then some (RES_ERR, f)
  else if !envOk then some (-1, f)
  else
    match rl_close_loop h SCAN_FUEL f f.first with
    | none => none
    | some f1 => some (f1.refCnt - 1, { f1 with refCnt := f1.refCnt - 1 })

/-- The content of a slot of the list after `delete_owner` for `h`: reset when no owner is
left, else the same record without the owner `h`. -/
def closed_slot (h : owner) (r : rl_lock) : rl_lock :=
  if (drop_owner h r.lock_owners).length = 0 then core empty_slot
  else { r with lock_owners := drop_owner h r.lock_owners }

/-- The function `rl_dup` for a handle with a mapped table: the descriptor of the handle
returned (-1 on failure) and the table after the call. `nb_files` is
`rl_all_files.nb_files` and `newd` the result of `dup(lfd.d)`. -/
def rl_dup (nb_files : Nat) (newd : Int) (h : owner) (f : rl_open_file) :
    Option (Int × rl_open_file) :=
  if h.des = FILE_UNK then some (-1, f)
  else if NB_FILES ≤ nb_files then some (-1, f)
  else
    match can_add_new_owner h f with
    | none => none
    | some add =>
      if add = -1 then some (-1, f)
      else if newd = -1 then some (-1, f)
      else if add = 1 then
        match add_new_owner h ⟨h.proc, newd⟩ f with
        | none => none
        | some (_, f1) => some (newd, { f1 with refCnt := f1.refCnt + 1 })
      else some (newd, { f with refCnt := f.refCnt + 1 })

/-- The function `rl_dup2` for a handle with a mapped table: the descriptor of the handle
returned (-1 on failure) and the table after the call. `nb_files` is
`rl_all_files.nb_files` and `dup2Res` the result of `dup2(lfd.d, newd)`. -/
def rl_dup2 (nb_files : Nat) (dup2Res : Int) (newd : Int) (h : owner) (f : rl_open_file) :
    Option (Int × rl_open_file) :=
  if h.des = FILE_UNK then some (-1, f)
  else if NB_FILES ≤ nb_files then some (-1, f)
  else
    match can_add_new_owner h f with
    | none => none
    | some add =>
      if add = -1 then some (-1, f)
      else if dup2Res = -1 then some (-1, f)
      else if add = 1 then
        match add_new_owner h ⟨h.proc, newd⟩ f with
        | none => none
        | some (_, f1) => some (newd, { f1 with refCnt := f1.refCnt + 1 })
      else some (newd, { f with refCnt := f.refCnt + 1 })

/-- The record `r` after the loop of `add_new_owner` passed over it: a READ record that
has `own` and not yet `new_owner` among its owners gets `new_owner` appended. -/
def dup_rec (own new_owner : owner) (r : rl_lock) : rl_lock :=
  if r.type = F_RDLCK then
    if has_owner r own && !has_owner r new_owner then
      { r with lock_owners := r.lock_owners ++ [new_owner] }
    else r
  else r

/-- The result of the loop of `can_add_new_owner` on the records `S`, entered with `res`. -/
def can_add_list (own : owner) : List rl_lock → Int → Int
  | [], res => res
  | r :: S, res =>
    if has_owner r own then
      if r.lock_owners.length ≥ NB_OWNERS then -1 else can_add_list own S 1
    else can_add_list own S res

/-- Record `r2` is record `r` after the child-side step of `rl_fork` for the processes
`parent` and `fils`: same region and type; the owners of `r`, in order, followed by
entries of `fils` only; and when `r` is a READ record with room for one more entry per
entry of `parent`, it has `(fils, d)` for every owner `(parent, d)` of `r`. -/
def inherited (parent fils : Int) (r r2 : rl_lock) : Prop :=
  r2.starting_offset = r.starting_offset ∧ r2.len = r.len ∧ r2.type = r.type
  ∧ (∃ added, r2.lock_owners = r.lock_owners ++ added ∧ ∀ a ∈ added, a.proc = fils)
  ∧ (r.type ≠ F_RDLCK → r2.lock_owners = r.lock_owners)
  ∧ (r.type = F_RDLCK →
      r.lock_owners.length + r.lock_owners.countP (fun o => decide (o.proc = parent))
        ≤ NB_OWNERS →
      ∀ d, (⟨parent, d⟩ : owner) ∈ r.lock_owners → (⟨fils, d⟩ : owner) ∈ r2.lock_owners)

/-- Nineteen handles share READ `[0, 100)`: `hA` and `hB`, both of process 100, and one
handle of each of the processes 300 to 316. -/
def table_nineteen_owners : rl_open_file :=
  table_of 0 [⟨NEXT_NULL, 0, 100, F_RDLCK,
    [hA, hB] ++ (List.range 17).map (fun i => ⟨300 + (i : Int), 3⟩)⟩]

/-- The loop of `can_add_new_owner_by_pid`. -/
def can_add_new_owner_by_pid_loop (parent : Int) : Nat → rl_open_file → Int → Option Int
  | 0, _, _ => none
  | n + 1, f, ind =>
    if ind ≥ 0 then
      match f.lock_table[ind.toNat]? with
      | none => none
      | some r =>
        if r.lock_owners.any
            (fun o => decide (o.proc = parent) && decide (r.nb_owners ≥ NB_OWNERS)) then
          some (-1)
        else can_add_new_owner_by_pid_loop parent n f r.next_lock
    else some 0

/-- The function `can_add_new_owner_by_pid`. -/
def can_add_new_owner_by_pid (parent : Int) (f : rl_open_file) : Option Int :=
  can_add_new_owner_by_pid_loop parent SCAN_FUEL f f.first

/-- The first loop of `rl_fork` over the open files, called with the value of `getppid()`
in the calling process: `false` when the call returns -1 there. -/
def rl_fork_check (ppid : Int) : List rl_open_file → Option Bool
  | [] => some true
  | f :: fs =>
    match can_add_new_owner_by_pid ppid f with
    | none => none
    | some c => if c = -1 then some false else rl_fork_check ppid fs

/-- The loop of the child branch of `rl_fork` over the open files; in the child
`getppid()` is `parent` and `getpid()` is `fils`. -/
def rl_fork_child (parent fils : Int) : List rl_open_file → Option (List rl_open_file)
  | [] => some []
  | f :: fs =>
    match add_new_owner_by_pid parent fils f with
    | none => none
    | some (_, g) =>
      match rl_fork_child parent fils fs with
      | none => none
      | some gs => some ({ g with refCnt := g.refCnt + 1 } :: gs)

/-- The function `rl_fork` as seen by the calling process: its result there and the open
files after the child ran its branch. `self` and `ppid` are `getpid()` and `getppid()` in
the calling process, `child` is what `fork()` returns to it (-1 when it fails). Each entry
of `files` stands for a different table. -/
def rl_fork (self ppid child : Int) (files : List rl_open_file) :
    Option (Int × List rl_open_file) :=
  match rl_fork_check ppid files with
  | none => none
  | some false => some (-1, files)
  | some true =>
    if child = -1 then some (-1, files)
    else
      match rl_fork_child self child files with
      | none => none
      | some gs => some (child, gs)

/-- Twenty handles share READ `[0, 100)`: `hA` of process 100 and one handle of each of
the processes 300 to 318. -/
def table_full_caller : rl_open_file :=
  table_of 0 [⟨NEXT_NULL, 0, 100, F_RDLCK,
    hA :: (List.range 19).map (fun i => ⟨300 + (i : Int), 3⟩)⟩]

/-- The table after `hA` took READ `[0, 100)` and then READ `[50, 150)`, the two requests
of `test_regions`. -/
def table_read_150 : rl_open_file := table_of 0 [⟨NEXT_NULL, 0, 150, F_RDLCK, [hA]⟩]

/-- Slot accounting: a slot of the table has length 0 exactly when it is not reachable
from `first`. -/
def slot_accounting (f : rl_open_file) : Prop :=
  ∀ i < f.lock_table.length,
    ((f.lock_table[i]?).map rl_lock.len = some 0 ↔ i ∉ reachable_idx f)

instance (f : rl_open_file) : Decidable (slot_accounting f) := by
  unfold slot_accounting
  exact inferInstance

/-- The table after `hC` took WRITE `[20, 30)` on the table set up by `rl_open`. -/
def table_write_C : rl_open_file :=
  { new_open_file with
    first := 0
    lock_table := ⟨NEXT_NULL, 20, 10, F_WRLCK, [hC]⟩ :: List.replicate 9 empty_slot }

/-- The table after process 200 died and `hA` took READ `[0, 10)`: slot 0 still holds the
region of the dead process and is not linked. -/
def table_leaked_slot : rl_open_file :=
  { new_open_file with
    first := 1
    lock_table :=
      ⟨NEXT_NULL, 20, 10, F_WRLCK, []⟩ :: ⟨NEXT_NULL, 0, 10, F_RDLCK, [hA]⟩
        :: List.replicate 8 empty_slot }

/-- The list READ `[0, 10)` of `hA`, WRITE `[20, 30)` of `hC`, READ `[40, 50)` of `hB`, as
left by the three requests in the reverse order. -/
def table_dead_middle : rl_open_file :=
  table_of 2 [⟨NEXT_NULL, 40, 10, F_RDLCK, [hB]⟩, ⟨0, 20, 10, F_WRLCK, [hC]⟩,
    ⟨1, 0, 10, F_RDLCK, [hA]⟩]

/-- The table `table_dead_middle` after the sweep, process 200 being dead. -/
def table_dead_middle_swept : rl_open_file :=
  table_of 2 [⟨NEXT_NULL, 40, 10, F_RDLCK, [hB]⟩, ⟨NEXT_NULL, 20, 10, F_WRLCK, []⟩,
    ⟨1, 0, 10, F_RDLCK, [hA]⟩]

/-- The end of `rl_fcntl` for a READ or WRITE request, behind the compatibility test: the
call of the region mutator. -/
def rl_fcntl_acquire (h : owner) (f0 : rl_open_file) (lc : flock) : outcome :=
  if lc.l_type = F_RDLCK then
    match add_read_lock_region h f0 lc with
    | none => outcome.undef
    | some (ret, f1) => outcome.ret ret f1
  else if lc.l_type = F_WRLCK then
    match add_write_lock_region h f0 lc with
    | none => outcome.undef
    | some (ret, f1) => outcome.ret ret f1
  else outcome.ret 0 f0

/-- The loop `while (1)` of `rl_fcntl` for `F_SETLKW`, entered with the table `f` (after
the sweep). Each element of `wakes` stands for one return of `pthread_cond_wait`: it maps
the table that the caller left when it went to sleep to the table that it finds when it
wakes. When `wakes` is used up and the request is still incompatible the caller sleeps. -/
def rl_fcntl_wait (h : owner) (lc : flock) :
    List (rl_open_file → rl_open_file) → rl_open_file → outcome
  | [], f =>
    match is_rl_compatible h f lc with
    | none => outcome.undef
    | some false => outcome.wait { f with blockCnt := f.blockCnt + 1 }
    | some true => rl_fcntl_acquire h f lc
  | w :: ws, f =>
    match is_rl_compatible h f lc with
    | none => outcome.undef
    | some false => rl_fcntl_wait h lc ws (w { f with blockCnt := f.blockCnt + 1 })
    | some true => rl_fcntl_acquire h f lc

/-- The table in which `hA` holds WRITE `[0, 800)`. -/
def table_write_800 : rl_open_file := table_of 0 [⟨NEXT_NULL, 0, 800, F_WRLCK, [hA]⟩]

/-- The handle of the child process 101 on descriptor 3. -/
def hD : owner := ⟨101, 3⟩

/-- What `hA` does while the child sleeps: it releases `[200, 400)`. -/
def release_200_400 (t : rl_open_file) : rl_open_file :=
  match rl_fcntl all_alive 0 0 hA t F_SETLK (request F_UNLCK 200 200) with
  | outcome.ret _ g => g
  | _ => t

/-- The table after `hA` took READ `[-120, -100)` on the empty table. -/
def table_neg_read : rl_open_file := table_of 0 [⟨NEXT_NULL, -120, 20, F_RDLCK, [hA]⟩]

/-- The table `table_neg_read` after `hA` asked READ `[-100, -90)`. -/
def table_neg_merged : rl_open_file := table_of 0 [⟨NEXT_NULL, -120, -90, F_RDLCK, [hA]⟩]

/-- A table without a free slot: `hA` and `hC` share READ `[0, 10)` in slot 0, and `hC`
holds WRITE `[1000 i, 1000 i + 100)` for `i = 1, ..., 9`; the record of slot `i + 1` is
linked to that of slot `i`. -/
def table_full_shared : rl_open_file :=
  ⟨9, ⟨NEXT_NULL, 0, 10, F_RDLCK, [hA, hC]⟩
      :: (List.range 9).map (fun i => ⟨(i : Int), 1000 * ((i : Int) + 1), 100, F_WRLCK, [hC]⟩),
    0, 2⟩

/-- The table `table_full_shared` after the failed request of `hA`: `hA` is no longer an
owner of the record of slot 0. -/
def table_full_dropped : rl_open_file :=
  ⟨9, ⟨NEXT_NULL, 0, 10, F_RDLCK, [hC]⟩
      :: (List.range 9).map (fun i => ⟨(i : Int), 1000 * ((i : Int) + 1), 100, F_WRLCK, [hC]⟩),
    0, 2⟩

/-- The table in which `hA` holds WRITE `[0, 10)`. -/
def table_write_10 : rl_open_file := table_of 0 [⟨NEXT_NULL, 0, 10, F_WRLCK, [hA]⟩]

/-- The table in which `hA` holds READ `[-100, 5)`. -/
def table_neg_wide : rl_open_file := table_of 0 [⟨NEXT_NULL, -100, 105, F_RDLCK, [hA]⟩]

/-- The table after `hA` asked WRITE `[0, 10)` on `table_neg_wide`. -/
def table_neg_promoted : rl_open_file := table_of 0 [⟨NEXT_NULL, -100, 10, F_WRLCK, [hA]⟩]

/-! ## Walks along `next_lock` -/

theorem chain_nil_iff {tbl : List rl_lock} {idx : Int} : Chain tbl idx [] ↔ idx < 0 := by
  constructor
  · intro h
    cases h with
    | nil _ h => exact h
  · exact Chain.nil idx

theorem chain_cons_inv {tbl : List rl_lock} {idx : Int} {i : Nat} {l : List Nat}
    (h : Chain tbl idx (i :: l)) :
    idx = (i : Int) ∧ ∃ r, tbl[i]? = some r ∧ Chain tbl r.next_lock l := by
  cases h with
  | cons _ r _ h1 h2 => exact ⟨rfl, r, h1, h2⟩

theorem chain_functional {tbl : List rl_lock} {idx : Int} {l1 l2 : List Nat}
    (h1 : Chain tbl idx l1) (h2 : Chain tbl idx l2) : l1 = l2 := by
  induction h1 generalizing l2 with
  | nil idx h =>
    cases h2 with
    | nil _ _ => rfl
    | cons i r l _ _ => omega
  | cons i r l hr _ ih =>
    cases h2 with
    | nil _ h => omega
    | cons _ r2 l2 hr2 hc2 =>
      rw [hr] at hr2
      cases hr2
      rw [ih hc2]

theorem chain_neg {tbl : List rl_lock} {idx : Int} {l : List Nat}
    (h : Chain tbl idx l) (hneg : idx < 0) : l = [] :=
  chain_functional h (Chain.nil idx hneg)

/-- The walk from the first slot of a suffix. -/
theorem chain_suffix {tbl : List rl_lock} {idx : Int} {p s : List Nat}
    (h : Chain tbl idx (p ++ s)) : ∃ j, Chain tbl j s := by
  induction p generalizing idx with
  | nil => exact ⟨idx, h⟩
  | cons a p ih =>
    obtain ⟨_, r, _, hc⟩ := chain_cons_inv h
    exact ih hc

theorem chain_head_not_mem {tbl : List rl_lock} {idx : Int} {i : Nat} {l : List Nat}
    (h : Chain tbl idx (i :: l)) : i ∉ l := by
  intro hmem
  obtain ⟨p, s, hps⟩ := List.append_of_mem hmem
  obtain ⟨hidx, r, hr, hc⟩ := chain_cons_inv h
  rw [hps] at hc
  obtain ⟨j, hj⟩ := chain_suffix hc
  obtain ⟨hji, _⟩ := chain_cons_inv hj
  subst hji
  subst hidx
  have := chain_functional h hj
  have hlen := congrArg List.length this
  rw [hps] at hlen
  simp at hlen
  omega

theorem chain_nodup {tbl : List rl_lock} {idx : Int} {l : List Nat}
    (h : Chain tbl idx l) : l.Nodup := by
  induction h with
  | nil _ _ => exact List.nodup_nil
  | cons i r l hr hc ih =>
    exact List.nodup_cons.mpr ⟨chain_head_not_mem (Chain.cons i r l hr hc), ih⟩

theorem chain_lt_length {tbl : List rl_lock} {idx : Int} {l : List Nat}
    (h : Chain tbl idx l) : ∀ i ∈ l, i < tbl.length := by
  induction h with
  | nil _ _ => simp
  | cons i r l hr _ ih =>
    intro j hj
    rcases List.mem_cons.mp hj with rfl | hj
    · by_contra hlt
      rw [List.getElem?_eq_none (by omega)] at hr
      cases hr
    · exact ih j hj

theorem chain_length_le {tbl : List rl_lock} {idx : Int} {l : List Nat}
    (h : Chain tbl idx l) : l.length ≤ tbl.length := by
  have hsub : l.toFinset ⊆ Finset.range tbl.length := by
    intro i hi
    exact Finset.mem_range.mpr (chain_lt_length h i (List.mem_toFinset.mp hi))
  have := Finset.card_le_card hsub
  rwa [List.toFinset_card_of_nodup (chain_nodup h), Finset.card_range] at this

/-- A walk only depends on the `next_lock` fields of the slots it visits. -/
theorem chain_congr {tbl tbl2 : List rl_lock} {idx : Int} {l : List Nat}
    (h : Chain tbl idx l)
    (hsame : ∀ i ∈ l, ∀ r, tbl[i]? = some r →
      ∃ r2, tbl2[i]? = some r2 ∧ r2.next_lock = r.next_lock) :
    Chain tbl2 idx l := by
  induction h with
  | nil idx h => exact Chain.nil idx h
  | cons i r l hr _ ih =>
    obtain ⟨r2, hr2, hn⟩ := hsame i (List.mem_cons_self i l) r hr
    have := ih (fun j hj => hsame j (List.mem_cons_of_mem i hj))
    rw [← hn] at this
    exact Chain.cons i r2 l hr2 this

theorem chain_eq_some {tbl : List rl_lock} {n : Nat} {idx : Int} {l : List Nat} :
    chain tbl n idx = some l ↔ Chain tbl idx l ∧ l.length ≤ n := by
  induction n generalizing idx l with
  | zero =>
    simp only [chain]
    constructor
    · intro h
      split at h
      · cases h
        exact ⟨Chain.nil idx (by assumption), le_refl _⟩
      · cases h
    · rintro ⟨hc, hl⟩
      have : l = [] := List.eq_nil_of_length_eq_zero (by omega)
      subst this
      rw [if_pos (chain_nil_iff.mp hc)]
  | succ n ih =>
    simp only [chain]
    constructor
    · intro h
      split at h
      · cases h
        exact ⟨Chain.nil idx (by assumption), Nat.zero_le _⟩
      · rename_i hidx
        split at h
        · cases h
        · rename_i r hr
          cases hrec : chain tbl n r.next_lock with
          | none => rw [hrec] at h; cases h
          | some l2 =>
            rw [hrec] at h
            cases h
            obtain ⟨hc, hl⟩ := ih.mp hrec
            have hcast : ((idx.toNat : Nat) : Int) = idx := Int.toNat_of_nonneg (by omega)
            have := Chain.cons idx.toNat r l2 hr hc
            rw [hcast] at this
            exact ⟨this, by simp; omega⟩
    · rintro ⟨hc, hl⟩
      cases hc with
      | nil _ h => rw [if_pos h]
      | cons i r l2 hr hc2 =>
        rw [if_neg (by omega)]
        simp only [Int.toNat_ofNat, hr]
        have : chain tbl n r.next_lock = some l2 := ih.mpr ⟨hc2, by simp at hl; omega⟩
        rw [this]
        rfl

theorem slot_core_of_some {tbl : List rl_lock} {i : Nat} {r : rl_lock}
    (h : tbl[i]? = some r) : slot_core tbl i = core r := by
  simp [slot_core, h]

theorem view_congr {tbl tbl2 : List rl_lock} {l : List Nat}
    (h : ∀ i ∈ l, slot_core tbl2 i = slot_core tbl i) : view tbl2 l = view tbl l := by
  unfold view
  exact List.map_congr_left h

theorem view_append (tbl : List rl_lock) (p s : List Nat) :
    view tbl (p ++ s) = view tbl p ++ view tbl s := by
  simp [view]

theorem getElem?_set_ne_idx {tbl : List rl_lock} {i j : Nat} {x : rl_lock} (h : j ≠ i) :
    (tbl.set i x)[j]? = tbl[j]? := by
  rw [List.getElem?_set]
  simp [Ne.symm h]

theorem getElem?_set_self_idx {tbl : List rl_lock} {i : Nat} {x r : rl_lock}
    (h : tbl[i]? = some r) : (tbl.set i x)[i]? = some x := by
  have hlt : i < tbl.length := by
    by_contra hge
    rw [List.getElem?_eq_none (by omega)] at h
    cases h
  rw [List.getElem?_set]
  simp [hlt]

theorem slot_core_set_ne {tbl : List rl_lock} {i j : Nat} {x : rl_lock} (h : j ≠ i) :
    slot_core (tbl.set i x) j = slot_core tbl j := by
  simp [slot_core, getElem?_set_ne_idx h]

theorem free_count_set {tbl : List rl_lock} {i : Nat} {r x : rl_lock}
    (h : tbl[i]? = some r) :
    free_count (tbl.set i x) + (if r.len = 0 then 1 else 0)
      = free_count tbl + (if x.len = 0 then 1 else 0) := by
  induction tbl generalizing i with
  | nil => simp at h
  | cons y tbl ih =>
    cases i with
    | zero =>
      simp only [List.getElem?_cons_zero, Option.some.injEq] at h
      subst h
      simp only [List.set_cons_zero, free_count, List.countP_cons, decide_eq_true_eq]
      omega
    | succ i =>
      simp only [List.getElem?_cons_succ] at h
      have := ih h
      simp only [List.set_cons_succ, free_count, List.countP_cons, decide_eq_true_eq] at this ⊢
      omega

/-- Relinking: the walk reaches `a` as before, and continues from the new link of `a`. -/
theorem chain_splice {tbl tbl2 : List rl_lock} {a : Nat} {ra2 : rl_lock} {s : List Nat}
    (ha : tbl2[a]? = some ra2) (hs : Chain tbl2 ra2.next_lock s) :
    ∀ (q : List Nat) (idx : Int) (rest : List Nat), Chain tbl idx (q ++ a :: rest) →
      (∀ j ∈ q, tbl2[j]? = tbl[j]?) → Chain tbl2 idx (q ++ a :: s) := by
  intro q
  induction q with
  | nil =>
    intro idx rest h _
    obtain ⟨hidx, _, _, _⟩ := chain_cons_inv h
    subst hidx
    exact Chain.cons a ra2 s ha hs
  | cons b q ih =>
    intro idx rest h hq
    obtain ⟨hidx, rb, hrb, hc⟩ := chain_cons_inv h
    subst hidx
    have hb : tbl2[b]? = some rb := by rw [hq b (List.mem_cons_self b q)]; exact hrb
    exact Chain.cons b rb _ hb (ih _ rest hc (fun j hj => hq j (List.mem_cons_of_mem b hj)))

theorem last_or_concat (prev : Int) (q : List Nat) (a : Nat) :
    last_or prev (q ++ [a]) = (a : Int) := by
  induction q generalizing prev with
  | nil => rfl
  | cons b q ih => exact ih _

theorem delete_lock_loop_walk (f : rl_open_file) (i : Nat) (s : List Nat) :
    ∀ (p : List Nat) (fuel : Nat) (prev cur : Int),
      Chain f.lock_table cur (p ++ i :: s) → i ∉ p → p.length < fuel →
      delete_lock_loop (i : Int) fuel f prev cur
        = delete_lock_loop (i : Int) (fuel - p.length) f (last_or prev p) (i : Int) := by
  intro p
  induction p with
  | nil => intro fuel prev cur h _ _; obtain ⟨hidx, _⟩ := chain_cons_inv h; subst hidx; rfl
  | cons a p ih =>
    intro fuel prev cur h hi hfuel
    obtain ⟨hidx, ra, hra, hc⟩ := chain_cons_inv h
    subst hidx
    obtain ⟨n, rfl⟩ : ∃ n, fuel = n + 1 := ⟨fuel - 1, by simp at hfuel; omega⟩
    have hne : (i : Int) ≠ (a : Int) := by
      intro heq
      exact hi (by rw [Int.ofNat_inj.mp heq]; exact List.mem_cons_self _ _)
    rw [delete_lock_loop]
    simp only [Int.toNat_ofNat, hra, if_neg hne, ge_iff_le, Int.ofNat_zero_le, if_true]
    rw [ih n (a : Int) ra.next_lock hc (fun hm => hi (List.mem_cons_of_mem a hm))
      (by simp at hfuel; omega)]
    simp [last_or]

/-- What `delete_lock` does to a slot of the list. -/
theorem delete_lock_spec {f : rl_open_file} {p s : List Nat} {i : Nat} {r : rl_lock}
    (hlen : f.lock_table.length ≤ NB_LOCKS)
    (hc : Chain f.lock_table f.first (p ++ i :: s)) (hr : f.lock_table[i]? = some r) :
    ∃ g, delete_lock f (i : Int) = some g
      ∧ Chain g.lock_table g.first (p ++ s)
      ∧ Chain g.lock_table r.next_lock s
      ∧ g.lock_table[i]? = some empty_slot
      ∧ (∀ j, j ≠ i → slot_core g.lock_table j = slot_core f.lock_table j)
      ∧ g.lock_table.length = f.lock_table.length
      ∧ free_count g.lock_table + (if r.len = 0 then 1 else 0) = free_count f.lock_table + 1
      ∧ g.blockCnt = f.blockCnt ∧ g.refCnt = f.refCnt := by
  have hnd := chain_nodup hc
  have hip : i ∉ p := fun hm => (List.nodup_append.mp hnd).2.2 hm (List.mem_cons_self i s)
  have his : i ∉ s := (List.nodup_cons.mp (List.nodup_append.mp hnd).2.1).1
  have hps : ∀ j ∈ p, j ∉ s := fun j hj hjs =>
    (List.nodup_append.mp hnd).2.2 hj (List.mem_cons_of_mem i hjs)
  have hpl : p.length < SCAN_FUEL := by
    have := chain_length_le hc
    simp at this
    simp only [SCAN_FUEL]
    omega
  obtain ⟨j0, hj0⟩ := chain_suffix hc
  obtain ⟨_, r2, hr2, hcs⟩ := chain_cons_inv hj0
  rw [hr] at hr2
  cases hr2
  have hcs_set : ∀ (t : List rl_lock), (∀ j ∈ s, t[j]? = f.lock_table[j]?) →
      Chain t r.next_lock s := by
    intro t ht
    refine chain_congr hcs ?_
    intro j hj rj hrj
    exact ⟨rj, by rw [ht j hj]; exact hrj, rfl⟩
  unfold delete_lock
  rw [delete_lock_loop_walk f i s p SCAN_FUEL NEXT_NULL f.first hc hip hpl]
  obtain ⟨m, hm⟩ : ∃ m, SCAN_FUEL - p.length = m + 1 := ⟨SCAN_FUEL - p.length - 1, by omega⟩
  rw [hm, delete_lock_loop]
  simp only [Int.toNat_ofNat, hr, ge_iff_le, Int.ofNat_zero_le, if_true]
  rcases List.eq_nil_or_concat p with hp | ⟨q, a, hp⟩
  · subst hp
    simp only [last_or, ne_eq, not_true_eq_false, if_false]
    refine ⟨_, rfl, ?_, ?_, getElem?_set_self_idx hr, ?_, by simp, ?_, rfl, rfl⟩
    · exact hcs_set _ (fun j hj => getElem?_set_ne_idx (ne_of_mem_of_not_mem hj his))
    · exact hcs_set _ (fun j hj => getElem?_set_ne_idx (ne_of_mem_of_not_mem hj his))
    · intro j hj
      exact slot_core_set_ne hj
    · have h1 := free_count_set (x := empty_slot) hr
      rw [if_pos (show empty_slot.len = 0 from rfl)] at h1
      exact h1
  · rw [List.concat_eq_append] at hp
    subst hp
    rw [last_or_concat]
    have hane : ((a : Nat) : Int) ≠ NEXT_NULL := by simp only [NEXT_NULL]; omega
    have hai : a ≠ i := fun h => hip (by simp [h])
    have has : a ∉ s := hps a (by simp)
    have hcq : Chain f.lock_table f.first (q ++ a :: (i :: s)) := by simpa using hc
    obtain ⟨ja, hja⟩ := chain_suffix hcq
    obtain ⟨_, ra, hra, _⟩ := chain_cons_inv hja
    have hndq : (q ++ a :: (i :: s)).Nodup := by simpa using hnd
    have haq : a ∉ q := fun hm => (List.nodup_append.mp hndq).2.2 hm (List.mem_cons_self _ _)
    simp only [ne_eq, hane, not_false_eq_true, if_true, Int.toNat_ofNat, hra]
    have hset_s : ∀ j ∈ s,
        ((f.lock_table.set a { ra with next_lock := r.next_lock }).set i empty_slot)[j]?
          = f.lock_table[j]? := by
      intro j hj
      rw [getElem?_set_ne_idx (ne_of_mem_of_not_mem hj his),
        getElem?_set_ne_idx (ne_of_mem_of_not_mem hj has)]
    have hga : ((f.lock_table.set a { ra with next_lock := r.next_lock }).set i empty_slot)[a]?
        = some { ra with next_lock := r.next_lock } := by
      rw [getElem?_set_ne_idx hai]
      exact getElem?_set_self_idx hra
    refine ⟨_, rfl, ?_, hcs_set _ hset_s, ?_, ?_, by simp, ?_, rfl, rfl⟩
    · have := chain_splice hga (hcs_set _ hset_s) q f.first (i :: s) hcq (by
        intro j hj
        rw [getElem?_set_ne_idx (ne_of_mem_of_not_mem (List.mem_append_left [a] hj) hip),
          getElem?_set_ne_idx (ne_of_mem_of_not_mem hj haq)])
      simpa using this
    · have hi2 : (f.lock_table.set a { ra with next_lock := r.next_lock })[i]? = some r := by
        rw [getElem?_set_ne_idx (Ne.symm hai)]; exact hr
      exact getElem?_set_self_idx hi2
    · intro j hj
      rw [slot_core_set_ne hj]
      by_cases hja2 : j = a
      · subst hja2
        simp [slot_core, getElem?_set_self_idx hra, hra, core]
      · exact slot_core_set_ne hja2
    · have hi2 : (f.lock_table.set a { ra with next_lock := r.next_lock })[i]? = some r := by
        rw [getElem?_set_ne_idx (Ne.symm hai)]; exact hr
      have h1 := free_count_set (x := empty_slot) hi2
      have h2 := free_count_set (x := { ra with next_lock := r.next_lock }) hra
      rw [if_pos (show empty_slot.len = 0 from rfl)] at h1
      simp only at h2
      show free_count ((f.lock_table.set a { ra with next_lock := r.next_lock }).set i
        empty_slot) + _ = _
      omega

theorem at_idx_neg {f : rl_open_file} {idx : Int} {P : List rl_lock}
    (h : At f idx P []) : idx < 0 := by
  obtain ⟨_, _, p, s, _, hs, _, hv⟩ := h
  have : s = [] := by simpa [view] using hv
  subst this
  exact chain_nil_iff.mp hs

theorem at_restart {f : rl_open_file} {idx : Int} {P S : List rl_lock}
    (h : At f idx P S) : At f f.first [] (P ++ S) := by
  obtain ⟨hl, hnz, p, s, hc, _, hp, hs⟩ := h
  exact ⟨hl, by simpa using hnz, [], p ++ s, by simpa using hc, hc, rfl,
    by rw [view_append, hp, hs]⟩

theorem at_cons_inv {f : rl_open_file} {idx : Int} {P S : List rl_lock} {r : rl_lock}
    (h : At f idx P (r :: S)) :
    ∃ (i : Nat) (r0 : rl_lock), idx = (i : Int) ∧ f.lock_table[i]? = some r0 ∧ core r0 = r
      ∧ At f r0.next_lock (P ++ [r]) S := by
  obtain ⟨hl, hnz, p, s, hc, hs, hp, hv⟩ := h
  cases s with
  | nil => simp [view] at hv
  | cons i s =>
    simp only [view, List.map_cons, List.cons.injEq] at hv
    obtain ⟨hidx, r0, hr0, hcs⟩ := chain_cons_inv hs
    have hcore : core r0 = r := by rw [← slot_core_of_some hr0]; exact hv.1
    refine ⟨i, r0, hidx, hr0, hcore, hl, by simpa using hnz, p ++ [i], s, by simpa using hc, hcs,
      ?_, hv.2⟩
    rw [view_append, hp]
    simp [view, hv.1]

theorem at_type_at_eq {f : rl_open_file} {idx : Int} {P S : List rl_lock} {r : rl_lock}
    (h : At f idx P (r :: S)) : type_at f idx = r.type := by
  obtain ⟨i, r0, hidx, hr0, hcore, _⟩ := at_cons_inv h
  subst hidx
  simp only [type_at, Int.toNat_ofNat, hr0]
  rw [← hcore]
  rfl

theorem at_delete_owner_step {f : rl_open_file} {i : Nat} {P S : List rl_lock} {r r0 : rl_lock}
    (h : owner) (hat : At f (i : Int) P (r :: S)) (hr0 : f.lock_table[i]? = some r0) :
    ∃ g, delete_owner h f (i : Int) = some g
      ∧ At g r0.next_lock (P ++ drop_rec h r) S
      ∧ free_count g.lock_table = free_count f.lock_table + dropped h r
      ∧ g.blockCnt = f.blockCnt ∧ g.refCnt = f.refCnt := by
  obtain ⟨hl, hnz, p, s, hc, hs, hp, hv⟩ := hat
  cases s with
  | nil => simp [view] at hv
  | cons i2 s =>
    obtain ⟨hidx, r1, hr1, hcs⟩ := chain_cons_inv hs
    have hi : i2 = i := (Int.ofNat_inj.mp hidx).symm
    subst hi
    rw [hr0] at hr1
    cases hr1
    simp only [view, List.map_cons, List.cons.injEq] at hv
    have hcore : core r0 = r := by rw [← slot_core_of_some hr0]; exact hv.1
    have hnd := chain_nodup hc
    have hip : i2 ∉ p := fun hm => (List.nodup_append.mp hnd).2.2 hm (List.mem_cons_self i2 s)
    have his : i2 ∉ s := (List.nodup_cons.mp (List.nodup_append.mp hnd).2.1).1
    have hr0len : r0.len ≠ 0 := by
      have := hnz r (by simp)
      rw [← hcore] at this
      exact this
    -- the table after the owner loop
    have hset : (f.lock_table.set i2 { r0 with lock_owners := drop_owner h r0.lock_owners })[i2]?
        = some { r0 with lock_owners := drop_owner h r0.lock_owners } :=
      getElem?_set_self_idx hr0
    have hc1 : Chain (f.lock_table.set i2 { r0 with lock_owners := drop_owner h r0.lock_owners })
        f.first (p ++ i2 :: s) := by
      refine chain_congr hc ?_
      intro j _ rj hrj
      by_cases hj : j = i2
      · subst hj
        rw [hr0] at hrj
        cases hrj
        exact ⟨_, hset, rfl⟩
      · exact ⟨rj, by rw [getElem?_set_ne_idx hj]; exact hrj, rfl⟩
    have hfc1 : free_count (f.lock_table.set i2
        { r0 with lock_owners := drop_owner h r0.lock_owners }) = free_count f.lock_table := by
      have := free_count_set (x := { r0 with lock_owners := drop_owner h r0.lock_owners }) hr0
      simp only at this
      omega
    have hdrop : drop_owner h r.lock_owners = drop_owner h r0.lock_owners := by
      rw [← hcore]; rfl
    unfold RlLock.delete_owner
    rw [if_neg (by omega)]
    simp only [Int.toNat_ofNat, hr0]
    by_cases hd : (drop_owner h r0.lock_owners).length = 0
    · rw [if_pos hd]
      obtain ⟨g, hg, hcg, hcgs, _, hsame, hlen, hfc, hb, hrc⟩ :=
        @delete_lock_spec
          ⟨f.first, f.lock_table.set i2 { r0 with lock_owners := drop_owner h r0.lock_owners },
            f.blockCnt, f.refCnt⟩ p s i2 _ (by simp [hl]) hc1 hset
      refine ⟨g, hg, ⟨by rw [hlen]; simpa using hl, ?_, p, s, ?_, hcgs, ?_, ?_⟩, ?_, hb, hrc⟩
      · intro x hx
        apply hnz
        simp only [drop_rec, hdrop, hd, if_true, List.append_nil, List.mem_append] at hx
        simp only [List.mem_append, List.mem_cons]
        tauto
      · simpa [drop_rec, hdrop, hd] using hcg
      · simp only [drop_rec, hdrop, hd, if_true, List.append_nil]
        rw [← hp]
        refine view_congr (fun j hj => ?_)
        have hji : j ≠ i2 := ne_of_mem_of_not_mem hj hip
        rw [hsame j hji]
        exact slot_core_set_ne hji
      · rw [← hv.2]
        refine view_congr (fun j hj => ?_)
        have hji : j ≠ i2 := ne_of_mem_of_not_mem hj his
        rw [hsame j hji]
        exact slot_core_set_ne hji
      · simp only at hfc
        rw [if_neg hr0len] at hfc
        simp only [dropped, hdrop, hd, if_true]
        rw [hfc1] at hfc
        omega
    · rw [if_neg hd]
      refine ⟨_, rfl, ⟨by simpa using hl, ?_, p ++ [i2], s, by simpa using hc1, ?_, ?_, ?_⟩,
        ?_, rfl, rfl⟩
      · intro x hx
        simp only [drop_rec, hdrop, hd, if_false, List.mem_append, List.mem_singleton] at hx
        rcases hx with (hx | hx) | hx
        · exact hnz x (by simp [hx])
        · subst hx
          exact hnz r (by simp)
        · exact hnz x (by simp [hx])
      · refine chain_congr hcs ?_
        intro j hj rj hrj
        exact ⟨rj, by rw [getElem?_set_ne_idx (ne_of_mem_of_not_mem hj his)]; exact hrj, rfl⟩
      · rw [view_append]
        simp only [drop_rec, hdrop, hd, if_false]
        congr 1
        · rw [← hp]
          exact view_congr (fun j hj => slot_core_set_ne (ne_of_mem_of_not_mem hj hip))
        · simp only [view, List.map_cons, List.map_nil, List.cons.injEq, and_true]
          rw [slot_core_of_some hset, ← hcore]
          rfl
      · rw [← hv.2]
        exact view_congr (fun j hj => slot_core_set_ne (ne_of_mem_of_not_mem hj his))
      · simp only [dropped, hdrop, hd, if_false]
        exact hfc1

theorem find_free_none {tbl : List rl_lock} : find_free tbl = none ↔ free_count tbl = 0 := by
  induction tbl with
  | nil => simp [find_free, free_count]
  | cons r rs ih =>
    simp only [find_free, free_count, List.countP_cons, decide_eq_true_eq] at ih ⊢
    by_cases hr : r.len = 0
    · simp [hr]
    · simp [hr, ih]

theorem find_free_some {tbl : List rl_lock} {k : Nat} (h : find_free tbl = some k) :
    ∃ r, tbl[k]? = some r ∧ r.len = 0 := by
  induction tbl generalizing k with
  | nil => simp [find_free] at h
  | cons r rs ih =>
    simp only [find_free] at h
    by_cases hr : r.len = 0
    · rw [if_pos hr] at h
      cases h
      exact ⟨r, by simp, hr⟩
    · rw [if_neg hr] at h
      cases hf : find_free rs with
      | none => rw [hf] at h; cases h
      | some k2 =>
        rw [hf] at h
        cases h
        simpa using ih hf

theorem at_add_lock_step {f : rl_open_file} {idx : Int} {P S : List rl_lock}
    (h : owner) (lck : flock) (t : Int) (hat : At f idx P S) (hlen : lck.l_len ≠ 0) :
    (free_count f.lock_table = 0 ∧ add_lock h f lck t = (-1, f))
    ∨ (∃ g, add_lock h f lck t = (0, g)
        ∧ At g idx (new_rec h lck.l_start lck.l_len t :: P) S
        ∧ free_count g.lock_table + 1 = free_count f.lock_table
        ∧ g.blockCnt = f.blockCnt ∧ g.refCnt = f.refCnt) := by
  obtain ⟨hl, hnz, p, s, hc, hs, hp, hv⟩ := hat
  have htake : f.lock_table.take NB_LOCKS = f.lock_table := List.take_of_length_le (by omega)
  unfold add_lock
  rw [htake]
  cases hf : find_free f.lock_table with
  | none => exact Or.inl ⟨find_free_none.mp hf, rfl⟩
  | some k =>
    right
    obtain ⟨rk, hrk, hrk0⟩ := find_free_some hf
    have hk : k ∉ p ++ s := by
      intro hm
      have hmem : slot_core f.lock_table k ∈ P ++ S := by
        rw [← hp, ← hv, ← view_append]
        exact List.mem_map_of_mem _ hm
      have := hnz _ hmem
      rw [slot_core_of_some hrk] at this
      exact this hrk0
    have hkp : k ∉ p := fun hm => hk (List.mem_append_left s hm)
    have hks : k ∉ s := fun hm => hk (List.mem_append_right p hm)
    have hself : (f.lock_table.set k ⟨f.first, lck.l_start, lck.l_len, t, [⟨h.proc, h.des⟩]⟩)[k]?
        = some ⟨f.first, lck.l_start, lck.l_len, t, [⟨h.proc, h.des⟩]⟩ :=
      getElem?_set_self_idx hrk
    have hcong : ∀ (idx2 : Int) (l : List Nat), (∀ j ∈ l, j ≠ k) → Chain f.lock_table idx2 l →
        Chain (f.lock_table.set k ⟨f.first, lck.l_start, lck.l_len, t, [⟨h.proc, h.des⟩]⟩)
          idx2 l := by
      intro idx2 l hne hch
      refine chain_congr hch ?_
      intro j hj rj hrj
      exact ⟨rj, by rw [getElem?_set_ne_idx (hne j hj)]; exact hrj, rfl⟩
    refine ⟨_, rfl, ⟨by simpa using hl, ?_, k :: p, s, ?_, ?_, ?_, ?_⟩, ?_, rfl, rfl⟩
    · intro x hx
      simp only [List.cons_append, List.mem_cons] at hx
      rcases hx with hx | hx
      · subst hx
        exact hlen
      · exact hnz x hx
    · exact Chain.cons k _ _ hself
        (hcong f.first (p ++ s) (fun j hj => ne_of_mem_of_not_mem hj hk) hc)
    · exact hcong idx s (fun j hj => ne_of_mem_of_not_mem hj hks) hs
    · simp only [view, List.map_cons, List.cons.injEq]
      refine ⟨by rw [slot_core_of_some hself]; rfl, ?_⟩
      rw [← hp]
      exact view_congr (fun j hj => slot_core_set_ne (ne_of_mem_of_not_mem hj hkp))
    · rw [← hv]
      exact view_congr (fun j hj => slot_core_set_ne (ne_of_mem_of_not_mem hj hks))
    · have := free_count_set (x := ⟨f.first, lck.l_start, lck.l_len, t, [⟨h.proc, h.des⟩]⟩) hrk
      simp only [hrk0, if_true, hlen, if_false] at this
      simp only
      omega

theorem filterMap_view {tbl : List rl_lock} {l : List Nat} (h : ∀ i ∈ l, i < tbl.length) :
    (l.filterMap (fun i => tbl[i]?)).map core = view tbl l := by
  induction l with
  | nil => rfl
  | cons i l ih =>
    have hi : i < tbl.length := h i (List.mem_cons_self i l)
    have hget : tbl[i]? = some tbl[i] := List.getElem?_eq_getElem hi
    rw [List.filterMap_cons, hget]
    simp only [List.map_cons, view, List.cons.injEq]
    exact ⟨(slot_core_of_some hget).symm, ih (fun j hj => h j (List.mem_cons_of_mem i hj))⟩

theorem reachable_idx_of_chain {f : rl_open_file} {l : List Nat}
    (h : Chain f.lock_table f.first l) : reachable_idx f = l := by
  unfold reachable_idx
  rw [chain_eq_some.mpr ⟨h, chain_length_le h⟩]
  rfl

theorem at_reachable_eq {f : rl_open_file} {L : List rl_lock} (h : At f f.first [] L) :
    (reachable f).map core = L := by
  obtain ⟨_, _, p, s, hc, _, hp, hv⟩ := h
  have : p = [] := by simpa [view] using hp
  subst this
  have hc2 : Chain f.lock_table f.first s := by simpa using hc
  unfold reachable
  rw [reachable_idx_of_chain hc2, filterMap_view (chain_lt_length hc2)]
  exact hv

theorem at_of_well_formed {f : rl_open_file} (h : well_formed f) :
    At f f.first [] ((reachable f).map core) := by
  obtain ⟨hl, hch, hpos⟩ := h
  obtain ⟨l, hl2⟩ := Option.isSome_iff_exists.mp hch
  obtain ⟨hc, _⟩ := chain_eq_some.mp hl2
  refine ⟨hl, ?_, [], l, hc, hc, rfl, ?_⟩
  · intro r hr
    simp only [List.nil_append, List.mem_map] at hr
    obtain ⟨r0, hr0, rfl⟩ := hr
    have := hpos r0 hr0
    show r0.len ≠ 0
    omega
  · unfold reachable
    rw [reachable_idx_of_chain hc, filterMap_view (chain_lt_length hc)]

theorem at_to_well_formed {f : rl_open_file} {L : List rl_lock} (h : At f f.first [] L)
    (hpos : ∀ r ∈ L, 0 < r.len) : well_formed f := by
  have hreach := at_reachable_eq h
  obtain ⟨hl, _, p, s, hc, _, hp, hv⟩ := h
  have hc2 : Chain f.lock_table f.first (p ++ s) := hc
  refine ⟨hl, ?_, ?_⟩
  · rw [chain_eq_some.mpr ⟨hc2, by rw [← hl]; exact chain_length_le hc2⟩]
    rfl
  · intro r hr
    have : core r ∈ L := by rw [← hreach]; exact List.mem_map_of_mem _ hr
    exact hpos (core r) this

theorem intersects_iff {start len : Int} {r : rl_lock} :
    intersects start len r ↔
      start < r.starting_offset + r.len ∧ r.starting_offset < start + len
        ∧ 0 < len ∧ 0 < r.len := by
  unfold intersects covers
  constructor
  · rintro ⟨x, ⟨h1, h2⟩, h3, h4⟩
    omega
  · rintro ⟨h1, h2, h3, h4⟩
    by_cases h : start ≤ r.starting_offset
    · exact ⟨r.starting_offset, ⟨h, h2⟩, le_refl _, by omega⟩
    · exact ⟨start, ⟨le_refl _, by omega⟩, by omega, h1⟩

theorem is_region_intersection_iff {start len : Int} {r : rl_lock}
    (hlen : 0 < len) (hr : 0 < r.len) :
    is_region_intersection start len r = true ↔ intersects start len r := by
  rw [intersects_iff]
  simp only [is_region_intersection, Bool.or_eq_true, Bool.and_eq_true, decide_eq_true_eq]
  constructor
  · intro h
    omega
  · intro h
    omega

theorem is_region_intersection_or_neighbour_iff {start len : Int} {r : rl_lock}
    (hlen : 0 ≤ len) (hr : 0 ≤ r.len) :
    is_region_intersection_or_neighbour start len r = true ↔ touches start len r := by
  simp only [is_region_intersection_or_neighbour, touches, Bool.or_eq_true, Bool.and_eq_true,
    decide_eq_true_eq]
  constructor
  · intro h
    omega
  · intro h
    omega

theorem is_owner_iff {h : owner} {r : rl_lock} : is_owner h r = true ↔ h ∈ r.lock_owners := by
  simp only [is_owner, List.any_eq_true, Bool.and_eq_true, beq_iff_eq]
  constructor
  · rintro ⟨o, ho, h1, h2⟩
    have : o = h := by
      cases o; cases h; simp_all
    rw [← this]
    exact ho
  · intro hm
    exact ⟨h, hm, rfl, rfl⟩

theorem is_other_owner_iff {h : owner} {r : rl_lock} :
    is_other_owner h r = true ↔ ∃ o ∈ r.lock_owners, o ≠ h := by
  simp only [is_other_owner, List.any_eq_true, Bool.or_eq_true, bne_iff_ne, ne_eq]
  constructor
  · rintro ⟨o, ho, h1⟩
    refine ⟨o, ho, ?_⟩
    intro heq
    subst heq
    tauto
  · rintro ⟨o, ho, hne⟩
    refine ⟨o, ho, ?_⟩
    by_contra hcon
    push_neg at hcon
    apply hne
    cases o; cases h; simp_all

theorem mem_drop_owner {h o : owner} {os : List owner} :
    o ∈ drop_owner h os ↔ o ∈ os ∧ o ≠ h := by
  simp only [drop_owner, List.mem_filter, Bool.not_eq_true', Bool.and_eq_false_imp, beq_iff_eq,
    beq_eq_false_iff_ne, ne_eq, and_congr_right_iff]
  intro _
  constructor
  · intro h1 heq
    subst heq
    exact h1 rfl rfl
  · intro hne hp hd
    apply hne
    cases o; cases h; simp_all

theorem is_rl_compatible_loop_eq (h : owner) (lck : flock) :
    ∀ (S : List rl_lock) (f : rl_open_file) (idx : Int) (P : List rl_lock) (fuel : Nat),
      At f idx P S → S.length < fuel →
      is_rl_compatible_loop h f lck fuel idx = some (!(S.any (conflict h lck))) := by
  intro S
  induction S with
  | nil =>
    intro f idx P fuel hat hfuel
    obtain ⟨n, rfl⟩ : ∃ n, fuel = n + 1 := ⟨fuel - 1, by simp at hfuel; omega⟩
    have := at_idx_neg hat
    rw [is_rl_compatible_loop, if_neg (by omega)]
    rfl
  | cons r S ih =>
    intro f idx P fuel hat hfuel
    obtain ⟨n, rfl⟩ : ∃ n, fuel = n + 1 := ⟨fuel - 1, by simp at hfuel; omega⟩
    obtain ⟨i, r0, hidx, hr0, hcore, hnext⟩ := at_cons_inv hat
    subst hidx
    subst hcore
    have hrec := ih f r0.next_lock _ n hnext (by simp at hfuel; omega)
    rw [is_rl_compatible_loop]
    simp only [Int.toNat_ofNat, hr0, ge_iff_le, Int.ofNat_zero_le, if_true, hrec]
    have e1 : is_region_intersection lck.l_start lck.l_len (core r0)
        = is_region_intersection lck.l_start lck.l_len r0 := rfl
    have e2 : is_other_owner h (core r0) = is_other_owner h r0 := rfl
    have e3 : (core r0).type = r0.type := rfl
    simp only [List.any_cons, conflict, e1, e2, e3]
    by_cases hc : (is_region_intersection lck.l_start lck.l_len r0 && is_other_owner h r0) = true
    · rw [if_pos hc]
      by_cases hw : lck.l_type = F_WRLCK
      · simp [hw, hc]
      · rw [if_neg hw]
        by_cases hrd : lck.l_type = F_RDLCK ∧ r0.type = F_WRLCK
        · rw [if_pos hrd]
          simp [hc, hrd.1, hrd.2]
        · rw [if_neg hrd]
          have : (decide (lck.l_type = F_RDLCK) && decide (r0.type = F_WRLCK)) = false := by
            simpa using hrd
          simp [hw, this]
    · rw [if_neg hc]
      simp [hc]

theorem at_length_le {f : rl_open_file} {idx : Int} {P S : List rl_lock} (h : At f idx P S) :
    P.length + S.length ≤ NB_LOCKS := by
  obtain ⟨hl, _, p, s, hc, _, hp, hv⟩ := h
  have := chain_length_le hc
  rw [← hp, ← hv]
  simp only [view, List.length_map]
  simp only [List.length_append] at this
  omega

theorem is_rl_compatible_eq {h : owner} {f : rl_open_file} {lck : flock} {L : List rl_lock}
    (hat : At f f.first [] L) :
    is_rl_compatible h f lck = some (!(L.any (conflict h lck))) := by
  unfold is_rl_compatible
  refine is_rl_compatible_loop_eq h lck L f f.first [] SCAN_FUEL hat ?_
  have := at_length_le hat
  simp only [SCAN_FUEL]
  simp at this
  omega

/-! ## The compatibility oracle -/

theorem conflict_iff {h : owner} {lck : flock} {r : rl_lock} (hlen : 0 < lck.l_len)
    (hr : 0 < r.len) (ht : lck.l_type = F_RDLCK ∨ lck.l_type = F_WRLCK) :
    conflict h lck r = true ↔
      intersects lck.l_start lck.l_len r ∧ (∃ o ∈ r.lock_owners, o ≠ h)
        ∧ (lck.l_type = F_WRLCK ∨ r.type = F_WRLCK) := by
  simp only [conflict, Bool.and_eq_true, Bool.or_eq_true, decide_eq_true_eq,
    is_region_intersection_iff hlen hr, is_other_owner_iff]
  rcases ht with ht | ht
  · have : lck.l_type ≠ F_WRLCK := by rw [ht]; decide
    simp [ht, this, and_assoc]
  · simp [ht, and_assoc]

theorem any_conflict_iff {h : owner} {f : rl_open_file} {lck : flock} (hwf : well_formed f)
    (hlen : 0 < lck.l_len) (ht : lck.l_type = F_RDLCK ∨ lck.l_type = F_WRLCK) :
    ((reachable f).map core).any (conflict h lck) = true ↔
      ∃ r ∈ reachable f, intersects lck.l_start lck.l_len r ∧ (∃ o ∈ r.lock_owners, o ≠ h)
        ∧ (lck.l_type = F_WRLCK ∨ r.type = F_WRLCK) := by
  simp only [List.any_map, List.any_eq_true, Function.comp]
  constructor
  · rintro ⟨r, hr, hc⟩
    exact ⟨r, hr, (conflict_iff (r := r) hlen (hwf.2.2 r hr) ht).mp hc⟩
  · rintro ⟨r, hr, hc⟩
    exact ⟨r, hr, (conflict_iff (r := r) hlen (hwf.2.2 r hr) ht).mpr hc⟩

/-- The answer of the oracle on a well-formed table. -/
theorem oracle_false_iff (h : owner) (f : rl_open_file) (lck : flock)
    (hwf : well_formed f) (hlen : 0 < lck.l_len)
    (ht : lck.l_type = F_RDLCK ∨ lck.l_type = F_WRLCK) :
    ∃ b, is_rl_compatible h f lck = some b ∧
      (b = false ↔
        ∃ r ∈ reachable f, intersects lck.l_start lck.l_len r
          ∧ (∃ o ∈ r.lock_owners, o ≠ h)
          ∧ (lck.l_type = F_WRLCK ∨ r.type = F_WRLCK)) := by
  refine ⟨_, is_rl_compatible_eq (at_of_well_formed hwf), ?_⟩
  rw [← any_conflict_iff hwf hlen ht]
  simp

/-- C2: on a well-formed table, for a proposal of type READ or WRITE on a region of positive
length, `is_rl_compatible` returns, and it returns `false` exactly when some record reachable
from the head intersects the region, has an owner other than `h`, and the proposal or the
record is of type WRITE. -/
theorem is_rl_compatible_false_iff (h : owner) (f : rl_open_file) (lck : flock)
    (hwf : well_formed f) (hlen : 0 < lck.l_len)
    (ht : lck.l_type = F_RDLCK ∨ lck.l_type = F_WRLCK) :
    ∃ b, is_rl_compatible h f lck = some b ∧
      (b = false ↔
        ∃ r ∈ reachable f, intersects lck.l_start lck.l_len r
          ∧ (∃ o ∈ r.lock_owners, o ≠ h)
          ∧ (lck.l_type = F_WRLCK ∨ r.type = F_WRLCK)) := by
  refine ⟨_, is_rl_compatible_eq (at_of_well_formed hwf), ?_⟩
  rw [← any_conflict_iff hwf hlen ht]
  simp

/-- C2, instance: the WRITE proposal of `hB` on `[50, 80)` against READ `[0, 100)` of `hA`. -/
theorem is_rl_compatible_false_iff_witness :
    ∃ b, is_rl_compatible hB table_read_A (request F_WRLCK 50 30) = some b ∧
      (b = false ↔
        ∃ r ∈ reachable table_read_A, intersects 50 30 r
          ∧ (∃ o ∈ r.lock_owners, o ≠ hB)
          ∧ (F_WRLCK = F_WRLCK ∨ r.type = F_WRLCK)) :=
  is_rl_compatible_false_iff hB table_read_A (request F_WRLCK 50 30) (by decide) (by decide)
    (by decide)

/-- C3: a READ or WRITE request made with `F_SETLK` on a valid descriptor that the oracle
reports incompatible (on the table `f0` left by the sweep) makes `rl_fcntl` return -1 and
leave exactly `f0`. -/
theorem rl_fcntl_conflict_rejected (alive : Int → Bool) (pos size : Int) (h : owner)
    (f f0 : rl_open_file) (lck : flock) (hd : h.des ≠ FILE_UNK)
    (ht : lck.l_type = F_RDLCK ∨ lck.l_type = F_WRLCK)
    (hsweep : rl_clear_dead_owners alive f = some f0)
    (hinc : is_rl_compatible h f0 (normalize pos size h lck) = some false) :
    rl_fcntl alive pos size h f F_SETLK lck = outcome.ret (-1) f0 := by
  have hcmd : ¬ (h.des = FILE_UNK ∨ F_SETLK = F_GETLK) := by
    rintro (h1 | h1)
    · exact hd h1
    · exact absurd h1 (by decide)
  have hun : (normalize pos size h lck).l_type ≠ F_UNLCK := by
    show lck.l_type ≠ F_UNLCK
    rcases ht with ht | ht <;> rw [ht] <;> decide
  unfold rl_fcntl
  rw [if_neg hcmd]
  simp only [hsweep, if_neg hun, hinc]
  rw [if_neg (by decide)]

/-- C3, instance: `hB` asks WRITE `[50, 80)` while `hA` holds READ `[0, 100)`. -/
theorem rl_fcntl_conflict_rejected_witness :
    rl_fcntl all_alive 0 0 hB table_read_A F_SETLK (request F_WRLCK 50 30)
      = outcome.ret (-1) table_read_A :=
  rl_fcntl_conflict_rejected all_alive 0 0 hB table_read_A table_read_A (request F_WRLCK 50 30)
    (by decide) (by decide) (by decide) (by decide)

/-- C9, as stated, fails: every record that intersects `[0, 10)` has `hA` among its owners,
yet the WRITE proposal of `hA` is reported incompatible, because `hC` shares the record. -/
theorem own_locks_shared_conflict :
    (∀ r ∈ reachable table_shared, intersects 0 10 r → hA ∈ r.lock_owners)
      ∧ is_rl_compatible hA table_shared (request F_WRLCK 0 10) = some false := by
  constructor
  · intro r hr _
    have : reachable table_shared = [⟨NEXT_NULL, 0, 10, F_RDLCK, [hA, hC]⟩] := by decide
    rw [this] at hr
    simp only [List.mem_singleton] at hr
    subst hr
    decide
  · decide

/-- C9, amended: on a well-formed table, if every record that intersects the region has no
owner other than `h`, the oracle reports the READ or WRITE proposal of `h` compatible. -/
theorem is_rl_compatible_own (h : owner) (f : rl_open_file) (lck : flock)
    (hwf : well_formed f) (hlen : 0 < lck.l_len)
    (ht : lck.l_type = F_RDLCK ∨ lck.l_type = F_WRLCK)
    (hown : ∀ r ∈ reachable f, intersects lck.l_start lck.l_len r →
      ∀ o ∈ r.lock_owners, o = h) :
    is_rl_compatible h f lck = some true := by
  obtain ⟨b, hb, hiff⟩ := oracle_false_iff h f lck hwf hlen ht
  rw [hb]
  cases b with
  | true => rfl
  | false =>
    obtain ⟨r, hr, hint, ⟨o, ho, hne⟩, _⟩ := hiff.mp rfl
    exact absurd (hown r hr hint o ho) hne

/-- C9, amended, instance: `hA` proposes WRITE `[50, 80)` inside its own READ `[0, 100)`. -/
theorem is_rl_compatible_own_witness :
    is_rl_compatible hA table_read_A (request F_WRLCK 50 30) = some true :=
  is_rl_compatible_own hA table_read_A (request F_WRLCK 50 30) (by decide) (by decide)
    (by decide) (by
      intro r hr _ o ho
      have : reachable table_read_A = [⟨NEXT_NULL, 0, 100, F_RDLCK, [hA]⟩] := by decide
      rw [this] at hr
      simp only [List.mem_singleton] at hr
      subst hr
      simpa using ho)

/-! ## The merge loops -/

theorem add_read_merge_eq (h : owner) :
    ∀ (S : List rl_lock) (f : rl_open_file) (lck : flock) (idx : Int) (P : List rl_lock)
      (fuel : Nat), At f idx P S → S.length < fuel →
      ∃ g, add_read_merge h fuel f lck idx = some (g, (merge_list h (read_match h) lck S).1)
        ∧ At g g.first [] (P ++ (merge_list h (read_match h) lck S).2)
        ∧ free_count f.lock_table ≤ free_count g.lock_table
        ∧ g.blockCnt = f.blockCnt ∧ g.refCnt = f.refCnt := by
  intro S
  induction S with
  | nil =>
    intro f lck idx P fuel hat hfuel
    obtain ⟨n, rfl⟩ : ∃ n, fuel = n + 1 := ⟨fuel - 1, by simp at hfuel; omega⟩
    have := at_idx_neg hat
    rw [add_read_merge, if_neg (by omega)]
    exact ⟨f, rfl, by simpa [merge_list] using at_restart hat, le_refl _, rfl, rfl⟩
  | cons r S ih =>
    intro f lck idx P fuel hat hfuel
    obtain ⟨n, rfl⟩ : ∃ n, fuel = n + 1 := ⟨fuel - 1, by simp at hfuel; omega⟩
    obtain ⟨i, r0, hidx, hr0, hcore, hnext⟩ := at_cons_inv hat
    subst hidx
    have hn : S.length < n := by simp at hfuel; omega
    have hm : (is_region_intersection_or_neighbour lck.l_start lck.l_len r0 && is_owner h r0)
        = read_match h lck r := by rw [← hcore]; rfl
    have hab : absorb lck r0 = absorb lck r := by rw [← hcore]; rfl
    rw [add_read_merge]
    simp only [Int.toNat_ofNat, hr0, ge_iff_le, Int.ofNat_zero_le, if_true, hm, hab]
    by_cases hmatch : read_match h lck r = true
    · obtain ⟨g1, hg1, hat1, hfc1, hb1, hrc1⟩ := at_delete_owner_step h hat hr0
      obtain ⟨g, hg, hatg, hfc, hb, hrc⟩ := ih g1 (absorb lck r) r0.next_lock _ n hat1 hn
      rw [if_pos hmatch, hg1]
      simp only [merge_list, if_pos hmatch]
      exact ⟨g, hg, by simpa using hatg, by omega, by rw [hb, hb1], by rw [hrc, hrc1]⟩
    · obtain ⟨g, hg, hatg, hfc, hb, hrc⟩ := ih f lck r0.next_lock _ n hnext hn
      rw [if_neg hmatch]
      simp only [merge_list, if_neg hmatch]
      exact ⟨g, hg, by simpa using hatg, hfc, hb, hrc⟩

theorem add_write_merge_eq (h : owner) :
    ∀ (S : List rl_lock) (f : rl_open_file) (lck : flock) (idx : Int) (P : List rl_lock)
      (fuel : Nat), At f idx P S → S.length < fuel →
      ∃ g, add_write_merge h fuel f lck idx = some (g, (merge_list h (write_match h) lck S).1)
        ∧ At g g.first [] (P ++ (merge_list h (write_match h) lck S).2)
        ∧ free_count f.lock_table ≤ free_count g.lock_table
        ∧ g.blockCnt = f.blockCnt ∧ g.refCnt = f.refCnt := by
  intro S
  induction S with
  | nil =>
    intro f lck idx P fuel hat hfuel
    obtain ⟨n, rfl⟩ : ∃ n, fuel = n + 1 := ⟨fuel - 1, by simp at hfuel; omega⟩
    have := at_idx_neg hat
    rw [add_write_merge, if_neg (by omega)]
    exact ⟨f, rfl, by simpa [merge_list] using at_restart hat, le_refl _, rfl, rfl⟩
  | cons r S ih =>
    intro f lck idx P fuel hat hfuel
    obtain ⟨n, rfl⟩ : ∃ n, fuel = n + 1 := ⟨fuel - 1, by simp at hfuel; omega⟩
    obtain ⟨i, r0, hidx, hr0, hcore, hnext⟩ := at_cons_inv hat
    subst hidx
    have hn : S.length < n := by simp at hfuel; omega
    have hm : (((is_region_intersection_or_neighbour lck.l_start lck.l_len r0
          && decide (r0.type = lck.l_type))
        || is_region_intersection lck.l_start lck.l_len r0) && is_owner h r0)
        = write_match h lck r := by rw [← hcore]; rfl
    have hab : absorb lck r0 = absorb lck r := by rw [← hcore]; rfl
    rw [add_write_merge]
    simp only [Int.toNat_ofNat, hr0, ge_iff_le, Int.ofNat_zero_le, if_true, hm, hab]
    by_cases hmatch : write_match h lck r = true
    · obtain ⟨g1, hg1, hat1, hfc1, hb1, hrc1⟩ := at_delete_owner_step h hat hr0
      obtain ⟨g, hg, hatg, hfc, hb, hrc⟩ := ih g1 (absorb lck r) r0.next_lock _ n hat1 hn
      rw [if_pos hmatch, hg1]
      simp only [merge_list, if_pos hmatch]
      exact ⟨g, hg, by simpa using hatg, by omega, by rw [hb, hb1], by rw [hrc, hrc1]⟩
    · obtain ⟨g, hg, hatg, hfc, hb, hrc⟩ := ih f lck r0.next_lock _ n hnext hn
      rw [if_neg hmatch]
      simp only [merge_list, if_neg hmatch]
      exact ⟨g, hg, by simpa using hatg, hfc, hb, hrc⟩

theorem scan_fuel_ok {f : rl_open_file} {L : List rl_lock} (hat : At f f.first [] L) :
    L.length < SCAN_FUEL := by
  have := at_length_le hat
  simp only [SCAN_FUEL]
  simp at this
  omega

/-- The result of `add_write_lock_region` in terms of the list of records. -/
theorem add_write_lock_region_eq (h : owner) (lck : flock) {f : rl_open_file}
    {L : List rl_lock} (hat : At f f.first [] L) :
    ∃ g, add_write_lock_region h f lck
        = some (add_lock h g (merge_list h (write_match h) lck L).1 F_WRLCK)
      ∧ At g g.first [] (merge_list h (write_match h) lck L).2
      ∧ free_count f.lock_table ≤ free_count g.lock_table
      ∧ g.blockCnt = f.blockCnt ∧ g.refCnt = f.refCnt := by
  obtain ⟨g, hg, hatg, hfc, hb, hrc⟩ :=
    add_write_merge_eq h L f lck f.first [] SCAN_FUEL hat (scan_fuel_ok hat)
  refine ⟨g, ?_, by simpa using hatg, hfc, hb, hrc⟩
  unfold add_write_lock_region
  rw [hg]

/-! ## One merge pass on the list of records -/

theorem extends_region_refl {lck : flock} (h0 : 0 ≤ lck.l_start) (hlen : 0 < lck.l_len) :
    extends_region lck lck :=
  ⟨le_refl _, le_refl _, h0, hlen, rfl⟩

theorem absorb_extends {lck0 cur : flock} {r : rl_lock} (hc : extends_region lck0 cur)
    (hr0 : 0 ≤ r.starting_offset) (hr : 0 < r.len) : extends_region lck0 (absorb cur r) := by
  obtain ⟨h1, h2, h3, h4, h5⟩ := hc
  unfold absorb
  refine ⟨?_, ?_, ?_, ?_, h5⟩
  · simp only
    split_ifs <;> omega
  · simp only
    split_ifs <;> omega
  · simp only
    split_ifs <;> omega
  · simp only
    split_ifs <;> omega

theorem merge_list_region (h : owner) (m : flock → rl_lock → Bool) (lck0 : flock) :
    ∀ (S : List rl_lock) (cur : flock), extends_region lck0 cur →
      (∀ r ∈ S, 0 ≤ r.starting_offset ∧ 0 < r.len) →
      extends_region lck0 (merge_list h m cur S).1 := by
  intro S
  induction S with
  | nil => intro cur hc _; exact hc
  | cons r S ih =>
    intro cur hc hS
    have hr := hS r (List.mem_cons_self r S)
    have hS2 : ∀ x ∈ S, 0 ≤ x.starting_offset ∧ 0 < x.len :=
      fun x hx => hS x (List.mem_cons_of_mem r hx)
    simp only [merge_list]
    split_ifs
    · exact ih _ (absorb_extends hc hr.1 hr.2) hS2
    · exact ih _ hc hS2

/-- A record that remains after a merge pass is a record of the list that the test
rejected for a region containing the requested one, or a matched record without `h`. -/
theorem merge_list_kept (h : owner) (m : flock → rl_lock → Bool) (lck0 : flock) :
    ∀ (S : List rl_lock) (cur : flock), extends_region lck0 cur →
      (∀ r ∈ S, 0 ≤ r.starting_offset ∧ 0 < r.len) →
      ∀ x ∈ (merge_list h m cur S).2,
        (∃ r ∈ S, x = { r with lock_owners := drop_owner h r.lock_owners })
        ∨ (x ∈ S ∧ ∃ c, extends_region lck0 c ∧ m c x = false) := by
  intro S
  induction S with
  | nil => intro cur _ _ x hx; simp [merge_list] at hx
  | cons r S ih =>
    intro cur hc hS x hx
    have hr := hS r (List.mem_cons_self r S)
    have hS2 : ∀ y ∈ S, 0 ≤ y.starting_offset ∧ 0 < y.len :=
      fun y hy => hS y (List.mem_cons_of_mem r hy)
    simp only [merge_list] at hx
    by_cases hm : m cur r = true
    · rw [if_pos hm] at hx
      simp only [List.mem_append] at hx
      rcases hx with hx | hx
      · left
        refine ⟨r, List.mem_cons_self r S, ?_⟩
        unfold drop_rec at hx
        split_ifs at hx
        · simp at hx
        · simpa using hx
      · rcases ih _ (absorb_extends hc hr.1 hr.2) hS2 x hx with ⟨y, hy, hxy⟩ | ⟨hxS, c, hcc, hmc⟩
        · exact Or.inl ⟨y, List.mem_cons_of_mem r hy, hxy⟩
        · exact Or.inr ⟨List.mem_cons_of_mem r hxS, c, hcc, hmc⟩
    · rw [if_neg hm] at hx
      simp only [List.mem_cons] at hx
      rcases hx with hx | hx
      · subst hx
        exact Or.inr ⟨List.mem_cons_self _ S, cur, hc, by simpa using hm⟩
      · rcases ih _ hc hS2 x hx with ⟨y, hy, hxy⟩ | ⟨hxS, c, hcc, hmc⟩
        · exact Or.inl ⟨y, List.mem_cons_of_mem r hy, hxy⟩
        · exact Or.inr ⟨List.mem_cons_of_mem r hxS, c, hcc, hmc⟩

theorem not_mem_drop_owner (h : owner) (os : List owner) : h ∉ drop_owner h os := by
  intro hm
  exact (mem_drop_owner.mp hm).2 rfl

theorem intersects_mono {lck0 c : flock} {r : rl_lock} (hc : extends_region lck0 c)
    (hi : intersects lck0.l_start lck0.l_len r) : intersects c.l_start c.l_len r := by
  obtain ⟨h1, h2, _, _, _⟩ := hc
  rw [intersects_iff] at hi ⊢
  omega

theorem touches_mono {lck0 c : flock} {r : rl_lock} (hc : extends_region lck0 c)
    (hi : touches lck0.l_start lck0.l_len r) : touches c.l_start c.l_len r := by
  obtain ⟨h1, h2, _, _, _⟩ := hc
  unfold touches at hi ⊢
  omega

/-- After a merge pass of `add_write_lock_region`, a record that still has `h` among its
owners does not intersect the requested region, and does not touch it if it is of the
requested type. -/
theorem merge_list_write_separated (h : owner) (lck0 : flock) (S : List rl_lock)
    (h0 : 0 ≤ lck0.l_start) (hlen : 0 < lck0.l_len)
    (hS : ∀ r ∈ S, 0 ≤ r.starting_offset ∧ 0 < r.len) :
    ∀ x ∈ (merge_list h (write_match h) lck0 S).2, h ∈ x.lock_owners →
      ¬ intersects lck0.l_start lck0.l_len x
        ∧ (x.type = lck0.l_type → ¬ touches lck0.l_start lck0.l_len x) := by
  intro x hx hown
  rcases merge_list_kept h (write_match h) lck0 S lck0 (extends_region_refl h0 hlen) hS x hx
    with ⟨r, _, hxr⟩ | ⟨hxS, c, hc, hm⟩
  · rw [hxr] at hown
    exact absurd hown (not_mem_drop_owner h r.lock_owners)
  · have hxpos := (hS x hxS).2
    have hcpos : 0 < c.l_len := hc.2.2.2.1
    have hown2 : is_owner h x = true := is_owner_iff.mpr hown
    simp only [write_match, hown2, Bool.and_true, Bool.or_eq_false_iff,
      Bool.and_eq_false_imp, decide_eq_false_iff_not] at hm
    constructor
    · intro hi
      have := (is_region_intersection_iff hcpos hxpos).mpr (intersects_mono hc hi)
      rw [hm.2] at this
      cases this
    · intro hty ht
      have := (is_region_intersection_or_neighbour_iff (le_of_lt hcpos) (le_of_lt hxpos)).mpr
        (touches_mono hc ht)
      exact hm.1 this (by rw [hty, hc.2.2.2.2])

/-- After the merge pass of `add_read_lock_region`, a record that still has `h` among its
owners neither intersects nor touches the requested region. -/
theorem merge_list_read_separated (h : owner) (lck0 : flock) (S : List rl_lock)
    (h0 : 0 ≤ lck0.l_start) (hlen : 0 < lck0.l_len)
    (hS : ∀ r ∈ S, 0 ≤ r.starting_offset ∧ 0 < r.len) :
    ∀ x ∈ (merge_list h (read_match h) lck0 S).2, h ∈ x.lock_owners →
      ¬ touches lck0.l_start lck0.l_len x := by
  intro x hx hown
  rcases merge_list_kept h (read_match h) lck0 S lck0 (extends_region_refl h0 hlen) hS x hx
    with ⟨r, _, hxr⟩ | ⟨hxS, c, hc, hm⟩
  · rw [hxr] at hown
    exact absurd hown (not_mem_drop_owner h r.lock_owners)
  · have hxpos := (hS x hxS).2
    have hcpos : 0 < c.l_len := hc.2.2.2.1
    have hown2 : is_owner h x = true := is_owner_iff.mpr hown
    simp only [read_match, hown2, Bool.and_true] at hm
    intro ht
    have := (is_region_intersection_or_neighbour_iff (le_of_lt hcpos) (le_of_lt hxpos)).mpr
      (touches_mono hc ht)
    rw [hm] at this
    cases this

/-- A merge pass never adds an owner to a record. -/
theorem merge_list_owners (h : owner) (m : flock → rl_lock → Bool) (lck0 : flock)
    (S : List rl_lock) (h0 : 0 ≤ lck0.l_start) (hlen : 0 < lck0.l_len)
    (hS : ∀ r ∈ S, 0 ≤ r.starting_offset ∧ 0 < r.len) :
    ∀ x ∈ (merge_list h m lck0 S).2, ∃ r ∈ S, x.starting_offset = r.starting_offset
      ∧ x.len = r.len ∧ x.type = r.type ∧ ∀ o ∈ x.lock_owners, o ∈ r.lock_owners := by
  intro x hx
  rcases merge_list_kept h m lck0 S lck0 (extends_region_refl h0 hlen) hS x hx
    with ⟨r, hr, hxr⟩ | ⟨hxS, _⟩
  · refine ⟨r, hr, by rw [hxr], by rw [hxr], by rw [hxr], ?_⟩
    intro o ho
    rw [hxr] at ho
    exact (mem_drop_owner.mp ho).1
  · exact ⟨x, hxS, rfl, rfl, rfl, fun o ho => ho⟩

theorem core_mem_of_reachable {f : rl_open_file} {L : List rl_lock}
    (hL : (reachable f).map core = L) {r : rl_lock} (hr : r ∈ reachable f) : core r ∈ L := by
  rw [← hL]
  exact List.mem_map_of_mem _ hr

theorem reachable_of_core_mem {f : rl_open_file} {L : List rl_lock}
    (hL : (reachable f).map core = L) {x : rl_lock} (hx : x ∈ L) :
    ∃ r ∈ reachable f, core r = x := by
  rw [← hL] at hx
  exact List.mem_map.mp hx

theorem at_records_ok {f : rl_open_file} (hwf : well_formed f) (hs : starts_nonneg f) :
    ∀ r ∈ (reachable f).map core, 0 ≤ r.starting_offset ∧ 0 < r.len := by
  intro r hr
  obtain ⟨r0, hr0, rfl⟩ := List.mem_map.mp hr
  exact ⟨hs r0 hr0, hwf.2.2 r0 hr0⟩

/-! ## Write acquisition -/

theorem add_lock_ok {h : owner} {g1 g : rl_open_file} {lck1 : flock} {t : Int}
    {L1 : List rl_lock} (hat : At g1 g1.first [] L1) (hlen : lck1.l_len ≠ 0)
    (hres : add_lock h g1 lck1 t = (0, g)) :
    At g g.first [] (new_rec h lck1.l_start lck1.l_len t :: L1) := by
  rcases at_add_lock_step h lck1 t hat hlen with ⟨_, hfail⟩ | ⟨g2, hg2, hat2, _⟩
  · rw [hfail] at hres
    have := congrArg Prod.fst hres
    simp at this
  · rw [hg2] at hres
    have : g2 = g := congrArg Prod.snd hres
    subst this
    simpa using at_restart hat2

/-- The list of records after a successful `add_write_lock_region`. -/
theorem add_write_lock_region_list {h : owner} {f g : rl_open_file} (lck : flock)
    (hwf : well_formed f) (hs : starts_nonneg f) (h0 : 0 ≤ lck.l_start) (hlen : 0 < lck.l_len)
    (hres : add_write_lock_region h f lck = some (0, g)) :
    (reachable g).map core
      = new_rec h (merge_list h (write_match h) lck ((reachable f).map core)).1.l_start
          (merge_list h (write_match h) lck ((reachable f).map core)).1.l_len F_WRLCK
        :: (merge_list h (write_match h) lck ((reachable f).map core)).2 := by
  obtain ⟨g1, hg1, hat1, _⟩ := add_write_lock_region_eq h lck
    (at_of_well_formed hwf)
  rw [hg1] at hres
  have hext := merge_list_region h (write_match h) lck ((reachable f).map core) lck
    (extends_region_refl h0 hlen) (at_records_ok hwf hs)
  have hne : (merge_list h (write_match h) lck ((reachable f).map core)).1.l_len ≠ 0 := by
    have := hext.2.2.2.1
    omega
  exact at_reachable_eq (add_lock_ok hat1 hne (Option.some.inj hres))

/-- After a successful `add_write_lock_region`, a reachable WRITE record owned by `h` alone
contains the requested region. -/
theorem write_record_listed {h : owner} {f g : rl_open_file} (lck : flock)
    (hwf : well_formed f) (hs : starts_nonneg f) (h0 : 0 ≤ lck.l_start) (hlen : 0 < lck.l_len)
    (hres : add_write_lock_region h f lck = some (0, g)) :
    ∃ r ∈ reachable g, r.type = F_WRLCK ∧ r.lock_owners = [h]
      ∧ contains r lck.l_start lck.l_len := by
  have hlist := add_write_lock_region_list lck hwf hs h0 hlen hres
  have hext := merge_list_region h (write_match h) lck ((reachable f).map core) lck
    (extends_region_refl h0 hlen) (at_records_ok hwf hs)
  obtain ⟨r, hr, hcore⟩ := reachable_of_core_mem hlist (List.mem_cons_self _ _)
  refine ⟨r, hr, congrArg rl_lock.type hcore, congrArg rl_lock.lock_owners hcore, ?_⟩
  have e1 := congrArg rl_lock.starting_offset hcore
  have e2 := congrArg rl_lock.len hcore
  simp only [core, new_rec] at e1 e2
  unfold contains
  rw [e1, e2]
  exact ⟨hext.1, hext.2.1⟩

/-- Promotion when the records start at non-negative offsets: on such a well-formed table,
when `add_write_lock_region` for `h` on a region with `start ≥ 0` and `len > 0` returns 0,
some reachable WRITE record has `h` as its only owner and contains the region, and no
reachable READ record with `h` among its owners intersects the region. -/
theorem add_write_lock_region_promotes (h : owner) (f g : rl_open_file) (lck : flock)
    (hwf : well_formed f) (hs : starts_nonneg f) (h0 : 0 ≤ lck.l_start) (hlen : 0 < lck.l_len)
    (hres : add_write_lock_region h f lck = some (0, g)) :
    (∃ r ∈ reachable g, r.type = F_WRLCK ∧ r.lock_owners = [h]
        ∧ contains r lck.l_start lck.l_len)
      ∧ ∀ r ∈ reachable g, r.type = F_RDLCK → h ∈ r.lock_owners →
          ¬ intersects lck.l_start lck.l_len r := by
  have hlist := add_write_lock_region_list lck hwf hs h0 hlen hres
  have hext := merge_list_region h (write_match h) lck ((reachable f).map core) lck
    (extends_region_refl h0 hlen) (at_records_ok hwf hs)
  constructor
  · obtain ⟨r, hr, hcore⟩ := reachable_of_core_mem hlist (List.mem_cons_self _ _)
    refine ⟨r, hr, ?_, ?_, ?_⟩
    · have := congrArg rl_lock.type hcore
      exact this
    · have := congrArg rl_lock.lock_owners hcore
      exact this
    · have e1 := congrArg rl_lock.starting_offset hcore
      have e2 := congrArg rl_lock.len hcore
      simp only [core, new_rec] at e1 e2
      unfold contains
      rw [e1, e2]
      exact ⟨hext.1, hext.2.1⟩
  · intro r hr hty hown hint
    have hmem := core_mem_of_reachable hlist hr
    rcases List.mem_cons.mp hmem with heq | hmem
    · have := congrArg rl_lock.type heq
      have hty2 : r.type = F_WRLCK := this
      rw [hty] at hty2
      exact absurd hty2 (by decide)
    · exact (merge_list_write_separated h lck _ h0 hlen (at_records_ok hwf hs) (core r) hmem
        hown).1 hint

/-- Promotion, instance: READ `[0, 500)` and READ `[1000, 1500)` of `hA`, then WRITE
`[0, 1500)`. -/
theorem add_write_lock_region_promotes_witness :
    (∃ r ∈ reachable table_write_A, r.type = F_WRLCK ∧ r.lock_owners = [hA]
        ∧ contains r 0 1500)
      ∧ ∀ r ∈ reachable table_write_A, r.type = F_RDLCK → hA ∈ r.lock_owners →
          ¬ intersects 0 1500 r :=
  add_write_lock_region_promotes hA table_two_reads table_write_A (request F_WRLCK 0 1500)
    (by decide) (by decide) (by decide) (by decide) (by decide)

/-- C7, failing input: on the empty table `hA` asks READ with `l_start = -100`,
`l_len = 105`, which `rl_fcntl` grants; the table is well formed and holds READ `[-100, 5)`
of `hA`. Now `hA` asks WRITE `[0, 10)`, start 0 and length 10. `add_write_lock_region`
absorbs the READ record and writes the request back as start -100, length 10: the call
returns 0 and the only record is WRITE `[-100, -90)`. No WRITE record of `hA` contains
`[0, 10)`, and no reachable record covers byte 0. -/
theorem promotion_loses_region :
    run_requests all_alive (table_of NEXT_NULL []) [(hA, request F_RDLCK (-100) 105)]
      = some ([0], table_neg_wide)
    ∧ well_formed table_neg_wide
    ∧ add_write_lock_region hA table_neg_wide (request F_WRLCK 0 10)
        = some (0, table_neg_promoted)
    ∧ rl_fcntl all_alive 0 0 hA table_neg_wide F_SETLK (request F_WRLCK 0 10)
        = outcome.ret 0 table_neg_promoted
    ∧ reachable table_neg_promoted = [⟨NEXT_NULL, -100, 10, F_WRLCK, [hA]⟩]
    ∧ (¬ ∃ r ∈ reachable table_neg_promoted, r.type = F_WRLCK ∧ r.lock_owners = [hA]
        ∧ contains r 0 10)
    ∧ ∀ r ∈ reachable table_neg_promoted, ¬ contains r 0 1 := by
  decide


/-! ## The sweep when every owner is alive, and the alignment of plain requests -/

theorem set_self_of_getElem? {tbl : List rl_lock} {i : Nat} {r : rl_lock}
    (h : tbl[i]? = some r) : tbl.set i r = tbl := by
  induction tbl generalizing i with
  | nil => rfl
  | cons y tbl ih =>
    cases i with
    | zero =>
      simp only [List.getElem?_cons_zero, Option.some.injEq] at h
      subst h
      rfl
    | succ i =>
      simp only [List.getElem?_cons_succ] at h
      simp only [List.set_cons_succ, ih h]

theorem rl_clear_dead_owners_loop_id (alive : Int → Bool) :
    ∀ (S : List rl_lock) (f : rl_open_file) (idx : Int) (P : List rl_lock) (fuel : Nat),
      At f idx P S →
      (∀ r ∈ S, r.lock_owners ≠ [] ∧ ∀ o ∈ r.lock_owners, alive o.proc = true) →
      S.length < fuel → rl_clear_dead_owners_loop alive fuel f idx = some f := by
  intro S
  induction S with
  | nil =>
    intro f idx P fuel hat _ hfuel
    obtain ⟨n, rfl⟩ : ∃ n, fuel = n + 1 := ⟨fuel - 1, by simp at hfuel; omega⟩
    have := at_idx_neg hat
    rw [rl_clear_dead_owners_loop, if_neg (by omega)]
  | cons r S ih =>
    intro f idx P fuel hat hal hfuel
    obtain ⟨n, rfl⟩ : ∃ n, fuel = n + 1 := ⟨fuel - 1, by simp at hfuel; omega⟩
    obtain ⟨i, r0, hidx, hr0, hcore, hnext⟩ := at_cons_inv hat
    subst hidx
    obtain ⟨hne, hall⟩ := hal r (List.mem_cons_self r S)
    have hown : r.lock_owners = r0.lock_owners := by rw [← hcore]; rfl
    rw [hown] at hne hall
    have hfilter : r0.lock_owners.filter (fun o => alive o.proc) = r0.lock_owners :=
      List.filter_eq_self.mpr hall
    have hlen : ¬ (r0.lock_owners.length = 0) := by
      intro h0
      exact hne (List.eq_nil_of_length_eq_zero h0)
    rw [rl_clear_dead_owners_loop]
    simp only [Int.toNat_ofNat, hr0, ge_iff_le, Int.ofNat_zero_le, if_true, hfilter, if_neg hlen]
    have hset : f.lock_table.set i { r0 with lock_owners := r0.lock_owners } = f.lock_table :=
      set_self_of_getElem? hr0
    rw [hset]
    exact ih f r0.next_lock _ n hnext (fun x hx => hal x (List.mem_cons_of_mem r hx))
      (by simp at hfuel; omega)

/-- When every owner of every reachable record is alive, the sweep changes nothing. -/
theorem rl_clear_dead_owners_id {alive : Int → Bool} {f : rl_open_file}
    (hwf : well_formed f) (ha : owners_alive alive f) :
    rl_clear_dead_owners alive f = some f := by
  have hat := at_of_well_formed hwf
  unfold rl_clear_dead_owners
  refine rl_clear_dead_owners_loop_id alive _ f f.first [] SCAN_FUEL hat ?_ (scan_fuel_ok hat)
  intro r hr
  obtain ⟨r0, hr0, rfl⟩ := List.mem_map.mp hr
  exact ha r0 hr0

theorem normalize_plain (pos size : Int) (h : owner) (lck : flock)
    (hw : lck.l_whence = SEEK_SET) (hlen : 0 < lck.l_len) :
    normalize pos size h lck = { lck with l_pid := h.proc } := by
  have h1 : ¬ (SEEK_SET = SEEK_CUR) := by decide
  have h2 : ¬ (SEEK_SET = SEEK_END) := by decide
  have h3 : ¬ (lck.l_len = 0) := by omega
  have h4 : ¬ (lck.l_len < 0) := by omega
  unfold normalize
  simp only [hw, if_neg h1, if_neg h2, if_neg h3, if_neg h4]

/-! ## The search loop of `add_read_lock_region` -/

theorem at_set_step {f : rl_open_file} {i : Nat} {P S : List rl_lock} {r r0 x : rl_lock}
    (hat : At f (i : Int) P (r :: S)) (hr0 : f.lock_table[i]? = some r0)
    (hx : x.next_lock = r0.next_lock) (hlen : x.len ≠ 0) :
    At { f with lock_table := f.lock_table.set i x } f.first [] (P ++ core x :: S) := by
  obtain ⟨hl, hnz, p, s, hc, hs, hp, hv⟩ := hat
  cases s with
  | nil => simp [view] at hv
  | cons i2 s =>
    obtain ⟨hidx, _, _, _⟩ := chain_cons_inv hs
    have hi : i2 = i := (Int.ofNat_inj.mp hidx).symm
    subst hi
    simp only [view, List.map_cons, List.cons.injEq] at hv
    have hnd := chain_nodup hc
    have hip : i2 ∉ p := fun hm => (List.nodup_append.mp hnd).2.2 hm (List.mem_cons_self i2 s)
    have his : i2 ∉ s := (List.nodup_cons.mp (List.nodup_append.mp hnd).2.1).1
    have hset : (f.lock_table.set i2 x)[i2]? = some x := getElem?_set_self_idx hr0
    have hc1 : Chain (f.lock_table.set i2 x) f.first (p ++ i2 :: s) := by
      refine chain_congr hc ?_
      intro j _ rj hrj
      by_cases hj : j = i2
      · subst hj
        rw [hr0] at hrj
        cases hrj
        exact ⟨x, hset, hx⟩
      · exact ⟨rj, by rw [getElem?_set_ne_idx hj]; exact hrj, rfl⟩
    refine ⟨by simpa using hl, ?_, [], p ++ i2 :: s, hc1, hc1, rfl, ?_⟩
    · intro y hy
      simp only [List.nil_append, List.mem_append, List.mem_cons] at hy
      rcases hy with hy | hy | hy
      · exact hnz y (by simp [hy])
      · subst hy
        exact hlen
      · exact hnz y (by simp [hy])
    · rw [view_append]
      congr 1
      · rw [← hp]
        exact view_congr (fun j hj => slot_core_set_ne (ne_of_mem_of_not_mem hj hip))
      · simp only [view, List.map_cons, List.cons.injEq]
        refine ⟨slot_core_of_some hset, ?_⟩
        rw [← hv.2]
        exact List.map_congr_left
          (fun j hj => slot_core_set_ne (ne_of_mem_of_not_mem hj his))

theorem add_owner_core (h : owner) (r0 : rl_lock) :
    add_owner h (core r0) = ((add_owner h r0).1, core (add_owner h r0).2) := by
  unfold add_owner
  have e1 : (core r0).nb_owners = r0.nb_owners := rfl
  have e2 : has_owner (core r0) h = has_owner r0 h := rfl
  rw [e1, e2]
  split_ifs <;> rfl

theorem add_owner_fields (h : owner) (r0 : rl_lock) :
    (add_owner h r0).2.next_lock = r0.next_lock ∧ (add_owner h r0).2.len = r0.len
      ∧ (add_owner h r0).2.starting_offset = r0.starting_offset
      ∧ (add_owner h r0).2.type = r0.type := by
  unfold add_owner
  split_ifs <;> exact ⟨rfl, rfl, rfl, rfl⟩

theorem add_read_search_eq (h : owner) (lck : flock) :
    ∀ (S : List rl_lock) (f : rl_open_file) (idx : Int) (P : List rl_lock) (fuel : Nat),
      At f idx P S → S.length < fuel →
      (search_list h lck S = none ∧ add_read_search h lck fuel f idx = some none)
      ∨ ∃ c S2 g, search_list h lck S = some (c, S2)
          ∧ add_read_search h lck fuel f idx = some (some (c, g))
          ∧ At g g.first [] (P ++ S2)
          ∧ g.blockCnt = f.blockCnt ∧ g.refCnt = f.refCnt := by
  intro S
  induction S with
  | nil =>
    intro f idx P fuel hat hfuel
    obtain ⟨n, rfl⟩ : ∃ n, fuel = n + 1 := ⟨fuel - 1, by simp at hfuel; omega⟩
    have := at_idx_neg hat
    left
    rw [add_read_search, if_neg (by omega)]
    exact ⟨rfl, rfl⟩
  | cons r S ih =>
    intro f idx P fuel hat hfuel
    obtain ⟨n, rfl⟩ : ∃ n, fuel = n + 1 := ⟨fuel - 1, by simp at hfuel; omega⟩
    obtain ⟨i, r0, hidx, hr0, hcore, hnext⟩ := at_cons_inv hat
    subst hidx
    have hn : S.length < n := by simp at hfuel; omega
    have heq : is_region_equal lck.l_start lck.l_len r0
        = is_region_equal lck.l_start lck.l_len r := by rw [← hcore]; rfl
    have how : is_owner h r0 = is_owner h r := by rw [← hcore]; rfl
    rw [add_read_search]
    simp only [Int.toNat_ofNat, hr0, ge_iff_le, Int.ofNat_zero_le, if_true, heq, how,
      search_list]
    by_cases hE : is_region_equal lck.l_start lck.l_len r = true
    · right
      rw [if_pos hE, if_pos hE]
      by_cases hO : is_owner h r = true
      · rw [if_pos hO, if_pos hO]
        exact ⟨0, r :: S, f, rfl, rfl, at_restart hat, rfl, rfl⟩
      · rw [if_neg hO, if_neg hO]
        have hflds := add_owner_fields h r0
        have hr0len : r0.len ≠ 0 := by
          have := hat.2.1 r (by simp)
          rw [← hcore] at this
          exact this
        have hstep := at_set_step (x := (add_owner h r0).2) hat hr0 hflds.1
          (by rw [hflds.2.1]; exact hr0len)
        have hc2 := add_owner_core h r0
        rw [hcore] at hc2
        refine ⟨(add_owner h r0).1, core (add_owner h r0).2 :: S, _, ?_, rfl, hstep, rfl, rfl⟩
        rw [hc2]
        rfl
    · rw [if_neg hE, if_neg hE]
      rcases ih f r0.next_lock _ n hnext hn with ⟨h1, h2⟩ | ⟨c, S2, g, h1, h2, h3, h4, h5⟩
      · left
        rw [h1, h2]
        exact ⟨rfl, rfl⟩
      · right
        rw [h1, h2]
        exact ⟨c, r :: S2, g, rfl, rfl, by simpa using h3, h4, h5⟩

/-! ## Granted requests -/

theorem rl_fcntl_write_grant {alive : Int → Bool} {pos size : Int} {h : owner}
    {f g : rl_open_file} {lck : flock} (hd : h.des ≠ FILE_UNK) (hwf : well_formed f)
    (ha : owners_alive alive f) (hw : lck.l_whence = SEEK_SET) (hlen : 0 < lck.l_len)
    (ht : lck.l_type = F_WRLCK)
    (hres : rl_fcntl alive pos size h f F_SETLK lck = outcome.ret 0 g) :
    is_rl_compatible h f { lck with l_pid := h.proc } = some true
      ∧ add_write_lock_region h f { lck with l_pid := h.proc } = some (0, g) := by
  have hcmd : ¬ (h.des = FILE_UNK ∨ F_SETLK = F_GETLK) := by
    rintro (h1 | h1)
    · exact hd h1
    · exact absurd h1 (by decide)
  have hun : ¬ (lck.l_type = F_UNLCK) := by rw [ht]; decide
  have hrd : ¬ (lck.l_type = F_RDLCK) := by rw [ht]; decide
  unfold rl_fcntl at hres
  rw [if_neg hcmd, normalize_plain pos size h lck hw hlen] at hres
  simp only [rl_clear_dead_owners_id hwf ha, if_neg hun, if_neg hrd, if_pos ht] at hres
  cases hb : is_rl_compatible h f { lck with l_pid := h.proc } with
  | none => rw [hb] at hres; cases hres
  | some b =>
    rw [hb] at hres
    cases b with
    | false =>
      simp only at hres
      rw [if_neg (by decide)] at hres
      injection hres with h1 _
      exact absurd h1 (by decide)
    | true =>
      simp only at hres
      cases hadd : add_write_lock_region h f { lck with l_pid := h.proc } with
      | none => rw [hadd] at hres; cases hres
      | some res =>
        obtain ⟨code, g1⟩ := res
        rw [hadd] at hres
        injection hres with h1 h2
        rw [h1, h2]
        exact ⟨rfl, rfl⟩

theorem rl_fcntl_read_grant {alive : Int → Bool} {pos size : Int} {h : owner}
    {f g : rl_open_file} {lck : flock} (hd : h.des ≠ FILE_UNK) (hwf : well_formed f)
    (ha : owners_alive alive f) (hw : lck.l_whence = SEEK_SET) (hlen : 0 < lck.l_len)
    (ht : lck.l_type = F_RDLCK)
    (hres : rl_fcntl alive pos size h f F_SETLK lck = outcome.ret 0 g) :
    is_rl_compatible h f { lck with l_pid := h.proc } = some true
      ∧ add_read_lock_region h f { lck with l_pid := h.proc } = some (0, g) := by
  have hcmd : ¬ (h.des = FILE_UNK ∨ F_SETLK = F_GETLK) := by
    rintro (h1 | h1)
    · exact hd h1
    · exact absurd h1 (by decide)
  have hun : ¬ (lck.l_type = F_UNLCK) := by rw [ht]; decide
  unfold rl_fcntl at hres
  rw [if_neg hcmd, normalize_plain pos size h lck hw hlen] at hres
  simp only [rl_clear_dead_owners_id hwf ha, if_neg hun, if_pos ht] at hres
  cases hb : is_rl_compatible h f { lck with l_pid := h.proc } with
  | none => rw [hb] at hres; cases hres
  | some b =>
    rw [hb] at hres
    cases b with
    | false =>
      simp only at hres
      rw [if_neg (by decide)] at hres
      injection hres with h1 _
      exact absurd h1 (by decide)
    | true =>
      simp only at hres
      cases hadd : add_read_lock_region h f { lck with l_pid := h.proc } with
      | none => rw [hadd] at hres; cases hres
      | some res =>
        obtain ⟨code, g1⟩ := res
        rw [hadd] at hres
        injection hres with h1 h2
        rw [h1, h2]
        exact ⟨rfl, rfl⟩

/-- C1, as stated, fails: `hA` takes READ `[0, 10)`, `hC` takes READ `[5, 15)`, then `hA`
asks WRITE `[0, 3)`. All three requests return 0; the last one turns the whole READ record
of `hA` into WRITE `[0, 10)`, so that byte 7 is covered by a WRITE record owned by `hA` and
by the READ record `[5, 15)` of `hC`. -/
theorem write_exclusivity_broken :
    run_requests all_alive new_open_file
        [(hA, request F_RDLCK 0 10), (hC, request F_RDLCK 5 10), (hA, request F_WRLCK 0 3)]
      = some ([0, 0, 0],
          ⟨0, [⟨1, 0, 10, F_WRLCK, [hA]⟩, ⟨NEXT_NULL, 5, 10, F_RDLCK, [hC]⟩]
                ++ List.replicate 8 empty_slot, 0, 0⟩)
    ∧ covers ⟨1, 0, 10, F_WRLCK, [hA]⟩ 7 ∧ covers ⟨NEXT_NULL, 5, 10, F_RDLCK, [hC]⟩ 7
    ∧ hC ≠ hA := by
  decide

/-- C1, amended: on a well-formed table whose records start at non-negative offsets and
whose owners are all alive, after a non-blocking WRITE request of `h` for `[start, start+len)`
(`start ≥ 0`, `len > 0`, measured from the start of the file) that returns 0, a reachable
WRITE record owned by `h` alone contains the region, and no byte of the region is covered by
a reachable record that has an owner other than `h`. -/
theorem rl_fcntl_write_exclusive (alive : Int → Bool) (pos size : Int) (h : owner)
    (f g : rl_open_file) (lck : flock) (hd : h.des ≠ FILE_UNK) (hwf : well_formed f)
    (hs : starts_nonneg f) (ha : owners_alive alive f) (hw : lck.l_whence = SEEK_SET)
    (h0 : 0 ≤ lck.l_start) (hlen : 0 < lck.l_len) (ht : lck.l_type = F_WRLCK)
    (hres : rl_fcntl alive pos size h f F_SETLK lck = outcome.ret 0 g) :
    (∃ w ∈ reachable g, w.type = F_WRLCK ∧ w.lock_owners = [h]
        ∧ contains w lck.l_start lck.l_len)
      ∧ ∀ r ∈ reachable g, ∀ x, lck.l_start ≤ x → x < lck.l_start + lck.l_len → covers r x →
          ∀ o ∈ r.lock_owners, o = h := by
  obtain ⟨hcomp, hadd⟩ := rl_fcntl_write_grant hd hwf ha hw hlen ht hres
  refine ⟨write_record_listed { lck with l_pid := h.proc } hwf hs h0 hlen hadd, ?_⟩
  intro r hr x hx1 hx2 hcov o ho
  have hlist := add_write_lock_region_list { lck with l_pid := h.proc } hwf hs h0 hlen hadd
  have hmem := core_mem_of_reachable hlist hr
  rcases List.mem_cons.mp hmem with heq | hmem
  · have : r.lock_owners = [h] := congrArg rl_lock.lock_owners heq
    rw [this] at ho
    simpa using ho
  · by_contra hne
    obtain ⟨r1, hr1, e1, e2, e3, hsub⟩ := merge_list_owners h (write_match h)
      { lck with l_pid := h.proc } _ h0 hlen (at_records_ok hwf hs) (core r) hmem
    obtain ⟨r0, hr0, rfl⟩ := List.mem_map.mp hr1
    obtain ⟨b, hb, hiff⟩ := oracle_false_iff h f { lck with l_pid := h.proc } hwf hlen
      (Or.inr ht)
    rw [hcomp] at hb
    have hbt : b = true := (Option.some.inj hb).symm
    have hfalse : b = false := by
      apply hiff.mpr
      refine ⟨r0, hr0, ⟨x, ⟨hx1, hx2⟩, ?_⟩, ⟨o, hsub o ho, hne⟩, Or.inl ht⟩
      have e1b : r.starting_offset = r0.starting_offset := e1
      have e2b : r.len = r0.len := e2
      unfold covers at hcov ⊢
      rw [← e1b, ← e2b]
      exact hcov
    rw [hbt] at hfalse
    cases hfalse

/-- C1, amended, instance: `hA` holds READ `[0, 500)` and READ `[1000, 1500)` and is
granted WRITE `[0, 1500)`. -/
theorem rl_fcntl_write_exclusive_witness :
    (∃ w ∈ reachable table_write_A, w.type = F_WRLCK ∧ w.lock_owners = [hA]
        ∧ contains w 0 1500)
      ∧ ∀ r ∈ reachable table_write_A, ∀ x, (0 : Int) ≤ x → x < 0 + 1500 → covers r x →
          ∀ o ∈ r.lock_owners, o = hA :=
  rl_fcntl_write_exclusive all_alive 0 0 hA table_two_reads table_write_A
    (request F_WRLCK 0 1500) (by decide) (by decide) (by decide) (by decide) (by decide)
    (by decide) (by decide) (by decide) (by decide)

/-! ## Read acquisition by insertion -/

theorem search_list_none {h : owner} {lck : flock} {L : List rl_lock}
    (hne : ∀ r ∈ L, is_region_equal lck.l_start lck.l_len r = false) :
    search_list h lck L = none := by
  induction L with
  | nil => rfl
  | cons r L ih =>
    simp only [search_list]
    rw [hne r (List.mem_cons_self r L)]
    simp only [Bool.false_eq_true, if_false, Option.map_eq_none']
    exact ih (fun x hx => hne x (List.mem_cons_of_mem r hx))

/-- The list of records after a successful `add_read_lock_region` when no record has
exactly the requested region. -/
theorem add_read_lock_region_list {h : owner} {f g : rl_open_file} (lck : flock)
    (hwf : well_formed f) (hs : starts_nonneg f) (h0 : 0 ≤ lck.l_start) (hlen : 0 < lck.l_len)
    (hne : ∀ r ∈ reachable f, ¬ (r.starting_offset = lck.l_start ∧ r.len = lck.l_len))
    (hres : add_read_lock_region h f lck = some (0, g)) :
    (reachable g).map core
      = new_rec h (merge_list h (read_match h) lck ((reachable f).map core)).1.l_start
          (merge_list h (read_match h) lck ((reachable f).map core)).1.l_len F_RDLCK
        :: (merge_list h (read_match h) lck ((reachable f).map core)).2 := by
  have hat := at_of_well_formed hwf
  have hnone : search_list h lck ((reachable f).map core) = none := by
    apply search_list_none
    intro r hr
    obtain ⟨r0, hr0, rfl⟩ := List.mem_map.mp hr
    have := hne r0 hr0
    simp only [is_region_equal, core, Bool.and_eq_false_imp, decide_eq_true_eq,
      decide_eq_false_iff_not]
    intro h1 h2
    exact this ⟨h1.symm, h2.symm⟩
  have hsearch : add_read_search h lck SCAN_FUEL f f.first = some none := by
    rcases add_read_search_eq h lck _ f f.first [] SCAN_FUEL hat (scan_fuel_ok hat)
      with ⟨_, h2⟩ | ⟨c, S2, g2, h1, _⟩
    · exact h2
    · rw [hnone] at h1
      cases h1
  obtain ⟨g1, hg1, hat1, _⟩ :=
    add_read_merge_eq h _ f lck f.first [] SCAN_FUEL hat (scan_fuel_ok hat)
  unfold add_read_lock_region at hres
  rw [hsearch] at hres
  simp only [hg1] at hres
  have hext := merge_list_region h (read_match h) lck ((reachable f).map core) lck
    (extends_region_refl h0 hlen) (at_records_ok hwf hs)
  have hne2 : (merge_list h (read_match h) lck ((reachable f).map core)).1.l_len ≠ 0 := by
    have := hext.2.2.2.1
    omega
  exact at_reachable_eq (add_lock_ok (by simpa using hat1) hne2 (Option.some.inj hres))

theorem touches_of_intersects {start len : Int} {r : rl_lock}
    (h : intersects start len r) : touches start len r := by
  rw [intersects_iff] at h
  unfold touches
  omega

/-- C10, as stated, fails: `hA` takes READ `[0, 100)` and then WRITE `[100, 200)`, as
`test_cross_process` does. Both requests return 0 and leave two distinct records that
share the owner `hA` and touch at offset 100. -/
theorem same_owner_adjacent :
    run_requests all_alive new_open_file
        [(hA, request F_RDLCK 0 100), (hA, request F_WRLCK 100 100)]
      = some ([0, 0],
          ⟨1, [⟨NEXT_NULL, 0, 100, F_RDLCK, [hA]⟩, ⟨0, 100, 100, F_WRLCK, [hA]⟩]
                ++ List.replicate 8 empty_slot, 0, 0⟩)
    ∧ reachable ⟨1, [⟨NEXT_NULL, 0, 100, F_RDLCK, [hA]⟩, ⟨0, 100, 100, F_WRLCK, [hA]⟩]
                ++ List.replicate 8 empty_slot, 0, 0⟩
        = [⟨0, 100, 100, F_WRLCK, [hA]⟩, ⟨NEXT_NULL, 0, 100, F_RDLCK, [hA]⟩]
    ∧ touches 0 100 ⟨0, 100, 100, F_WRLCK, [hA]⟩ := by
  decide

/-- C10, amended: on a well-formed table whose records start at non-negative offsets and
whose owners are all alive, a non-blocking READ or WRITE request of `h` for a region with
`start ≥ 0` and `len > 0` that returns 0 and, for READ, finds no record with exactly that
region, puts a record of the requested type owned by `h` alone and containing the region at
the head of the list; no other reachable record with `h` among its owners intersects the
region, none of the requested type touches it, and after a READ request none touches it. -/
theorem rl_fcntl_insert_separates (alive : Int → Bool) (pos size : Int) (h : owner)
    (f g : rl_open_file) (lck : flock) (hd : h.des ≠ FILE_UNK) (hwf : well_formed f)
    (hs : starts_nonneg f) (ha : owners_alive alive f) (hw : lck.l_whence = SEEK_SET)
    (h0 : 0 ≤ lck.l_start) (hlen : 0 < lck.l_len)
    (ht : lck.l_type = F_RDLCK ∨ lck.l_type = F_WRLCK)
    (hne : lck.l_type = F_RDLCK →
      ∀ r ∈ reachable f, ¬ (r.starting_offset = lck.l_start ∧ r.len = lck.l_len))
    (hres : rl_fcntl alive pos size h f F_SETLK lck = outcome.ret 0 g) :
    ∃ n rest, reachable g = n :: rest ∧ n.type = lck.l_type ∧ n.lock_owners = [h]
      ∧ contains n lck.l_start lck.l_len
      ∧ ∀ r ∈ rest, h ∈ r.lock_owners →
          ¬ intersects lck.l_start lck.l_len r
          ∧ (r.type = lck.l_type ∨ lck.l_type = F_RDLCK → ¬ touches lck.l_start lck.l_len r) := by
  rcases ht with ht | ht
  · obtain ⟨_, hadd⟩ := rl_fcntl_read_grant hd hwf ha hw hlen ht hres
    have hlist := add_read_lock_region_list { lck with l_pid := h.proc } hwf hs h0 hlen
      (hne ht) hadd
    have hext := merge_list_region h (read_match h) { lck with l_pid := h.proc }
      ((reachable f).map core) _ (extends_region_refl h0 hlen) (at_records_ok hwf hs)
    obtain ⟨n, rest, hg, hn, hrest⟩ := List.map_eq_cons_iff.mp hlist
    refine ⟨n, rest, hg, ?_, congrArg rl_lock.lock_owners hn, ?_, ?_⟩
    · rw [ht]
      exact congrArg rl_lock.type hn
    · have e1 := congrArg rl_lock.starting_offset hn
      have e2 := congrArg rl_lock.len hn
      simp only [core, new_rec] at e1 e2
      unfold contains
      rw [e1, e2]
      exact ⟨hext.1, hext.2.1⟩
    · intro r hr hown
      have hmem : core r ∈ (merge_list h (read_match h) { lck with l_pid := h.proc }
          ((reachable f).map core)).2 := by
        rw [← hrest]
        exact List.mem_map_of_mem _ hr
      have hnt := merge_list_read_separated h { lck with l_pid := h.proc } _ h0 hlen
        (at_records_ok hwf hs) (core r) hmem hown
      exact ⟨fun hi => hnt (touches_of_intersects hi), fun _ => hnt⟩
  · obtain ⟨_, hadd⟩ := rl_fcntl_write_grant hd hwf ha hw hlen ht hres
    have hlist := add_write_lock_region_list { lck with l_pid := h.proc } hwf hs h0
      hlen hadd
    have hext := merge_list_region h (write_match h) { lck with l_pid := h.proc }
      ((reachable f).map core) _ (extends_region_refl h0 hlen) (at_records_ok hwf hs)
    obtain ⟨n, rest, hg, hn, hrest⟩ := List.map_eq_cons_iff.mp hlist
    refine ⟨n, rest, hg, ?_, congrArg rl_lock.lock_owners hn, ?_, ?_⟩
    · rw [ht]
      exact congrArg rl_lock.type hn
    · have e1 := congrArg rl_lock.starting_offset hn
      have e2 := congrArg rl_lock.len hn
      simp only [core, new_rec] at e1 e2
      unfold contains
      rw [e1, e2]
      exact ⟨hext.1, hext.2.1⟩
    · intro r hr hown
      have hmem : core r ∈ (merge_list h (write_match h) { lck with l_pid := h.proc }
          ((reachable f).map core)).2 := by
        rw [← hrest]
        exact List.mem_map_of_mem _ hr
      have hsep := merge_list_write_separated h { lck with l_pid := h.proc } _ h0 hlen
        (at_records_ok hwf hs) (core r) hmem hown
      refine ⟨hsep.1, ?_⟩
      rintro (hty | hrd)
      · exact hsep.2 hty
      · rw [ht] at hrd
        exact absurd hrd (by decide)

/-- C10, amended, instance: `hA` holds READ `[0, 100)` and is granted WRITE `[100, 200)`;
the READ record stays, it touches the new record but is of the other type. -/
theorem rl_fcntl_insert_separates_witness :
    ∃ n rest, reachable table_read_write_A = n :: rest ∧ n.type = F_WRLCK
      ∧ n.lock_owners = [hA] ∧ contains n 100 100
      ∧ ∀ r ∈ rest, hA ∈ r.lock_owners →
          ¬ intersects 100 100 r
          ∧ (r.type = F_WRLCK ∨ F_WRLCK = F_RDLCK → ¬ touches 100 100 r) :=
  rl_fcntl_insert_separates all_alive 0 0 hA table_read_A table_read_write_A
    (request F_WRLCK 100 100) (by decide) (by decide) (by decide) (by decide) (by decide)
    (by decide) (by decide) (by decide) (by decide) (by decide)

/-! ## The loop of `delete_lock_region` -/

theorem core_starting_offset (r : rl_lock) : (core r).starting_offset = r.starting_offset := rfl

theorem core_len (r : rl_lock) : (core r).len = r.len := rfl

theorem core_type (r : rl_lock) : (core r).type = r.type := rfl

theorem core_lock_owners (r : rl_lock) : (core r).lock_owners = r.lock_owners := rfl

theorem is_region_intersection_core (a b : Int) (r : rl_lock) :
    is_region_intersection a b (core r) = is_region_intersection a b r := rfl

theorem is_owner_core (h : owner) (r : rl_lock) : is_owner h (core r) = is_owner h r := rfl

theorem fst_fail_ne (f : rl_open_file) : ((-1 : Int), f).1 ≠ 0 := by
  show (-1 : Int) ≠ 0
  decide

theorem fst_ok_eq (f : rl_open_file) : ¬ (((0 : Int), f).1 ≠ 0) := by
  show ¬ ((0 : Int) ≠ 0)
  decide

theorem refines_frame {f f1 : rl_open_file} {res : Option (Int × rl_open_file)}
    {ares : Option (Int × List rl_lock)} (hr : refines f1 res ares)
    (hb : f1.blockCnt = f.blockCnt) (hc : f1.refCnt = f.refCnt) : refines f res ares := by
  unfold refines at hr ⊢
  cases ares with
  | none => exact hr
  | some x =>
    obtain ⟨c, L⟩ := x
    obtain ⟨g, h1, h2, h3, h4⟩ := hr
    exact ⟨g, h1, h2, by rw [h3, hb], by rw [h4, hc]⟩

theorem refines_fail {f : rl_open_file} {L : List rl_lock} (hat : At f f.first [] L) :
    refines f (some (-1, f)) (some (-1, L)) :=
  ⟨f, rfl, hat, rfl, rfl⟩

/-- One successful `add_lock` followed by `delete_owner` on the slot under the cursor. -/
theorem at_add_then_delete {f : rl_open_file} {i : Nat} {P S : List rl_lock} {r : rl_lock}
    (h : owner) (lck1 : flock) (hat : At f (i : Int) P (r :: S)) (hlen : lck1.l_len ≠ 0) :
    (free_count f.lock_table = 0 ∧ add_lock h f lck1 (type_at f (i : Int)) = (-1, f))
    ∨ ∃ g1 g2, add_lock h f lck1 (type_at f (i : Int)) = (0, g1)
        ∧ At g1 (i : Int) (new_rec h lck1.l_start lck1.l_len r.type :: P) (r :: S)
        ∧ free_count g1.lock_table + 1 = free_count f.lock_table
        ∧ g1.blockCnt = f.blockCnt ∧ g1.refCnt = f.refCnt
        ∧ delete_owner h g1 (i : Int) = some g2
        ∧ At g2 g2.first []
            (new_rec h lck1.l_start lck1.l_len r.type :: (P ++ drop_rec h r ++ S))
        ∧ free_count g2.lock_table + 1 = free_count f.lock_table + dropped h r
        ∧ g2.blockCnt = f.blockCnt ∧ g2.refCnt = f.refCnt := by
  have hty := at_type_at_eq hat
  rcases at_add_lock_step h lck1 (type_at f (i : Int)) hat hlen with hfail | ⟨g1, hg1, hat1, hfc1, hb1, hc1⟩
  · exact Or.inl hfail
  · right
    rw [hty] at hat1
    obtain ⟨i2, r1, hidx, hr1, _, _⟩ := at_cons_inv hat1
    have hi : i2 = i := (Int.ofNat_inj.mp hidx).symm
    subst hi
    obtain ⟨g2, hg2, hat2, hfc2, hb2, hc2⟩ := at_delete_owner_step h hat1 hr1
    refine ⟨g1, g2, hg1, hat1, hfc1, hb1, hc1, hg2, ?_, by omega, by rw [hb2, hb1],
      by rw [hc2, hc1]⟩
    simpa using at_restart hat2

theorem delete_lock_region_loop_refines (h : owner) (lck : flock) :
    ∀ (n : Nat) (f : rl_open_file) (idx : Int) (P S : List rl_lock), At f idx P S →
      refines f (delete_lock_region_loop h lck n f idx)
        (unlock_list h lck n (free_count f.lock_table) P S) := by
  intro n
  induction n with
  | zero =>
    intro f idx P S _
    simp only [delete_lock_region_loop, unlock_list, refines]
  | succ n ih =>
    intro f idx P S hat
    cases S with
    | nil =>
      have := at_idx_neg hat
      rw [delete_lock_region_loop, if_neg (by omega)]
      simp only [unlock_list, refines]
      exact ⟨f, rfl, by simpa using at_restart hat, rfl, rfl⟩
    | cons r S =>
      obtain ⟨i, r0, hidx, hr0, hcore, hnext⟩ := at_cons_inv hat
      subst hidx
      subst hcore
      have hrlen : r0.len ≠ 0 := hat.2.1 (core r0) (by simp)
      rw [delete_lock_region_loop]
      simp only [Int.toNat_ofNat, hr0, ge_iff_le, Int.ofNat_zero_le, if_true, unlock_list,
        core_starting_offset, core_len, is_region_intersection_core, is_owner_core]
      by_cases hm : (is_region_intersection lck.l_start lck.l_len r0 && is_owner h r0) = true
      · rw [if_pos hm, if_pos hm]
        by_cases c1 : lck.l_start ≤ r0.starting_offset
            ∧ r0.starting_offset + r0.len ≤ lck.l_start + lck.l_len
        · rw [if_pos c1, if_pos c1]
          obtain ⟨g1, hg1, hat1, hfc1, hb1, hc1⟩ := at_delete_owner_step h hat hr0
          rw [hg1]
          simp only
          have := ih g1 r0.next_lock _ S hat1
          rw [hfc1] at this
          exact refines_frame this hb1 hc1
        · rw [if_neg c1, if_neg c1]
          by_cases c2 : lck.l_start > r0.starting_offset
              ∧ lck.l_start + lck.l_len < r0.starting_offset + r0.len
          · rw [if_pos c2, if_pos c2]
            have hL : (⟨lck.l_type, lck.l_whence, r0.starting_offset,
                lck.l_start - r0.starting_offset, lck.l_pid⟩ : flock).l_len ≠ 0 := by
              show lck.l_start - r0.starting_offset ≠ 0
              omega
            have hR : (⟨lck.l_type, lck.l_whence, lck.l_start + lck.l_len,
                r0.starting_offset + r0.len - (lck.l_start + lck.l_len), lck.l_pid⟩ : flock).l_len
                ≠ 0 := by
              show r0.starting_offset + r0.len - (lck.l_start + lck.l_len) ≠ 0
              omega
            rcases at_add_lock_step h _ (type_at f (i : Int)) hat hL
              with ⟨hk, hfail⟩ | ⟨g1, hg1, hat1, hfc1, hb1, hc1⟩
            · rw [hfail, if_pos (fst_fail_ne f), if_pos hk]
              exact refines_fail (by simpa using at_restart hat)
            · rw [at_type_at_eq hat] at hat1
              rw [hg1, if_neg (fst_ok_eq g1),
                if_neg (show ¬ free_count f.lock_table = 0 by omega)]
              rcases at_add_then_delete h _ hat1 hR
                with ⟨hk1, hfail⟩ | ⟨g2, g3, hg2, _, hfc2, hb2, hc2, hg3, hat3, hfc3, hb3, hc3⟩
              · rw [hfail, if_pos (fst_fail_ne g1),
                  if_pos (show free_count f.lock_table = 1 by omega)]
                exact ⟨g1, rfl, by simpa using at_restart hat1, hb1, hc1⟩
              · rw [hg2, if_neg (fst_ok_eq g2), hg3,
                  if_neg (show ¬ free_count f.lock_table = 1 by omega)]
                simp only
                have := ih g3 g3.first [] _ hat3
                have hfc : free_count g3.lock_table
                    = free_count f.lock_table - 2 + dropped h (core r0) := by omega
                rw [hfc] at this
                exact refines_frame this (by rw [hb3, hb1]) (by rw [hc3, hc1])
          · rw [if_neg c2, if_neg c2]
            by_cases c3 : lck.l_start ≤ r0.starting_offset
                ∧ lck.l_start + lck.l_len ≤ r0.starting_offset + r0.len
            · rw [if_pos c3, if_pos c3]
              have hR : (⟨lck.l_type, lck.l_whence, lck.l_start + lck.l_len,
                  r0.starting_offset + r0.len - (lck.l_start + lck.l_len), lck.l_pid⟩
                  : flock).l_len ≠ 0 := by
                show r0.starting_offset + r0.len - (lck.l_start + lck.l_len) ≠ 0
                omega
              rcases at_add_then_delete h _ hat hR
                with ⟨hk, hfail⟩ | ⟨g1, g2, hg1, _, hfc1, hb1, hc1, hg2, hat2, hfc2, hb2, hc2⟩
              · rw [hfail, if_pos (fst_fail_ne f), if_pos hk]
                exact refines_fail (by simpa using at_restart hat)
              · rw [hg1, if_neg (fst_ok_eq g1), hg2,
                  if_neg (show ¬ free_count f.lock_table = 0 by omega)]
                simp only
                have := ih g2 g2.first [] _ hat2
                have hfc : free_count g2.lock_table
                    = free_count f.lock_table - 1 + dropped h (core r0) := by omega
                rw [hfc] at this
                exact refines_frame this hb2 hc2
            · rw [if_neg c3, if_neg c3]
              by_cases c4 : r0.starting_offset ≤ lck.l_start
                  ∧ r0.starting_offset + r0.len ≤ lck.l_start + lck.l_len
              · rw [if_pos c4, if_pos c4]
                have hL : (⟨lck.l_type, lck.l_whence, r0.starting_offset,
                    lck.l_start - r0.starting_offset, lck.l_pid⟩ : flock).l_len ≠ 0 := by
                  show lck.l_start - r0.starting_offset ≠ 0
                  omega
                rcases at_add_then_delete h _ hat hL
                  with ⟨hk, hfail⟩ | ⟨g1, g2, hg1, _, hfc1, hb1, hc1, hg2, hat2, hfc2, hb2, hc2⟩
                · rw [hfail, if_pos (fst_fail_ne f), if_pos hk]
                  exact refines_fail (by simpa using at_restart hat)
                · rw [hg1, if_neg (fst_ok_eq g1), hg2,
                    if_neg (show ¬ free_count f.lock_table = 0 by omega)]
                  simp only
                  have := ih g2 g2.first [] _ hat2
                  have hfc : free_count g2.lock_table
                      = free_count f.lock_table - 1 + dropped h (core r0) := by omega
                  rw [hfc] at this
                  exact refines_frame this hb2 hc2
              · rw [if_neg c4, if_neg c4]
                exact ih f (i : Int) P _ hat
      · rw [if_neg hm, if_neg hm]
        exact ih f r0.next_lock _ S hnext

/-- The result of `delete_lock_region` in terms of the list of records. -/
theorem delete_lock_region_refines (h : owner) (lck : flock) {f : rl_open_file}
    {L : List rl_lock} (hat : At f f.first [] L) :
    refines f (delete_lock_region h f lck)
      (unlock_list h lck RESCAN_FUEL (free_count f.lock_table) [] L) :=
  delete_lock_region_loop_refines h lck RESCAN_FUEL f f.first [] L hat

/-! ## Release at byte level -/

theorem holds_nil (h : owner) (x t : Int) : holds h [] x t ↔ False := by
  simp [holds]

theorem holds_cons (h : owner) (r : rl_lock) (L : List rl_lock) (x t : Int) :
    holds h (r :: L) x t ↔ (h ∈ r.lock_owners ∧ r.type = t ∧ covers r x) ∨ holds h L x t := by
  simp [holds]

theorem holds_append (h : owner) (A B : List rl_lock) (x t : Int) :
    holds h (A ++ B) x t ↔ holds h A x t ∨ holds h B x t := by
  simp only [holds, List.mem_append]
  constructor
  · rintro ⟨r, hr | hr, hrest⟩
    · exact Or.inl ⟨r, hr, hrest⟩
    · exact Or.inr ⟨r, hr, hrest⟩
  · rintro (⟨r, hr, hrest⟩ | ⟨r, hr, hrest⟩)
    · exact ⟨r, Or.inl hr, hrest⟩
    · exact ⟨r, Or.inr hr, hrest⟩

theorem holds_drop_rec (h : owner) (r : rl_lock) (x t : Int) :
    holds h (drop_rec h r) x t ↔ False := by
  unfold drop_rec
  split_ifs
  · exact holds_nil h x t
  · rw [holds_cons, holds_nil]
    simp only [or_false, iff_false, not_and]
    intro hm
    exact absurd hm (not_mem_drop_owner h r.lock_owners)

theorem holds_map_core (h : owner) (L : List rl_lock) (x t : Int) :
    holds h (L.map core) x t ↔ holds h L x t := by
  simp only [holds, List.mem_map]
  constructor
  · rintro ⟨r, ⟨r0, hr0, rfl⟩, h1, h2, h3⟩
    exact ⟨r0, hr0, h1, h2, h3⟩
  · rintro ⟨r0, hr0, h1, h2, h3⟩
    exact ⟨core r0, ⟨r0, hr0, rfl⟩, h1, h2, h3⟩

theorem pos_drop_rec {h : owner} {r x : rl_lock} (hr : 0 < r.len) (hx : x ∈ drop_rec h r) :
    0 < x.len := by
  unfold drop_rec at hx
  split_ifs at hx
  · simp at hx
  · simp only [List.mem_singleton] at hx
    rw [hx]
    exact hr

theorem no_owner_drop_rec {h : owner} {r x : rl_lock} (hx : x ∈ drop_rec h r) :
    h ∉ x.lock_owners := by
  unfold drop_rec at hx
  split_ifs at hx
  · simp at hx
  · simp only [List.mem_singleton] at hx
    rw [hx]
    exact not_mem_drop_owner h r.lock_owners

theorem code_fail_ne (A B : List rl_lock) : some ((-1 : Int), A) ≠ some ((0 : Int), B) := by
  intro h
  injection h with h
  injection h with h1
  exact absurd h1 (by decide)

theorem holds_replace (h : owner) (lck : flock) (r : rl_lock) (news P S : List rl_lock)
    (x t : Int) (hown : h ∈ r.lock_owners)
    (hnew : ¬ in_region lck x → (holds h news x t ↔ (r.type = t ∧ covers r x))) :
    (¬ in_region lck x ∧ holds h ([] ++ (news ++ (P ++ drop_rec h r ++ S))) x t)
      ↔ (¬ in_region lck x ∧ holds h (P ++ r :: S) x t) := by
  simp only [List.nil_append, holds_append, holds_cons, holds_drop_rec]
  constructor
  · rintro ⟨h1, h2⟩
    have := hnew h1
    exact ⟨h1, by tauto⟩
  · rintro ⟨h1, h2⟩
    have := hnew h1
    exact ⟨h1, by tauto⟩

/-- The loop of `delete_lock_region` on the list of records: when it ends with code 0,
`h` owns a byte with a type afterwards exactly if the byte is outside the region and `h`
owned it with that type before. -/
theorem unlock_list_release (h : owner) (lck : flock) (hlen : 0 < lck.l_len) :
    ∀ (n k : Nat) (P S L2 : List rl_lock), unlock_list h lck n k P S = some (0, L2) →
      (∀ r ∈ P ++ S, 0 < r.len) →
      (∀ r ∈ P, h ∈ r.lock_owners → ¬ intersects lck.l_start lck.l_len r) →
      ∀ x t, holds h L2 x t ↔ (¬ in_region lck x ∧ holds h (P ++ S) x t) := by
  intro n
  induction n with
  | zero => intro k P S L2 hres; simp [unlock_list] at hres
  | succ n ih =>
    intro k P S L2 hres hpos hpre x t
    cases S with
    | nil =>
      simp only [unlock_list, Option.some.injEq, Prod.mk.injEq, true_and] at hres
      subst hres
      simp only [List.append_nil]
      constructor
      · intro hh
        refine ⟨?_, hh⟩
        obtain ⟨r, hr, hown, _, hcov⟩ := hh
        intro hin
        exact hpre r hr hown ⟨x, hin, hcov⟩
      · exact fun hh => hh.2
    | cons r S =>
      have hrpos : 0 < r.len := hpos r (by simp)
      have hposP : ∀ y ∈ P, 0 < y.len := fun y hy => hpos y (by simp [hy])
      have hposS : ∀ y ∈ S, 0 < y.len := fun y hy => hpos y (by simp [hy])
      simp only [unlock_list] at hres
      by_cases hm : (is_region_intersection lck.l_start lck.l_len r && is_owner h r) = true
      · rw [if_pos hm] at hres
        simp only [Bool.and_eq_true] at hm
        have hown : h ∈ r.lock_owners := is_owner_iff.mp hm.2
        have hint := (intersects_iff.mp ((is_region_intersection_iff hlen hrpos).mp hm.1))
        by_cases c1 : lck.l_start ≤ r.starting_offset
            ∧ lck.l_start + lck.l_len ≥ r.starting_offset + r.len
        · rw [if_pos c1] at hres
          have := ih _ _ _ _ hres
            (by
              intro y hy
              simp only [List.mem_append] at hy
              rcases hy with (hy | hy) | hy
              · exact hposP y hy
              · exact pos_drop_rec hrpos hy
              · exact hposS y hy)
            (by
              intro y hy hyo
              simp only [List.mem_append] at hy
              rcases hy with hy | hy
              · exact hpre y hy hyo
              · exact absurd hyo (no_owner_drop_rec hy))
            x t
          rw [this]
          simp only [holds_append, holds_cons, holds_drop_rec, in_region, covers]
          constructor
          · rintro ⟨h1, h2⟩
            exact ⟨h1, by tauto⟩
          · rintro ⟨h1, h2⟩
            refine ⟨h1, ?_⟩
            rcases h2 with h2 | ⟨_, _, h3⟩ | h2
            · exact Or.inl (Or.inl h2)
            · exfalso
              apply h1
              omega
            · exact Or.inr h2
        · rw [if_neg c1] at hres
          by_cases c2 : lck.l_start > r.starting_offset
              ∧ lck.l_start + lck.l_len < r.starting_offset + r.len
          · rw [if_pos c2] at hres
            by_cases hk0 : k = 0
            · rw [if_pos hk0] at hres
              exact absurd hres (code_fail_ne _ _)
            · rw [if_neg hk0] at hres
              by_cases hk1 : k = 1
              · rw [if_pos hk1] at hres
                exact absurd hres (code_fail_ne _ _)
              · rw [if_neg hk1] at hres
                have := ih _ _ _ _ hres
                  (by
                    intro y hy
                    simp only [List.nil_append, List.mem_cons, List.mem_append] at hy
                    rcases hy with hy | hy | (hy | hy) | hy
                    · subst hy
                      show 0 < r.starting_offset + r.len - (lck.l_start + lck.l_len)
                      omega
                    · subst hy
                      show 0 < lck.l_start - r.starting_offset
                      omega
                    · exact hposP y hy
                    · exact pos_drop_rec hrpos hy
                    · exact hposS y hy)
                  (by intro y hy; simp at hy)
                  x t
                rw [this]
                exact holds_replace h lck r [right_piece h lck r, left_piece h lck r] P S x t hown
                  (by
                    intro hout
                    simp only [holds_cons, holds_nil, right_piece, left_piece, new_rec, covers,
                      in_region, List.mem_singleton, true_and, or_false] at hout ⊢
                    constructor
                    · rintro (⟨hty, hc⟩ | ⟨hty, hc⟩)
                      · exact ⟨hty, by omega⟩
                      · exact ⟨hty, by omega⟩
                    · rintro ⟨hty, hc⟩
                      by_cases hx : x < lck.l_start
                      · exact Or.inr ⟨hty, by omega⟩
                      · exact Or.inl ⟨hty, by omega⟩)
          · rw [if_neg c2] at hres
            by_cases c3 : lck.l_start ≤ r.starting_offset
                ∧ lck.l_start + lck.l_len ≤ r.starting_offset + r.len
            · rw [if_pos c3] at hres
              by_cases hk0 : k = 0
              · rw [if_pos hk0] at hres
                exact absurd hres (code_fail_ne _ _)
              · rw [if_neg hk0] at hres
                have := ih _ _ _ _ hres
                  (by
                    intro y hy
                    simp only [List.nil_append, List.mem_cons, List.mem_append] at hy
                    rcases hy with hy | (hy | hy) | hy
                    · subst hy
                      show 0 < r.starting_offset + r.len - (lck.l_start + lck.l_len)
                      omega
                    · exact hposP y hy
                    · exact pos_drop_rec hrpos hy
                    · exact hposS y hy)
                  (by intro y hy; simp at hy)
                  x t
                rw [this]
                exact holds_replace h lck r [right_piece h lck r] P S x t hown
                  (by
                    intro hout
                    simp only [holds_cons, holds_nil, right_piece, new_rec, covers,
                      in_region, List.mem_singleton, true_and, or_false] at hout ⊢
                    constructor
                    · rintro ⟨hty, hc⟩
                      exact ⟨hty, by omega⟩
                    · rintro ⟨hty, hc⟩
                      exact ⟨hty, by omega⟩)
            · rw [if_neg c3] at hres
              by_cases c4 : lck.l_start ≥ r.starting_offset
                  ∧ lck.l_start + lck.l_len ≥ r.starting_offset + r.len
              · rw [if_pos c4] at hres
                by_cases hk0 : k = 0
                · rw [if_pos hk0] at hres
                  exact absurd hres (code_fail_ne _ _)
                · rw [if_neg hk0] at hres
                  have := ih _ _ _ _ hres
                    (by
                      intro y hy
                      simp only [List.nil_append, List.mem_cons, List.mem_append] at hy
                      rcases hy with hy | (hy | hy) | hy
                      · subst hy
                        show 0 < lck.l_start - r.starting_offset
                        omega
                      · exact hposP y hy
                      · exact pos_drop_rec hrpos hy
                      · exact hposS y hy)
                    (by intro y hy; simp at hy)
                    x t
                  rw [this]
                  exact holds_replace h lck r [left_piece h lck r] P S x t hown
                    (by
                      intro hout
                      simp only [holds_cons, holds_nil, left_piece, new_rec, covers,
                        in_region, List.mem_singleton, true_and, or_false] at hout ⊢
                      constructor
                      · rintro ⟨hty, hc⟩
                        exact ⟨hty, by omega⟩
                      · rintro ⟨hty, hc⟩
                        exact ⟨hty, by omega⟩)
              · exfalso
                omega
      · rw [if_neg hm] at hres
        have := ih _ _ _ _ hres (by simpa using hpos)
          (by
            intro y hy hyo
            simp only [List.mem_append, List.mem_singleton] at hy
            rcases hy with hy | hy
            · exact hpre y hy hyo
            · subst hy
              intro hi
              have h1 := (is_region_intersection_iff hlen hrpos).mpr hi
              have h2 := is_owner_iff.mpr hyo
              simp [h1, h2] at hm)
          x t
        rw [this]
        simp only [List.append_assoc, List.singleton_append]

theorem delete_lock_region_list {h : owner} {f g : rl_open_file} {lck : flock} {c : Int}
    (hwf : well_formed f) (hres : delete_lock_region h f lck = some (c, g)) :
    unlock_list h lck RESCAN_FUEL (free_count f.lock_table) [] ((reachable f).map core)
        = some (c, (reachable g).map core)
      ∧ At g g.first [] ((reachable g).map core) := by
  have href := delete_lock_region_refines h lck (at_of_well_formed hwf)
  unfold refines at href
  cases hu : unlock_list h lck RESCAN_FUEL (free_count f.lock_table) []
      ((reachable f).map core) with
  | none =>
    rw [hu] at href
    simp only at href
    rw [href] at hres
    cases hres
  | some res =>
    obtain ⟨c2, L2⟩ := res
    rw [hu] at href
    obtain ⟨g2, hg2, hat2, _, _⟩ := href
    rw [hg2] at hres
    injection hres with hres
    injection hres with h1 h2
    subst h1
    subst h2
    rw [at_reachable_eq hat2]
    exact ⟨rfl, hat2⟩

/-- C4: on a well-formed table, when `delete_lock_region` for `h` on a region of positive
length returns 0, then for every byte `x` and type `t`, `h` owns a reachable record of type
`t` covering `x` afterwards exactly if `x` is outside the region and `h` owned such a record
before; and no reachable record owned by `h` intersects the region afterwards. -/
theorem delete_lock_region_release (h : owner) (f g : rl_open_file) (lck : flock)
    (hwf : well_formed f) (hlen : 0 < lck.l_len)
    (hres : delete_lock_region h f lck = some (0, g)) :
    (∀ x t, holds h (reachable g) x t
        ↔ (¬ in_region lck x ∧ holds h (reachable f) x t))
      ∧ ∀ r ∈ reachable g, h ∈ r.lock_owners → ¬ intersects lck.l_start lck.l_len r := by
  obtain ⟨hlist, _⟩ := delete_lock_region_list hwf hres
  have hmain : ∀ x t, holds h (reachable g) x t
      ↔ (¬ in_region lck x ∧ holds h (reachable f) x t) := by
    intro x t
    have := unlock_list_release h lck hlen RESCAN_FUEL _ [] _ _ hlist
      (by
        intro r hr
        simp only [List.nil_append, List.mem_map] at hr
        obtain ⟨r0, hr0, rfl⟩ := hr
        exact hwf.2.2 r0 hr0)
      (by intro r hr; simp at hr) x t
    rw [holds_map_core, List.nil_append, holds_map_core] at this
    exact this
  refine ⟨hmain, ?_⟩
  intro r hr hown hint
  obtain ⟨x, hx, hcov⟩ := hint
  exact ((hmain x r.type).mp ⟨r, hr, hown, rfl, hcov⟩).1 hx

/-- C4, instance: `hA` holds READ `[0, 100)` and releases `[50, 100)`, as in `test_regions`. -/
theorem delete_lock_region_release_witness :
    (∀ x t, holds hA (reachable table_read_A_half) x t
        ↔ (¬ in_region (request F_UNLCK 50 50) x ∧ holds hA (reachable table_read_A) x t))
      ∧ ∀ r ∈ reachable table_read_A_half, hA ∈ r.lock_owners → ¬ intersects 50 50 r :=
  delete_lock_region_release hA table_read_A table_read_A_half (request F_UNLCK 50 50)
    (by decide) (by decide) (by decide)

/-! ## Split on unlock -/

theorem unlock_list_skip (h : owner) (lck : flock) :
    ∀ (X : List rl_lock) (n k : Nat) (P S : List rl_lock),
      (∀ y ∈ X, (is_region_intersection lck.l_start lck.l_len y && is_owner h y) = false) →
      unlock_list h lck (n + X.length) k P (X ++ S) = unlock_list h lck n k (P ++ X) S := by
  intro X
  induction X with
  | nil => intro n k P S _; simp
  | cons y X ih =>
    intro n k P S hX
    have hy := hX y (List.mem_cons_self y X)
    have : n + (y :: X).length = (n + X.length) + 1 := by simp; omega
    rw [this, List.cons_append, unlock_list, hy]
    simp only [Bool.false_eq_true, if_false]
    rw [ih n k (P ++ [y]) S (fun z hz => hX z (List.mem_cons_of_mem y hz))]
    simp

theorem drop_owner_only {h : owner} {os : List owner} (hall : ∀ o ∈ os, o = h) :
    drop_owner h os = [] := by
  apply List.eq_nil_iff_forall_not_mem.mpr
  intro o ho
  obtain ⟨h1, h2⟩ := mem_drop_owner.mp ho
  exact h2 (hall o h1)

/-- The split on the list of records. -/
theorem unlock_list_split (h : owner) (lck : flock) (A B : List rl_lock) (r : rl_lock)
    (k n : Nat) (hlen : 0 < lck.l_len)
    (hown : h ∈ r.lock_owners ∧ ∀ o ∈ r.lock_owners, o = h)
    (hother : ∀ y ∈ A ++ B, h ∉ y.lock_owners)
    (hin : r.starting_offset < lck.l_start
      ∧ lck.l_start + lck.l_len < r.starting_offset + r.len)
    (hk : 2 ≤ k) (hn : 2 * A.length + B.length + 4 ≤ n) :
    unlock_list h lck n k [] (A ++ r :: B)
      = some (0, right_piece h lck r :: left_piece h lck r :: (A ++ B)) := by
  have hnoA : ∀ y ∈ A,
      (is_region_intersection lck.l_start lck.l_len y && is_owner h y) = false := by
    intro y hy
    have : is_owner h y = false := by
      rw [Bool.eq_false_iff]
      intro ho
      exact hother y (List.mem_append_left B hy) (is_owner_iff.mp ho)
    simp [this]
  have hnoAB : ∀ y ∈ right_piece h lck r :: left_piece h lck r :: (A ++ B),
      (is_region_intersection lck.l_start lck.l_len y && is_owner h y) = false := by
    intro y hy
    simp only [List.mem_cons] at hy
    rcases hy with hy | hy | hy
    · subst hy
      have : is_region_intersection lck.l_start lck.l_len (right_piece h lck r) = false := by
        simp only [is_region_intersection, right_piece, new_rec, Bool.or_eq_false_iff,
          Bool.and_eq_false_imp, decide_eq_true_eq, decide_eq_false_iff_not]
        omega
      simp [this]
    · subst hy
      have : is_region_intersection lck.l_start lck.l_len (left_piece h lck r) = false := by
        simp only [is_region_intersection, left_piece, new_rec, Bool.or_eq_false_iff,
          Bool.and_eq_false_imp, decide_eq_true_eq, decide_eq_false_iff_not]
        omega
      simp [this]
    · have : is_owner h y = false := by
        rw [Bool.eq_false_iff]
        intro ho
        exact hother y hy (is_owner_iff.mp ho)
      simp [this]
  have hmatch : (is_region_intersection lck.l_start lck.l_len r && is_owner h r) = true := by
    have h1 : is_region_intersection lck.l_start lck.l_len r = true := by
      simp only [is_region_intersection, Bool.or_eq_true, Bool.and_eq_true, decide_eq_true_eq]
      omega
    simp [h1, is_owner_iff.mpr hown.1]
  have hdrop : drop_rec h r = [] := by
    simp [drop_rec, drop_owner_only hown.2]
  have hdropped : dropped h r = 1 := by
    simp [dropped, drop_owner_only hown.2]
  obtain ⟨m, rfl⟩ : ∃ m, n = (m + (A ++ B).length + 2 + 1 + 1) + A.length :=
    ⟨n - (2 * A.length + B.length + 4), by simp; omega⟩
  rw [unlock_list_skip h lck A _ k [] (r :: B) hnoA]
  rw [unlock_list, if_pos hmatch, if_neg (by omega), if_pos ⟨by omega, by omega⟩,
    if_neg (by omega), if_neg (by omega), hdrop, hdropped]
  have e : m + (A ++ B).length + 2 + 1
      = (m + 1) + (right_piece h lck r :: left_piece h lck r :: (A ++ B)).length := by
    simp; omega
  have e2 : right_piece h lck r :: left_piece h lck r :: ([] ++ A ++ [] ++ B)
      = (right_piece h lck r :: left_piece h lck r :: (A ++ B)) ++ [] := by simp
  rw [e, e2, unlock_list_skip h lck _ (m + 1) _ [] [] hnoAB]
  simp [unlock_list]

theorem filter_is_owner_core (h : owner) (L : List rl_lock) :
    (L.filter (fun r => is_owner h r)).map core
      = (L.map core).filter (fun r => is_owner h r) := by
  induction L with
  | nil => rfl
  | cons r L ih =>
    simp only [List.filter_cons, List.map_cons, is_owner_core]
    split_ifs
    · simp only [List.map_cons, ih]
    · exact ih

/-- C5: on a well-formed table whose list is `A ++ R :: B`, where `h` is the only owner of
`R`, `h` owns no record of `A` or `B`, the unlocked region `[u, v)` lies strictly inside the
region `[s, e)` of `R`, and at least two slots have length 0, `delete_lock_region` returns 0
and the list becomes: the piece `[v, e)`, the piece `[s, u)` (both of the type of `R`, both
owned by `h` alone), then the records of `A` and `B` unchanged; `R` is no longer listed,
and the two pieces are all the records that `h` owns. -/
theorem delete_lock_region_split (h : owner) (f : rl_open_file) (lck : flock)
    (A B : List rl_lock) (R : rl_lock) (hwf : well_formed f)
    (hreach : reachable f = A ++ R :: B)
    (hown : h ∈ R.lock_owners ∧ ∀ o ∈ R.lock_owners, o = h)
    (hother : ∀ y ∈ A ++ B, h ∉ y.lock_owners)
    (hin : R.starting_offset < lck.l_start
      ∧ lck.l_start + lck.l_len < R.starting_offset + R.len)
    (hlen : 0 < lck.l_len) (hfree : 2 ≤ free_count f.lock_table) :
    ∃ g, delete_lock_region h f lck = some (0, g)
      ∧ (reachable g).map core
          = new_rec h (lck.l_start + lck.l_len)
              (R.starting_offset + R.len - (lck.l_start + lck.l_len)) R.type
            :: new_rec h R.starting_offset (lck.l_start - R.starting_offset) R.type
            :: (A ++ B).map core
      ∧ ((reachable g).filter (fun r => is_owner h r)).map core
          = [new_rec h (lck.l_start + lck.l_len)
              (R.starting_offset + R.len - (lck.l_start + lck.l_len)) R.type,
             new_rec h R.starting_offset (lck.l_start - R.starting_offset) R.type] := by
  have hat := at_of_well_formed hwf
  have hlenL := at_length_le hat
  have href := delete_lock_region_refines h lck hat
  have hL : (reachable f).map core = A.map core ++ core R :: B.map core := by
    rw [hreach]
    simp
  have hsplit := unlock_list_split h lck (A.map core) (B.map core) (core R)
    (free_count f.lock_table) RESCAN_FUEL hlen hown
    (by
      intro y hy
      simp only [List.mem_append, List.mem_map] at hy
      rcases hy with ⟨y0, hy0, rfl⟩ | ⟨y0, hy0, rfl⟩
      · exact hother y0 (List.mem_append_left B hy0)
      · exact hother y0 (List.mem_append_right A hy0))
    hin hfree
    (by
      rw [hL] at hlenL
      simp only [List.length_nil, List.length_append, List.length_map, List.length_cons,
        NB_LOCKS] at hlenL
      simp only [List.length_map, RESCAN_FUEL, NB_LOCKS]
      omega)
  rw [hL, hsplit] at href
  obtain ⟨g, hg, hatg, _, _⟩ := href
  have hlist : (reachable g).map core
      = new_rec h (lck.l_start + lck.l_len)
          (R.starting_offset + R.len - (lck.l_start + lck.l_len)) R.type
        :: new_rec h R.starting_offset (lck.l_start - R.starting_offset) R.type
        :: (A ++ B).map core := by
    rw [at_reachable_eq hatg]
    simp [right_piece, left_piece, core]
  refine ⟨g, hg, hlist, ?_⟩
  have hnone : ((A ++ B).map core).filter (fun r => is_owner h r) = [] := by
    apply List.filter_eq_nil_iff.mpr
    intro y hy
    obtain ⟨y0, hy0, rfl⟩ := List.mem_map.mp hy
    intro ho
    exact hother y0 hy0 (is_owner_iff.mp ho)
  have h1 : is_owner h (new_rec h (lck.l_start + lck.l_len)
      (R.starting_offset + R.len - (lck.l_start + lck.l_len)) R.type) = true :=
    is_owner_iff.mpr (List.mem_singleton.mpr rfl)
  have h2 : is_owner h (new_rec h R.starting_offset (lck.l_start - R.starting_offset) R.type)
      = true := is_owner_iff.mpr (List.mem_singleton.mpr rfl)
  rw [filter_is_owner_core, hlist, List.filter_cons, if_pos h1, List.filter_cons, if_pos h2,
    hnone]

/-- C5, instance: `hA` holds WRITE `[0, 1000)` and releases `[200, 400)`. -/
theorem delete_lock_region_split_witness :
    ∃ g, delete_lock_region hA table_write_1000 (request F_UNLCK 200 200) = some (0, g)
      ∧ (reachable g).map core
          = new_rec hA (200 + 200) (0 + 1000 - (200 + 200)) F_WRLCK
            :: new_rec hA 0 (200 - 0) F_WRLCK
            :: (([] : List rl_lock) ++ []).map core
      ∧ ((reachable g).filter (fun r => is_owner hA r)).map core
          = [new_rec hA (200 + 200) (0 + 1000 - (200 + 200)) F_WRLCK,
             new_rec hA 0 (200 - 0) F_WRLCK] :=
  delete_lock_region_split hA table_write_1000 (request F_UNLCK 200 200) [] []
    ⟨NEXT_NULL, 0, 1000, F_WRLCK, [hA]⟩ (by decide) (by decide) (by decide) (by decide)
    (by decide) (by decide) (by decide)

/-- C6, failing input: `hA` takes READ `[10, 100)` and then READ `[100, 200)` on an empty
table. Both requests return 0 and the table holds one record for `hA`, but its length is
200, the end of the request, instead of 190: the region is `[10, 210)`, not `[10, 200)`. -/
theorem coalesce_overshoots :
    run_requests all_alive new_open_file
        [(hA, request F_RDLCK 10 90), (hA, request F_RDLCK 100 100)]
      = some ([0, 0],
          ⟨0, ⟨NEXT_NULL, 10, 200, F_RDLCK, [hA]⟩ :: List.replicate 9 empty_slot, 0, 0⟩) := by
  decide

/-! ## Shared read locks -/

theorem is_rl_compatible_read_shared {h : owner} {f : rl_open_file} (lck : flock)
    (hwf : well_formed f) (hlen : 0 < lck.l_len) (ht : lck.l_type = F_RDLCK)
    (hread : ∀ r ∈ reachable f, intersects lck.l_start lck.l_len r → r.type = F_RDLCK) :
    is_rl_compatible h f lck = some true := by
  obtain ⟨b, hb, hiff⟩ := oracle_false_iff h f lck hwf hlen (Or.inl ht)
  rw [hb]
  cases b with
  | true => rfl
  | false =>
    obtain ⟨r, hr, hint, _, hw⟩ := hiff.mp rfl
    rcases hw with hw | hw
    · rw [ht] at hw
      exact absurd hw (by decide)
    · rw [hread r hr hint] at hw
      exact absurd hw (by decide)

theorem search_list_code {h : owner} {lck : flock} :
    ∀ (L : List rl_lock) (c : Int) (S2 : List rl_lock),
      (∀ r ∈ L, is_region_equal lck.l_start lck.l_len r = true →
        r.lock_owners.length < NB_OWNERS) →
      search_list h lck L = some (c, S2) → c = 0 := by
  intro L
  induction L with
  | nil => intro c S2 _ hres; simp [search_list] at hres
  | cons r L ih =>
    intro c S2 hcap hres
    simp only [search_list] at hres
    by_cases hE : is_region_equal lck.l_start lck.l_len r = true
    · rw [if_pos hE] at hres
      by_cases hO : is_owner h r = true
      · rw [if_pos hO] at hres
        injection hres with hres
        injection hres with h1 _
        exact h1.symm
      · rw [if_neg hO] at hres
        injection hres with hres
        injection hres with h1 _
        rw [← h1]
        have hroom := hcap r (List.mem_cons_self r L) hE
        unfold add_owner
        rw [if_neg (by simp only [rl_lock.nb_owners]; omega)]
        split_ifs <;> rfl
    · rw [if_neg hE] at hres
      cases hrec : search_list h lck L with
      | none => rw [hrec] at hres; cases hres
      | some res =>
        rw [hrec] at hres
        obtain ⟨c2, S3⟩ := res
        simp only [Option.map_some', Option.some.injEq, Prod.mk.injEq] at hres
        rw [← hres.1]
        exact ih c2 S3 (fun x hx => hcap x (List.mem_cons_of_mem r hx)) hrec

/-- With room in the owner sets and a free slot, `add_read_lock_region` returns 0. -/
theorem add_read_lock_region_ok (h : owner) {f : rl_open_file} (lck : flock)
    (hwf : well_formed f) (hs : starts_nonneg f) (h0 : 0 ≤ lck.l_start) (hlen : 0 < lck.l_len)
    (hcap : ∀ r ∈ reachable f, r.starting_offset = lck.l_start → r.len = lck.l_len →
      r.lock_owners.length < NB_OWNERS)
    (hfree : 0 < free_count f.lock_table) :
    ∃ g, add_read_lock_region h f lck = some (0, g) := by
  have hat := at_of_well_formed hwf
  unfold add_read_lock_region
  rcases add_read_search_eq h lck _ f f.first [] SCAN_FUEL hat (scan_fuel_ok hat)
    with ⟨_, h2⟩ | ⟨c, S2, g, h1, h2, _⟩
  · rw [h2]
    obtain ⟨g1, hg1, hat1, hfc, _⟩ :=
      add_read_merge_eq h _ f lck f.first [] SCAN_FUEL hat (scan_fuel_ok hat)
    simp only [hg1]
    have hext := merge_list_region h (read_match h) lck ((reachable f).map core) lck
      (extends_region_refl h0 hlen) (at_records_ok hwf hs)
    have hne : (merge_list h (read_match h) lck ((reachable f).map core)).1.l_len ≠ 0 := by
      have := hext.2.2.2.1
      omega
    rcases at_add_lock_step h _ F_RDLCK hat1 hne with ⟨hk, _⟩ | ⟨g2, hg2, _⟩
    · omega
    · exact ⟨g2, by rw [hg2]⟩
  · rw [h2]
    have hc : c = 0 := by
      refine search_list_code _ c S2 ?_ h1
      intro r hr hE
      obtain ⟨r0, hr0, rfl⟩ := List.mem_map.mp hr
      simp only [is_region_equal, core, Bool.and_eq_true, decide_eq_true_eq] at hE
      exact hcap r0 hr0 hE.1.symm hE.2.symm
    subst hc
    exact ⟨g, rfl⟩

/-- C8, as stated, fails: twenty handles of other processes share READ `[0, 100)`. Every
record intersecting `[0, 100)` is of type READ and the oracle reports the READ proposal of
`hC` compatible, yet the non-blocking READ request of `hC` returns -1, the owner array of
the record being full. -/
theorem read_shared_owner_set_full :
    (∀ r ∈ reachable table_full_owners, intersects 0 100 r → r.type = F_RDLCK)
      ∧ hC ∉ twenty_owners
      ∧ is_rl_compatible hC table_full_owners (request F_RDLCK 0 100) = some true
      ∧ rl_fcntl all_alive 0 0 hC table_full_owners F_SETLK (request F_RDLCK 0 100)
          = outcome.ret (-1) table_full_owners := by
  refine ⟨?_, by decide, by decide, by decide⟩
  intro r hr _
  have : reachable table_full_owners = [⟨NEXT_NULL, 0, 100, F_RDLCK, twenty_owners⟩] := by
    decide
  rw [this] at hr
  simp only [List.mem_singleton] at hr
  rw [hr]

/-- C8, amended: on a well-formed table in which every record intersecting the region is of
type READ, the oracle reports the READ proposal of any handle compatible; and a non-blocking
READ request of a valid handle for that region (`start ≥ 0`, `len > 0`, owners alive)
returns 0 provided that every record with exactly that region has fewer than `NB_OWNERS`
owners and that a slot is free. -/
theorem rl_fcntl_read_shared (alive : Int → Bool) (pos size : Int) (h : owner)
    (f : rl_open_file) (lck : flock) (hwf : well_formed f) (hlen : 0 < lck.l_len)
    (ht : lck.l_type = F_RDLCK)
    (hread : ∀ r ∈ reachable f, intersects lck.l_start lck.l_len r → r.type = F_RDLCK) :
    is_rl_compatible h f lck = some true
      ∧ (h.des ≠ FILE_UNK → starts_nonneg f → owners_alive alive f →
          lck.l_whence = SEEK_SET → 0 ≤ lck.l_start →
          (∀ r ∈ reachable f, r.starting_offset = lck.l_start → r.len = lck.l_len →
            r.lock_owners.length < NB_OWNERS) →
          0 < free_count f.lock_table →
          ∃ g, rl_fcntl alive pos size h f F_SETLK lck = outcome.ret 0 g) := by
  refine ⟨is_rl_compatible_read_shared lck hwf hlen ht hread, ?_⟩
  intro hd hs ha hw h0 hcap hfree
  have hcomp : is_rl_compatible h f { lck with l_pid := h.proc } = some true :=
    is_rl_compatible_read_shared { lck with l_pid := h.proc } hwf hlen ht hread
  obtain ⟨g, hg⟩ := add_read_lock_region_ok h { lck with l_pid := h.proc }
    hwf hs h0 hlen hcap hfree
  have hcmd : ¬ (h.des = FILE_UNK ∨ F_SETLK = F_GETLK) := by
    rintro (h1 | h1)
    · exact hd h1
    · exact absurd h1 (by decide)
  have hun : ¬ (lck.l_type = F_UNLCK) := by rw [ht]; decide
  refine ⟨g, ?_⟩
  unfold rl_fcntl
  rw [if_neg hcmd, normalize_plain pos size h lck hw hlen]
  simp only [rl_clear_dead_owners_id hwf ha, if_neg hun, hcomp, if_pos ht, hg]

/-- C8, amended, instance: `hC`, a handle of another process, asks READ `[0, 100)` while
`hA` holds READ `[0, 100)`, as the child does in `test_cross_process`. -/
theorem rl_fcntl_read_shared_witness :
    is_rl_compatible hC table_read_A (request F_RDLCK 0 100) = some true
      ∧ ∃ g, rl_fcntl all_alive 0 0 hC table_read_A F_SETLK (request F_RDLCK 0 100)
          = outcome.ret 0 g :=
  have hh := rl_fcntl_read_shared all_alive 0 0 hC table_read_A (request F_RDLCK 0 100)
    (by decide) (by decide) (by decide) (by
      intro r hr _
      have : reachable table_read_A = [⟨NEXT_NULL, 0, 100, F_RDLCK, [hA]⟩] := by decide
      rw [this] at hr
      simp only [List.mem_singleton] at hr
      rw [hr])
  ⟨hh.1, hh.2 (by decide) (by decide) (by decide) (by decide) (by decide) (by decide)
    (by decide)⟩

/-! ## The list view without the length condition -/

theorem at_to_lk {f : rl_open_file} {idx : Int} {P S : List rl_lock} (h : At f idx P S) :
    Lk f idx P S :=
  ⟨h.1, h.2.2⟩

theorem lk_idx_neg {f : rl_open_file} {idx : Int} {P : List rl_lock}
    (h : Lk f idx P []) : idx < 0 := by
  obtain ⟨_, p, s, _, hs, _, hv⟩ := h
  have : s = [] := by simpa [view] using hv
  subst this
  exact chain_nil_iff.mp hs

theorem lk_cons_inv {f : rl_open_file} {idx : Int} {P S : List rl_lock} {r : rl_lock}
    (h : Lk f idx P (r :: S)) :
    ∃ (i : Nat) (r0 : rl_lock), idx = (i : Int) ∧ f.lock_table[i]? = some r0 ∧ core r0 = r
      ∧ Lk f r0.next_lock (P ++ [r]) S := by
  obtain ⟨hl, p, s, hc, hs, hp, hv⟩ := h
  cases s with
  | nil => simp [view] at hv
  | cons i s =>
    simp only [view, List.map_cons, List.cons.injEq] at hv
    obtain ⟨hidx, r0, hr0, hcs⟩ := chain_cons_inv hs
    have hcore : core r0 = r := by rw [← slot_core_of_some hr0]; exact hv.1
    refine ⟨i, r0, hidx, hr0, hcore, hl, p ++ [i], s, by simpa using hc, hcs, ?_, hv.2⟩
    rw [view_append, hp]
    simp [view, hv.1]

theorem lk_length_le {f : rl_open_file} {idx : Int} {P S : List rl_lock} (h : Lk f idx P S) :
    P.length + S.length ≤ NB_LOCKS := by
  obtain ⟨hl, p, s, hc, _, hp, hv⟩ := h
  have := chain_length_le hc
  rw [← hp, ← hv]
  simp only [view, List.length_map]
  simp only [List.length_append] at this
  omega

theorem lk_reachable_eq {f : rl_open_file} {L : List rl_lock} (h : Lk f f.first [] L) :
    (reachable f).map core = L := by
  obtain ⟨_, p, s, hc, _, hp, hv⟩ := h
  have : p = [] := by simpa [view] using hp
  subst this
  have hc2 : Chain f.lock_table f.first s := by simpa using hc
  unfold reachable
  rw [reachable_idx_of_chain hc2, filterMap_view (chain_lt_length hc2)]
  exact hv

theorem is_rl_compatible_loop_lk (h : owner) (lck : flock) :
    ∀ (S : List rl_lock) (f : rl_open_file) (idx : Int) (P : List rl_lock) (fuel : Nat),
      Lk f idx P S → S.length < fuel →
      is_rl_compatible_loop h f lck fuel idx = some (!(S.any (conflict h lck))) := by
  intro S
  induction S with
  | nil =>
    intro f idx P fuel hat hfuel
    obtain ⟨n, rfl⟩ : ∃ n, fuel = n + 1 := ⟨fuel - 1, by simp at hfuel; omega⟩
    have := lk_idx_neg hat
    rw [is_rl_compatible_loop, if_neg (by omega)]
    rfl
  | cons r S ih =>
    intro f idx P fuel hat hfuel
    obtain ⟨n, rfl⟩ : ∃ n, fuel = n + 1 := ⟨fuel - 1, by simp at hfuel; omega⟩
    obtain ⟨i, r0, hidx, hr0, hcore, hnext⟩ := lk_cons_inv hat
    subst hidx
    subst hcore
    have hrec := ih f r0.next_lock _ n hnext (by simp at hfuel; omega)
    rw [is_rl_compatible_loop]
    simp only [Int.toNat_ofNat, hr0, ge_iff_le, Int.ofNat_zero_le, if_true, hrec]
    have e1 : is_region_intersection lck.l_start lck.l_len (core r0)
        = is_region_intersection lck.l_start lck.l_len r0 := rfl
    have e2 : is_other_owner h (core r0) = is_other_owner h r0 := rfl
    have e3 : (core r0).type = r0.type := rfl
    simp only [List.any_cons, conflict, e1, e2, e3]
    by_cases hc : (is_region_intersection lck.l_start lck.l_len r0 && is_other_owner h r0) = true
    · rw [if_pos hc]
      by_cases hw : lck.l_type = F_WRLCK
      · simp [hw, hc]
      · rw [if_neg hw]
        by_cases hrd : lck.l_type = F_RDLCK ∧ r0.type = F_WRLCK
        · rw [if_pos hrd]
          simp [hc, hrd.1, hrd.2]
        · rw [if_neg hrd]
          have : (decide (lck.l_type = F_RDLCK) && decide (r0.type = F_WRLCK)) = false := by
            simpa using hrd
          simp [hw, this]
    · rw [if_neg hc]
      simp [hc]

theorem is_rl_compatible_lk {h : owner} {f : rl_open_file} {lck : flock} {L : List rl_lock}
    (hat : Lk f f.first [] L) :
    is_rl_compatible h f lck = some (!(L.any (conflict h lck))) := by
  unfold is_rl_compatible
  refine is_rl_compatible_loop_lk h lck L f f.first [] SCAN_FUEL hat ?_
  have := lk_length_le hat
  simp only [SCAN_FUEL]
  simp at this
  omega

theorem add_lock_lk {f : rl_open_file} {idx : Int} {P S : List rl_lock}
    (h : owner) (lck : flock) (t : Int) (hat : At f idx P S) :
    (free_count f.lock_table = 0 ∧ add_lock h f lck t = (-1, f))
    ∨ (∃ g, add_lock h f lck t = (0, g)
        ∧ Lk g idx (new_rec h lck.l_start lck.l_len t :: P) S
        ∧ g.blockCnt = f.blockCnt ∧ g.refCnt = f.refCnt) := by
  obtain ⟨hl, hnz, p, s, hc, hs, hp, hv⟩ := hat
  have htake : f.lock_table.take NB_LOCKS = f.lock_table := List.take_of_length_le (by omega)
  unfold add_lock
  rw [htake]
  cases hf : find_free f.lock_table with
  | none => exact Or.inl ⟨find_free_none.mp hf, rfl⟩
  | some k =>
    right
    obtain ⟨rk, hrk, hrk0⟩ := find_free_some hf
    have hk : k ∉ p ++ s := by
      intro hm
      have hmem : slot_core f.lock_table k ∈ P ++ S := by
        rw [← hp, ← hv, ← view_append]
        exact List.mem_map_of_mem _ hm
      have := hnz _ hmem
      rw [slot_core_of_some hrk] at this
      exact this hrk0
    have hkp : k ∉ p := fun hm => hk (List.mem_append_left s hm)
    have hks : k ∉ s := fun hm => hk (List.mem_append_right p hm)
    have hself : (f.lock_table.set k ⟨f.first, lck.l_start, lck.l_len, t, [⟨h.proc, h.des⟩]⟩)[k]?
        = some ⟨f.first, lck.l_start, lck.l_len, t, [⟨h.proc, h.des⟩]⟩ :=
      getElem?_set_self_idx hrk
    have hcong : ∀ (idx2 : Int) (l : List Nat), (∀ j ∈ l, j ≠ k) → Chain f.lock_table idx2 l →
        Chain (f.lock_table.set k ⟨f.first, lck.l_start, lck.l_len, t, [⟨h.proc, h.des⟩]⟩)
          idx2 l := by
      intro idx2 l hne hch
      refine chain_congr hch ?_
      intro j hj rj hrj
      exact ⟨rj, by rw [getElem?_set_ne_idx (hne j hj)]; exact hrj, rfl⟩
    refine ⟨_, rfl, ⟨by simpa using hl, k :: p, s, ?_, ?_, ?_, ?_⟩, rfl, rfl⟩
    · exact Chain.cons k _ _ hself
        (hcong f.first (p ++ s) (fun j hj => ne_of_mem_of_not_mem hj hk) hc)
    · exact hcong idx s (fun j hj => ne_of_mem_of_not_mem hj hks) hs
    · simp only [view, List.map_cons, List.cons.injEq]
      refine ⟨by rw [slot_core_of_some hself]; rfl, ?_⟩
      rw [← hp]
      exact view_congr (fun j hj => slot_core_set_ne (ne_of_mem_of_not_mem hj hkp))
    · rw [← hv]
      exact view_congr (fun j hj => slot_core_set_ne (ne_of_mem_of_not_mem hj hks))

/-! ## Normalisation and the insert primitive -/

/-- C19: the region that `rl_fcntl` works on after its alignment of `l_start` and `l_len`
is the reference region: the base offset is the start plus the current position
(`SEEK_CUR`), the file size (`SEEK_END`) or 0; a length of 0 becomes `size - base`; a
negative length `len1` gives `(base + len1, -len1)`. So a negative length locks
`[base + len, base)` and a zero length with `base < size` locks `[base, size)`. -/
theorem normalize_eq_ref (pos size : Int) (h : owner) (lck : flock) :
    ((normalize pos size h lck).l_start, (normalize pos size h lck).l_len)
        = normalize_ref lck.l_whence lck.l_start lck.l_len pos size
    ∧ (lck.l_len < 0 →
        (normalize pos size h lck).l_start
            = lck.l_start
              + (if lck.l_whence = SEEK_CUR then pos
                 else if lck.l_whence = SEEK_END then size else 0) + lck.l_len
          ∧ (normalize pos size h lck).l_start + (normalize pos size h lck).l_len
            = lck.l_start
              + (if lck.l_whence = SEEK_CUR then pos
                 else if lck.l_whence = SEEK_END then size else 0))
    ∧ (lck.l_len = 0 →
        lck.l_start
            + (if lck.l_whence = SEEK_CUR then pos
               else if lck.l_whence = SEEK_END then size else 0) < size →
        (normalize pos size h lck).l_start
            = lck.l_start
              + (if lck.l_whence = SEEK_CUR then pos
                 else if lck.l_whence = SEEK_END then size else 0)
          ∧ (normalize pos size h lck).l_start + (normalize pos size h lck).l_len = size) := by
  have hstart : (if lck.l_whence = SEEK_CUR then pos + lck.l_start
        else if lck.l_whence = SEEK_END then size + lck.l_start else lck.l_start)
      = lck.l_start + (if lck.l_whence = SEEK_CUR then pos
          else if lck.l_whence = SEEK_END then size else 0) := by
    split_ifs <;> omega
  unfold normalize normalize_ref
  simp only []
  rw [hstart]
  generalize lck.l_start + (if lck.l_whence = SEEK_CUR then pos
      else if lck.l_whence = SEEK_END then size else 0) = base
  refine ⟨?_, ?_, ?_⟩
  · split_ifs <;> rfl
  · intro hneg
    have h0 : lck.l_len ≠ 0 := by omega
    rw [if_neg h0, if_pos hneg, if_pos hneg]
    omega
  · intro h0 hlt
    have h1 : ¬ size - base < 0 := by omega
    rw [if_pos h0, if_neg h1, if_neg h1]
    omega

/-- C19, instances: with the file position at 40 and a file of 100 bytes, the request
`SEEK_CUR`, start 10, length -30 is worked on as `[20, 50)`, and the request `SEEK_SET`,
start 60, length 0 as `[60, 100)`. -/
theorem normalize_eq_ref_witness :
    ((normalize 40 100 hA ⟨F_RDLCK, SEEK_CUR, 10, -30, 0⟩).l_start = 10 + 40 + -30
        ∧ (normalize 40 100 hA ⟨F_RDLCK, SEEK_CUR, 10, -30, 0⟩).l_start
            + (normalize 40 100 hA ⟨F_RDLCK, SEEK_CUR, 10, -30, 0⟩).l_len = 10 + 40)
    ∧ ((normalize 40 100 hA ⟨F_RDLCK, SEEK_SET, 60, 0, 0⟩).l_start = 60 + 0
        ∧ (normalize 40 100 hA ⟨F_RDLCK, SEEK_SET, 60, 0, 0⟩).l_start
            + (normalize 40 100 hA ⟨F_RDLCK, SEEK_SET, 60, 0, 0⟩).l_len = 100) :=
  ⟨(normalize_eq_ref 40 100 hA ⟨F_RDLCK, SEEK_CUR, 10, -30, 0⟩).2.1 (by decide),
   (normalize_eq_ref 40 100 hA ⟨F_RDLCK, SEEK_SET, 60, 0, 0⟩).2.2 (by decide) (by decide)⟩

theorem find_free_lowest {tbl : List rl_lock} {k : Nat} (h : find_free tbl = some k) :
    ∀ j r, j < k → tbl[j]? = some r → r.len ≠ 0 := by
  induction tbl generalizing k with
  | nil => simp [find_free] at h
  | cons a rs ih =>
    simp only [find_free] at h
    by_cases ha : a.len = 0
    · rw [if_pos ha] at h
      cases h
      intro j r hj
      omega
    · rw [if_neg ha] at h
      cases hf : find_free rs with
      | none => rw [hf] at h; simp at h
      | some k2 =>
        rw [hf] at h
        simp only [Option.map_some', Option.some.injEq] at h
        subst h
        intro j r hj hr
        cases j with
        | zero =>
          simp only [List.getElem?_cons_zero, Option.some.injEq] at hr
          subst hr
          exact ha
        | succ j =>
          simp only [List.getElem?_cons_succ] at hr
          exact ih hf j r (by omega) hr

/-- C20: on a table of `NB_LOCKS` slots `add_lock` returns 0 exactly when some slot has
length 0. Then the lowest-indexed such slot `k` holds the region, the given type and the
single owner, `first` is `k`, the link of slot `k` is the previous `first`, and every other
slot and counter is unchanged. When no slot has length 0 it returns -1 and the table is
unchanged. -/
theorem add_lock_contract (h : owner) (f : rl_open_file) (lck : flock) (t : Int)
    (hn : f.lock_table.length = NB_LOCKS) :
    ((add_lock h f lck t).1 = 0 ↔ ∃ r ∈ f.lock_table, r.len = 0)
    ∧ ((∃ r ∈ f.lock_table, r.len = 0) →
        ∃ (k : Nat) (r0 : rl_lock), f.lock_table[k]? = some r0 ∧ r0.len = 0
          ∧ (∀ (j : Nat) (r : rl_lock), j < k → f.lock_table[j]? = some r → r.len ≠ 0)
          ∧ (add_lock h f lck t).1 = 0
          ∧ (add_lock h f lck t).2.first = (k : Int)
          ∧ (add_lock h f lck t).2.lock_table[k]?
              = some ⟨f.first, lck.l_start, lck.l_len, t, [h]⟩
          ∧ (∀ j : Nat, j ≠ k → (add_lock h f lck t).2.lock_table[j]? = f.lock_table[j]?)
          ∧ (add_lock h f lck t).2.lock_table.length = NB_LOCKS
          ∧ (add_lock h f lck t).2.blockCnt = f.blockCnt
          ∧ (add_lock h f lck t).2.refCnt = f.refCnt)
    ∧ ((∀ r ∈ f.lock_table, r.len ≠ 0) → add_lock h f lck t = (-1, f)) := by
  have htake : f.lock_table.take NB_LOCKS = f.lock_table := List.take_of_length_le (by omega)
  have hfree : (∃ r ∈ f.lock_table, r.len = 0) ↔ free_count f.lock_table ≠ 0 := by
    unfold free_count
    rw [Ne, List.countP_eq_zero]
    simp
  cases hf : find_free f.lock_table with
  | none =>
    have h0 := find_free_none.mp hf
    have hres : add_lock h f lck t = (-1, f) := by
      unfold add_lock
      rw [htake, hf]
    refine ⟨?_, ?_, fun _ => hres⟩
    · rw [hres, hfree]
      constructor
      · intro hc
        exact absurd hc (by simp)
      · intro hc
        exact absurd h0 hc
    · intro hex
      exact absurd h0 (hfree.mp hex)
  | some k =>
    obtain ⟨rk, hrk, hrk0⟩ := find_free_some hf
    have hres : add_lock h f lck t
        = (0, { f with
                first := (k : Int)
                lock_table :=
                  f.lock_table.set k ⟨f.first, lck.l_start, lck.l_len, t, [⟨h.proc, h.des⟩]⟩ }) := by
      unfold add_lock
      rw [htake, hf]
    have hex : ∃ r ∈ f.lock_table, r.len = 0 := ⟨rk, List.getElem?_mem hrk, hrk0⟩
    refine ⟨?_, ?_, ?_⟩
    · rw [hres]
      exact ⟨fun _ => hex, fun _ => rfl⟩
    · intro _
      refine ⟨k, rk, hrk, hrk0, find_free_lowest hf, ?_⟩
      rw [hres]
      refine ⟨rfl, rfl, getElem?_set_self_idx hrk, ?_, by simpa using hn, rfl, rfl⟩
      intro j hj
      exact getElem?_set_ne_idx hj
    · intro hall
      exact absurd hrk0 (hall rk (List.getElem?_mem hrk))

/-- C20, instances: in the table where `hA` holds READ `[0, 50)` in slot 1, `add_lock` of
WRITE `[60, 70)` for `hC` returns 0, takes the lowest free slot and links it before slot 1;
in a table whose ten slots all have length 1 it returns -1 and changes nothing. -/
theorem add_lock_contract_witness :
    ((add_lock hC table_read_A_half (request F_WRLCK 60 10) F_WRLCK).1 = 0
      ∧ ∃ (k : Nat) (r0 : rl_lock), table_read_A_half.lock_table[k]? = some r0 ∧ r0.len = 0
          ∧ (∀ (j : Nat) (r : rl_lock), j < k →
              table_read_A_half.lock_table[j]? = some r → r.len ≠ 0)
          ∧ (add_lock hC table_read_A_half (request F_WRLCK 60 10) F_WRLCK).1 = 0
          ∧ (add_lock hC table_read_A_half (request F_WRLCK 60 10) F_WRLCK).2.first = (k : Int)
          ∧ (add_lock hC table_read_A_half (request F_WRLCK 60 10) F_WRLCK).2.lock_table[k]?
              = some ⟨table_read_A_half.first, (request F_WRLCK 60 10).l_start,
                  (request F_WRLCK 60 10).l_len, F_WRLCK, [hC]⟩
          ∧ (∀ j : Nat, j ≠ k →
              (add_lock hC table_read_A_half (request F_WRLCK 60 10) F_WRLCK).2.lock_table[j]?
                = table_read_A_half.lock_table[j]?)
          ∧ (add_lock hC table_read_A_half (request F_WRLCK 60 10) F_WRLCK).2.lock_table.length
              = NB_LOCKS
          ∧ (add_lock hC table_read_A_half (request F_WRLCK 60 10) F_WRLCK).2.blockCnt
              = table_read_A_half.blockCnt
          ∧ (add_lock hC table_read_A_half (request F_WRLCK 60 10) F_WRLCK).2.refCnt
              = table_read_A_half.refCnt)
    ∧ add_lock hC (table_of 0 (List.replicate 10 ⟨NEXT_NULL, 0, 1, F_RDLCK, [hA]⟩))
          (request F_WRLCK 60 10) F_WRLCK
        = (-1, table_of 0 (List.replicate 10 ⟨NEXT_NULL, 0, 1, F_RDLCK, [hA]⟩)) :=
  ⟨⟨((add_lock_contract hC table_read_A_half (request F_WRLCK 60 10) F_WRLCK (by decide)).1).mpr
        ⟨empty_slot, by decide, by decide⟩,
    (add_lock_contract hC table_read_A_half (request F_WRLCK 60 10) F_WRLCK (by decide)).2.1
        ⟨empty_slot, by decide, by decide⟩⟩,
   (add_lock_contract hC (table_of 0 (List.replicate 10 ⟨NEXT_NULL, 0, 1, F_RDLCK, [hA]⟩))
      (request F_WRLCK 60 10) F_WRLCK (by decide)).2.2 (by decide)⟩

/-! ## The liveness sweep -/

theorem chain_first_ne {tbl : List rl_lock} {idx : Int} {q : List Nat} {i : Nat}
    (h : Chain tbl idx q) (hi : i ∉ q) : idx ≠ (i : Int) := by
  cases q with
  | nil =>
    have := chain_nil_iff.mp h
    omega
  | cons a q =>
    obtain ⟨ha, _⟩ := chain_cons_inv h
    rw [ha]
    intro he
    exact hi (by rw [← Int.ofNat_inj.mp he]; exact List.mem_cons_self a q)

theorem chain_set_off {tbl : List rl_lock} {idx : Int} {l : List Nat} {i : Nat} (x : rl_lock)
    (h : Chain tbl idx l) (hi : i ∉ l) : Chain (tbl.set i x) idx l := by
  refine chain_congr h ?_
  intro j hj rj hrj
  exact ⟨rj, by rw [getElem?_set_ne_idx (ne_of_mem_of_not_mem hj hi)]; exact hrj, rfl⟩

theorem view_set_off {tbl : List rl_lock} {l : List Nat} {i : Nat} (x : rl_lock)
    (hi : i ∉ l) : view (tbl.set i x) l = view tbl l :=
  view_congr (fun _ hj => slot_core_set_ne (ne_of_mem_of_not_mem hj hi))

theorem sweep_loop_lost (alive : Int → Bool) :
    ∀ (s : List Nat) (f : rl_open_file) (idx : Int) (q : List Nat) (fuel : Nat),
      Chain f.lock_table f.first q → Chain f.lock_table idx s → (∀ i ∈ s, i ∉ q) →
      s.length < fuel →
      ∃ g, rl_clear_dead_owners_loop alive fuel f idx = some g ∧ g.first = f.first
        ∧ g.lock_table.length = f.lock_table.length
        ∧ Chain g.lock_table g.first q ∧ view g.lock_table q = view f.lock_table q
        ∧ g.blockCnt = f.blockCnt ∧ g.refCnt = f.refCnt := by
  intro s
  induction s with
  | nil =>
    intro f idx q fuel hq hs _ hfuel
    obtain ⟨n, rfl⟩ : ∃ n, fuel = n + 1 := ⟨fuel - 1, by simp at hfuel; omega⟩
    have := chain_nil_iff.mp hs
    rw [rl_clear_dead_owners_loop, if_neg (by omega)]
    exact ⟨f, rfl, rfl, rfl, hq, rfl, rfl, rfl⟩
  | cons i s ih =>
    intro f idx q fuel hq hs hdis hfuel
    obtain ⟨n, rfl⟩ : ∃ n, fuel = n + 1 := ⟨fuel - 1, by simp at hfuel; omega⟩
    obtain ⟨hidx, r0, hr0, hcs⟩ := chain_cons_inv hs
    subst hidx
    have his : i ∉ s := chain_head_not_mem hs
    have hiq : i ∉ q := hdis i (List.mem_cons_self i s)
    have hfirst : f.first ≠ (i : Int) := chain_first_ne hq hiq
    have key : ∀ x : rl_lock,
        ∃ g, rl_clear_dead_owners_loop alive n
            { f with lock_table := f.lock_table.set i x } r0.next_lock = some g
          ∧ g.first = f.first ∧ g.lock_table.length = f.lock_table.length
          ∧ Chain g.lock_table g.first q ∧ view g.lock_table q = view f.lock_table q
          ∧ g.blockCnt = f.blockCnt ∧ g.refCnt = f.refCnt := by
      intro x
      obtain ⟨g, hg, h1, h2, h3, h4, h5, h6⟩ :=
        ih { f with lock_table := f.lock_table.set i x } r0.next_lock q n
          (chain_set_off x hq hiq) (chain_set_off x hcs his)
          (fun j hj => hdis j (List.mem_cons_of_mem i hj)) (by simp at hfuel; omega)
      refine ⟨g, hg, h1, by rw [h2]; simp, h3, ?_, h5, h6⟩
      rw [h4]
      exact view_set_off x hiq
    rw [rl_clear_dead_owners_loop]
    simp only [Int.toNat_ofNat, hr0, ge_iff_le, Int.ofNat_zero_le, if_true]
    by_cases hdead : (r0.lock_owners.filter (fun o => alive o.proc)).length = 0
    · rw [if_pos hdead, if_neg hfirst]
      exact key _
    · rw [if_neg hdead]
      exact key _

theorem sweep_loop_linked (alive : Int → Bool) :
    ∀ (s : List Nat) (f : rl_open_file) (idx : Int) (p : List Nat) (fuel : Nat),
      p ≠ [] → Chain f.lock_table f.first (p ++ s) → Chain f.lock_table idx s →
      s.length < fuel →
      ∃ g s2, rl_clear_dead_owners_loop alive fuel f idx = some g
        ∧ g.lock_table.length = f.lock_table.length
        ∧ Chain g.lock_table g.first (p ++ s2)
        ∧ view g.lock_table (p ++ s2)
            = view f.lock_table p ++ sweep_tail alive (view f.lock_table s)
        ∧ g.blockCnt = f.blockCnt ∧ g.refCnt = f.refCnt := by
  intro s
  induction s with
  | nil =>
    intro f idx p fuel _ hc hs hfuel
    obtain ⟨n, rfl⟩ : ∃ n, fuel = n + 1 := ⟨fuel - 1, by simp at hfuel; omega⟩
    have := chain_nil_iff.mp hs
    rw [rl_clear_dead_owners_loop, if_neg (by omega)]
    exact ⟨f, [], rfl, rfl, hc, by simp [view, sweep_tail], rfl, rfl⟩
  | cons i s ih =>
    intro f idx p fuel hp hc hs hfuel
    obtain ⟨n, rfl⟩ : ∃ n, fuel = n + 1 := ⟨fuel - 1, by simp at hfuel; omega⟩
    obtain ⟨hidx, r0, hr0, hcs⟩ := chain_cons_inv hs
    subst hidx
    have hnd := chain_nodup hc
    have hip : i ∉ p := fun hm => (List.nodup_append.mp hnd).2.2 hm (List.mem_cons_self i s)
    have his : i ∉ s := (List.nodup_cons.mp (List.nodup_append.mp hnd).2.1).1
    have hfirst : f.first ≠ (i : Int) := by
      cases p with
      | nil => exact absurd rfl hp
      | cons a p2 =>
        obtain ⟨ha, _⟩ := chain_cons_inv (by simpa using hc : Chain f.lock_table f.first
          (a :: (p2 ++ i :: s)))
        rw [ha]
        intro he
        exact hip (by rw [← Int.ofNat_inj.mp he]; exact List.mem_cons_self a p2)
    have hsc : slot_core f.lock_table i = core r0 := slot_core_of_some hr0
    have hdeadkey : ∀ x : rl_lock, x.next_lock = NEXT_NULL → core x = sweep_rec alive (core r0) →
        (r0.lock_owners.filter (fun o => alive o.proc)).length = 0 →
        ∃ g s2, rl_clear_dead_owners_loop alive n
              { f with lock_table := f.lock_table.set i x } r0.next_lock = some g
          ∧ g.lock_table.length = f.lock_table.length
          ∧ Chain g.lock_table g.first (p ++ s2)
          ∧ view g.lock_table (p ++ s2)
              = view f.lock_table p ++ sweep_tail alive (view f.lock_table (i :: s))
          ∧ g.blockCnt = f.blockCnt ∧ g.refCnt = f.refCnt := by
      intro x hxn hxc hdead
      have hset : (f.lock_table.set i x)[i]? = some x := getElem?_set_self_idx hr0
      have hc2 := chain_splice hset (by rw [hxn]; exact Chain.nil NEXT_NULL (by decide))
        p f.first s hc (fun j hj => getElem?_set_ne_idx (ne_of_mem_of_not_mem hj hip))
      obtain ⟨g, hg, h1, h2, h3, h4, h5, h6⟩ :=
        sweep_loop_lost alive s { f with lock_table := f.lock_table.set i x }
          r0.next_lock (p ++ [i]) n hc2 (chain_set_off _ hcs his)
          (by
            intro j hj hm
            rcases List.mem_append.mp hm with hm | hm
            · exact (List.nodup_append.mp hnd).2.2 hm (List.mem_cons_of_mem i hj)
            · rw [List.mem_singleton] at hm
              subst hm
              exact his hj)
          (by simp at hfuel; omega)
      refine ⟨g, [i], hg, by rw [h2]; simp, h3, ?_, h5, h6⟩
      rw [h4, view_append, view_set_off _ hip]
      congr 1
      simp only [view, List.map_cons, List.map_nil, hsc, sweep_tail]
      rw [slot_core_of_some hset]
      have hd2 : ((core r0).lock_owners.filter (fun o => alive o.proc)).length = 0 := hdead
      rw [if_pos hd2, hxc]
    have hlivekey : ∀ x : rl_lock, x.next_lock = r0.next_lock →
        core x = sweep_rec alive (core r0) →
        ¬ (r0.lock_owners.filter (fun o => alive o.proc)).length = 0 →
        ∃ g s2, rl_clear_dead_owners_loop alive n
              { f with lock_table := f.lock_table.set i x } r0.next_lock = some g
          ∧ g.lock_table.length = f.lock_table.length
          ∧ Chain g.lock_table g.first (p ++ s2)
          ∧ view g.lock_table (p ++ s2)
              = view f.lock_table p ++ sweep_tail alive (view f.lock_table (i :: s))
          ∧ g.blockCnt = f.blockCnt ∧ g.refCnt = f.refCnt := by
      intro x hxn hxc hdead
      have hset : (f.lock_table.set i x)[i]? = some x := getElem?_set_self_idx hr0
      have hc2 : Chain (f.lock_table.set i x) f.first ((p ++ [i]) ++ s) := by
        rw [List.append_assoc]
        refine chain_congr hc ?_
        intro j _ rj hrj
        by_cases hj : j = i
        · subst hj
          rw [hr0] at hrj
          cases hrj
          exact ⟨_, hset, hxn⟩
        · exact ⟨rj, by rw [getElem?_set_ne_idx hj]; exact hrj, rfl⟩
      obtain ⟨g, s2, hg, h2, h3, h4, h5, h6⟩ :=
        ih { f with lock_table := f.lock_table.set i x }
          r0.next_lock (p ++ [i]) n (by simp) hc2 (chain_set_off _ hcs his)
          (by simp at hfuel; omega)
      refine ⟨g, i :: s2, hg, by rw [h2]; simp, by simpa using h3, ?_, h5, h6⟩
      have e : p ++ i :: s2 = (p ++ [i]) ++ s2 := by simp
      rw [e, h4, view_append, view_set_off _ hip, view_set_off _ his, List.append_assoc]
      congr 1
      simp only [view, List.map_cons, List.map_nil, hsc, sweep_tail, List.singleton_append]
      rw [slot_core_of_some hset]
      have hd2 : ¬ ((core r0).lock_owners.filter (fun o => alive o.proc)).length = 0 := hdead
      rw [if_neg hd2, hxc]
    rw [rl_clear_dead_owners_loop]
    simp only [Int.toNat_ofNat, hr0, ge_iff_le, Int.ofNat_zero_le, if_true]
    by_cases hdead : (r0.lock_owners.filter (fun o => alive o.proc)).length = 0
    · rw [if_pos hdead, if_neg hfirst]
      exact hdeadkey _ rfl rfl hdead
    · rw [if_neg hdead]
      exact hlivekey _ rfl rfl hdead

theorem sweep_loop_head (alive : Int → Bool) :
    ∀ (s : List Nat) (f : rl_open_file) (fuel : Nat),
      Chain f.lock_table f.first s → s.length < fuel →
      ∃ g s2, rl_clear_dead_owners_loop alive fuel f f.first = some g
        ∧ g.lock_table.length = f.lock_table.length
        ∧ Chain g.lock_table g.first s2
        ∧ view g.lock_table s2 = sweep_list alive (view f.lock_table s)
        ∧ g.blockCnt = f.blockCnt ∧ g.refCnt = f.refCnt := by
  intro s
  induction s with
  | nil =>
    intro f fuel hc hfuel
    obtain ⟨n, rfl⟩ : ∃ n, fuel = n + 1 := ⟨fuel - 1, by simp at hfuel; omega⟩
    have := chain_nil_iff.mp hc
    rw [rl_clear_dead_owners_loop, if_neg (by omega)]
    exact ⟨f, [], rfl, rfl, hc, by simp [view, sweep_list], rfl, rfl⟩
  | cons i s ih =>
    intro f fuel hc hfuel
    obtain ⟨n, rfl⟩ : ∃ n, fuel = n + 1 := ⟨fuel - 1, by simp at hfuel; omega⟩
    obtain ⟨hidx, r0, hr0, hcs⟩ := chain_cons_inv hc
    have his : i ∉ s := chain_head_not_mem hc
    have hsc : slot_core f.lock_table i = core r0 := slot_core_of_some hr0
    have hdeadkey : ∀ x : rl_lock,
        (r0.lock_owners.filter (fun o => alive o.proc)).length = 0 →
        ∃ g s2, rl_clear_dead_owners_loop alive n
              { f with first := r0.next_lock, lock_table := f.lock_table.set i x }
              r0.next_lock = some g
          ∧ g.lock_table.length = f.lock_table.length
          ∧ Chain g.lock_table g.first s2
          ∧ view g.lock_table s2 = sweep_list alive (view f.lock_table (i :: s))
          ∧ g.blockCnt = f.blockCnt ∧ g.refCnt = f.refCnt := by
      intro x hdead
      obtain ⟨g, s2, hg, h2, h3, h4, h5, h6⟩ :=
        ih { f with first := r0.next_lock, lock_table := f.lock_table.set i x }
          n (chain_set_off _ hcs his) (by simp at hfuel; omega)
      refine ⟨g, s2, hg, by rw [h2]; simp, h3, ?_, h5, h6⟩
      rw [h4, view_set_off _ his]
      simp only [view, List.map_cons, hsc, sweep_list]
      have hd2 : ((core r0).lock_owners.filter (fun o => alive o.proc)).length = 0 := hdead
      rw [if_pos hd2]
    have hlivekey : ∀ x : rl_lock, x.next_lock = r0.next_lock →
        core x = sweep_rec alive (core r0) →
        ¬ (r0.lock_owners.filter (fun o => alive o.proc)).length = 0 →
        ∃ g s2, rl_clear_dead_owners_loop alive n
              { f with lock_table := f.lock_table.set i x } r0.next_lock = some g
          ∧ g.lock_table.length = f.lock_table.length
          ∧ Chain g.lock_table g.first s2
          ∧ view g.lock_table s2 = sweep_list alive (view f.lock_table (i :: s))
          ∧ g.blockCnt = f.blockCnt ∧ g.refCnt = f.refCnt := by
      intro x hxn hxc hdead
      have hset : (f.lock_table.set i x)[i]? = some x := getElem?_set_self_idx hr0
      have hc2 : Chain (f.lock_table.set i x) f.first ([i] ++ s) := by
        refine chain_congr hc ?_
        intro j _ rj hrj
        by_cases hj : j = i
        · subst hj
          rw [hr0] at hrj
          cases hrj
          exact ⟨_, hset, hxn⟩
        · exact ⟨rj, by rw [getElem?_set_ne_idx hj]; exact hrj, rfl⟩
      obtain ⟨g, s2, hg, h2, h3, h4, h5, h6⟩ :=
        sweep_loop_linked alive s { f with lock_table := f.lock_table.set i x }
          r0.next_lock [i] n (by simp) hc2 (chain_set_off _ hcs his)
          (by simp at hfuel; omega)
      refine ⟨g, [i] ++ s2, hg, by rw [h2]; simp, h3, ?_, h5, h6⟩
      rw [h4, view_set_off _ his]
      simp only [view, List.map_cons, List.map_nil, hsc, sweep_list, List.singleton_append]
      rw [slot_core_of_some hset]
      have hd2 : ¬ ((core r0).lock_owners.filter (fun o => alive o.proc)).length = 0 := hdead
      rw [if_neg hd2, hxc]
    rw [hidx, rl_clear_dead_owners_loop]
    simp only [Int.toNat_ofNat, hr0, ge_iff_le, Int.ofNat_zero_le, if_true]
    by_cases hdead : (r0.lock_owners.filter (fun o => alive o.proc)).length = 0
    · rw [if_pos hdead, if_pos hidx]
      exact hdeadkey _ hdead
    · rw [if_neg hdead]
      exact hlivekey _ rfl rfl hdead

theorem sweep_tail_mem {alive : Int → Bool} {L : List rl_lock} {x : rl_lock}
    (h : x ∈ sweep_tail alive L) : ∃ r ∈ L, x = sweep_rec alive r := by
  induction L with
  | nil => simp [sweep_tail] at h
  | cons r S ih =>
    simp only [sweep_tail] at h
    split at h
    · rw [List.mem_singleton] at h
      exact ⟨r, List.mem_cons_self r S, h⟩
    · rcases List.mem_cons.mp h with h | h
      · exact ⟨r, List.mem_cons_self r S, h⟩
      · obtain ⟨r2, hr2, hx⟩ := ih h
        exact ⟨r2, List.mem_cons_of_mem r hr2, hx⟩

theorem sweep_list_mem {alive : Int → Bool} {L : List rl_lock} {x : rl_lock}
    (h : x ∈ sweep_list alive L) : ∃ r ∈ L, x = sweep_rec alive r := by
  induction L with
  | nil => simp [sweep_list] at h
  | cons r S ih =>
    simp only [sweep_list] at h
    split at h
    · obtain ⟨r2, hr2, hx⟩ := ih h
      exact ⟨r2, List.mem_cons_of_mem r hr2, hx⟩
    · rcases List.mem_cons.mp h with h | h
      · exact ⟨r, List.mem_cons_self r S, h⟩
      · obtain ⟨r2, hr2, hx⟩ := sweep_tail_mem h
        exact ⟨r2, List.mem_cons_of_mem r hr2, hx⟩

theorem rl_clear_dead_owners_list (alive : Int → Bool) {f : rl_open_file} {L : List rl_lock}
    (hat : At f f.first [] L) :
    ∃ g, rl_clear_dead_owners alive f = some g ∧ At g g.first [] (sweep_list alive L)
      ∧ g.blockCnt = f.blockCnt ∧ g.refCnt = f.refCnt := by
  have hlen := at_length_le hat
  obtain ⟨hl, hnz, p, s, hc, _, hp, hv⟩ := hat
  have hp0 : p = [] := by simpa [view] using hp
  subst hp0
  have hc2 : Chain f.lock_table f.first s := by simpa using hc
  have hsl : s.length < SCAN_FUEL := by
    have : s.length = L.length := by rw [← hv]; simp [view]
    simp only [SCAN_FUEL]
    simp at hlen
    omega
  obtain ⟨g, s2, hg, h2, h3, h4, h5, h6⟩ := sweep_loop_head alive s f SCAN_FUEL hc2 hsl
  refine ⟨g, hg, ⟨by rw [h2]; exact hl, ?_, [], s2, by simpa using h3, h3, rfl, ?_⟩, h5, h6⟩
  · intro x hx
    obtain ⟨r, hr, rfl⟩ := sweep_list_mem (by simpa using hx : x ∈ sweep_list alive L)
    exact hnz r (by simpa using hr)
  · rw [h4, hv]

/-- C14: on a well-formed table `rl_clear_dead_owners` returns, and afterwards no owner of
a reachable record is dead; each reachable record is a record of the table before the call
(same region and type) whose owner list is the sublist of its live owners, in their
original order. -/
theorem rl_clear_dead_owners_live (alive : Int → Bool) (f : rl_open_file)
    (hwf : well_formed f) :
    ∃ g, rl_clear_dead_owners alive f = some g ∧
      ∀ r2 ∈ reachable g,
        (∀ o ∈ r2.lock_owners, alive o.proc = true)
        ∧ ∃ r ∈ reachable f, r2.starting_offset = r.starting_offset ∧ r2.len = r.len
            ∧ r2.type = r.type
            ∧ r2.lock_owners = r.lock_owners.filter (fun o => alive o.proc) := by
  obtain ⟨g, hg, hat, _, _⟩ :=
    rl_clear_dead_owners_list alive (at_of_well_formed hwf)
  have heq := at_reachable_eq hat
  refine ⟨g, hg, ?_⟩
  intro r2 hr2
  obtain ⟨c, hc, hx⟩ := sweep_list_mem (core_mem_of_reachable heq hr2)
  obtain ⟨r, hr, rfl⟩ := List.mem_map.mp hc
  have hown : r2.lock_owners = r.lock_owners.filter (fun o => alive o.proc) :=
    congrArg rl_lock.lock_owners hx
  have hst : (core r2).starting_offset = (sweep_rec alive (core r)).starting_offset :=
    congrArg rl_lock.starting_offset hx
  have hln : (core r2).len = (sweep_rec alive (core r)).len := congrArg rl_lock.len hx
  have hty : (core r2).type = (sweep_rec alive (core r)).type := congrArg rl_lock.type hx
  refine ⟨?_, r, hr, hst, hln, hty, hown⟩
  intro o ho
  rw [hown] at ho
  exact (List.mem_filter.mp ho).2

/-- C14, instance: process 200 is dead; in `table_dead_tail` the sweep returns and leaves
no dead owner in a reachable record. -/
theorem rl_clear_dead_owners_live_witness :
    ∃ g, rl_clear_dead_owners alive_but_200 table_dead_tail = some g ∧
      ∀ r2 ∈ reachable g,
        (∀ o ∈ r2.lock_owners, alive_but_200 o.proc = true)
        ∧ ∃ r ∈ reachable table_dead_tail, r2.starting_offset = r.starting_offset
            ∧ r2.len = r.len ∧ r2.type = r.type
            ∧ r2.lock_owners = r.lock_owners.filter (fun o => alive_but_200 o.proc) :=
  rl_clear_dead_owners_live alive_but_200 table_dead_tail (by decide)

/-- C15, failing input: `hC` (process 200) takes WRITE `[20, 30)`, then `hA` takes READ
`[0, 10)`, which puts the record of `hA` at the head and that of `hC` behind it. Process
200 dies. The sweep empties the owner list of the record of `hC` and sets its
`next_lock` to `NEXT_NULL`, but the record of `hA` still links to it: it stays reachable
with no owner. When the record of the dead process is the only one, the table is empty
afterwards. -/
theorem sweep_leaves_ownerless :
    run_requests all_alive new_open_file
        [(hC, request F_WRLCK 20 10), (hA, request F_RDLCK 0 10)]
      = some ([0, 0], table_dead_tail)
    ∧ rl_clear_dead_owners alive_but_200 table_dead_tail = some table_dead_tail_swept
    ∧ reachable table_dead_tail_swept
        = [⟨0, 0, 10, F_RDLCK, [hA]⟩, ⟨NEXT_NULL, 20, 10, F_WRLCK, []⟩]
    ∧ (rl_clear_dead_owners alive_but_200 table_dead_only).map reachable = some [] := by
  decide

/-! ## The region mutators on the list of records, whatever the request -/

theorem lk_restart {f : rl_open_file} {idx : Int} {P S : List rl_lock}
    (h : Lk f idx P S) : Lk f f.first [] (P ++ S) := by
  obtain ⟨hl, p, s, hc, _, hp, hs⟩ := h
  exact ⟨hl, [], p ++ s, by simpa using hc, hc, rfl, by rw [view_append, hp, hs]⟩

theorem add_write_lock_region_cases (h : owner) (lck : flock) {f : rl_open_file}
    {L : List rl_lock} (hat : At f f.first [] L) :
    ∃ c g, add_write_lock_region h f lck = some (c, g)
      ∧ g.blockCnt = f.blockCnt ∧ g.refCnt = f.refCnt
      ∧ ((c = -1 ∧ At g g.first [] (merge_list h (write_match h) lck L).2
            ∧ free_count g.lock_table = 0)
        ∨ (c = 0
            ∧ Lk g g.first []
                (new_rec h (merge_list h (write_match h) lck L).1.l_start
                    (merge_list h (write_match h) lck L).1.l_len F_WRLCK
                  :: (merge_list h (write_match h) lck L).2)
            ∧ ((merge_list h (write_match h) lck L).1.l_len ≠ 0 →
                At g g.first []
                  (new_rec h (merge_list h (write_match h) lck L).1.l_start
                      (merge_list h (write_match h) lck L).1.l_len F_WRLCK
                    :: (merge_list h (write_match h) lck L).2)))) := by
  obtain ⟨g1, hg1, hat1, _, hb1, hr1⟩ := add_write_lock_region_eq h lck hat
  rcases add_lock_lk h (merge_list h (write_match h) lck L).1 F_WRLCK hat1
    with ⟨hfree, hfail⟩ | ⟨g, hok, hlk, hb, hr⟩
  · exact ⟨-1, g1, by rw [hg1, hfail], hb1, hr1, Or.inl ⟨rfl, hat1, hfree⟩⟩
  · exact ⟨0, g, by rw [hg1, hok], by rw [hb, hb1], by rw [hr, hr1],
      Or.inr ⟨rfl, by simpa using lk_restart hlk, fun hne => add_lock_ok hat1 hne hok⟩⟩

theorem add_read_lock_region_cases (h : owner) (lck : flock) {f : rl_open_file}
    {L : List rl_lock} (hat : At f f.first [] L) :
    ∃ c g, add_read_lock_region h f lck = some (c, g)
      ∧ g.blockCnt = f.blockCnt ∧ g.refCnt = f.refCnt
      ∧ ((∃ S2, search_list h lck L = some (c, S2) ∧ At g g.first [] S2)
        ∨ (search_list h lck L = none
            ∧ ((c = -1 ∧ At g g.first [] (merge_list h (read_match h) lck L).2
                  ∧ free_count g.lock_table = 0)
              ∨ (c = 0
                  ∧ Lk g g.first []
                      (new_rec h (merge_list h (read_match h) lck L).1.l_start
                          (merge_list h (read_match h) lck L).1.l_len F_RDLCK
                        :: (merge_list h (read_match h) lck L).2)
                  ∧ ((merge_list h (read_match h) lck L).1.l_len ≠ 0 →
                      At g g.first []
                        (new_rec h (merge_list h (read_match h) lck L).1.l_start
                            (merge_list h (read_match h) lck L).1.l_len F_RDLCK
                          :: (merge_list h (read_match h) lck L).2)))))) := by
  rcases add_read_search_eq h lck L f f.first [] SCAN_FUEL hat (scan_fuel_ok hat)
    with ⟨hnone, hsearch⟩ | ⟨c, S2, g, hsome, hsearch, hatg, hb, hr⟩
  · obtain ⟨g1, hg1, hat1, _, hb1, hr1⟩ :=
      add_read_merge_eq h L f lck f.first [] SCAN_FUEL hat (scan_fuel_ok hat)
    have hat1b : At g1 g1.first [] (merge_list h (read_match h) lck L).2 := by simpa using hat1
    have hunf : add_read_lock_region h f lck
        = some (add_lock h g1 (merge_list h (read_match h) lck L).1 F_RDLCK) := by
      unfold add_read_lock_region
      rw [hsearch]
      simp only [hg1]
    rcases add_lock_lk h (merge_list h (read_match h) lck L).1 F_RDLCK hat1b
      with ⟨hfree, hfail⟩ | ⟨g, hok, hlk, hb, hr⟩
    · exact ⟨-1, g1, by rw [hunf, hfail], hb1, hr1,
        Or.inr ⟨hnone, Or.inl ⟨rfl, hat1b, hfree⟩⟩⟩
    · exact ⟨0, g, by rw [hunf, hok], by rw [hb, hb1], by rw [hr, hr1],
        Or.inr ⟨hnone, Or.inr ⟨rfl, by simpa using lk_restart hlk,
          fun hne => add_lock_ok hat1b hne hok⟩⟩⟩
  · refine ⟨c, g, ?_, hb, hr, Or.inl ⟨S2, hsome, by simpa using hatg⟩⟩
    unfold add_read_lock_region
    rw [hsearch]

theorem is_other_owner_drop {h : owner} {r : rl_lock}
    (hx : is_other_owner h { r with lock_owners := drop_owner h r.lock_owners } = true) :
    is_other_owner h r = true := by
  obtain ⟨o, ho, hne⟩ := is_other_owner_iff.mp hx
  exact is_other_owner_iff.mpr ⟨o, (mem_drop_owner.mp ho).1, hne⟩

theorem conflict_drop_rec {h : owner} {lck : flock} {r x : rl_lock} (hx : x ∈ drop_rec h r)
    (hc : conflict h lck x = true) : conflict h lck r = true := by
  unfold drop_rec at hx
  split at hx
  · simp at hx
  · rw [List.mem_singleton] at hx
    subst hx
    simp only [conflict, Bool.and_eq_true] at hc ⊢
    exact ⟨⟨hc.1.1, is_other_owner_drop hc.1.2⟩, hc.2⟩

theorem merge_list_conflict (h : owner) (m : flock → rl_lock → Bool) (lck2 : flock) :
    ∀ (S : List rl_lock) (lck : flock), S.any (conflict h lck2) = false →
      (merge_list h m lck S).2.any (conflict h lck2) = false := by
  intro S
  induction S with
  | nil =>
    intro lck _
    rfl
  | cons r S ih =>
    intro lck hS
    simp only [List.any_cons, Bool.or_eq_false_iff] at hS
    simp only [merge_list]
    split
    · simp only [List.any_append, Bool.or_eq_false_iff]
      refine ⟨?_, ih _ hS.2⟩
      rw [List.any_eq_false]
      intro x hx hc
      have := conflict_drop_rec hx hc
      rw [hS.1] at this
      cases this
    · simp only [List.any_cons, Bool.or_eq_false_iff]
      exact ⟨hS.1, ih _ hS.2⟩

theorem is_other_owner_add_owner (h : owner) (r : rl_lock) :
    is_other_owner h (core (add_owner h r).2) = is_other_owner h r := by
  unfold add_owner
  split
  · rfl
  · split
    · simp only [is_other_owner, core, List.any_append, List.any_cons, List.any_nil,
        Bool.or_false, bne_self_eq_false, Bool.or_self]
    · rfl

theorem search_list_conflict (h : owner) (lck lck2 : flock) :
    ∀ (L : List rl_lock) (c : Int) (S2 : List rl_lock), search_list h lck L = some (c, S2) →
      S2.any (conflict h lck2) = L.any (conflict h lck2) := by
  intro L
  induction L with
  | nil =>
    intro c S2 hs
    simp [search_list] at hs
  | cons r S ih =>
    intro c S2 hs
    simp only [search_list] at hs
    split at hs
    · split at hs
      · cases hs
        rfl
      · cases hs
        have hf := add_owner_fields h r
        simp only [List.any_cons, conflict, is_other_owner_add_owner]
        have e1 : is_region_intersection lck2.l_start lck2.l_len (core (add_owner h r).2)
            = is_region_intersection lck2.l_start lck2.l_len r := by
          simp only [is_region_intersection, core, hf.2.1, hf.2.2.1]
        have e2 : (core (add_owner h r).2).type = r.type := hf.2.2.2
        rw [e1, e2]
    · cases hrec : search_list h lck S with
      | none => rw [hrec] at hs; simp at hs
      | some res =>
        rw [hrec] at hs
        simp only [Option.map_some', Option.some.injEq, Prod.mk.injEq] at hs
        obtain ⟨_, rfl⟩ := hs
        simp only [List.any_cons]
        rw [ih res.1 res.2 (by rw [hrec])]

theorem conflict_new_rec (h : owner) (lck : flock) (start len type : Int) :
    conflict h lck (new_rec h start len type) = false := by
  simp [conflict, new_rec, is_other_owner]

/-- C13: on a well-formed table, when a non-blocking READ or WRITE request of `h` returns
0, the oracle evaluated on the resulting table reports the same proposal (the region after
the alignment of `rl_fcntl`, and the type) compatible for `h`. -/
theorem rl_fcntl_grant_compatible (alive : Int → Bool) (pos size : Int) (h : owner)
    (f g : rl_open_file) (lck : flock) (hwf : well_formed f)
    (ht : lck.l_type = F_RDLCK ∨ lck.l_type = F_WRLCK)
    (hres : rl_fcntl alive pos size h f F_SETLK lck = outcome.ret 0 g) :
    is_rl_compatible h g (normalize pos size h lck) = some true := by
  obtain ⟨f0, hf0, hat0, _, _⟩ :=
    rl_clear_dead_owners_list alive (at_of_well_formed hwf)
  have hty : (normalize pos size h lck).l_type = lck.l_type := rfl
  have hnu : ¬ (lck.l_type = F_UNLCK) := by
    rcases ht with ht | ht <;> rw [ht] <;> decide
  unfold rl_fcntl at hres
  by_cases hd : h.des = FILE_UNK ∨ F_SETLK = F_GETLK
  · rw [if_pos hd] at hres
    injection hres with h1 _
    exact absurd h1 (by decide)
  · rw [if_neg hd] at hres
    simp only [hf0, hty, if_neg hnu] at hres
    rw [is_rl_compatible_eq hat0] at hres
    cases hany : (sweep_list alive ((reachable f).map core)).any
        (conflict h (normalize pos size h lck)) with
    | true =>
      rw [hany] at hres
      simp only [Bool.not_true, if_neg (show ¬ (F_SETLK = F_SETLKW) by decide)] at hres
      injection hres with h1 _
      exact absurd h1 (by decide)
    | false =>
      rw [hany] at hres
      simp only [Bool.not_false] at hres
      rcases ht with ht | ht
      · rw [if_pos ht] at hres
        obtain ⟨c, g2, hrd, _, _, hcase⟩ :=
          add_read_lock_region_cases h (normalize pos size h lck) hat0
        rw [hrd] at hres
        simp only at hres
        injection hres with h1 h2
        subst h1
        subst h2
        rcases hcase with ⟨S2, hs, hat2⟩ | ⟨_, ⟨hc, _⟩ | ⟨_, hlk, _⟩⟩
        · rw [is_rl_compatible_eq hat2, search_list_conflict h _ _ _ _ _ hs, hany]
          rfl
        · exact absurd hc (by decide)
        · rw [is_rl_compatible_lk hlk, List.any_cons, conflict_new_rec,
            merge_list_conflict h _ _ _ _ hany]
          rfl
      · have hnr : ¬ (lck.l_type = F_RDLCK) := by rw [ht]; decide
        rw [if_neg hnr, if_pos ht] at hres
        obtain ⟨c, g2, hwr, _, _, hcase⟩ :=
          add_write_lock_region_cases h (normalize pos size h lck) hat0
        rw [hwr] at hres
        simp only at hres
        injection hres with h1 h2
        subst h1
        subst h2
        rcases hcase with ⟨hc, _⟩ | ⟨_, hlk, _⟩
        · exact absurd hc (by decide)
        · rw [is_rl_compatible_lk hlk, List.any_cons, conflict_new_rec,
            merge_list_conflict h _ _ _ _ hany]
          rfl

/-- C13, instance: `hA` holds READ `[0, 100)` and is granted WRITE `[100, 200)`; on the
table after the grant the oracle still reports the proposal compatible. -/
theorem rl_fcntl_grant_compatible_witness :
    is_rl_compatible hA table_read_write_A (normalize 0 0 hA (request F_WRLCK 100 100))
      = some true :=
  rl_fcntl_grant_compatible all_alive 0 0 hA table_read_A table_read_write_A
    (request F_WRLCK 100 100) (by decide) (by decide) (by decide)

/-! ## Lengths -/

/-- C17, failing input: `hC` takes READ `[-120, -95)`, `hA` takes READ `[-100, 0)` and then
READ `[-120, -95)`, which makes it a second owner of the record of `hC`; all reachable
records have positive length. Now `hA` asks READ `[0, 10)`, start 0 and length 10. The
request absorbs `[-100, 0)` and is written back as start -100, length 10; it then absorbs
`[-120, -95)` and is written back as start -120, length -90. The call returns 0 and the
record at the head has length -90. -/
theorem merged_length_negative :
    run_requests all_alive new_open_file
        [(hC, request F_RDLCK (-120) 25), (hA, request F_RDLCK (-100) 100),
         (hA, request F_RDLCK (-120) 25)]
      = some ([0, 0, 0], table_neg_starts)
    ∧ (∀ r ∈ reachable table_neg_starts, 0 < r.len)
    ∧ add_read_lock_region hA table_neg_starts (request F_RDLCK 0 10)
        = some (0, table_neg_len)
    ∧ rl_fcntl all_alive 0 0 hA table_neg_starts F_SETLK (request F_RDLCK 0 10)
        = outcome.ret 0 table_neg_len
    ∧ reachable table_neg_len
        = [⟨0, -120, -90, F_RDLCK, [hA]⟩, ⟨NEXT_NULL, -120, 25, F_RDLCK, [hC]⟩] := by
  decide

/-- C18, failing input: on a file of 100 bytes and an empty table, `hA` asks READ with
`SEEK_SET`, `l_start = 100`, `l_len = 0`. The region after the alignment is start 100,
length 0. `rl_fcntl` returns 0 and links slot 0 at the head with length 0. `add_lock`
still takes slot 0 for free: the next request, READ `[0, 10)`, is written into slot 0 with
`next_lock = first = 0`, and on the table with this self-loop the list walk of the next
call does not end. -/
theorem empty_range_accepted :
    ((normalize 0 100 hA (request F_RDLCK 100 0)).l_start = 100
      ∧ (normalize 0 100 hA (request F_RDLCK 100 0)).l_len = 0)
    ∧ rl_fcntl all_alive 0 100 hA new_open_file F_SETLK (request F_RDLCK 100 0)
        = outcome.ret 0 table_empty_range
    ∧ reachable table_empty_range = [⟨NEXT_NULL, 100, 0, F_RDLCK, [hA]⟩]
    ∧ rl_fcntl all_alive 0 100 hA table_empty_range F_SETLK (request F_RDLCK 0 10)
        = outcome.ret 0 table_self_loop
    ∧ rl_fcntl all_alive 0 100 hA table_self_loop F_SETLK (request F_RDLCK 20 10)
        = outcome.undef := by
  decide

/-! ## Requests that meet no record of the handle -/

theorem merge_list_nomatch (h : owner) (m : flock → rl_lock → Bool) (lck : flock) :
    ∀ S : List rl_lock, (∀ r ∈ S, m lck r = false) → merge_list h m lck S = (lck, S) := by
  intro S
  induction S with
  | nil =>
    intro _
    rfl
  | cons r S ih =>
    intro hS
    have h1 := hS r (List.mem_cons_self r S)
    have h2 := ih (fun x hx => hS x (List.mem_cons_of_mem r hx))
    simp only [merge_list, h1, h2]
    rfl

theorem read_match_free {h : owner} {lck : flock} {r : rl_lock} (hlen : 0 < lck.l_len)
    (hr : 0 < r.len) (hfree : h ∈ r.lock_owners → ¬ touches lck.l_start lck.l_len r) :
    read_match h lck r = false := by
  rw [Bool.eq_false_iff]
  intro hm
  simp only [read_match, Bool.and_eq_true] at hm
  exact hfree (is_owner_iff.mp hm.2)
    ((is_region_intersection_or_neighbour_iff (by omega) (by omega)).mp hm.1)

theorem write_match_free {h : owner} {lck : flock} {r : rl_lock} (hlen : 0 < lck.l_len)
    (hr : 0 < r.len) (hfree : h ∈ r.lock_owners → ¬ touches lck.l_start lck.l_len r) :
    write_match h lck r = false := by
  rw [Bool.eq_false_iff]
  intro hm
  simp only [write_match, Bool.and_eq_true, Bool.or_eq_true] at hm
  rcases hm.1 with h1 | h1
  · exact hfree (is_owner_iff.mp hm.2)
      ((is_region_intersection_or_neighbour_iff (by omega) (by omega)).mp h1.1)
  · exact hfree (is_owner_iff.mp hm.2)
      (touches_of_intersects ((is_region_intersection_iff hlen hr).mp h1))

theorem unlock_match_free {h : owner} {lck : flock} {r : rl_lock} (hlen : 0 < lck.l_len)
    (hr : 0 < r.len) (hfree : h ∈ r.lock_owners → ¬ touches lck.l_start lck.l_len r) :
    (is_region_intersection lck.l_start lck.l_len r && is_owner h r) = false := by
  rw [Bool.eq_false_iff]
  intro hm
  simp only [Bool.and_eq_true] at hm
  exact hfree (is_owner_iff.mp hm.2)
    (touches_of_intersects ((is_region_intersection_iff hlen hr).mp hm.1))

theorem search_list_split (h : owner) (lck : flock) :
    ∀ (L : List rl_lock) (c : Int) (S2 : List rl_lock), search_list h lck L = some (c, S2) →
      ∃ A r B, L = A ++ r :: B
        ∧ (∀ a ∈ A, is_region_equal lck.l_start lck.l_len a = false)
        ∧ is_region_equal lck.l_start lck.l_len r = true
        ∧ ((is_owner h r = true ∧ c = 0 ∧ S2 = L)
          ∨ (is_owner h r = false ∧ c = (add_owner h r).1
              ∧ S2 = A ++ core (add_owner h r).2 :: B)) := by
  intro L
  induction L with
  | nil =>
    intro c S2 hs
    simp [search_list] at hs
  | cons r S ih =>
    intro c S2 hs
    simp only [search_list] at hs
    by_cases heq : is_region_equal lck.l_start lck.l_len r = true
    · rw [if_pos heq] at hs
      by_cases ho : is_owner h r = true
      · rw [if_pos ho] at hs
        cases hs
        exact ⟨[], r, S, rfl, by simp, heq, Or.inl ⟨ho, rfl, rfl⟩⟩
      · rw [if_neg ho] at hs
        cases hs
        exact ⟨[], r, S, rfl, by simp, heq, Or.inr ⟨by simpa using ho, rfl, rfl⟩⟩
    · rw [if_neg heq] at hs
      cases hrec : search_list h lck S with
      | none => rw [hrec] at hs; simp at hs
      | some res =>
        rw [hrec] at hs
        simp only [Option.map_some', Option.some.injEq, Prod.mk.injEq] at hs
        obtain ⟨rfl, rfl⟩ := hs
        obtain ⟨A, r2, B, hL, hA, hr2, hcase⟩ := ih res.1 res.2 (by rw [hrec])
        refine ⟨r :: A, r2, B, by rw [hL]; rfl, ?_, hr2, ?_⟩
        · intro a ha
          rcases List.mem_cons.mp ha with ha | ha
          · subst ha
            simpa using heq
          · exact hA a ha
        · rcases hcase with ⟨h1, h2, h3⟩ | ⟨h1, h2, h3⟩
          · exact Or.inl ⟨h1, h2, by rw [h3]⟩
          · exact Or.inr ⟨h1, h2, by rw [h3]; rfl⟩

theorem unlock_list_one (h : owner) (lck : flock) (A B : List rl_lock) (r : rl_lock)
    (k n : Nat)
    (hA : ∀ y ∈ A, (is_region_intersection lck.l_start lck.l_len y && is_owner h y) = false)
    (hB : ∀ y ∈ B, (is_region_intersection lck.l_start lck.l_len y && is_owner h y) = false)
    (hr : (is_region_intersection lck.l_start lck.l_len r && is_owner h r) = true)
    (hin : lck.l_start ≤ r.starting_offset
      ∧ lck.l_start + lck.l_len ≥ r.starting_offset + r.len)
    (hn : A.length + B.length + 2 ≤ n) :
    unlock_list h lck n k [] (A ++ r :: B) = some (0, A ++ drop_rec h r ++ B) := by
  obtain ⟨m, rfl⟩ : ∃ m, n = ((m + 1) + B.length + 1) + A.length :=
    ⟨n - (A.length + B.length + 2), by omega⟩
  rw [unlock_list_skip h lck A _ k [] (r :: B) hA]
  rw [unlock_list, if_pos hr, if_pos hin]
  have hskip := unlock_list_skip h lck B (m + 1) (k + dropped h r) ([] ++ A ++ drop_rec h r) []
    hB
  simp only [List.append_nil] at hskip
  rw [hskip]
  simp [unlock_list]

theorem drop_owner_append_self {h : owner} {os : List owner} (hno : h ∉ os) :
    drop_owner h (os ++ [h]) = os := by
  unfold drop_owner
  rw [List.filter_append]
  have h1 : os.filter (fun o => !(o.proc == h.proc && o.des == h.des)) = os := by
    rw [List.filter_eq_self]
    intro o ho
    have hne : o ≠ h := fun he => hno (he ▸ ho)
    simp only [Bool.not_eq_true', Bool.and_eq_false_imp, beq_iff_eq, beq_eq_false_iff_ne]
    intro hp hd
    exact hne (by cases o; cases h; simp_all)
  rw [h1]
  simp

theorem add_owner_new {h : owner} {r : rl_lock} (hno : is_owner h r = false)
    (hc : (add_owner h r).1 = 0) :
    (add_owner h r).2 = { r with lock_owners := r.lock_owners ++ [h] } := by
  have hhas : has_owner r h = false := by
    rw [← hno]
    simp only [has_owner, is_owner, is_owners_are_equal]
  unfold add_owner at hc ⊢
  split at hc
  · exact absurd hc (by simp)
  · rename_i hcap
    rw [if_neg hcap]
    simp [hhas]

theorem is_region_intersection_self {lck : flock} {r : rl_lock}
    (hs : r.starting_offset = lck.l_start) (hl : r.len = lck.l_len) :
    is_region_intersection lck.l_start lck.l_len r = true := by
  simp only [is_region_intersection, hs, hl, Bool.or_eq_true, Bool.and_eq_true,
    decide_eq_true_eq]
  omega

theorem unlock_list_new (h : owner) (lck : flock) (t : Int) (L : List rl_lock) (k n : Nat)
    (hL : ∀ y ∈ L, (is_region_intersection lck.l_start lck.l_len y && is_owner h y) = false)
    (hn : L.length + 2 ≤ n) :
    unlock_list h lck n k [] (new_rec h lck.l_start lck.l_len t :: L) = some (0, L) := by
  have hr : (is_region_intersection lck.l_start lck.l_len (new_rec h lck.l_start lck.l_len t)
      && is_owner h (new_rec h lck.l_start lck.l_len t)) = true := by
    rw [is_region_intersection_self rfl rfl]
    simp [is_owner, new_rec]
  have hdrop : drop_rec h (new_rec h lck.l_start lck.l_len t) = [] := by
    have : drop_owner h (new_rec h lck.l_start lck.l_len t).lock_owners = [] :=
      drop_owner_only (by simp [new_rec])
    simp [drop_rec, this]
  have := unlock_list_one h lck [] L (new_rec h lck.l_start lck.l_len t) k n (by simp) hL hr
    ⟨le_refl _, le_refl _⟩ (by simpa using hn)
  rw [hdrop] at this
  simpa using this

theorem round_trip_list (h : owner) (lck : flock) {f g1 : rl_open_file}
    (hwf : well_formed f) (hlen : 0 < lck.l_len)
    (hown : ∀ r ∈ reachable f, r.lock_owners ≠ [])
    (hfree : ∀ r ∈ reachable f, h ∈ r.lock_owners → ¬ touches lck.l_start lck.l_len r)
    (hacq : add_read_lock_region h f lck = some (0, g1)
      ∨ add_write_lock_region h f lck = some (0, g1)) :
    ∃ L1, At g1 g1.first [] L1
      ∧ ∀ k, unlock_list h lck RESCAN_FUEL k [] L1 = some (0, (reachable f).map core) := by
  have hat := at_of_well_formed hwf
  have hlenL := at_length_le hat
  simp only [List.length_nil, zero_add, NB_LOCKS] at hlenL
  have hposL : ∀ r ∈ (reachable f).map core, 0 < r.len := by
    intro r hr
    obtain ⟨r0, hr0, rfl⟩ := List.mem_map.mp hr
    exact hwf.2.2 r0 hr0
  have hfreeL : ∀ r ∈ (reachable f).map core, h ∈ r.lock_owners →
      ¬ touches lck.l_start lck.l_len r := by
    intro r hr
    obtain ⟨r0, hr0, rfl⟩ := List.mem_map.mp hr
    exact hfree r0 hr0
  have hnoL : ∀ y ∈ (reachable f).map core,
      (is_region_intersection lck.l_start lck.l_len y && is_owner h y) = false :=
    fun y hy => unlock_match_free hlen (hposL y hy) (hfreeL y hy)
  have hfuel : ((reachable f).map core).length + 2 ≤ RESCAN_FUEL := by
    simp only [RESCAN_FUEL, NB_LOCKS]
    omega
  rcases hacq with hacq | hacq
  · obtain ⟨c, g, hrd, _, _, hcase⟩ := add_read_lock_region_cases h lck hat
    rw [hrd] at hacq
    injection hacq with hacq
    injection hacq with hc hg
    subst hc
    subst hg
    rcases hcase with ⟨S2, hs, hat2⟩ | ⟨_, ⟨hc, _⟩ | ⟨_, _, hnew⟩⟩
    · refine ⟨S2, hat2, ?_⟩
      intro k
      obtain ⟨A, r, B, hL, _, hreq, hcase2⟩ := search_list_split h lck _ _ _ hs
      have hrmem : r ∈ (reachable f).map core := by rw [hL]; simp
      have hrs : r.starting_offset = lck.l_start ∧ r.len = lck.l_len := by
        simp only [is_region_equal, Bool.and_eq_true, decide_eq_true_eq] at hreq
        exact ⟨hreq.1.symm, hreq.2.symm⟩
      have hnot : h ∉ r.lock_owners := by
        intro hm
        refine hfreeL r hrmem hm ?_
        unfold touches
        rw [hrs.1, hrs.2]
        omega
      rcases hcase2 with ⟨ho, _, _⟩ | ⟨ho, hc, hS2⟩
      · exact absurd (is_owner_iff.mp ho) hnot
      · rw [add_owner_new ho hc.symm] at hS2
        have hnext : r.next_lock = 0 := by
          obtain ⟨r0, _, rfl⟩ := List.mem_map.mp hrmem
          rfl
        have hr2 : (is_region_intersection lck.l_start lck.l_len
              (core { r with lock_owners := r.lock_owners ++ [h] })
            && is_owner h (core { r with lock_owners := r.lock_owners ++ [h] })) = true := by
          have hi : is_region_intersection lck.l_start lck.l_len
              (core { r with lock_owners := r.lock_owners ++ [h] }) = true :=
            is_region_intersection_self hrs.1 hrs.2
          rw [hi]
          simp [is_owner, core]
        have hdrop : drop_rec h (core { r with lock_owners := r.lock_owners ++ [h] }) = [r] := by
          have e : drop_owner h (core { r with lock_owners := r.lock_owners ++ [h] }).lock_owners
              = r.lock_owners := drop_owner_append_self hnot
          have hne : ¬ (r.lock_owners.length = 0) := by
            intro h0
            have hne2 : r.lock_owners ≠ [] := by
              obtain ⟨r0, hr0, rfl⟩ := List.mem_map.mp hrmem
              exact hown r0 hr0
            exact hne2 (List.eq_nil_of_length_eq_zero h0)
          unfold drop_rec
          rw [e, if_neg hne]
          cases r
          simp only [core] at hnext ⊢
          subst hnext
          rfl
        have hAB : ∀ y ∈ A ++ B, y ∈ (reachable f).map core := by
          intro y hy
          rw [hL]
          rcases List.mem_append.mp hy with hy | hy
          · exact List.mem_append_left _ hy
          · exact List.mem_append_right _ (List.mem_cons_of_mem r hy)
        have hlen2 : A.length + B.length + 2 ≤ RESCAN_FUEL := by
          have : ((reachable f).map core).length = A.length + B.length + 1 := by
            rw [hL]; simp; omega
          omega
        have := unlock_list_one h lck A B (core { r with lock_owners := r.lock_owners ++ [h] })
          k RESCAN_FUEL (fun y hy => hnoL y (hAB y (List.mem_append_left B hy)))
          (fun y hy => hnoL y (hAB y (List.mem_append_right A hy))) hr2
          ⟨by rw [core_starting_offset]; exact le_of_eq hrs.1.symm,
           by rw [core_starting_offset, core_len]; show _ ≥ r.starting_offset + r.len
              rw [hrs.1, hrs.2]⟩ hlen2
        rw [hS2, this, hdrop, hL]
        simp
    · exact absurd hc (by decide)
    · have hm := merge_list_nomatch h (read_match h) lck _
        (fun r hr => read_match_free hlen (hposL r hr) (hfreeL r hr))
      rw [hm] at hnew
      exact ⟨_, hnew (by simp only; omega), fun k => unlock_list_new h lck _ _ k _ hnoL hfuel⟩
  · obtain ⟨c, g, hwr, _, _, hcase⟩ := add_write_lock_region_cases h lck hat
    rw [hwr] at hacq
    injection hacq with hacq
    injection hacq with hc hg
    subst hc
    subst hg
    rcases hcase with ⟨hc, _⟩ | ⟨_, _, hnew⟩
    · exact absurd hc (by decide)
    · have hm := merge_list_nomatch h (write_match h) lck _
        (fun r hr => write_match_free hlen (hposL r hr) (hfreeL r hr))
      rw [hm] at hnew
      exact ⟨_, hnew (by simp only; omega), fun k => unlock_list_new h lck _ _ k _ hnoL hfuel⟩

/-- C11, as stated, fails: `hA` holds READ `[0, 100)`, then acquires READ `[0, 50)` and
releases `[0, 50)`. The three requests return 0. Before the acquire `hA` owns the record
`[0, 100)`, after the release it owns `[50, 100)` only. -/
theorem round_trip_shrinks :
    run_requests all_alive new_open_file [(hA, request F_RDLCK 0 100)]
      = some ([0], ⟨0, ⟨NEXT_NULL, 0, 100, F_RDLCK, [hA]⟩ :: List.replicate 9 empty_slot, 0, 0⟩)
    ∧ run_requests all_alive
        ⟨0, ⟨NEXT_NULL, 0, 100, F_RDLCK, [hA]⟩ :: List.replicate 9 empty_slot, 0, 0⟩
        [(hA, request F_RDLCK 0 50), (hA, request F_UNLCK 0 50)]
      = some ([0, 0],
          ⟨1, [empty_slot, ⟨NEXT_NULL, 50, 50, F_RDLCK, [hA]⟩] ++ List.replicate 8 empty_slot,
            0, 0⟩)
    ∧ reachable ⟨0, ⟨NEXT_NULL, 0, 100, F_RDLCK, [hA]⟩ :: List.replicate 9 empty_slot, 0, 0⟩
        = [⟨NEXT_NULL, 0, 100, F_RDLCK, [hA]⟩]
    ∧ reachable
        ⟨1, [empty_slot, ⟨NEXT_NULL, 50, 50, F_RDLCK, [hA]⟩] ++ List.replicate 8 empty_slot,
          0, 0⟩
        = [⟨NEXT_NULL, 50, 50, F_RDLCK, [hA]⟩] := by
  decide

/-- C11, amended: on a well-formed table whose reachable records all have an owner, if `h`
owns no record that touches or intersects the region `r` (length > 0), then an acquire of
`r` by `h` that returns 0 (`add_read_lock_region` or `add_write_lock_region`) followed by
the release of `r` by `h` (`delete_lock_region`, which then returns 0) gives back the list
of records of the table before the acquire: the same regions, types and owner lists in the
same order, hence the same records of `h`. -/
theorem acquire_release_round_trip (h : owner) (f g1 : rl_open_file) (lck : flock)
    (hwf : well_formed f) (hlen : 0 < lck.l_len)
    (hown : ∀ r ∈ reachable f, r.lock_owners ≠ [])
    (hfree : ∀ r ∈ reachable f, h ∈ r.lock_owners → ¬ touches lck.l_start lck.l_len r)
    (hacq : add_read_lock_region h f lck = some (0, g1)
      ∨ add_write_lock_region h f lck = some (0, g1)) :
    ∃ g2, delete_lock_region h g1 lck = some (0, g2)
      ∧ (reachable g2).map core = (reachable f).map core
      ∧ ((reachable g2).filter (fun r => is_owner h r)).map core
          = ((reachable f).filter (fun r => is_owner h r)).map core := by
  obtain ⟨L1, hat1, hun⟩ := round_trip_list h lck hwf hlen hown hfree hacq
  have href := delete_lock_region_refines h lck hat1
  rw [hun (free_count g1.lock_table)] at href
  obtain ⟨g2, hg2, hat2, _, _⟩ := href
  have heq := at_reachable_eq hat2
  refine ⟨g2, hg2, heq, ?_⟩
  rw [filter_is_owner_core, filter_is_owner_core, heq]

/-- C11, amended, instance: `hA` holds READ `[0, 100)`; `hC` joins the record by acquiring
READ `[0, 100)` and then releases `[0, 100)`: the list of records is as before. -/
theorem acquire_release_round_trip_witness :
    ∃ g2, delete_lock_region hC (table_of 0 [⟨NEXT_NULL, 0, 100, F_RDLCK, [hA, hC]⟩])
          (request F_RDLCK 0 100) = some (0, g2)
      ∧ (reachable g2).map core = (reachable table_read_A).map core
      ∧ ((reachable g2).filter (fun r => is_owner hC r)).map core
          = ((reachable table_read_A).filter (fun r => is_owner hC r)).map core :=
  acquire_release_round_trip hC table_read_A
    (table_of 0 [⟨NEXT_NULL, 0, 100, F_RDLCK, [hA, hC]⟩]) (request F_RDLCK 0 100)
    (by decide) (by decide) (by decide) (by decide) (Or.inl (by decide))

/-! ## Repeating a READ request -/

theorem search_list_again (h : owner) (lck : flock) :
    ∀ (L : List rl_lock) (c : Int) (S2 : List rl_lock), search_list h lck L = some (c, S2) →
      search_list h lck S2 = some (c, S2) := by
  intro L
  induction L with
  | nil =>
    intro c S2 hs
    simp [search_list] at hs
  | cons r S ih =>
    intro c S2 hs
    have hs0 := hs
    simp only [search_list] at hs
    by_cases heq : is_region_equal lck.l_start lck.l_len r = true
    · rw [if_pos heq] at hs
      by_cases ho : is_owner h r = true
      · rw [if_pos ho] at hs
        cases hs
        exact hs0
      · rw [if_neg ho] at hs
        cases hs
        have hf := add_owner_fields h r
        have heq2 : is_region_equal lck.l_start lck.l_len (core (add_owner h r).2) = true := by
          simp only [is_region_equal, core, hf.2.1, hf.2.2.1]
          exact heq
        have hhas : has_owner r h = false := by
          have : has_owner r h = is_owner h r := by
            simp only [has_owner, is_owner, is_owners_are_equal]
          rw [this]
          simpa using ho
        simp only [search_list]
        rw [if_pos heq2]
        by_cases hcap : r.nb_owners ≥ NB_OWNERS
        · have hadd : add_owner h r = (-1, r) := by
            unfold add_owner
            rw [if_pos hcap]
          have ho2 : ¬ (is_owner h (core r) = true) := ho
          have hadd2 : add_owner h (core r) = (-1, core r) := by
            unfold add_owner
            rw [if_pos (show (core r).nb_owners ≥ NB_OWNERS from hcap)]
          rw [hadd]
          simp only
          rw [if_neg ho2, hadd2]
          rfl
        · have hadd : add_owner h r = (0, { r with lock_owners := r.lock_owners ++ [h] }) := by
            unfold add_owner
            rw [if_neg hcap]
            simp [hhas]
          rw [hadd]
          simp only
          have ho2 : is_owner h (core { r with lock_owners := r.lock_owners ++ [h] }) = true := by
            simp [is_owner, core]
          rw [if_pos ho2]
    · rw [if_neg heq] at hs
      cases hrec : search_list h lck S with
      | none => rw [hrec] at hs; simp at hs
      | some res =>
        rw [hrec] at hs
        simp only [Option.map_some', Option.some.injEq, Prod.mk.injEq] at hs
        obtain ⟨rfl, rfl⟩ := hs
        simp only [search_list]
        rw [if_neg heq, ih res.1 res.2 (by rw [hrec])]
        rfl

theorem search_list_none_inv (h : owner) (lck : flock) :
    ∀ L : List rl_lock, search_list h lck L = none →
      ∀ r ∈ L, is_region_equal lck.l_start lck.l_len r = false := by
  intro L
  induction L with
  | nil =>
    intro _ r hr
    simp at hr
  | cons a S ih =>
    intro hs r hr
    simp only [search_list] at hs
    by_cases heq : is_region_equal lck.l_start lck.l_len a = true
    · rw [if_pos heq] at hs
      split at hs <;> cases hs
    · rw [if_neg heq] at hs
      have hS : search_list h lck S = none := by
        cases hrec : search_list h lck S with
        | none => rfl
        | some res => rw [hrec] at hs; simp at hs
      rcases List.mem_cons.mp hr with hr | hr
      · subst hr
        simpa using heq
      · exact ih hS r hr

theorem add_read_merge_id (h : owner) (lck : flock) :
    ∀ (S : List rl_lock) (f : rl_open_file) (idx : Int) (P : List rl_lock) (fuel : Nat),
      At f idx P S → (∀ r ∈ S, read_match h lck r = false) → S.length < fuel →
      add_read_merge h fuel f lck idx = some (f, lck) := by
  intro S
  induction S with
  | nil =>
    intro f idx P fuel hat _ hfuel
    obtain ⟨n, rfl⟩ : ∃ n, fuel = n + 1 := ⟨fuel - 1, by simp at hfuel; omega⟩
    have := at_idx_neg hat
    rw [add_read_merge, if_neg (by omega)]
  | cons r S ih =>
    intro f idx P fuel hat hno hfuel
    obtain ⟨n, rfl⟩ : ∃ n, fuel = n + 1 := ⟨fuel - 1, by simp at hfuel; omega⟩
    obtain ⟨i, r0, hidx, hr0, hcore, hnext⟩ := at_cons_inv hat
    subst hidx
    subst hcore
    have hm : ¬ ((is_region_intersection_or_neighbour lck.l_start lck.l_len r0
        && is_owner h r0) = true) := by
      have := hno (core r0) (List.mem_cons_self _ S)
      simp only [read_match] at this
      intro hc
      rw [show is_region_intersection_or_neighbour lck.l_start lck.l_len (core r0)
          = is_region_intersection_or_neighbour lck.l_start lck.l_len r0 from rfl,
        is_owner_core, hc] at this
      cases this
    rw [add_read_merge]
    simp only [Int.toNat_ofNat, hr0, ge_iff_le, Int.ofNat_zero_le, if_true, if_neg hm]
    exact ih f r0.next_lock _ n hnext (fun x hx => hno x (List.mem_cons_of_mem _ hx))
      (by simp at hfuel; omega)

/-- C12, as stated, fails: `hA` holds READ `[0, 10)` and WRITE `[10, 20)`. A first
`add_read_lock_region` for `[0, 5)` absorbs the READ record and puts READ `[0, 10)` at the
head, before the WRITE record. A second call for `[0, 5)` absorbs the new head record, is
written back as `[0, 10)`, now touches the WRITE record behind it and absorbs it too: the
table holds READ `[0, 20)` alone. -/
theorem read_twice_differs :
    run_requests all_alive new_open_file
        [(hA, request F_RDLCK 0 10), (hA, request F_WRLCK 10 10)]
      = some ([0, 0], table_read_then_write)
    ∧ add_read_lock_region hA table_read_then_write (request F_RDLCK 0 5)
        = some (0, table_read_once)
    ∧ add_read_lock_region hA table_read_once (request F_RDLCK 0 5)
        = some (0, table_read_twice)
    ∧ reachable table_read_once
        = [⟨1, 0, 10, F_RDLCK, [hA]⟩, ⟨NEXT_NULL, 10, 10, F_WRLCK, [hA]⟩]
    ∧ reachable table_read_twice = [⟨NEXT_NULL, 0, 20, F_RDLCK, [hA]⟩] := by
  decide

/-! ## Owner counts -/

theorem at_set_advance {f : rl_open_file} {i : Nat} {P S : List rl_lock} {r r0 x : rl_lock}
    (hat : At f (i : Int) P (r :: S)) (hr0 : f.lock_table[i]? = some r0)
    (hx : x.next_lock = r0.next_lock) (hlen : x.len ≠ 0) :
    At { f with lock_table := f.lock_table.set i x } r0.next_lock (P ++ [core x]) S := by
  obtain ⟨hl, hnz, p, s, hc, hs, hp, hv⟩ := hat
  cases s with
  | nil => simp [view] at hv
  | cons i2 s =>
    obtain ⟨hidx, r1, hr1, hcs⟩ := chain_cons_inv hs
    have hi : i2 = i := (Int.ofNat_inj.mp hidx).symm
    subst hi
    rw [hr0] at hr1
    cases hr1
    simp only [view, List.map_cons, List.cons.injEq] at hv
    have hnd := chain_nodup hc
    have hip : i2 ∉ p := fun hm => (List.nodup_append.mp hnd).2.2 hm (List.mem_cons_self i2 s)
    have his : i2 ∉ s := (List.nodup_cons.mp (List.nodup_append.mp hnd).2.1).1
    have hset : (f.lock_table.set i2 x)[i2]? = some x := getElem?_set_self_idx hr0
    have hc1 : Chain (f.lock_table.set i2 x) f.first ((p ++ [i2]) ++ s) := by
      rw [List.append_assoc]
      refine chain_congr hc ?_
      intro j _ rj hrj
      by_cases hj : j = i2
      · subst hj
        rw [hr0] at hrj
        cases hrj
        exact ⟨x, hset, hx⟩
      · exact ⟨rj, by rw [getElem?_set_ne_idx hj]; exact hrj, rfl⟩
    refine ⟨by simpa using hl, ?_, p ++ [i2], s, hc1, chain_set_off x hcs his, ?_, ?_⟩
    · intro y hy
      simp only [List.append_assoc, List.singleton_append, List.mem_append, List.mem_cons] at hy
      rcases hy with hy | hy | hy
      · exact hnz y (by simp [hy])
      · subst hy
        exact hlen
      · exact hnz y (by simp [hy])
    · rw [view_append, view_set_off x hip, hp]
      simp only [view, List.map_cons, List.map_nil, slot_core_of_some hset]
    · rw [view_set_off x his]
      exact hv.2

theorem add_new_owner_scan_has (own new_owner : owner) :
    ∀ (n i : Nat) (r : rl_lock), has_owner r new_owner = true →
      r.lock_owners.length + 1 ≤ n + i → i ≤ r.lock_owners.length →
      add_new_owner_scan own new_owner n i r = some r := by
  intro n
  induction n with
  | zero =>
    intro i r _ h1 h2
    omega
  | succ n ih =>
    intro i r hhas h1 h2
    rw [add_new_owner_scan]
    cases ho : r.lock_owners[i]? with
    | none => rfl
    | some o =>
      have hi : i < r.lock_owners.length := by
        by_contra hge
        rw [List.getElem?_eq_none (by omega)] at ho
        cases ho
      simp only [hhas, Bool.not_true, Bool.false_eq_true, if_false, ite_self]
      exact ih (i + 1) r hhas (by omega) (by omega)

theorem add_new_owner_scan_spec (own new_owner : owner) :
    ∀ (n i : Nat) (r : rl_lock), r.lock_owners.length + 2 ≤ n + i →
      i ≤ r.lock_owners.length →
      ∃ r2, add_new_owner_scan own new_owner n i r = some r2
        ∧ (r2 = r
          ∨ (r2 = { r with lock_owners := r.lock_owners ++ [new_owner] }
              ∧ has_owner r own = true)) := by
  intro n
  induction n with
  | zero =>
    intro i r h1 h2
    omega
  | succ n ih =>
    intro i r h1 h2
    rw [add_new_owner_scan]
    cases ho : r.lock_owners[i]? with
    | none => exact ⟨r, rfl, Or.inl rfl⟩
    | some o =>
      have hi : i < r.lock_owners.length := by
        by_contra hge
        rw [List.getElem?_eq_none (by omega)] at ho
        cases ho
      simp only
      by_cases heq : is_owners_are_equal o own = true
      · rw [if_pos heq]
        by_cases hhas : has_owner r new_owner = true
        · simp only [hhas, Bool.not_true, Bool.false_eq_true, if_false]
          exact ih (i + 1) r (by omega) (by omega)
        · simp only [hhas, Bool.not_false, if_true]
          refine ⟨_, add_new_owner_scan_has own new_owner n (i + 1) _ ?_ ?_ ?_, Or.inr ⟨rfl, ?_⟩⟩
          · simp [has_owner, is_owners_are_equal]
          · simp only [List.length_append, List.length_singleton]
            omega
          · simp only [List.length_append, List.length_singleton]
            omega
          · simp only [has_owner, List.any_eq_true]
            exact ⟨o, List.getElem?_mem ho, heq⟩
      · rw [if_neg heq]
        exact ih (i + 1) r (by omega) (by omega)

theorem add_new_owner_by_pid_scan_spec (parent fils : Int) :
    ∀ (n i : Nat) (r : rl_lock) (res : Int), NB_OWNERS + 1 ≤ n + i → i ≤ NB_OWNERS →
      r.lock_owners.length ≤ NB_OWNERS →
      ∃ r2 res2, add_new_owner_by_pid_scan parent fils n i r res = some (r2, res2)
        ∧ r2.next_lock = r.next_lock ∧ r2.starting_offset = r.starting_offset
        ∧ r2.len = r.len ∧ r2.type = r.type
        ∧ r.lock_owners.length ≤ r2.lock_owners.length
        ∧ r2.lock_owners.length ≤ NB_OWNERS := by
  intro n
  induction n with
  | zero =>
    intro i r res h1 h2 _
    omega
  | succ n ih =>
    intro i r res h1 h2 h3
    rw [add_new_owner_by_pid_scan]
    cases ho : r.lock_owners[i]? with
    | none => exact ⟨r, res, rfl, rfl, rfl, rfl, rfl, le_refl _, h3⟩
    | some o =>
      have hi : i < r.lock_owners.length := by
        by_contra hge
        rw [List.getElem?_eq_none (by omega)] at ho
        cases ho
      simp only
      by_cases hp : o.proc = parent
      · rw [if_pos hp]
        by_cases hcap : r.nb_owners < NB_OWNERS
        · rw [if_pos hcap]
          by_cases hhas : has_owner r ⟨fils, o.des⟩ = true
          · simp only [hhas, Bool.not_true, Bool.false_eq_true, if_false]
            exact ih (i + 1) r res (by omega) (by omega) h3
          · simp only [hhas, Bool.not_false, if_true]
            obtain ⟨r2, res2, h4, h5, h6, h7, h8, h9, h10⟩ :=
              ih (i + 1) { r with lock_owners := r.lock_owners ++ [⟨fils, o.des⟩] } res
                (by omega) (by omega)
                (by
                  simp only [List.length_append, List.length_singleton]
                  exact hcap)
            refine ⟨r2, res2, h4, h5, h6, h7, h8, ?_, h10⟩
            simp only [List.length_append, List.length_singleton] at h9
            omega
        · rw [if_neg hcap]
          exact ih (i + 1) r (-1) (by omega) (by omega) h3
      · rw [if_neg hp]
        exact ih (i + 1) r res (by omega) (by omega) h3

theorem add_new_owner_loop_list (own new_owner : owner) :
    ∀ (S : List rl_lock) (f : rl_open_file) (idx : Int) (P : List rl_lock) (fuel : Nat),
      At f idx P S → (∀ r ∈ S, r.lock_owners.length ≤ NB_OWNERS) → S.length < fuel →
      ∃ g L2, add_new_owner_loop own new_owner fuel f idx = some g
        ∧ At g g.first [] (P ++ L2)
        ∧ (∀ x2 ∈ L2, ∃ x ∈ S, x2 = x
            ∨ (x2 = { x with lock_owners := x.lock_owners ++ [new_owner] }
                ∧ has_owner x own = true))
        ∧ g.blockCnt = f.blockCnt ∧ g.refCnt = f.refCnt := by
  intro S
  induction S with
  | nil =>
    intro f idx P fuel hat _ hfuel
    obtain ⟨n, rfl⟩ : ∃ n, fuel = n + 1 := ⟨fuel - 1, by simp at hfuel; omega⟩
    have := at_idx_neg hat
    rw [add_new_owner_loop, if_neg (by omega)]
    exact ⟨f, [], rfl, at_restart hat, by simp, rfl, rfl⟩
  | cons r S ih =>
    intro f idx P fuel hat hcap hfuel
    obtain ⟨n, rfl⟩ : ∃ n, fuel = n + 1 := ⟨fuel - 1, by simp at hfuel; omega⟩
    obtain ⟨i, r0, hidx, hr0, hcore, hnext⟩ := at_cons_inv hat
    subst hidx
    subst hcore
    have hr0len : r0.len ≠ 0 := hat.2.1 (core r0) (by simp)
    have hcapS : ∀ x ∈ S, x.lock_owners.length ≤ NB_OWNERS :=
      fun x hx => hcap x (List.mem_cons_of_mem _ hx)
    rw [add_new_owner_loop]
    simp only [Int.toNat_ofNat, hr0, ge_iff_le, Int.ofNat_zero_le, if_true]
    by_cases hty : r0.type = F_RDLCK
    · rw [if_pos hty]
      have hc0 : r0.lock_owners.length ≤ NB_OWNERS := hcap (core r0) (List.mem_cons_self _ S)
      obtain ⟨r2, hscan, hr2⟩ := add_new_owner_scan_spec own new_owner OWNER_FUEL 0 r0
        (by simp only [OWNER_FUEL]; omega) (by omega)
      simp only [hscan]
      have hfields : r2.next_lock = r0.next_lock ∧ r2.len = r0.len := by
        rcases hr2 with rfl | ⟨rfl, _⟩
        · exact ⟨rfl, rfl⟩
        · exact ⟨rfl, rfl⟩
      have hadv := at_set_advance hat hr0 hfields.1 (by rw [hfields.2]; exact hr0len)
      rw [hfields.1]
      obtain ⟨g, L2, hg, hatg, hrel, hb, hrc⟩ :=
        ih _ r0.next_lock _ n hadv hcapS (by simp at hfuel; omega)
      refine ⟨g, core r2 :: L2, hg, by simpa using hatg, ?_, hb, hrc⟩
      intro x2 hx2
      rcases List.mem_cons.mp hx2 with hx2 | hx2
      · subst hx2
        refine ⟨core r0, List.mem_cons_self _ S, ?_⟩
        rcases hr2 with rfl | ⟨rfl, hown⟩
        · exact Or.inl rfl
        · exact Or.inr ⟨rfl, hown⟩
      · obtain ⟨x, hx, hcase⟩ := hrel x2 hx2
        exact ⟨x, List.mem_cons_of_mem _ hx, hcase⟩
    · rw [if_neg hty]
      obtain ⟨g, L2, hg, hatg, hrel, hb, hrc⟩ :=
        ih f r0.next_lock _ n hnext hcapS (by simp at hfuel; omega)
      refine ⟨g, core r0 :: L2, hg, by simpa using hatg, ?_, hb, hrc⟩
      intro x2 hx2
      rcases List.mem_cons.mp hx2 with hx2 | hx2
      · subst hx2
        exact ⟨core r0, List.mem_cons_self _ S, Or.inl rfl⟩
      · obtain ⟨x, hx, hcase⟩ := hrel x2 hx2
        exact ⟨x, List.mem_cons_of_mem _ hx, hcase⟩

theorem add_new_owner_by_pid_loop_list (parent fils : Int) :
    ∀ (S : List rl_lock) (f : rl_open_file) (idx : Int) (P : List rl_lock) (fuel : Nat)
      (res : Int),
      At f idx P S → (∀ r ∈ S, r.lock_owners.length ≤ NB_OWNERS) → S.length < fuel →
      ∃ c g L2, add_new_owner_by_pid_loop parent fils fuel f idx res = some (c, g)
        ∧ At g g.first [] (P ++ L2)
        ∧ (∀ x2 ∈ L2, ∃ x ∈ S, x.lock_owners.length ≤ x2.lock_owners.length
            ∧ x2.lock_owners.length ≤ NB_OWNERS)
        ∧ g.blockCnt = f.blockCnt ∧ g.refCnt = f.refCnt := by
  intro S
  induction S with
  | nil =>
    intro f idx P fuel res hat _ hfuel
    obtain ⟨n, rfl⟩ : ∃ n, fuel = n + 1 := ⟨fuel - 1, by simp at hfuel; omega⟩
    have := at_idx_neg hat
    rw [add_new_owner_by_pid_loop, if_neg (by omega)]
    exact ⟨res, f, [], rfl, at_restart hat, by simp, rfl, rfl⟩
  | cons r S ih =>
    intro f idx P fuel res hat hcap hfuel
    obtain ⟨n, rfl⟩ : ∃ n, fuel = n + 1 := ⟨fuel - 1, by simp at hfuel; omega⟩
    obtain ⟨i, r0, hidx, hr0, hcore, hnext⟩ := at_cons_inv hat
    subst hidx
    subst hcore
    have hr0len : r0.len ≠ 0 := hat.2.1 (core r0) (by simp)
    have hcapS : ∀ x ∈ S, x.lock_owners.length ≤ NB_OWNERS :=
      fun x hx => hcap x (List.mem_cons_of_mem _ hx)
    have hc0 : r0.lock_owners.length ≤ NB_OWNERS := hcap (core r0) (List.mem_cons_self _ S)
    rw [add_new_owner_by_pid_loop]
    simp only [Int.toNat_ofNat, hr0, ge_iff_le, Int.ofNat_zero_le, if_true]
    by_cases hty : r0.type = F_RDLCK
    · rw [if_pos hty]
      obtain ⟨r2, res2, hscan, h5, _, h7, _, h9, h10⟩ :=
        add_new_owner_by_pid_scan_spec parent fils OWNER_FUEL 0 r0 res
          (by simp only [OWNER_FUEL]; omega) (by omega) hc0
      simp only [hscan]
      have hadv := at_set_advance hat hr0 h5 (by rw [h7]; exact hr0len)
      rw [h5]
      obtain ⟨c, g, L2, hg, hatg, hrel, hb, hrc⟩ :=
        ih _ r0.next_lock _ n res2 hadv hcapS (by simp at hfuel; omega)
      refine ⟨c, g, core r2 :: L2, hg, by simpa using hatg, ?_, hb, hrc⟩
      intro x2 hx2
      rcases List.mem_cons.mp hx2 with hx2 | hx2
      · subst hx2
        exact ⟨core r0, List.mem_cons_self _ S, h9, h10⟩
      · obtain ⟨x, hx, hcase⟩ := hrel x2 hx2
        exact ⟨x, List.mem_cons_of_mem _ hx, hcase⟩
    · rw [if_neg hty]
      obtain ⟨c, g, L2, hg, hatg, hrel, hb, hrc⟩ :=
        ih f r0.next_lock _ n res hnext hcapS (by simp at hfuel; omega)
      refine ⟨c, g, core r0 :: L2, hg, by simpa using hatg, ?_, hb, hrc⟩
      intro x2 hx2
      rcases List.mem_cons.mp hx2 with hx2 | hx2
      · subst hx2
        exact ⟨core r0, List.mem_cons_self _ S, le_refl _, hc0⟩
      · obtain ⟨x, hx, hcase⟩ := hrel x2 hx2
        exact ⟨x, List.mem_cons_of_mem _ hx, hcase⟩

theorem can_add_new_owner_scan_none (own : owner) (nb : Nat) (hnb : nb ≥ NB_OWNERS) :
    ∀ (os : List owner) (res : Int), os.any (fun o => is_owners_are_equal o own) = true →
      can_add_new_owner_scan own nb os res = none := by
  intro os
  induction os with
  | nil =>
    intro res h
    simp at h
  | cons o os ih =>
    intro res h
    rw [can_add_new_owner_scan]
    by_cases heq : is_owners_are_equal o own = true
    · rw [if_pos heq, if_pos hnb]
    · rw [if_neg heq]
      simp only [List.any_cons, Bool.or_eq_true] at h
      rcases h with h | h
      · exact absurd h heq
      · exact ih res h

theorem can_add_new_owner_loop_full (own : owner) :
    ∀ (S : List rl_lock) (f : rl_open_file) (idx : Int) (P : List rl_lock) (fuel : Nat)
      (res : Int),
      At f idx P S → S.length < fuel →
      (∃ x ∈ S, has_owner x own = true ∧ x.lock_owners.length ≥ NB_OWNERS) →
      can_add_new_owner_loop own fuel f idx res = some (-1) := by
  intro S
  induction S with
  | nil =>
    intro f idx P fuel res _ _ hbad
    obtain ⟨x, hx, _⟩ := hbad
    simp at hx
  | cons r S ih =>
    intro f idx P fuel res hat hfuel hbad
    obtain ⟨n, rfl⟩ : ∃ n, fuel = n + 1 := ⟨fuel - 1, by simp at hfuel; omega⟩
    obtain ⟨i, r0, hidx, hr0, hcore, hnext⟩ := at_cons_inv hat
    subst hidx
    subst hcore
    rw [can_add_new_owner_loop]
    simp only [Int.toNat_ofNat, hr0, ge_iff_le, Int.ofNat_zero_le, if_true]
    cases hscan : can_add_new_owner_scan own r0.nb_owners r0.lock_owners res with
    | none => rfl
    | some res2 =>
      simp only
      refine ih f r0.next_lock _ n res2 hnext (by simp at hfuel; omega) ?_
      obtain ⟨x, hx, hown, hfull⟩ := hbad
      rcases List.mem_cons.mp hx with hx | hx
      · subst hx
        have := can_add_new_owner_scan_none own r0.nb_owners hfull r0.lock_owners res hown
        rw [this] at hscan
        cases hscan
      · exact ⟨x, hx, hown, hfull⟩

theorem owners_bounded_of_lk {g : rl_open_file} {L : List rl_lock} (hlk : Lk g g.first [] L)
    (hL : ∀ x ∈ L, owner_count_ok x) : owners_bounded g := by
  intro r hr
  exact hL (core r) (core_mem_of_reachable (lk_reachable_eq hlk) hr)

theorem owner_count_ok_drop_rec {h : owner} {r x : rl_lock} (hr : owner_count_ok r)
    (hx : x ∈ drop_rec h r) : owner_count_ok x := by
  unfold drop_rec at hx
  split at hx
  · simp at hx
  · rename_i hne
    rw [List.mem_singleton] at hx
    subst hx
    refine ⟨by simp only; omega, ?_⟩
    exact le_trans (List.length_filter_le _ _) hr.2

theorem merge_list_mem (h : owner) (m : flock → rl_lock → Bool) :
    ∀ (S : List rl_lock) (lck : flock), ∀ x ∈ (merge_list h m lck S).2,
      x ∈ S ∨ ∃ r ∈ S, x ∈ drop_rec h r := by
  intro S
  induction S with
  | nil =>
    intro lck x hx
    simp [merge_list] at hx
  | cons r S ih =>
    intro lck x hx
    simp only [merge_list] at hx
    split at hx
    · rcases List.mem_append.mp hx with hx | hx
      · exact Or.inr ⟨r, List.mem_cons_self r S, hx⟩
      · rcases ih _ x hx with h1 | ⟨r2, hr2, h2⟩
        · exact Or.inl (List.mem_cons_of_mem r h1)
        · exact Or.inr ⟨r2, List.mem_cons_of_mem r hr2, h2⟩
    · rcases List.mem_cons.mp hx with hx | hx
      · exact Or.inl (by rw [hx]; exact List.mem_cons_self r S)
      · rcases ih _ x hx with h1 | ⟨r2, hr2, h2⟩
        · exact Or.inl (List.mem_cons_of_mem r h1)
        · exact Or.inr ⟨r2, List.mem_cons_of_mem r hr2, h2⟩

theorem merge_list_count_ok (h : owner) (m : flock → rl_lock → Bool) (lck : flock)
    {S : List rl_lock} (hS : ∀ r ∈ S, owner_count_ok r) :
    ∀ x ∈ (merge_list h m lck S).2, owner_count_ok x := by
  intro x hx
  rcases merge_list_mem h m S lck x hx with h1 | ⟨r, hr, h2⟩
  · exact hS x h1
  · exact owner_count_ok_drop_rec (hS r hr) h2

theorem owner_count_ok_add_owner {h : owner} {r : rl_lock} (hr : owner_count_ok r) :
    owner_count_ok (core (add_owner h r).2) := by
  unfold add_owner
  split
  · exact hr
  · rename_i hcap
    split
    · refine ⟨?_, ?_⟩
      · simp only [core, List.length_append, List.length_singleton]
        omega
      · simp only [core, List.length_append, List.length_singleton]
        simp only [rl_lock.nb_owners, ge_iff_le, not_le] at hcap
        omega
    · exact hr

theorem search_list_count_ok (h : owner) (lck : flock) :
    ∀ (L : List rl_lock) (c : Int) (S2 : List rl_lock), search_list h lck L = some (c, S2) →
      (∀ r ∈ L, owner_count_ok r) → ∀ x ∈ S2, owner_count_ok x := by
  intro L c S2 hs hL x hx
  obtain ⟨A, r, B, hLeq, _, _, hcase⟩ := search_list_split h lck L c S2 hs
  rcases hcase with ⟨_, _, hS2⟩ | ⟨_, _, hS2⟩
  · rw [hS2] at hx
    exact hL x hx
  · rw [hS2] at hx
    rcases List.mem_append.mp hx with hx | hx
    · exact hL x (by rw [hLeq]; exact List.mem_append_left _ hx)
    · rcases List.mem_cons.mp hx with hx | hx
      · subst hx
        exact owner_count_ok_add_owner (hL r (by rw [hLeq]; simp))
      · exact hL x (by rw [hLeq]; exact List.mem_append_right _ (List.mem_cons_of_mem r hx))

theorem owner_count_ok_new_rec (h : owner) (a b t : Int) : owner_count_ok (new_rec h a b t) := by
  simp [owner_count_ok, new_rec, NB_OWNERS]

theorem unlock_list_count_ok (h : owner) (lck : flock) :
    ∀ (n k : Nat) (P S : List rl_lock) (c : Int) (L2 : List rl_lock),
      unlock_list h lck n k P S = some (c, L2) → (∀ r ∈ P ++ S, owner_count_ok r) →
      ∀ x ∈ L2, owner_count_ok x := by
  intro n
  induction n with
  | zero =>
    intro k P S c L2 hu
    simp [unlock_list] at hu
  | succ n ih =>
    intro k P S c L2 hu hok
    cases S with
    | nil =>
      simp only [unlock_list, Option.some.injEq, Prod.mk.injEq] at hu
      obtain ⟨_, rfl⟩ := hu
      simpa using hok
    | cons r S =>
      have hr : owner_count_ok r := hok r (by simp)
      have hP : ∀ x ∈ P, owner_count_ok x := fun x hx => hok x (List.mem_append_left _ hx)
      have hS : ∀ x ∈ S, owner_count_ok x :=
        fun x hx => hok x (List.mem_append_right _ (List.mem_cons_of_mem r hx))
      have hall : ∀ x ∈ P ++ drop_rec h r ++ S, owner_count_ok x := by
        intro x hx
        simp only [List.mem_append] at hx
        rcases hx with (hx | hx) | hx
        · exact hP x hx
        · exact owner_count_ok_drop_rec hr hx
        · exact hS x hx
      have hfail : ∀ (T : List rl_lock), some ((-1 : Int), T) = some (c, L2) →
          (∀ x ∈ T, owner_count_ok x) → ∀ x ∈ L2, owner_count_ok x := by
        intro T hT hTok
        injection hT with hT
        injection hT with _ hT
        subst hT
        exact hTok
      rw [unlock_list] at hu
      split at hu
      · split at hu
        · exact ih _ _ _ _ _ hu (by simpa [List.append_assoc] using hall)
        · split at hu
          · split at hu
            · exact hfail _ hu hok
            · split at hu
              · refine hfail _ hu ?_
                intro x hx
                rcases List.mem_cons.mp hx with hx | hx
                · subst hx
                  exact owner_count_ok_new_rec _ _ _ _
                · exact hok x hx
              · refine ih _ _ _ _ _ hu ?_
                intro x hx
                simp only [List.nil_append, List.mem_cons] at hx
                rcases hx with hx | hx | hx
                · subst hx
                  exact owner_count_ok_new_rec _ _ _ _
                · subst hx
                  exact owner_count_ok_new_rec _ _ _ _
                · exact hall x hx
          · split at hu
            · split at hu
              · exact hfail _ hu hok
              · refine ih _ _ _ _ _ hu ?_
                intro x hx
                simp only [List.nil_append, List.mem_cons] at hx
                rcases hx with hx | hx
                · subst hx
                  exact owner_count_ok_new_rec _ _ _ _
                · exact hall x hx
            · split at hu
              · split at hu
                · exact hfail _ hu hok
                · refine ih _ _ _ _ _ hu ?_
                  intro x hx
                  simp only [List.nil_append, List.mem_cons] at hx
                  rcases hx with hx | hx
                  · subst hx
                    exact owner_count_ok_new_rec _ _ _ _
                  · exact hall x hx
              · exact ih _ _ _ _ _ hu hok
      · refine ih _ _ _ _ _ hu ?_
        intro x hx
        simp only [List.append_assoc, List.singleton_append] at hx
        exact hok x hx

/-! ## `delete_lock_region` returns -/

theorem drop_rec_length (h : owner) (r : rl_lock) :
    (drop_rec h r).length + dropped h r = 1 := by
  unfold drop_rec dropped
  split <;> simp

theorem drop_rec_no_match (h : owner) (lck : flock) (r : rl_lock) :
    (drop_rec h r).countP (unlock_match h lck) = 0 := by
  rw [List.countP_eq_zero]
  intro x hx
  have := no_owner_drop_rec hx
  have ho : is_owner h x = false := by
    rw [Bool.eq_false_iff]
    exact fun hc => this (is_owner_iff.mp hc)
  simp [unlock_match, ho]

theorem unlock_list_returns (h : owner) (lck : flock) (hlen : 0 < lck.l_len) (T : Nat) :
    ∀ (n k : Nat) (P S : List rl_lock), (∀ r ∈ P ++ S, 0 < r.len) →
      (∀ r ∈ P, unlock_match h lck r = false) → P.length + S.length + k ≤ T →
      S.countP (unlock_match h lck) * (T + 1) + S.length + 1 ≤ n →
      ∃ res, unlock_list h lck n k P S = some res := by
  intro n
  induction n with
  | zero =>
    intro k P S _ _ _ hn
    omega
  | succ n ih =>
    intro k P S hpos hP hT hn
    cases S with
    | nil => exact ⟨(0, P), by simp [unlock_list]⟩
    | cons r S =>
      have hrpos : 0 < r.len := hpos r (by simp)
      have hposP : ∀ y ∈ P, 0 < y.len := fun y hy => hpos y (by simp [hy])
      have hposS : ∀ y ∈ S, 0 < y.len := fun y hy => hpos y (by simp [hy])
      have hPc : P.countP (unlock_match h lck) = 0 := by
        rw [List.countP_eq_zero]
        intro x hx
        simp [hP x hx]
      have hdl := drop_rec_length h r
      have hposAll : ∀ y ∈ P ++ drop_rec h r ++ S, 0 < y.len := by
        intro y hy
        simp only [List.mem_append] at hy
        rcases hy with (hy | hy) | hy
        · exact hposP y hy
        · exact pos_drop_rec hrpos hy
        · exact hposS y hy
      have hcAll : (P ++ drop_rec h r ++ S).countP (unlock_match h lck)
          = S.countP (unlock_match h lck) := by
        rw [List.countP_append, List.countP_append, hPc, drop_rec_no_match]
        omega
      simp only [List.length_cons] at hT hn
      rw [unlock_list]
      by_cases hm : (is_region_intersection lck.l_start lck.l_len r && is_owner h r) = true
      · rw [if_pos hm]
        have hm2 : unlock_match h lck r = true := hm
        have hc : (r :: S).countP (unlock_match h lck) = S.countP (unlock_match h lck) + 1 := by
          rw [List.countP_cons, if_pos hm2]
        rw [hc, Nat.succ_mul] at hn
        simp only [Bool.and_eq_true] at hm
        have hint := intersects_iff.mp ((is_region_intersection_iff hlen hrpos).mp hm.1)
        have hrestart : ∀ (news : List rl_lock) (k2 : Nat),
            (∀ y ∈ news, 0 < y.len ∧ unlock_match h lck y = false) →
            news.length + (P ++ drop_rec h r ++ S).length + k2 ≤ T →
            ∃ res, unlock_list h lck n k2 [] (news ++ (P ++ drop_rec h r ++ S)) = some res := by
          intro news k2 hnews hT2
          have hnc : news.countP (unlock_match h lck) = 0 := by
            rw [List.countP_eq_zero]
            intro x hx
            simp [(hnews x hx).2]
          refine ih k2 [] _ ?_ (by simp) (by simpa using hT2) ?_
          · intro y hy
            simp only [List.nil_append] at hy
            rcases List.mem_append.mp hy with hy | hy
            · exact (hnews y hy).1
            · exact hposAll y hy
          · rw [List.countP_append, hnc, hcAll, List.length_append, Nat.zero_add]
            omega
        by_cases c1 : lck.l_start ≤ r.starting_offset
            ∧ lck.l_start + lck.l_len ≥ r.starting_offset + r.len
        · rw [if_pos c1]
          refine ih _ _ _ ?_ ?_ ?_ ?_
          · exact hposAll
          · intro y hy
            rcases List.mem_append.mp hy with hy | hy
            · exact hP y hy
            · have := no_owner_drop_rec hy
              have ho : is_owner h y = false := by
                rw [Bool.eq_false_iff]
                exact fun hc => this (is_owner_iff.mp hc)
              simp [unlock_match, ho]
          · simp only [List.length_append]
            omega
          · omega
        · rw [if_neg c1]
          by_cases c2 : lck.l_start > r.starting_offset
              ∧ lck.l_start + lck.l_len < r.starting_offset + r.len
          · rw [if_pos c2]
            by_cases hk0 : k = 0
            · rw [if_pos hk0]
              exact ⟨_, rfl⟩
            · rw [if_neg hk0]
              by_cases hk1 : k = 1
              · rw [if_pos hk1]
                exact ⟨_, rfl⟩
              · rw [if_neg hk1]
                have := hrestart [right_piece h lck r, left_piece h lck r]
                  (k - 2 + dropped h r)
                  (by
                    intro y hy
                    simp only [List.mem_cons, List.mem_singleton, List.not_mem_nil,
                      or_false] at hy
                    rcases hy with hy | hy
                    · subst hy
                      refine ⟨by show 0 < r.starting_offset + r.len
                          - (lck.l_start + lck.l_len); omega, ?_⟩
                      have : is_region_intersection lck.l_start lck.l_len
                          (right_piece h lck r) = false := by
                        simp only [is_region_intersection, right_piece, new_rec,
                          Bool.or_eq_false_iff, Bool.and_eq_false_imp, decide_eq_true_eq,
                          decide_eq_false_iff_not]
                        omega
                      simp [unlock_match, this]
                    · subst hy
                      refine ⟨by show 0 < lck.l_start - r.starting_offset; omega, ?_⟩
                      have : is_region_intersection lck.l_start lck.l_len
                          (left_piece h lck r) = false := by
                        simp only [is_region_intersection, left_piece, new_rec,
                          Bool.or_eq_false_iff, Bool.and_eq_false_imp, decide_eq_true_eq,
                          decide_eq_false_iff_not]
                        omega
                      simp [unlock_match, this])
                  (by
                    simp only [List.length_append, List.length_cons, List.length_nil]
                    omega)
                simpa using this
          · rw [if_neg c2]
            by_cases c3 : lck.l_start ≤ r.starting_offset
                ∧ lck.l_start + lck.l_len ≤ r.starting_offset + r.len
            · rw [if_pos c3]
              by_cases hk0 : k = 0
              · rw [if_pos hk0]
                exact ⟨_, rfl⟩
              · rw [if_neg hk0]
                have := hrestart [right_piece h lck r] (k - 1 + dropped h r)
                  (by
                    intro y hy
                    simp only [List.mem_singleton] at hy
                    subst hy
                    refine ⟨by show 0 < r.starting_offset + r.len
                        - (lck.l_start + lck.l_len); omega, ?_⟩
                    have : is_region_intersection lck.l_start lck.l_len
                        (right_piece h lck r) = false := by
                      simp only [is_region_intersection, right_piece, new_rec,
                        Bool.or_eq_false_iff, Bool.and_eq_false_imp, decide_eq_true_eq,
                        decide_eq_false_iff_not]
                      omega
                    simp [unlock_match, this])
                  (by
                    simp only [List.length_append, List.length_cons, List.length_nil]
                    omega)
                simpa using this
            · rw [if_neg c3]
              by_cases c4 : lck.l_start ≥ r.starting_offset
                  ∧ lck.l_start + lck.l_len ≥ r.starting_offset + r.len
              · rw [if_pos c4]
                by_cases hk0 : k = 0
                · rw [if_pos hk0]
                  exact ⟨_, rfl⟩
                · rw [if_neg hk0]
                  have := hrestart [left_piece h lck r] (k - 1 + dropped h r)
                    (by
                      intro y hy
                      simp only [List.mem_singleton] at hy
                      subst hy
                      refine ⟨by show 0 < lck.l_start - r.starting_offset; omega, ?_⟩
                      have : is_region_intersection lck.l_start lck.l_len
                          (left_piece h lck r) = false := by
                        simp only [is_region_intersection, left_piece, new_rec,
                          Bool.or_eq_false_iff, Bool.and_eq_false_imp, decide_eq_true_eq,
                          decide_eq_false_iff_not]
                        omega
                      simp [unlock_match, this])
                    (by
                      simp only [List.length_append, List.length_cons, List.length_nil]
                      omega)
                  simpa using this
              · exfalso
                omega
      · rw [if_neg hm]
        have hm2 : ¬ (unlock_match h lck r = true) := hm
        have hc : (r :: S).countP (unlock_match h lck) = S.countP (unlock_match h lck) := by
          rw [List.countP_cons, if_neg hm2]
          rfl
        rw [hc] at hn
        refine ih _ _ _ ?_ ?_ ?_ ?_
        · intro y hy
          exact hpos y (by simpa using hy)
        · intro y hy
          rcases List.mem_append.mp hy with hy | hy
          · exact hP y hy
          · rw [List.mem_singleton] at hy
            subst hy
            simpa using hm2
        · simp only [List.length_append, List.length_singleton]
          omega
        · omega

theorem chain_free_le :
    ∀ (l : List Nat) (tbl : List rl_lock), l.Nodup →
      (∀ i ∈ l, ∃ r, tbl[i]? = some r ∧ r.len ≠ 0) →
      l.length + free_count tbl ≤ tbl.length := by
  intro l
  induction l with
  | nil =>
    intro tbl _ _
    simp only [List.length_nil, zero_add, free_count]
    exact List.countP_le_length _
  | cons i l ih =>
    intro tbl hnd hall
    obtain ⟨r, hr, hr0⟩ := hall i (List.mem_cons_self i l)
    have hnd2 := List.nodup_cons.mp hnd
    have hfc := free_count_set (x := empty_slot) hr
    rw [if_neg hr0, if_pos (show empty_slot.len = 0 from rfl)] at hfc
    have := ih (tbl.set i empty_slot) hnd2.2 (by
      intro j hj
      obtain ⟨rj, hrj, hrj0⟩ := hall j (List.mem_cons_of_mem i hj)
      exact ⟨rj, by rw [getElem?_set_ne_idx (ne_of_mem_of_not_mem hj hnd2.1)]; exact hrj,
        hrj0⟩)
    simp only [List.length_set, List.length_cons] at this ⊢
    omega

theorem at_free_le {f : rl_open_file} {L : List rl_lock} (hat : At f f.first [] L) :
    L.length + free_count f.lock_table ≤ NB_LOCKS := by
  obtain ⟨hl, hnz, p, s, hc, _, hp, hv⟩ := hat
  have hp0 : p = [] := by simpa [view] using hp
  subst hp0
  have hc2 : Chain f.lock_table f.first s := by simpa using hc
  have hlen : L.length = s.length := by rw [← hv]; simp [view]
  have := chain_free_le s f.lock_table (chain_nodup hc2) (by
    intro i hi
    have hlt := chain_lt_length hc2 i hi
    refine ⟨f.lock_table[i], List.getElem?_eq_getElem hlt, ?_⟩
    have hmem : slot_core f.lock_table i ∈ L := by
      rw [← hv]
      exact List.mem_map_of_mem _ hi
    have := hnz _ (by simpa using hmem)
    rw [slot_core_of_some (List.getElem?_eq_getElem hlt)] at this
    exact this)
  omega

theorem delete_lock_region_returns (h : owner) (lck : flock) {f : rl_open_file}
    (hwf : well_formed f) (hlen : 0 < lck.l_len) :
    ∃ c g, delete_lock_region h f lck = some (c, g) := by
  have hat := at_of_well_formed hwf
  have hfree := at_free_le hat
  have hcount : ((reachable f).map core).countP (unlock_match h lck)
      ≤ ((reachable f).map core).length := List.countP_le_length _
  obtain ⟨res, hres⟩ := unlock_list_returns h lck hlen NB_LOCKS RESCAN_FUEL
    (free_count f.lock_table) [] ((reachable f).map core)
    (by
      intro r hr
      obtain ⟨r0, hr0, rfl⟩ := List.mem_map.mp (by simpa using hr)
      exact hwf.2.2 r0 hr0)
    (by simp) (by simpa using hfree)
    (by
      simp only [RESCAN_FUEL, NB_LOCKS] at hfree ⊢
      omega)
  have href := delete_lock_region_refines h lck hat
  rw [hres] at href
  obtain ⟨g, hg, _⟩ := href
  exact ⟨res.1, g, hg⟩

/-- C16: on a well-formed table in which every reachable record has between 1 and
`NB_OWNERS` owners, `add_read_lock_region`, `add_write_lock_region`, `add_new_owner` (when
`can_add_new_owner` did not return -1) and `add_new_owner_by_pid` return and, whatever the
result code, leave a table in which every reachable record has between 1 and `NB_OWNERS`
owners; the same holds for every result of `delete_lock_region`, which returns whenever
the region has positive length. -/
theorem owner_bounds_preserved (h own new_owner : owner) (parent fils : Int)
    (f : rl_open_file) (lck : flock) (hwf : well_formed f) (hb : owners_bounded f) :
    (∃ c g, add_read_lock_region h f lck = some (c, g) ∧ owners_bounded g)
    ∧ (∃ c g, add_write_lock_region h f lck = some (c, g) ∧ owners_bounded g)
    ∧ (∀ c g, delete_lock_region h f lck = some (c, g) → owners_bounded g)
    ∧ (0 < lck.l_len → ∃ c g, delete_lock_region h f lck = some (c, g))
    ∧ (can_add_new_owner own f ≠ some (-1) →
        ∃ g, add_new_owner own new_owner f = some (0, g) ∧ owners_bounded g)
    ∧ (∃ c g, add_new_owner_by_pid parent fils f = some (c, g) ∧ owners_bounded g) := by
  have hat := at_of_well_formed hwf
  have hL : ∀ x ∈ (reachable f).map core, owner_count_ok x := by
    intro x hx
    obtain ⟨r0, hr0, rfl⟩ := List.mem_map.mp hx
    exact hb r0 hr0
  have hcap : ∀ x ∈ (reachable f).map core, x.lock_owners.length ≤ NB_OWNERS :=
    fun x hx => (hL x hx).2
  refine ⟨?_, ?_, ?_, ?_, ?_, ?_⟩
  · obtain ⟨c, g, hrd, _, _, hcase⟩ := add_read_lock_region_cases h lck hat
    refine ⟨c, g, hrd, ?_⟩
    rcases hcase with ⟨S2, hs, hat2⟩ | ⟨_, ⟨_, hat2, _⟩ | ⟨_, hlk, _⟩⟩
    · exact owners_bounded_of_lk (at_to_lk hat2) (search_list_count_ok h lck _ _ _ hs hL)
    · exact owners_bounded_of_lk (at_to_lk hat2) (merge_list_count_ok h _ lck hL)
    · refine owners_bounded_of_lk hlk ?_
      intro x hx
      rcases List.mem_cons.mp hx with hx | hx
      · subst hx
        exact owner_count_ok_new_rec _ _ _ _
      · exact merge_list_count_ok h _ lck hL x hx
  · obtain ⟨c, g, hwr, _, _, hcase⟩ := add_write_lock_region_cases h lck hat
    refine ⟨c, g, hwr, ?_⟩
    rcases hcase with ⟨_, hat2, _⟩ | ⟨_, hlk, _⟩
    · exact owners_bounded_of_lk (at_to_lk hat2) (merge_list_count_ok h _ lck hL)
    · refine owners_bounded_of_lk hlk ?_
      intro x hx
      rcases List.mem_cons.mp hx with hx | hx
      · subst hx
        exact owner_count_ok_new_rec _ _ _ _
      · exact merge_list_count_ok h _ lck hL x hx
  · intro c g hdel
    have href := delete_lock_region_refines h lck hat
    cases hun : unlock_list h lck RESCAN_FUEL (free_count f.lock_table) []
        ((reachable f).map core) with
    | none =>
      rw [hun] at href
      rw [show delete_lock_region h f lck = none from href] at hdel
      cases hdel
    | some res =>
      rw [hun] at href
      obtain ⟨g2, hg2, hat2, _, _⟩ := href
      rw [hg2] at hdel
      injection hdel with hdel
      injection hdel with _ hg
      subst hg
      exact owners_bounded_of_lk (at_to_lk hat2)
        (unlock_list_count_ok h lck _ _ _ _ res.1 res.2 hun (by simpa using hL))
  · intro hlen
    exact delete_lock_region_returns h lck hwf hlen
  · intro hcan
    obtain ⟨g, L2, hg, hatg, hrel, _, _⟩ :=
      add_new_owner_loop_list own new_owner _ f f.first [] SCAN_FUEL hat hcap (scan_fuel_ok hat)
    refine ⟨g, by unfold add_new_owner; rw [hg]; rfl, ?_⟩
    refine owners_bounded_of_lk (at_to_lk hatg) ?_
    intro x2 hx2
    obtain ⟨x, hx, hcase⟩ := hrel x2 (by simpa using hx2)
    rcases hcase with rfl | ⟨rfl, hown⟩
    · exact hL x2 hx
    · have hlt : x.lock_owners.length < NB_OWNERS := by
        by_contra hge
        exact hcan (can_add_new_owner_loop_full own _ f f.first [] SCAN_FUEL 0 hat
          (scan_fuel_ok hat) ⟨x, hx, hown, by omega⟩)
      refine ⟨?_, ?_⟩
      · simp only [List.length_append, List.length_singleton]
        omega
      · simp only [List.length_append, List.length_singleton]
        omega
  · obtain ⟨c, g, L2, hg, hatg, hrel, _, _⟩ :=
      add_new_owner_by_pid_loop_list parent fils _ f f.first [] SCAN_FUEL 0 hat hcap
        (scan_fuel_ok hat)
    refine ⟨c, g, hg, ?_⟩
    refine owners_bounded_of_lk (at_to_lk hatg) ?_
    intro x2 hx2
    obtain ⟨x, hx, h1, h2⟩ := hrel x2 (by simpa using hx2)
    exact ⟨le_trans (hL x hx).1 h1, h2⟩

/-- C16, instance: `hA` and `hC` share READ `[0, 10)`; the release of `[0, 5)` by `hA`
returns, and the copy of the locks of `hA` to the handle `hB` (as `rl_dup` does) returns 0
and leaves between 1 and `NB_OWNERS` owners in every reachable record. -/
theorem owner_bounds_preserved_witness :
    (∃ c g, delete_lock_region hA table_shared (request F_UNLCK 0 5) = some (c, g))
    ∧ (∃ g, add_new_owner hA hB table_shared = some (0, g) ∧ owners_bounded g) :=
  have hh := owner_bounds_preserved hA hA hB 100 101 table_shared (request F_UNLCK 0 5)
    (by decide) (by decide)
  ⟨hh.2.2.2.1 (by decide), hh.2.2.2.2.1 (by decide)⟩

theorem merge_list_no_equal (h : owner) (m : flock → rl_lock → Bool) (lck cur : flock)
    {S : List rl_lock} (hS : ∀ r ∈ S, is_region_equal lck.l_start lck.l_len r = false) :
    ∀ x ∈ (merge_list h m cur S).2, is_region_equal lck.l_start lck.l_len x = false := by
  intro x hx
  rcases merge_list_mem h m S cur x hx with h1 | ⟨r, hr, h2⟩
  · exact hS x h1
  · unfold drop_rec at h2
    split at h2
    · simp at h2
    · rw [List.mem_singleton] at h2
      subst h2
      exact hS r hr

theorem merge_list_pos (h : owner) (m : flock → rl_lock → Bool) (cur : flock)
    {S : List rl_lock} (hS : ∀ r ∈ S, 0 < r.len) :
    ∀ x ∈ (merge_list h m cur S).2, 0 < x.len := by
  intro x hx
  rcases merge_list_mem h m S cur x hx with h1 | ⟨r, hr, h2⟩
  · exact hS x h1
  · exact pos_drop_rec (hS r hr) h2

theorem add_read_search_none (h : owner) (lck : flock) {f : rl_open_file} {L : List rl_lock}
    (hat : At f f.first [] L) (hnone : search_list h lck L = none) :
    add_read_search h lck SCAN_FUEL f f.first = some none := by
  rcases add_read_search_eq h lck L f f.first [] SCAN_FUEL hat (scan_fuel_ok hat)
    with ⟨_, h2⟩ | ⟨c, S2, g2, h1, _⟩
  · exact h2
  · rw [hnone] at h1
    cases h1

theorem add_read_lock_region_found {h : owner} {lck : flock} {f : rl_open_file}
    {L S2 : List rl_lock} {c : Int} (hat : At f f.first [] L)
    (hsome : search_list h lck L = some (c, S2)) :
    ∃ g, add_read_lock_region h f lck = some (c, g) ∧ At g g.first [] S2 := by
  rcases add_read_search_eq h lck L f f.first [] SCAN_FUEL hat (scan_fuel_ok hat)
    with ⟨hnone, _⟩ | ⟨c2, S3, g, hsome2, hsearch, hatg, _, _⟩
  · rw [hsome] at hnone
    cases hnone
  · rw [hsome] at hsome2
    injection hsome2 with hsome2
    injection hsome2 with hc hS
    subst hc
    subst hS
    refine ⟨g, ?_, by simpa using hatg⟩
    unfold add_read_lock_region
    rw [hsearch]

/-- C12, amended: on a well-formed table whose records start at non-negative offsets, for a
region with `start ≥ 0` and `len > 0`, let a first `add_read_lock_region` return the code `c`.
If, in the case where it inserted a record (`c = 0` and no record had exactly the requested
region), `h` owns no record behind the inserted head record that touches or intersects the
region of that record, then a second call returns `c` as well and the list of records after
it (regions, types, owner lists, order) is the list after the first call. -/
theorem add_read_lock_region_twice (h : owner) (f g1 : rl_open_file) (lck : flock) (c : Int)
    (hwf : well_formed f) (hs : starts_nonneg f) (h0 : 0 ≤ lck.l_start)
    (hlen : 0 < lck.l_len) (hfirst : add_read_lock_region h f lck = some (c, g1))
    (hsep : c = 0 →
      (∀ r ∈ reachable f, ¬ (r.starting_offset = lck.l_start ∧ r.len = lck.l_len)) →
      ∀ n ∈ (reachable g1).head?, ∀ x ∈ (reachable g1).tail,
        h ∈ x.lock_owners → ¬ touches n.starting_offset n.len x) :
    ∃ g2, add_read_lock_region h g1 lck = some (c, g2)
      ∧ (reachable g2).map core = (reachable g1).map core := by
  have hat := at_of_well_formed hwf
  have hok := at_records_ok hwf hs
  obtain ⟨c2, g, hrd, _, _, hcase⟩ := add_read_lock_region_cases h lck hat
  rw [hrd] at hfirst
  injection hfirst with hfirst
  injection hfirst with hc hg
  subst hc
  subst hg
  rcases hcase with ⟨S2, hsome, hat1⟩ | ⟨hnone, ⟨hc, hat1, hfree⟩ | ⟨hc, _, hnew⟩⟩
  · obtain ⟨g2, hg2, hat2⟩ :=
      add_read_lock_region_found hat1 (search_list_again h lck _ _ _ hsome)
    exact ⟨g2, hg2, by rw [at_reachable_eq hat2, at_reachable_eq hat1]⟩
  · have hnoeqL := search_list_none_inv h lck _ hnone
    have hnoeq := merge_list_no_equal h (read_match h) lck lck hnoeqL
    have hposm := merge_list_pos h (read_match h) lck (fun r hr => (hok r hr).2)
    have hno : ∀ x ∈ (merge_list h (read_match h) lck ((reachable f).map core)).2,
        read_match h lck x = false :=
      fun x hx => read_match_free hlen (hposm x hx)
        (merge_list_read_separated h lck _ h0 hlen hok x hx)
    have hsearch2 : add_read_search h lck SCAN_FUEL g g.first = some none :=
      add_read_search_none h lck hat1 (search_list_none hnoeq)
    have hmerge2 := add_read_merge_id h lck _ g g.first [] SCAN_FUEL hat1 hno (scan_fuel_ok hat1)
    have hsecond : add_read_lock_region h g lck = some (add_lock h g lck F_RDLCK) := by
      unfold add_read_lock_region
      rw [hsearch2]
      simp only [hmerge2]
    rcases at_add_lock_step h lck F_RDLCK hat1 (by omega) with ⟨_, hfail⟩ | ⟨g2, _, _, hfc, _⟩
    · rw [hfail] at hsecond
      exact ⟨g, by rw [hsecond, hc], rfl⟩
    · omega
  · have hext := merge_list_region h (read_match h) lck _ lck (extends_region_refl h0 hlen) hok
    obtain ⟨he1, he2, _, he4, _⟩ := hext
    have hat1 := hnew (by omega)
    have heq1 := at_reachable_eq hat1
    by_cases heqr : (merge_list h (read_match h) lck ((reachable f).map core)).1.l_start
          = lck.l_start
        ∧ (merge_list h (read_match h) lck ((reachable f).map core)).1.l_len = lck.l_len
    · have hfound : search_list h lck
            (new_rec h (merge_list h (read_match h) lck ((reachable f).map core)).1.l_start
                (merge_list h (read_match h) lck ((reachable f).map core)).1.l_len F_RDLCK
              :: (merge_list h (read_match h) lck ((reachable f).map core)).2)
          = some (0,
              new_rec h (merge_list h (read_match h) lck ((reachable f).map core)).1.l_start
                (merge_list h (read_match h) lck ((reachable f).map core)).1.l_len F_RDLCK
              :: (merge_list h (read_match h) lck ((reachable f).map core)).2) := by
        simp [search_list, is_region_equal, new_rec, is_owner, heqr.1, heqr.2]
      obtain ⟨g2, hg2, hat2⟩ := add_read_lock_region_found hat1 hfound
      exact ⟨g2, by rw [hg2, hc], by rw [at_reachable_eq hat2, heq1]⟩
    · have hnoeqL := search_list_none_inv h lck _ hnone
      have hnoeq := merge_list_no_equal h (read_match h) lck lck hnoeqL
      have hposm := merge_list_pos h (read_match h) lck (fun r hr => (hok r hr).2)
      have hnoeqf : ∀ r ∈ reachable f,
          ¬ (r.starting_offset = lck.l_start ∧ r.len = lck.l_len) := by
        intro r hr hrr
        have := hnoeqL (core r) (List.mem_map_of_mem core hr)
        simp [is_region_equal, core, hrr.1, hrr.2] at this
      have hsepL : ∀ y ∈ (merge_list h (read_match h) lck ((reachable f).map core)).2,
          h ∈ y.lock_owners →
          ¬ touches (merge_list h (read_match h) lck ((reachable f).map core)).1.l_start
              (merge_list h (read_match h) lck ((reachable f).map core)).1.l_len y := by
        cases hreach : reachable g with
        | nil =>
          rw [hreach] at heq1
          cases heq1
        | cons n rest =>
          rw [hreach] at heq1
          simp only [List.map_cons, List.cons.injEq] at heq1
          intro y hy hyo
          rw [← heq1.2] at hy
          obtain ⟨x, hx, rfl⟩ := List.mem_map.mp hy
          have hn1 : n.starting_offset
              = (merge_list h (read_match h) lck ((reachable f).map core)).1.l_start :=
            congrArg rl_lock.starting_offset heq1.1
          have hn2 : n.len = (merge_list h (read_match h) lck ((reachable f).map core)).1.l_len :=
            congrArg rl_lock.len heq1.1
          have := hsep hc hnoeqf n (by rw [hreach]; rfl) x (by rw [hreach]; exact hx) hyo
          rw [hn1, hn2] at this
          exact this
      have hsnone : search_list h lck
            (new_rec h (merge_list h (read_match h) lck ((reachable f).map core)).1.l_start
                (merge_list h (read_match h) lck ((reachable f).map core)).1.l_len F_RDLCK
              :: (merge_list h (read_match h) lck ((reachable f).map core)).2) = none := by
        apply search_list_none
        intro x hx
        rcases List.mem_cons.mp hx with hx | hx
        · subst hx
          simp only [is_region_equal, new_rec, Bool.and_eq_false_imp, decide_eq_true_eq,
            decide_eq_false_iff_not]
          intro h1 h2
          exact heqr ⟨h1.symm, h2.symm⟩
        · exact hnoeq x hx
      have hsearch2 := add_read_search_none h lck hat1 hsnone
      obtain ⟨i, r0, hidx, hr0, hcore, _⟩ := at_cons_inv hat1
      have hat1i : At g (i : Int) []
          (new_rec h (merge_list h (read_match h) lck ((reachable f).map core)).1.l_start
              (merge_list h (read_match h) lck ((reachable f).map core)).1.l_len F_RDLCK
            :: (merge_list h (read_match h) lck ((reachable f).map core)).2) := by
        rw [← hidx]
        exact hat1
      obtain ⟨ga, hdel, hata, hfca, _, _⟩ := at_delete_owner_step h hat1i hr0
      have hr0s : r0.starting_offset
          = (merge_list h (read_match h) lck ((reachable f).map core)).1.l_start :=
        congrArg rl_lock.starting_offset hcore
      have hr0l : r0.len = (merge_list h (read_match h) lck ((reachable f).map core)).1.l_len :=
        congrArg rl_lock.len hcore
      have hr0o : r0.lock_owners = [h] := congrArg rl_lock.lock_owners hcore
      have hdrop : drop_rec h
          (new_rec h (merge_list h (read_match h) lck ((reachable f).map core)).1.l_start
            (merge_list h (read_match h) lck ((reachable f).map core)).1.l_len F_RDLCK) = [] := by
        have : drop_owner h (new_rec h
            (merge_list h (read_match h) lck ((reachable f).map core)).1.l_start
            (merge_list h (read_match h) lck ((reachable f).map core)).1.l_len
            F_RDLCK).lock_owners = [] := drop_owner_only (by simp [new_rec])
        simp [drop_rec, this]
      have hdropped : dropped h
          (new_rec h (merge_list h (read_match h) lck ((reachable f).map core)).1.l_start
            (merge_list h (read_match h) lck ((reachable f).map core)).1.l_len F_RDLCK) = 1 := by
        have : drop_owner h (new_rec h
            (merge_list h (read_match h) lck ((reachable f).map core)).1.l_start
            (merge_list h (read_match h) lck ((reachable f).map core)).1.l_len
            F_RDLCK).lock_owners = [] := drop_owner_only (by simp [new_rec])
        simp [dropped, this]
      rw [hdrop] at hata
      rw [hdropped] at hfca
      have hcs : (absorb lck r0).l_start = r0.starting_offset := by
        simp only [absorb]
        rw [if_neg (by omega)]
      have hcl : (absorb lck r0).l_len = r0.len := by
        simp only [absorb]
        rw [if_neg (by omega), if_neg (by omega)]
        omega
      have hno : ∀ x ∈ (merge_list h (read_match h) lck ((reachable f).map core)).2,
          read_match h (absorb lck r0) x = false := by
        intro x hx
        refine read_match_free (by rw [hcl, hr0l]; exact he4) (hposm x hx) ?_
        rw [hcs, hcl, hr0s, hr0l]
        exact hsepL x hx
      have hlen10 : (merge_list h (read_match h) lck ((reachable f).map core)).2.length < 10 := by
        have := at_length_le hat1
        simp only [List.length_nil, List.length_cons, NB_LOCKS] at this
        omega
      have hmergea := add_read_merge_id h (absorb lck r0) _ ga r0.next_lock [] 10
        (by simpa using hata) hno hlen10
      have hm0 : (is_region_intersection_or_neighbour lck.l_start lck.l_len r0
          && is_owner h r0) = true := by
        have h1 : is_region_intersection_or_neighbour lck.l_start lck.l_len r0 = true := by
          rw [is_region_intersection_or_neighbour_iff (by omega) (by omega)]
          unfold touches
          omega
        have h2 : is_owner h r0 = true := is_owner_iff.mpr (by rw [hr0o]; simp)
        rw [h1, h2]
        rfl
      have hmerge2 : add_read_merge h SCAN_FUEL g lck g.first = some (ga, absorb lck r0) := by
        rw [show SCAN_FUEL = 10 + 1 from rfl, add_read_merge, hidx]
        simp only [Int.toNat_ofNat, hr0, ge_iff_le, Int.ofNat_zero_le, if_true, hm0, hdel,
          hmergea]
      have hsecond : add_read_lock_region h g lck
          = some (add_lock h ga (absorb lck r0) F_RDLCK) := by
        unfold add_read_lock_region
        rw [hsearch2]
        simp only [hmerge2]
      rcases at_add_lock_step h (absorb lck r0) F_RDLCK hata (by rw [hcl, hr0l]; omega)
        with ⟨hfree0, _⟩ | ⟨g2, hok2, hat2, _, _⟩
      · omega
      · rw [hok2] at hsecond
        refine ⟨g2, by rw [hsecond, hc], ?_⟩
        have hat2r := at_restart hat2
        rw [at_reachable_eq hat2r, heq1, hcs, hcl, hr0s, hr0l]
        rfl

/-- C12, amended, instance: `hA` holds READ `[0, 100)` and asks READ `[50, 150)` twice. The
first call merges the two regions into READ `[0, 150)`; the second call leaves that list. -/
theorem add_read_lock_region_twice_witness :
    ∃ g2, add_read_lock_region hA (table_of 0 [⟨NEXT_NULL, 0, 150, F_RDLCK, [hA]⟩])
          (request F_RDLCK 50 100) = some (0, g2)
      ∧ (reachable g2).map core
          = (reachable (table_of 0 [⟨NEXT_NULL, 0, 150, F_RDLCK, [hA]⟩])).map core :=
  add_read_lock_region_twice hA table_read_A (table_of 0 [⟨NEXT_NULL, 0, 150, F_RDLCK, [hA]⟩])
    (request F_RDLCK 50 100) 0 (by decide) (by decide) (by decide) (by decide) (by decide)
    (by decide)

/-! ## Lengths when every record starts at a non-negative offset -/

theorem unlock_list_pos (h : owner) (lck : flock) :
    ∀ (n k : Nat) (P S : List rl_lock) (c : Int) (L2 : List rl_lock),
      unlock_list h lck n k P S = some (c, L2) → (∀ r ∈ P ++ S, 0 < r.len) →
      ∀ x ∈ L2, 0 < x.len := by
  intro n
  induction n with
  | zero =>
    intro k P S c L2 hu
    simp [unlock_list] at hu
  | succ n ih =>
    intro k P S c L2 hu hpos
    cases S with
    | nil =>
      simp only [unlock_list, Option.some.injEq, Prod.mk.injEq] at hu
      obtain ⟨_, rfl⟩ := hu
      simpa using hpos
    | cons r S =>
      have hrpos : 0 < r.len := hpos r (by simp)
      have hall : ∀ x ∈ P ++ drop_rec h r ++ S, 0 < x.len := by
        intro x hx
        simp only [List.mem_append] at hx
        rcases hx with (hx | hx) | hx
        · exact hpos x (by simp [hx])
        · exact pos_drop_rec hrpos hx
        · exact hpos x (by simp [hx])
      have hfail : ∀ (T : List rl_lock), some ((-1 : Int), T) = some (c, L2) →
          (∀ x ∈ T, 0 < x.len) → ∀ x ∈ L2, 0 < x.len := by
        intro T hT hTok
        injection hT with hT
        injection hT with _ hT
        subst hT
        exact hTok
      have hright : lck.l_start + lck.l_len < r.starting_offset + r.len →
          0 < (right_piece h lck r).len := by
        intro hh
        show 0 < r.starting_offset + r.len - (lck.l_start + lck.l_len)
        omega
      have hleft : lck.l_start > r.starting_offset → 0 < (left_piece h lck r).len := by
        intro hh
        show 0 < lck.l_start - r.starting_offset
        omega
      rw [unlock_list] at hu
      by_cases hm : (is_region_intersection lck.l_start lck.l_len r && is_owner h r) = true
      · rw [if_pos hm] at hu
        by_cases c1 : lck.l_start ≤ r.starting_offset
            ∧ lck.l_start + lck.l_len ≥ r.starting_offset + r.len
        · rw [if_pos c1] at hu
          exact ih _ _ _ _ _ hu hall
        · rw [if_neg c1] at hu
          by_cases c2 : lck.l_start > r.starting_offset
              ∧ lck.l_start + lck.l_len < r.starting_offset + r.len
          · rw [if_pos c2] at hu
            by_cases hk0 : k = 0
            · rw [if_pos hk0] at hu
              exact hfail _ hu hpos
            · rw [if_neg hk0] at hu
              by_cases hk1 : k = 1
              · rw [if_pos hk1] at hu
                refine hfail _ hu ?_
                intro x hx
                rcases List.mem_cons.mp hx with hx | hx
                · subst hx
                  exact hleft c2.1
                · exact hpos x hx
              · rw [if_neg hk1] at hu
                refine ih _ _ _ _ _ hu ?_
                intro x hx
                simp only [List.nil_append, List.mem_cons] at hx
                rcases hx with hx | hx | hx
                · subst hx
                  exact hright c2.2
                · subst hx
                  exact hleft c2.1
                · exact hall x hx
          · rw [if_neg c2] at hu
            by_cases c3 : lck.l_start ≤ r.starting_offset
                ∧ lck.l_start + lck.l_len ≤ r.starting_offset + r.len
            · rw [if_pos c3] at hu
              by_cases hk0 : k = 0
              · rw [if_pos hk0] at hu
                exact hfail _ hu hpos
              · rw [if_neg hk0] at hu
                refine ih _ _ _ _ _ hu ?_
                intro x hx
                simp only [List.nil_append, List.mem_cons] at hx
                rcases hx with hx | hx
                · subst hx
                  exact hright (by omega)
                · exact hall x hx
            · rw [if_neg c3] at hu
              by_cases c4 : lck.l_start ≥ r.starting_offset
                  ∧ lck.l_start + lck.l_len ≥ r.starting_offset + r.len
              · rw [if_pos c4] at hu
                by_cases hk0 : k = 0
                · rw [if_pos hk0] at hu
                  exact hfail _ hu hpos
                · rw [if_neg hk0] at hu
                  refine ih _ _ _ _ _ hu ?_
                  intro x hx
                  simp only [List.nil_append, List.mem_cons] at hx
                  rcases hx with hx | hx
                  · subst hx
                    exact hleft (by omega)
                  · exact hall x hx
              · exfalso
                omega
      · rw [if_neg hm] at hu
        refine ih _ _ _ _ _ hu ?_
        intro x hx
        exact hpos x (by simpa using hx)

theorem search_list_pos (h : owner) (lck : flock) :
    ∀ (L : List rl_lock) (c : Int) (S2 : List rl_lock), search_list h lck L = some (c, S2) →
      (∀ r ∈ L, 0 < r.len) → ∀ x ∈ S2, 0 < x.len := by
  intro L c S2 hs hL x hx
  obtain ⟨A, r, B, hLeq, _, _, hcase⟩ := search_list_split h lck L c S2 hs
  rcases hcase with ⟨_, _, hS2⟩ | ⟨_, _, hS2⟩
  · rw [hS2] at hx
    exact hL x hx
  · rw [hS2] at hx
    rcases List.mem_append.mp hx with hx | hx
    · exact hL x (by rw [hLeq]; exact List.mem_append_left _ hx)
    · rcases List.mem_cons.mp hx with hx | hx
      · subst hx
        show 0 < (add_owner h r).2.len
        rw [(add_owner_fields h r).2.1]
        exact hL r (by rw [hLeq]; simp)
      · exact hL x (by rw [hLeq]; exact List.mem_append_right _ (List.mem_cons_of_mem r hx))

theorem positive_of_lk {g : rl_open_file} {L : List rl_lock} (hlk : Lk g g.first [] L)
    (hL : ∀ x ∈ L, 0 < x.len) : ∀ r ∈ reachable g, 0 < r.len := by
  intro r hr
  exact hL (core r) (core_mem_of_reachable (lk_reachable_eq hlk) hr)

/-- Positive length is preserved when, in addition to the request, every reachable record
starts at a non-negative offset: after `add_read_lock_region` and `add_write_lock_region`
every reachable record has length > 0, whatever the result code. For `delete_lock_region`
this holds for every request. -/
theorem positive_length_nonneg (h : owner) (f : rl_open_file) (lck : flock)
    (hwf : well_formed f) :
    (starts_nonneg f → 0 ≤ lck.l_start → 0 < lck.l_len →
      (∀ c g, add_read_lock_region h f lck = some (c, g) → ∀ r ∈ reachable g, 0 < r.len)
      ∧ (∀ c g, add_write_lock_region h f lck = some (c, g) → ∀ r ∈ reachable g, 0 < r.len))
    ∧ (∀ c g, delete_lock_region h f lck = some (c, g) → ∀ r ∈ reachable g, 0 < r.len) := by
  have hat := at_of_well_formed hwf
  have hposL : ∀ r ∈ (reachable f).map core, 0 < r.len := by
    intro r hr
    obtain ⟨r0, hr0, rfl⟩ := List.mem_map.mp hr
    exact hwf.2.2 r0 hr0
  refine ⟨?_, ?_⟩
  · intro hs h0 hlen
    have hok := at_records_ok hwf hs
    refine ⟨?_, ?_⟩
    · intro c g hres
      obtain ⟨c2, g2, hrd, _, _, hcase⟩ := add_read_lock_region_cases h lck hat
      rw [hrd] at hres
      injection hres with hres
      injection hres with hc hg
      subst hc
      subst hg
      rcases hcase with ⟨S2, hsome, hat2⟩ | ⟨_, ⟨_, hat2, _⟩ | ⟨_, hlk, _⟩⟩
      · exact positive_of_lk (at_to_lk hat2) (search_list_pos h lck _ _ _ hsome hposL)
      · exact positive_of_lk (at_to_lk hat2) (merge_list_pos h _ lck hposL)
      · refine positive_of_lk hlk ?_
        intro x hx
        rcases List.mem_cons.mp hx with hx | hx
        · subst hx
          exact (merge_list_region h (read_match h) lck _ lck (extends_region_refl h0 hlen)
            hok).2.2.2.1
        · exact merge_list_pos h _ lck hposL x hx
    · intro c g hres
      obtain ⟨c2, g2, hwr, _, _, hcase⟩ := add_write_lock_region_cases h lck hat
      rw [hwr] at hres
      injection hres with hres
      injection hres with hc hg
      subst hc
      subst hg
      rcases hcase with ⟨_, hat2, _⟩ | ⟨_, hlk, _⟩
      · exact positive_of_lk (at_to_lk hat2) (merge_list_pos h _ lck hposL)
      · refine positive_of_lk hlk ?_
        intro x hx
        rcases List.mem_cons.mp hx with hx | hx
        · subst hx
          exact (merge_list_region h (write_match h) lck _ lck (extends_region_refl h0 hlen)
            hok).2.2.2.1
        · exact merge_list_pos h _ lck hposL x hx
  · intro c g hdel
    have href := delete_lock_region_refines h lck hat
    cases hun : unlock_list h lck RESCAN_FUEL (free_count f.lock_table) []
        ((reachable f).map core) with
    | none =>
      rw [hun] at href
      rw [show delete_lock_region h f lck = none from href] at hdel
      cases hdel
    | some res =>
      rw [hun] at href
      obtain ⟨g2, hg2, hat2, _, _⟩ := href
      rw [hg2] at hdel
      injection hdel with hdel
      injection hdel with _ hg
      subst hg
      exact positive_of_lk (at_to_lk hat2)
        (unlock_list_pos h lck _ _ _ _ res.1 res.2 hun (by simpa using hposL))

/-! ## The intersection predicate -/

/-- C30: for `len > 0` and a record of length > 0, `is_region_intersection` is true exactly
when the half-open ranges `[offset, offset + len)` and `[start, start + len)` of the record
share a byte, that is when `offset < start + len` of the record and the start of the record
is below `offset + len`. -/
theorem is_region_intersection_exact (offset len : Int) (r : rl_lock) (hlen : 0 < len)
    (hr : 0 < r.len) :
    (is_region_intersection offset len r = true ↔
      ∃ x, (offset ≤ x ∧ x < offset + len)
        ∧ (r.starting_offset ≤ x ∧ x < r.starting_offset + r.len))
    ∧ ((∃ x, (offset ≤ x ∧ x < offset + len)
          ∧ (r.starting_offset ≤ x ∧ x < r.starting_offset + r.len))
        ↔ (offset < r.starting_offset + r.len ∧ r.starting_offset < offset + len)) := by
  have hex : (∃ x, (offset ≤ x ∧ x < offset + len)
        ∧ (r.starting_offset ≤ x ∧ x < r.starting_offset + r.len))
      ↔ (offset < r.starting_offset + r.len ∧ r.starting_offset < offset + len) := by
    constructor
    · rintro ⟨x, ⟨h1, h2⟩, h3, h4⟩
      exact ⟨by omega, by omega⟩
    · rintro ⟨h1, h2⟩
      by_cases hc : offset ≤ r.starting_offset
      · exact ⟨r.starting_offset, ⟨hc, h2⟩, le_refl _, by omega⟩
      · exact ⟨offset, ⟨le_refl _, by omega⟩, by omega, h1⟩
  refine ⟨?_, hex⟩
  rw [hex]
  simp only [is_region_intersection, Bool.or_eq_true, Bool.and_eq_true, decide_eq_true_eq]
  omega

/-- C30, instance: `[5, 15)` and the record `[10, 20)` share byte 10. -/
theorem is_region_intersection_exact_witness :
    is_region_intersection 5 10 ⟨NEXT_NULL, 10, 10, F_RDLCK, [hA]⟩ = true ↔
      ∃ x, ((5 : Int) ≤ x ∧ x < 5 + 10)
        ∧ ((⟨NEXT_NULL, 10, 10, F_RDLCK, [hA]⟩ : rl_lock).starting_offset ≤ x
            ∧ x < (⟨NEXT_NULL, 10, 10, F_RDLCK, [hA]⟩ : rl_lock).starting_offset
                + (⟨NEXT_NULL, 10, 10, F_RDLCK, [hA]⟩ : rl_lock).len) :=
  (is_region_intersection_exact 5 10 ⟨NEXT_NULL, 10, 10, F_RDLCK, [hA]⟩ (by decide)
    (by decide)).1

/-! ## Releasing what is not held -/

theorem delete_lock_region_loop_id (h : owner) (lck : flock) :
    ∀ (S : List rl_lock) (f : rl_open_file) (idx : Int) (P : List rl_lock) (fuel : Nat),
      At f idx P S → (∀ r ∈ S, unlock_match h lck r = false) → S.length < fuel →
      delete_lock_region_loop h lck fuel f idx = some (0, f) := by
  intro S
  induction S with
  | nil =>
    intro f idx P fuel hat _ hfuel
    obtain ⟨n, rfl⟩ : ∃ n, fuel = n + 1 := ⟨fuel - 1, by simp at hfuel; omega⟩
    have := at_idx_neg hat
    rw [delete_lock_region_loop, if_neg (by omega)]
  | cons r S ih =>
    intro f idx P fuel hat hno hfuel
    obtain ⟨n, rfl⟩ : ∃ n, fuel = n + 1 := ⟨fuel - 1, by simp at hfuel; omega⟩
    obtain ⟨i, r0, hidx, hr0, hcore, hnext⟩ := at_cons_inv hat
    subst hidx
    subst hcore
    have hm : ¬ ((is_region_intersection lck.l_start lck.l_len r0 && is_owner h r0) = true) := by
      have := hno (core r0) (List.mem_cons_self _ S)
      simp only [unlock_match, is_region_intersection_core, is_owner_core] at this
      rw [this]
      simp
    rw [delete_lock_region_loop]
    simp only [Int.toNat_ofNat, hr0, ge_iff_le, Int.ofNat_zero_le, if_true, if_neg hm]
    exact ih f r0.next_lock _ n hnext (fun x hx => hno x (List.mem_cons_of_mem _ hx))
      (by simp at hfuel; omega)

theorem blockCnt_reset_eq (f : rl_open_file) :
    (if f.blockCnt ≠ 0 then outcome.ret 0 { f with blockCnt := 0 } else outcome.ret 0 f)
      = outcome.ret 0 { f with blockCnt := 0 } := by
  by_cases hb : f.blockCnt = 0
  · rw [if_neg (by simpa using hb)]
    cases f
    simp only at hb
    subst hb
    rfl
  · rw [if_pos hb]

/-- C22: on a well-formed table, when no reachable record owned by `h` intersects the
region (length > 0), `delete_lock_region` returns 0 and the table is exactly as before:
every slot, hence every record, owner list and the list order. Through `rl_fcntl` (all
owners alive, so that the sweep changes nothing) an UNLOCK request returns 0 and changes
nothing but `blockCnt`, which it resets. -/
theorem delete_lock_region_noop (alive : Int → Bool) (pos size : Int) (h : owner)
    (f : rl_open_file) (lck : flock) (hwf : well_formed f) (hlen : 0 < lck.l_len)
    (hnone : ∀ r ∈ reachable f, h ∈ r.lock_owners → ¬ intersects lck.l_start lck.l_len r) :
    delete_lock_region h f lck = some (0, f)
    ∧ (h.des ≠ FILE_UNK → owners_alive alive f → lck.l_whence = SEEK_SET →
        lck.l_type = F_UNLCK →
        rl_fcntl alive pos size h f F_SETLK lck = outcome.ret 0 { f with blockCnt := 0 }) := by
  have hat := at_of_well_formed hwf
  have hfuel : ((reachable f).map core).length < RESCAN_FUEL := by
    have := scan_fuel_ok hat
    simp only [SCAN_FUEL, RESCAN_FUEL, NB_LOCKS] at this ⊢
    omega
  have hdel : ∀ lc : flock, lc.l_start = lck.l_start → lc.l_len = lck.l_len →
      delete_lock_region h f lc = some (0, f) := by
    intro lc hs hl
    unfold delete_lock_region
    refine delete_lock_region_loop_id h lc _ f f.first [] RESCAN_FUEL hat ?_ hfuel
    intro r hr
    obtain ⟨r0, hr0, rfl⟩ := List.mem_map.mp hr
    rw [Bool.eq_false_iff]
    intro hm
    simp only [unlock_match, Bool.and_eq_true, is_region_intersection_core, is_owner_core] at hm
    rw [hs, hl] at hm
    exact hnone r0 hr0 (is_owner_iff.mp hm.2)
      ((is_region_intersection_iff hlen (hwf.2.2 r0 hr0)).mp hm.1)
  refine ⟨hdel lck rfl rfl, ?_⟩
  intro hd ha hw ht
  have hcmd : ¬ (h.des = FILE_UNK ∨ F_SETLK = F_GETLK) := by
    rintro (h1 | h1)
    · exact hd h1
    · exact absurd h1 (by decide)
  unfold rl_fcntl
  rw [if_neg hcmd, normalize_plain pos size h lck hw hlen]
  simp only [rl_clear_dead_owners_id hwf ha, if_pos ht, hdel { lck with l_pid := h.proc } rfl rfl]
  exact blockCnt_reset_eq f

/-- C22, instance: `hA` holds READ `[0, 100)`; `hC`, which holds nothing, releases
`[0, 50)`. -/
theorem delete_lock_region_noop_witness :
    delete_lock_region hC table_read_A (request F_UNLCK 0 50) = some (0, table_read_A)
    ∧ rl_fcntl all_alive 0 0 hC table_read_A F_SETLK (request F_UNLCK 0 50)
        = outcome.ret 0 { table_read_A with blockCnt := 0 } :=
  have hh := delete_lock_region_noop all_alive 0 0 hC table_read_A (request F_UNLCK 0 50)
    (by decide) (by decide)
    (fun r hr ho =>
      absurd ho ((by decide : ∀ r ∈ reachable table_read_A, hC ∉ r.lock_owners) r hr))
  ⟨hh.1, hh.2 (by decide) (by decide) (by decide) (by decide)⟩

/-! ## A full owner set -/

theorem add_read_search_full (h : owner) (lck : flock) (r : rl_lock) (B : List rl_lock)
    (heq : is_region_equal lck.l_start lck.l_len r = true) (hno : is_owner h r = false)
    (hfull : r.lock_owners.length ≥ NB_OWNERS) :
    ∀ (A : List rl_lock) (f : rl_open_file) (idx : Int) (P : List rl_lock) (fuel : Nat),
      At f idx P (A ++ r :: B) →
      (∀ a ∈ A, is_region_equal lck.l_start lck.l_len a = false) → A.length < fuel →
      add_read_search h lck fuel f idx = some (some (-1, f)) := by
  intro A
  induction A with
  | nil =>
    intro f idx P fuel hat _ hfuel
    obtain ⟨n, rfl⟩ : ∃ n, fuel = n + 1 := ⟨fuel - 1, by omega⟩
    obtain ⟨i, r0, hidx, hr0, hcore, _⟩ := at_cons_inv (by simpa using hat : At f idx P (r :: B))
    subst hidx
    subst hcore
    have heq0 : is_region_equal lck.l_start lck.l_len r0 = true := heq
    have hno0 : ¬ (is_owner h r0 = true) := by
      rw [show is_owner h r0 = is_owner h (core r0) from rfl, hno]
      simp
    have hadd : add_owner h r0 = (-1, r0) := by
      unfold add_owner
      rw [if_pos (show r0.nb_owners ≥ NB_OWNERS from hfull)]
    rw [add_read_search]
    simp only [Int.toNat_ofNat, hr0, ge_iff_le, Int.ofNat_zero_le, if_true, heq0, if_neg hno0,
      hadd, set_self_of_getElem? hr0]
  | cons a A ih =>
    intro f idx P fuel hat hA hfuel
    obtain ⟨n, rfl⟩ : ∃ n, fuel = n + 1 := ⟨fuel - 1, by simp at hfuel; omega⟩
    obtain ⟨i, r0, hidx, hr0, hcore, hnext⟩ :=
      at_cons_inv (by simpa using hat : At f idx P (a :: (A ++ r :: B)))
    subst hidx
    subst hcore
    have hne : ¬ (is_region_equal lck.l_start lck.l_len r0 = true) := by
      have := hA (core r0) (List.mem_cons_self _ A)
      rw [show is_region_equal lck.l_start lck.l_len r0
        = is_region_equal lck.l_start lck.l_len (core r0) from rfl, this]
      simp
    rw [add_read_search]
    simp only [Int.toNat_ofNat, hr0, ge_iff_le, Int.ofNat_zero_le, if_true, if_neg hne]
    exact ih f r0.next_lock _ n hnext (fun x hx => hA x (List.mem_cons_of_mem _ hx))
      (by simp at hfuel; omega)

/-- C21: on a well-formed table whose list is `A ++ r :: B`, where no record of `A` has
exactly the requested region, `r` has it, `r` has `NB_OWNERS` owners and `h` is none of
them, `add_read_lock_region` returns -1 and leaves the table exactly as it was. Through
`rl_fcntl` (all owners alive, so that the sweep changes nothing) a non-blocking READ
request returns -1 and the table is unchanged. -/
theorem add_read_lock_region_full (alive : Int → Bool) (pos size : Int) (h : owner)
    (f : rl_open_file) (lck : flock) (A B : List rl_lock) (r : rl_lock)
    (hwf : well_formed f) (hsplit : reachable f = A ++ r :: B)
    (hA : ∀ a ∈ A, ¬ (a.starting_offset = lck.l_start ∧ a.len = lck.l_len))
    (hr : r.starting_offset = lck.l_start ∧ r.len = lck.l_len)
    (hfull : r.lock_owners.length = NB_OWNERS) (hnot : h ∉ r.lock_owners) :
    add_read_lock_region h f lck = some (-1, f)
    ∧ (h.des ≠ FILE_UNK → owners_alive alive f → lck.l_whence = SEEK_SET → 0 < lck.l_len →
        lck.l_type = F_RDLCK →
        rl_fcntl alive pos size h f F_SETLK lck = outcome.ret (-1) f) := by
  have hat := at_of_well_formed hwf
  have hlenA : A.length < SCAN_FUEL := by
    have := scan_fuel_ok hat
    rw [hsplit] at this
    simp at this
    omega
  have hrd : ∀ lc : flock, lc.l_start = lck.l_start → lc.l_len = lck.l_len →
      add_read_lock_region h f lc = some (-1, f) := by
    intro lc hs hl
    have hat2 : At f f.first [] (A.map core ++ core r :: B.map core) := by
      have := hat
      rw [hsplit] at this
      simpa using this
    have := add_read_search_full h lc (core r) (B.map core)
      (by simp [is_region_equal, core, hs, hl, hr.1, hr.2])
      (by
        rw [Bool.eq_false_iff]
        exact fun hc => hnot (is_owner_iff.mp hc))
      (by show r.lock_owners.length ≥ NB_OWNERS; omega)
      (A.map core) f f.first [] SCAN_FUEL hat2
      (by
        intro a ha
        obtain ⟨a0, ha0, rfl⟩ := List.mem_map.mp ha
        have := hA a0 ha0
        simp only [is_region_equal, core, Bool.and_eq_false_imp, decide_eq_true_eq,
          decide_eq_false_iff_not, hs, hl]
        intro h1 h2
        exact this ⟨h1.symm, h2.symm⟩)
      (by simpa using hlenA)
    unfold add_read_lock_region
    rw [this]
  refine ⟨hrd lck rfl rfl, ?_⟩
  intro hd ha hw hlen ht
  have hcmd : ¬ (h.des = FILE_UNK ∨ F_SETLK = F_GETLK) := by
    rintro (h1 | h1)
    · exact hd h1
    · exact absurd h1 (by decide)
  have hun : ¬ (lck.l_type = F_UNLCK) := by rw [ht]; decide
  unfold rl_fcntl
  rw [if_neg hcmd, normalize_plain pos size h lck hw hlen]
  simp only [rl_clear_dead_owners_id hwf ha, if_neg hun, if_pos ht,
    @is_rl_compatible_eq h f { lck with l_pid := h.proc } _ hat,
    hrd { lck with l_pid := h.proc } rfl rfl]
  cases ((reachable f).map core).any (conflict h { lck with l_pid := h.proc }) with
  | true => simp only [Bool.not_true, if_neg (show ¬ (F_SETLK = F_SETLKW) by decide)]
  | false => simp only [Bool.not_false]

/-- C21, instance: twenty handles share READ `[0, 100)`; the READ request of `hA` for
`[0, 100)` returns -1 and the table is unchanged. -/
theorem add_read_lock_region_full_witness :
    add_read_lock_region hA table_full_owners (request F_RDLCK 0 100)
        = some (-1, table_full_owners)
    ∧ rl_fcntl all_alive 0 0 hA table_full_owners F_SETLK (request F_RDLCK 0 100)
        = outcome.ret (-1) table_full_owners :=
  have hh := add_read_lock_region_full all_alive 0 0 hA table_full_owners
    (request F_RDLCK 0 100) [] [] ⟨NEXT_NULL, 0, 100, F_RDLCK, twenty_owners⟩
    (by decide) (by decide) (by decide) (by decide) (by decide) (by decide)
  ⟨hh.1, hh.2 (by decide) (by decide) (by decide) (by decide) (by decide)⟩

/-! ## The counters of the table -/

theorem add_lock_counters (h : owner) (f : rl_open_file) (lck : flock) (t : Int) :
    (add_lock h f lck t).2.blockCnt = f.blockCnt ∧ (add_lock h f lck t).2.refCnt = f.refCnt := by
  unfold add_lock
  split <;> exact ⟨rfl, rfl⟩

theorem delete_lock_loop_counters (index : Int) :
    ∀ (n : Nat) (f : rl_open_file) (prev idx : Int) (g : rl_open_file),
      delete_lock_loop index n f prev idx = some g →
      g.blockCnt = f.blockCnt ∧ g.refCnt = f.refCnt := by
  intro n
  induction n with
  | zero =>
    intro f prev idx g hg
    simp [delete_lock_loop] at hg
  | succ n ih =>
    intro f prev idx g hg
    rw [delete_lock_loop] at hg
    split at hg
    · split at hg
      · cases hg
      · split at hg
        · split at hg
          · split at hg
            · cases hg
            · cases hg
              exact ⟨rfl, rfl⟩
          · cases hg
            exact ⟨rfl, rfl⟩
        · exact ih _ _ _ _ hg
    · cases hg
      exact ⟨rfl, rfl⟩

theorem delete_owner_counters (h : owner) (f : rl_open_file) (index : Int) (g : rl_open_file)
    (hg : delete_owner h f index = some g) :
    g.blockCnt = f.blockCnt ∧ g.refCnt = f.refCnt := by
  unfold delete_owner at hg
  split at hg
  · cases hg
  · split at hg
    · cases hg
    · simp only at hg
      split at hg
      · have h1 := delete_lock_loop_counters _ _ _ _ _ _ hg
        exact h1
      · cases hg
        exact ⟨rfl, rfl⟩

theorem rl_clear_dead_owners_loop_counters (alive : Int → Bool) :
    ∀ (n : Nat) (f : rl_open_file) (idx : Int) (g : rl_open_file),
      rl_clear_dead_owners_loop alive n f idx = some g →
      g.blockCnt = f.blockCnt ∧ g.refCnt = f.refCnt := by
  intro n
  induction n with
  | zero =>
    intro f idx g hg
    simp [rl_clear_dead_owners_loop] at hg
  | succ n ih =>
    intro f idx g hg
    rw [rl_clear_dead_owners_loop] at hg
    split at hg
    · split at hg
      · cases hg
      · simp only at hg
        split at hg
        · split at hg
          · have h1 := ih _ _ _ hg
            exact h1
          · have h1 := ih _ _ _ hg
            exact h1
        · have h1 := ih _ _ _ hg
          exact h1
    · cases hg
      exact ⟨rfl, rfl⟩

theorem add_lock_blockCnt (h : owner) (f : rl_open_file) (lck : flock) (t : Int) :
    (add_lock h f lck t).2.blockCnt = f.blockCnt := (add_lock_counters h f lck t).1

theorem add_lock_refCnt (h : owner) (f : rl_open_file) (lck : flock) (t : Int) :
    (add_lock h f lck t).2.refCnt = f.refCnt := (add_lock_counters h f lck t).2

theorem delete_lock_region_loop_counters (h : owner) (lck : flock) :
    ∀ (n : Nat) (f : rl_open_file) (idx : Int) (c : Int) (g : rl_open_file),
      delete_lock_region_loop h lck n f idx = some (c, g) →
      g.blockCnt = f.blockCnt ∧ g.refCnt = f.refCnt := by
  intro n
  induction n with
  | zero =>
    intro f idx c g hg
    simp [delete_lock_region_loop] at hg
  | succ n ih =>
    intro f idx c g hg
    have hstep : ∀ (f0 : rl_open_file) (i2 : Option rl_open_file → Int),
        f0.blockCnt = f.blockCnt ∧ f0.refCnt = f.refCnt →
        (match delete_owner h f0 idx with
          | none => none
          | some f2 => delete_lock_region_loop h lck n f2 (i2 (some f2))) = some (c, g) →
        g.blockCnt = f.blockCnt ∧ g.refCnt = f.refCnt := by
      intro f0 i2 h0 hm
      cases hd : delete_owner h f0 idx with
      | none => rw [hd] at hm; cases hm
      | some f1 =>
        rw [hd] at hm
        have h1 := delete_owner_counters h f0 idx f1 hd
        have h2 := ih _ _ _ _ hm
        exact ⟨by rw [h2.1, h1.1, h0.1], by rw [h2.2, h1.2, h0.2]⟩
    rw [delete_lock_region_loop] at hg
    split at hg
    · split at hg
      · cases hg
      · simp only at hg
        split at hg
        · split at hg
          · exact hstep f (fun _ => _) ⟨rfl, rfl⟩ hg
          · split at hg
            · split at hg
              · cases hg
                simp only [add_lock_blockCnt, add_lock_refCnt, and_self]
              · split at hg
                · cases hg
                  simp only [add_lock_blockCnt, add_lock_refCnt, and_self]
                · exact hstep _ (fun o => (o.getD f).first)
                    (by simp only [add_lock_blockCnt, add_lock_refCnt, and_self]) hg
            · split at hg
              · split at hg
                · cases hg
                  simp only [add_lock_blockCnt, add_lock_refCnt, and_self]
                · exact hstep _ (fun o => (o.getD f).first)
                    (by simp only [add_lock_blockCnt, add_lock_refCnt, and_self]) hg
              · split at hg
                · split at hg
                  · cases hg
                    simp only [add_lock_blockCnt, add_lock_refCnt, and_self]
                  · exact hstep _ (fun o => (o.getD f).first)
                      (by simp only [add_lock_blockCnt, add_lock_refCnt, and_self]) hg
                · exact ih _ _ _ _ hg
        · exact ih _ _ _ _ hg
    · cases hg
      exact ⟨rfl, rfl⟩

theorem sweep_well_formed (alive : Int → Bool) {f : rl_open_file} (hwf : well_formed f) :
    ∃ g, rl_clear_dead_owners alive f = some g ∧ well_formed g
      ∧ g.blockCnt = f.blockCnt ∧ g.refCnt = f.refCnt := by
  obtain ⟨g, hg, hat, hb, hr⟩ := rl_clear_dead_owners_list alive (at_of_well_formed hwf)
  refine ⟨g, hg, at_to_well_formed hat ?_, hb, hr⟩
  intro x hx
  obtain ⟨c, hc, rfl⟩ := sweep_list_mem hx
  obtain ⟨r, hr, rfl⟩ := List.mem_map.mp hc
  exact hwf.2.2 r hr

/-- C28: an `F_UNLCK` request through `rl_fcntl` (valid handle, command other than
`F_GETLK`) never blocks, and whenever it returns, with whatever code, the table it leaves
has `blockCnt = 0` and the `refCnt` of the table before the call. On a well-formed table
and for a region of length > 0 after alignment the call does return. -/
theorem rl_fcntl_unlock_counters (alive : Int → Bool) (pos size : Int) (h : owner)
    (f : rl_open_file) (cmd : Int) (lck : flock)
    (hd : h.des ≠ FILE_UNK) (hcmd : cmd ≠ F_GETLK) (ht : lck.l_type = F_UNLCK) :
    (∀ c g, rl_fcntl alive pos size h f cmd lck = outcome.ret c g →
        g.blockCnt = 0 ∧ g.refCnt = f.refCnt)
    ∧ (∀ g, rl_fcntl alive pos size h f cmd lck ≠ outcome.wait g)
    ∧ (well_formed f → 0 < (normalize pos size h lck).l_len →
        ∃ c g, rl_fcntl alive pos size h f cmd lck = outcome.ret c g) := by
  have hty : (normalize pos size h lck).l_type = F_UNLCK := ht
  have hguard : ¬ (h.des = FILE_UNK ∨ cmd = F_GETLK) := by
    intro hor
    rcases hor with hor | hor
    · exact hd hor
    · exact hcmd hor
  have hundef1 : rl_clear_dead_owners alive f = none →
      rl_fcntl alive pos size h f cmd lck = outcome.undef := by
    intro hs
    unfold rl_fcntl
    rw [if_neg hguard]
    simp only [hs]
  have hundef2 : ∀ f0, rl_clear_dead_owners alive f = some f0 →
      delete_lock_region h f0 (normalize pos size h lck) = none →
      rl_fcntl alive pos size h f cmd lck = outcome.undef := by
    intro f0 hs hu
    unfold rl_fcntl
    rw [if_neg hguard]
    simp only [hs, hty, if_true, hu]
  have hval : ∀ f0 c1 f1, rl_clear_dead_owners alive f = some f0 →
      delete_lock_region h f0 (normalize pos size h lck) = some (c1, f1) →
      rl_fcntl alive pos size h f cmd lck = outcome.ret c1 { f1 with blockCnt := 0 } := by
    intro f0 c1 f1 hs hu
    unfold rl_fcntl
    rw [if_neg hguard]
    simp only [hs, hty, if_true, hu]
    by_cases hb : f1.blockCnt = 0
    · rw [if_neg (by simpa using hb)]
      cases f1
      simp only at hb
      subst hb
      rfl
    · rw [if_pos hb]
  have hall : ∀ o, rl_fcntl alive pos size h f cmd lck = o →
      o = outcome.undef ∨ ∃ (c1 : Int) (f1 : rl_open_file),
        o = outcome.ret c1 { f1 with blockCnt := 0 } ∧ f1.refCnt = f.refCnt := by
    intro o ho
    cases hs : rl_clear_dead_owners alive f with
    | none => exact Or.inl (ho.symm.trans (hundef1 hs))
    | some f0 =>
      have h0 := rl_clear_dead_owners_loop_counters alive _ _ _ _ hs
      cases hu : delete_lock_region h f0 (normalize pos size h lck) with
      | none => exact Or.inl (ho.symm.trans (hundef2 f0 hs hu))
      | some res =>
        obtain ⟨c1, f1⟩ := res
        have h1 := delete_lock_region_loop_counters h _ _ _ _ _ _ hu
        exact Or.inr ⟨c1, f1, ho.symm.trans (hval f0 c1 f1 hs hu), h1.2.trans h0.2⟩
  refine ⟨?_, ?_, ?_⟩
  · intro c g hret
    rcases hall _ hret with hx | ⟨c1, f1, hx, hr⟩
    · cases hx
    · cases hx
      exact ⟨rfl, hr⟩
  · intro g hw
    rcases hall _ hw with hx | ⟨c1, f1, hx, _⟩
    · cases hx
    · cases hx
  · intro hwf hlen
    obtain ⟨f0, hs, hwf0, _, _⟩ := sweep_well_formed alive hwf
    obtain ⟨c1, f1, hu⟩ := delete_lock_region_returns h (normalize pos size h lck) hwf0 hlen
    exact ⟨_, _, hval f0 c1 f1 hs hu⟩

theorem rl_fcntl_unlock_counters_witness :
    (table_read_A_released.blockCnt = 0
      ∧ table_read_A_released.refCnt = table_read_A_blocked.refCnt)
    ∧ ∃ c g, rl_fcntl all_alive 0 0 hA table_read_A_blocked F_SETLK (request F_UNLCK 0 50)
        = outcome.ret c g :=
  ⟨(rl_fcntl_unlock_counters all_alive 0 0 hA table_read_A_blocked F_SETLK
      (request F_UNLCK 0 50) (by decide) (by decide) (by decide)).1 0 table_read_A_released
      (by decide),
   (rl_fcntl_unlock_counters all_alive 0 0 hA table_read_A_blocked F_SETLK
      (request F_UNLCK 0 50) (by decide) (by decide) (by decide)).2.2 (by decide)
      (by decide)⟩

/-! ## The claims of the other owners -/

theorem claims_of_append (K : owner) (A B : List rl_lock) :
    claims_of K (A ++ B) = claims_of K A ++ claims_of K B := by
  simp [claims_of]

theorem claims_of_cons (K : owner) (r : rl_lock) (S : List rl_lock) :
    claims_of K (r :: S) = claims_of K [r] ++ claims_of K S :=
  claims_of_append K [r] S

theorem claims_of_owners {K : owner} {r r2 : rl_lock}
    (hs : r2.starting_offset = r.starting_offset) (hl : r2.len = r.len) (ht : r2.type = r.type)
    (ho : K ∈ r2.lock_owners ↔ K ∈ r.lock_owners) :
    claims_of K [r2] = claims_of K [r] := by
  by_cases hk : K ∈ r.lock_owners
  · simp [claims_of, List.filter_cons, hk, ho.mpr hk, hs, hl, ht]
  · have hk2 : K ∉ r2.lock_owners := fun h2 => hk (ho.mp h2)
    simp [claims_of, List.filter_cons, hk, hk2]

theorem claims_of_not_owner {K : owner} {r : rl_lock} (hk : K ∉ r.lock_owners) :
    claims_of K [r] = [] := by
  simp [claims_of, List.filter_cons, hk]

theorem claims_of_map_core (K : owner) (L : List rl_lock) :
    claims_of K (L.map core) = claims_of K L := by
  induction L with
  | nil => rfl
  | cons r S ih =>
    rw [List.map_cons, claims_of_cons, claims_of_cons K r, ih]
    congr 1
    exact claims_of_owners rfl rfl rfl Iff.rfl

theorem claims_of_drop_rec {h K : owner} (hK : K ≠ h) (r : rl_lock) :
    claims_of K (drop_rec h r) = claims_of K [r] := by
  have hiff : K ∈ drop_owner h r.lock_owners ↔ K ∈ r.lock_owners :=
    ⟨fun hm => (mem_drop_owner.mp hm).1, fun hm => mem_drop_owner.mpr ⟨hm, hK⟩⟩
  unfold drop_rec
  split
  · rename_i hz
    have hnil : drop_owner h r.lock_owners = [] := List.length_eq_zero.mp hz
    have hk : K ∉ r.lock_owners := by
      intro hm
      have := hiff.mpr hm
      rw [hnil] at this
      cases this
    rw [claims_of_not_owner hk]
    rfl
  · exact claims_of_owners rfl rfl rfl hiff

theorem claims_of_new_rec {h K : owner} (hK : K ≠ h) (a b t : Int) :
    claims_of K [new_rec h a b t] = [] := by
  apply claims_of_not_owner
  simp [new_rec, hK]

theorem claims_of_add_owner {h K : owner} (hK : K ≠ h) (r : rl_lock) :
    claims_of K [core (add_owner h r).2] = claims_of K [r] := by
  unfold add_owner
  split
  · exact claims_of_owners rfl rfl rfl Iff.rfl
  · split
    · refine claims_of_owners rfl rfl rfl ?_
      simp [core, hK]
    · exact claims_of_owners rfl rfl rfl Iff.rfl

theorem merge_list_claims {h K : owner} (hK : K ≠ h) (m : flock → rl_lock → Bool) :
    ∀ (S : List rl_lock) (lck : flock),
      claims_of K (merge_list h m lck S).2 = claims_of K S := by
  intro S
  induction S with
  | nil =>
    intro lck
    rfl
  | cons r S ih =>
    intro lck
    simp only [merge_list]
    split
    · rw [claims_of_append, claims_of_drop_rec hK, ih, ← claims_of_cons]
    · rw [claims_of_cons, ih, ← claims_of_cons]

theorem search_list_claims {h K : owner} (hK : K ≠ h) (lck : flock) (L : List rl_lock) (c : Int)
    (S2 : List rl_lock) (hs : search_list h lck L = some (c, S2)) :
    claims_of K S2 = claims_of K L := by
  obtain ⟨A, r, B, hL, _, _, hcase⟩ := search_list_split h lck L c S2 hs
  rcases hcase with ⟨_, _, hS2⟩ | ⟨_, _, hS2⟩
  · rw [hS2]
  · rw [hS2, hL, claims_of_append, claims_of_cons, claims_of_add_owner hK, ← claims_of_cons,
      ← claims_of_append]

theorem unlock_list_claims {h K : owner} (hK : K ≠ h) (lck : flock) :
    ∀ (n k : Nat) (P S : List rl_lock) (c : Int) (L2 : List rl_lock),
      unlock_list h lck n k P S = some (c, L2) → claims_of K L2 = claims_of K (P ++ S) := by
  intro n
  induction n with
  | zero =>
    intro k P S c L2 hu
    simp [unlock_list] at hu
  | succ n ih =>
    intro k P S c L2 hu
    cases S with
    | nil =>
      simp only [unlock_list, Option.some.injEq, Prod.mk.injEq] at hu
      obtain ⟨_, rfl⟩ := hu
      simp
    | cons r S =>
      have hdrop : claims_of K (P ++ drop_rec h r ++ S) = claims_of K (P ++ r :: S) := by
        rw [claims_of_append, claims_of_append, claims_of_drop_rec hK, claims_of_append,
          claims_of_cons K r S, List.append_assoc]
      have hleft : ∀ X, claims_of K (left_piece h lck r :: X) = claims_of K X := by
        intro X
        rw [claims_of_cons, left_piece, claims_of_new_rec hK]
        rfl
      have hright : ∀ X, claims_of K (right_piece h lck r :: X) = claims_of K X := by
        intro X
        rw [claims_of_cons, right_piece, claims_of_new_rec hK]
        rfl
      rw [unlock_list] at hu
      split at hu
      · split at hu
        · rw [ih _ _ _ _ _ hu]
          rw [claims_of_append, claims_of_append, claims_of_drop_rec hK, claims_of_append,
            claims_of_cons K r S, List.append_assoc]
        · split at hu
          · split at hu
            · cases hu
              rfl
            · split at hu
              · cases hu
                exact hleft _
              · rw [ih _ _ _ _ _ hu, List.nil_append, hright, hleft, hdrop]
          · split at hu
            · split at hu
              · cases hu
                rfl
              · rw [ih _ _ _ _ _ hu, List.nil_append, hright, hdrop]
            · split at hu
              · split at hu
                · cases hu
                  rfl
                · rw [ih _ _ _ _ _ hu, List.nil_append, hleft, hdrop]
              · exact ih _ _ _ _ _ hu
      · rw [ih _ _ _ _ _ hu]
        simp

theorem claims_of_lk {K : owner} {g : rl_open_file} {L : List rl_lock}
    (hlk : Lk g g.first [] L) : claims_of K (reachable g) = claims_of K L := by
  rw [← lk_reachable_eq hlk, claims_of_map_core]

/-- C29: on a well-formed table, for a handle `h`, an owner `K` different from `h` and a
request region of length > 0, each of `add_read_lock_region`, `add_write_lock_region` and
`delete_lock_region` executed for `h` returns, and whatever the result code, the list of
(start, length, type) of the reachable records that have `K` among their owners is the
same after the call as before, in the same order. -/
theorem claims_independent (h K : owner) (f : rl_open_file) (lck : flock)
    (hwf : well_formed f) (hlen : 0 < lck.l_len) (hK : K ≠ h) :
    (∃ c g, add_read_lock_region h f lck = some (c, g)
        ∧ claims_of K (reachable g) = claims_of K (reachable f))
    ∧ (∃ c g, add_write_lock_region h f lck = some (c, g)
        ∧ claims_of K (reachable g) = claims_of K (reachable f))
    ∧ (∃ c g, delete_lock_region h f lck = some (c, g)
        ∧ claims_of K (reachable g) = claims_of K (reachable f)) := by
  have hat := at_of_well_formed hwf
  have hbase : claims_of K ((reachable f).map core) = claims_of K (reachable f) :=
    claims_of_map_core K _
  refine ⟨?_, ?_, ?_⟩
  · obtain ⟨c, g, hrd, _, _, hcase⟩ := add_read_lock_region_cases h lck hat
    refine ⟨c, g, hrd, ?_⟩
    rcases hcase with ⟨S2, hs, hat2⟩ | ⟨_, ⟨_, hat2, _⟩ | ⟨_, hlk, _⟩⟩
    · rw [claims_of_lk (at_to_lk hat2), search_list_claims hK lck _ c S2 hs, hbase]
    · rw [claims_of_lk (at_to_lk hat2), merge_list_claims hK, hbase]
    · rw [claims_of_lk hlk, claims_of_cons, claims_of_new_rec hK, merge_list_claims hK, hbase]
      rfl
  · obtain ⟨c, g, hwr, _, _, hcase⟩ := add_write_lock_region_cases h lck hat
    refine ⟨c, g, hwr, ?_⟩
    rcases hcase with ⟨_, hat2, _⟩ | ⟨_, hlk, _⟩
    · rw [claims_of_lk (at_to_lk hat2), merge_list_claims hK, hbase]
    · rw [claims_of_lk hlk, claims_of_cons, claims_of_new_rec hK, merge_list_claims hK, hbase]
      rfl
  · obtain ⟨c, g, hdel⟩ := delete_lock_region_returns h lck hwf hlen
    refine ⟨c, g, hdel, ?_⟩
    have href := delete_lock_region_refines h lck hat
    cases hun : unlock_list h lck RESCAN_FUEL (free_count f.lock_table) []
        ((reachable f).map core) with
    | none =>
      rw [hun] at href
      rw [show delete_lock_region h f lck = none from href] at hdel
      cases hdel
    | some res =>
      rw [hun] at href
      obtain ⟨g2, hg2, hat2, _, _⟩ := href
      rw [hg2] at hdel
      injection hdel with hdel
      injection hdel with _ hg
      subst hg
      rw [claims_of_lk (at_to_lk hat2), unlock_list_claims hK lck _ _ _ _ res.1 res.2 hun,
        List.nil_append, hbase]

/-- C29, instance: `hA` and `hC` (another process) share READ `[0, 10)`; after `hC`
released `[0, 10)` the claim of `hA` is still READ `[0, 10)`. -/
theorem claims_independent_witness :
    ∃ c g, delete_lock_region hC table_shared (request F_UNLCK 0 10) = some (c, g)
      ∧ claims_of hA (reachable g) = claims_of hA (reachable table_shared) :=
  (claims_independent hC hA table_shared (request F_UNLCK 0 10) (by decide) (by decide)
    (by decide)).2.2

/-! ## The result code of `delete_lock_region` -/

/-- C23, counterexample: the table is well formed, all ten slots hold a record of length
100 and `hA` owns `[0, 100)`; the UNLOCK request of `hA` for `[10, 20)` needs two slots
for the pieces `[0, 10)` and `[20, 100)`, finds none and returns -1. -/
theorem unlock_fails_without_slot :
    well_formed table_ten_writes
    ∧ (∀ r ∈ reachable table_ten_writes, 0 < r.len)
    ∧ free_count table_ten_writes.lock_table = 0
    ∧ rl_fcntl all_alive 0 0 hA table_ten_writes F_SETLK (request F_UNLCK 10 10)
        = outcome.ret (-1) table_ten_writes := by
  decide

theorem pieces_needed_no_match {h : owner} {lck : flock} {r : rl_lock}
    (hm : unlock_match h lck r = false) : pieces_needed h lck r = 0 := by
  unfold unlock_match at hm
  unfold pieces_needed
  rw [hm]
  rfl

theorem pieces_total_no_match {h : owner} {lck : flock} {L : List rl_lock}
    (hm : ∀ r ∈ L, unlock_match h lck r = false) : pieces_total h lck L = 0 := by
  unfold pieces_total
  rw [List.sum_eq_zero]
  intro x hx
  obtain ⟨r, hr, rfl⟩ := List.mem_map.mp hx
  exact pieces_needed_no_match (hm r hr)

theorem pieces_total_append (h : owner) (lck : flock) (A B : List rl_lock) :
    pieces_total h lck (A ++ B) = pieces_total h lck A + pieces_total h lck B := by
  simp [pieces_total]

theorem pieces_total_cons (h : owner) (lck : flock) (r : rl_lock) (S : List rl_lock) :
    pieces_total h lck (r :: S) = pieces_needed h lck r + pieces_total h lck S := by
  simp [pieces_total]

theorem drop_rec_unmatched (h : owner) (lck : flock) (r : rl_lock) :
    ∀ y ∈ drop_rec h r, unlock_match h lck y = false := by
  intro y hy
  have := no_owner_drop_rec hy
  have ho : is_owner h y = false := by
    rw [Bool.eq_false_iff]
    exact fun hc => this (is_owner_iff.mp hc)
  simp [unlock_match, ho]

theorem right_piece_unmatched (h : owner) (lck : flock) (r : rl_lock) (hlen : 0 < lck.l_len)
    (hlt : lck.l_start + lck.l_len < r.starting_offset + r.len) :
    unlock_match h lck (right_piece h lck r) = false := by
  have : is_region_intersection lck.l_start lck.l_len (right_piece h lck r) = false := by
    simp only [is_region_intersection, right_piece, new_rec, Bool.or_eq_false_iff,
      Bool.and_eq_false_imp, decide_eq_true_eq, decide_eq_false_iff_not]
    omega
  simp [unlock_match, this]

theorem left_piece_unmatched (h : owner) (lck : flock) (r : rl_lock) (hlen : 0 < lck.l_len)
    (hlt : r.starting_offset < lck.l_start) :
    unlock_match h lck (left_piece h lck r) = false := by
  have : is_region_intersection lck.l_start lck.l_len (left_piece h lck r) = false := by
    simp only [is_region_intersection, left_piece, new_rec, Bool.or_eq_false_iff,
      Bool.and_eq_false_imp, decide_eq_true_eq, decide_eq_false_iff_not]
    omega
  simp [unlock_match, this]

theorem unlock_list_code (h : owner) (lck : flock) (hlen : 0 < lck.l_len) :
    ∀ (n k : Nat) (P S : List rl_lock) (c : Int) (L2 : List rl_lock),
      (∀ r ∈ P ++ S, 0 < r.len) → (∀ r ∈ P, unlock_match h lck r = false) →
      pieces_total h lck S ≤ k → unlock_list h lck n k P S = some (c, L2) → c = 0 := by
  intro n
  induction n with
  | zero =>
    intro k P S c L2 _ _ _ hu
    simp [unlock_list] at hu
  | succ n ih =>
    intro k P S c L2 hpos hP hk hu
    cases S with
    | nil =>
      simp only [unlock_list, Option.some.injEq, Prod.mk.injEq] at hu
      exact hu.1.symm
    | cons r S =>
      have hrpos : 0 < r.len := hpos r (by simp)
      have hposP : ∀ y ∈ P, 0 < y.len := fun y hy => hpos y (by simp [hy])
      have hposS : ∀ y ∈ S, 0 < y.len := fun y hy => hpos y (by simp [hy])
      have hposAll : ∀ y ∈ P ++ drop_rec h r ++ S, 0 < y.len := by
        intro y hy
        simp only [List.mem_append] at hy
        rcases hy with (hy | hy) | hy
        · exact hposP y hy
        · exact pos_drop_rec hrpos hy
        · exact hposS y hy
      have hpAll : pieces_total h lck (P ++ drop_rec h r ++ S) = pieces_total h lck S := by
        rw [pieces_total_append, pieces_total_append, pieces_total_no_match hP,
          pieces_total_no_match (drop_rec_unmatched h lck r)]
        omega
      rw [pieces_total_cons] at hk
      have hrestart : ∀ (news : List rl_lock) (k2 : Nat),
          (∀ y ∈ news, 0 < y.len ∧ unlock_match h lck y = false) →
          pieces_total h lck S ≤ k2 →
          unlock_list h lck n k2 [] (news ++ (P ++ drop_rec h r ++ S)) = some (c, L2) →
          c = 0 := by
        intro news k2 hnews hk2 hu2
        refine ih k2 [] _ c L2 ?_ (by simp) ?_ hu2
        · intro y hy
          simp only [List.nil_append] at hy
          rcases List.mem_append.mp hy with hy | hy
          · exact (hnews y hy).1
          · exact hposAll y hy
        · rw [pieces_total_append, pieces_total_no_match (fun y hy => (hnews y hy).2), hpAll]
          omega
      rw [unlock_list] at hu
      by_cases hm : (is_region_intersection lck.l_start lck.l_len r && is_owner h r) = true
      · rw [if_pos hm] at hu
        simp only [pieces_needed, hm, if_true] at hk
        by_cases c1 : lck.l_start ≤ r.starting_offset
            ∧ lck.l_start + lck.l_len ≥ r.starting_offset + r.len
        · rw [if_pos c1] at hu
          rw [if_pos c1] at hk
          refine ih _ _ _ c L2 hposAll ?_ ?_ hu
          · intro y hy
            rcases List.mem_append.mp hy with hy | hy
            · exact hP y hy
            · exact drop_rec_unmatched h lck r y hy
          · omega
        · rw [if_neg c1] at hu
          rw [if_neg c1] at hk
          by_cases c2 : lck.l_start > r.starting_offset
              ∧ lck.l_start + lck.l_len < r.starting_offset + r.len
          · rw [if_pos c2] at hu
            rw [if_pos c2] at hk
            rw [if_neg (by omega), if_neg (by omega)] at hu
            refine hrestart [right_piece h lck r, left_piece h lck r] _ ?_ ?_
              (by simpa using hu)
            · intro y hy
              simp only [List.mem_cons, List.mem_singleton, List.not_mem_nil, or_false] at hy
              rcases hy with hy | hy
              · subst hy
                exact ⟨by show 0 < r.starting_offset + r.len - (lck.l_start + lck.l_len); omega,
                  right_piece_unmatched h lck r hlen c2.2⟩
              · subst hy
                exact ⟨by show 0 < lck.l_start - r.starting_offset; omega,
                  left_piece_unmatched h lck r hlen c2.1⟩
            · omega
          · rw [if_neg c2] at hu
            rw [if_neg c2] at hk
            by_cases c3 : lck.l_start ≤ r.starting_offset
                ∧ lck.l_start + lck.l_len ≤ r.starting_offset + r.len
            · rw [if_pos c3] at hu
              rw [if_neg (by omega)] at hu
              have hlt : lck.l_start + lck.l_len < r.starting_offset + r.len := by
                by_contra hge
                exact c1 ⟨c3.1, by omega⟩
              refine hrestart [right_piece h lck r] _ ?_ ?_ (by simpa using hu)
              · intro y hy
                simp only [List.mem_singleton] at hy
                subst hy
                exact ⟨by show 0 < r.starting_offset + r.len - (lck.l_start + lck.l_len); omega,
                  right_piece_unmatched h lck r hlen hlt⟩
              · omega
            · rw [if_neg c3] at hu
              by_cases c4 : lck.l_start ≥ r.starting_offset
                  ∧ lck.l_start + lck.l_len ≥ r.starting_offset + r.len
              · rw [if_pos c4] at hu
                rw [if_neg (by omega)] at hu
                have hlt : r.starting_offset < lck.l_start := by
                  by_contra hge
                  exact c1 ⟨by omega, c4.2⟩
                refine hrestart [left_piece h lck r] _ ?_ ?_ (by simpa using hu)
                · intro y hy
                  simp only [List.mem_singleton] at hy
                  subst hy
                  exact ⟨by show 0 < lck.l_start - r.starting_offset; omega,
                    left_piece_unmatched h lck r hlen hlt⟩
                · omega
              · exfalso
                by_cases hle : lck.l_start ≤ r.starting_offset
                · by_cases he : lck.l_start + lck.l_len ≤ r.starting_offset + r.len
                  · exact c3 ⟨hle, he⟩
                  · exact c1 ⟨hle, by omega⟩
                · by_cases he : lck.l_start + lck.l_len < r.starting_offset + r.len
                  · exact c2 ⟨by omega, he⟩
                  · exact c4 ⟨by omega, by omega⟩
      · rw [if_neg hm] at hu
        have hm2 : unlock_match h lck r = false := by
          simpa [unlock_match] using hm
        rw [pieces_needed_no_match hm2] at hk
        refine ih _ _ _ c L2 ?_ ?_ (by omega) hu
        · intro y hy
          exact hpos y (by simpa using hy)
        · intro y hy
          rcases List.mem_append.mp hy with hy | hy
          · exact hP y hy
          · rw [List.mem_singleton] at hy
            subst hy
            exact hm2

theorem pieces_total_core (h : owner) (lck : flock) (L : List rl_lock) :
    pieces_total h lck (L.map core) = pieces_total h lck L := by
  unfold pieces_total
  rw [List.map_map]
  rfl

theorem pieces_total_congr (h : owner) {lc lck : flock} (hs : lc.l_start = lck.l_start)
    (hl : lc.l_len = lck.l_len) (L : List rl_lock) :
    pieces_total h lc L = pieces_total h lck L := by
  unfold pieces_total
  congr 1
  apply List.map_congr_left
  intro r _
  simp only [pieces_needed, hs, hl]

/-- C23, amended: on a well-formed table, for a handle `h` and a region of length > 0,
`delete_lock_region` returns 0 whenever the table has a free slot for every piece that
the call must keep (two for a record of `h` that strictly contains the region, one for a
record of `h` that the region overlaps on one side only); a table without a free slot is
included when no record of `h` has to be split. Through `rl_fcntl` (all owners alive) the
UNLOCK request then returns 0. -/
theorem delete_lock_region_succeeds (alive : Int → Bool) (pos size : Int) (h : owner)
    (f : rl_open_file) (lck : flock) (hwf : well_formed f) (hlen : 0 < lck.l_len)
    (hroom : pieces_total h lck (reachable f) ≤ free_count f.lock_table) :
    (∃ g, delete_lock_region h f lck = some (0, g))
    ∧ (h.des ≠ FILE_UNK → owners_alive alive f → lck.l_whence = SEEK_SET →
        lck.l_type = F_UNLCK →
        ∃ g, rl_fcntl alive pos size h f F_SETLK lck = outcome.ret 0 g) := by
  have hat := at_of_well_formed hwf
  have hdel : ∀ lc : flock, lc.l_start = lck.l_start → lc.l_len = lck.l_len →
      ∃ g, delete_lock_region h f lc = some (0, g) := by
    intro lc hs hl
    have hlen2 : 0 < lc.l_len := by rw [hl]; exact hlen
    obtain ⟨c, g, hdel⟩ := delete_lock_region_returns h lc hwf hlen2
    have href := delete_lock_region_refines h lc hat
    cases hun : unlock_list h lc RESCAN_FUEL (free_count f.lock_table) []
        ((reachable f).map core) with
    | none =>
      rw [hun] at href
      rw [show delete_lock_region h f lc = none from href] at hdel
      cases hdel
    | some res =>
      rw [hun] at href
      obtain ⟨g2, hg2, _, _, _⟩ := href
      have hc : res.1 = 0 := by
        refine unlock_list_code h lc hlen2 _ _ _ _ res.1 res.2 ?_ (by simp) ?_ hun
        · intro r hr
          obtain ⟨r0, hr0, rfl⟩ := List.mem_map.mp (by simpa using hr)
          exact hwf.2.2 r0 hr0
        · rw [pieces_total_core, pieces_total_congr h hs hl]
          exact hroom
      exact ⟨g2, by rw [hg2, hc]⟩
  refine ⟨hdel lck rfl rfl, ?_⟩
  intro hd ha hw ht
  have hcmd : ¬ (h.des = FILE_UNK ∨ F_SETLK = F_GETLK) := by
    rintro (h1 | h1)
    · exact hd h1
    · exact absurd h1 (by decide)
  obtain ⟨g, hg⟩ := hdel { lck with l_pid := h.proc } rfl rfl
  unfold rl_fcntl
  rw [if_neg hcmd, normalize_plain pos size h lck hw hlen]
  simp only [rl_clear_dead_owners_id hwf ha, if_pos ht, hg]
  split
  · exact ⟨_, rfl⟩
  · exact ⟨_, rfl⟩

/-- C23, amended, instance: in the table without a free slot `hA` releases `[0, 100)`,
a whole record, so that no piece has to be kept. -/
theorem delete_lock_region_succeeds_witness :
    (∃ g, delete_lock_region hA table_ten_writes (request F_UNLCK 0 100) = some (0, g))
    ∧ ∃ g, rl_fcntl all_alive 0 0 hA table_ten_writes F_SETLK (request F_UNLCK 0 100)
        = outcome.ret 0 g :=
  have hh := delete_lock_region_succeeds all_alive 0 0 hA table_ten_writes
    (request F_UNLCK 0 100) (by decide) (by decide) (by decide)
  ⟨hh.1, hh.2 (by decide) (by decide) (by decide) (by decide)⟩

/-! ## `rl_close` -/

theorem at_delete_owner_slots {f g : rl_open_file} {i : Nat} {P S : List rl_lock}
    {r r0 : rl_lock} (h : owner) (hat : At f (i : Int) P (r :: S))
    (hr0 : f.lock_table[i]? = some r0) (hg : delete_owner h f (i : Int) = some g) :
    (∀ j, j ≠ i → slot_core g.lock_table j = slot_core f.lock_table j)
    ∧ slot_core g.lock_table i = closed_slot h (core r0)
    ∧ (∀ s, Chain f.lock_table r0.next_lock s → Chain g.lock_table r0.next_lock s) := by
  obtain ⟨hl, hnz, p, s, hc, hs, hp, hv⟩ := hat
  cases s with
  | nil => simp [view] at hv
  | cons i2 s =>
    obtain ⟨hidx, r1, hr1, hcs⟩ := chain_cons_inv hs
    have hi : i2 = i := (Int.ofNat_inj.mp hidx).symm
    subst hi
    rw [hr0] at hr1
    cases hr1
    have hnd := chain_nodup hc
    have his : i2 ∉ s := (List.nodup_cons.mp (List.nodup_append.mp hnd).2.1).1
    have hset : (f.lock_table.set i2 { r0 with lock_owners := drop_owner h r0.lock_owners })[i2]?
        = some { r0 with lock_owners := drop_owner h r0.lock_owners } :=
      getElem?_set_self_idx hr0
    have hc1 : Chain (f.lock_table.set i2 { r0 with lock_owners := drop_owner h r0.lock_owners })
        f.first (p ++ i2 :: s) := by
      refine chain_congr hc ?_
      intro j _ rj hrj
      by_cases hj : j = i2
      · subst hj
        rw [hr0] at hrj
        cases hrj
        exact ⟨_, hset, rfl⟩
      · exact ⟨rj, by rw [getElem?_set_ne_idx hj]; exact hrj, rfl⟩
    unfold RlLock.delete_owner at hg
    rw [if_neg (by omega)] at hg
    simp only [Int.toNat_ofNat, hr0] at hg
    by_cases hd : (drop_owner h r0.lock_owners).length = 0
    · rw [if_pos hd] at hg
      obtain ⟨g2, hg2, _, hcgs, hslot, hsame, _, _, _, _⟩ :=
        @delete_lock_spec
          ⟨f.first, f.lock_table.set i2 { r0 with lock_owners := drop_owner h r0.lock_owners },
            f.blockCnt, f.refCnt⟩ p s i2 _ (by simp [hl]) hc1 hset
      rw [hg2] at hg
      cases hg
      refine ⟨?_, ?_, ?_⟩
      · intro j hj
        rw [hsame j hj]
        exact slot_core_set_ne hj
      · rw [slot_core_of_some hslot]
        simp only [closed_slot, core, hd, if_true]
      · intro s2 hs2
        rw [chain_functional hs2 hcs]
        exact hcgs
    · rw [if_neg hd] at hg
      cases hg
      refine ⟨?_, ?_, ?_⟩
      · intro j hj
        exact slot_core_set_ne hj
      · rw [slot_core_of_some hset]
        simp only [closed_slot, core, hd, if_false]
      · intro s2 hs2
        rw [chain_functional hs2 hcs]
        refine chain_congr hcs ?_
        intro j hj rj hrj
        exact ⟨rj, by rw [getElem?_set_ne_idx (ne_of_mem_of_not_mem hj his)]; exact hrj, rfl⟩

theorem rl_close_loop_list (h : owner) :
    ∀ (S : List rl_lock) (f : rl_open_file) (idx : Int) (P : List rl_lock) (fuel : Nat)
      (s : List Nat),
      At f idx P S → Chain f.lock_table idx s → S.length < fuel →
      ∃ g, rl_close_loop h fuel f idx = some g
        ∧ At g g.first [] (P ++ S.flatMap (drop_rec h))
        ∧ free_count g.lock_table = free_count f.lock_table + (S.map (dropped h)).sum
        ∧ g.blockCnt = f.blockCnt ∧ g.refCnt = f.refCnt
        ∧ (∀ j ∈ s, slot_core g.lock_table j = closed_slot h (slot_core f.lock_table j))
        ∧ (∀ j, j ∉ s → slot_core g.lock_table j = slot_core f.lock_table j) := by
  intro S
  induction S with
  | nil =>
    intro f idx P fuel s hat hch hfuel
    obtain ⟨n, rfl⟩ : ∃ n, fuel = n + 1 := ⟨fuel - 1, by simp at hfuel; omega⟩
    have hneg := at_idx_neg hat
    have hs : s = [] := chain_neg hch hneg
    subst hs
    refine ⟨f, ?_, by simpa using at_restart hat, by simp, rfl, rfl, by simp, fun _ _ => rfl⟩
    rw [rl_close_loop, if_neg (by omega)]
  | cons r S ih =>
    intro f idx P fuel s hat hch hfuel
    obtain ⟨n, rfl⟩ : ∃ n, fuel = n + 1 := ⟨fuel - 1, by simp at hfuel; omega⟩
    obtain ⟨i, r0, hidx, hr0, hcore, _⟩ := at_cons_inv hat
    subst hidx
    cases s with
    | nil =>
      have := chain_nil_iff.mp hch
      omega
    | cons i2 s =>
      obtain ⟨hidx, r1, hr1, hcs⟩ := chain_cons_inv hch
      have hi : i2 = i := (Int.ofNat_inj.mp hidx).symm
      subst hi
      rw [hr0] at hr1
      cases hr1
      have his : i2 ∉ s := chain_head_not_mem hch
      obtain ⟨g1, hdel, hat1, hfree1, hb1, hrc1⟩ := at_delete_owner_step h hat hr0
      obtain ⟨hsame1, hslot1, hchain1⟩ := at_delete_owner_slots h hat hr0 hdel
      obtain ⟨g, hg, hatg, hfree, hb, hrc, hin, hout⟩ :=
        ih g1 r0.next_lock (P ++ drop_rec h r) n s hat1 (hchain1 s hcs)
          (by simp at hfuel; omega)
      refine ⟨g, ?_, ?_, ?_, hb.trans hb1, hrc.trans hrc1, ?_, ?_⟩
      · rw [rl_close_loop, if_pos (by omega)]
        simp only [Int.toNat_ofNat, hr0, hdel]
        exact hg
      · simpa [List.flatMap_cons, List.append_assoc] using hatg
      · rw [hfree, hfree1]
        simp only [List.map_cons, List.sum_cons]
        omega
      · intro j hj
        rcases List.mem_cons.mp hj with hj | hj
        · subst hj
          rw [hout j his, hslot1, slot_core_of_some hr0]
        · have hne : j ≠ i2 := ne_of_mem_of_not_mem hj his
          rw [hin j hj, hsame1 j hne]
      · intro j hj
        have hne : j ≠ i2 := fun he => hj (by rw [he]; exact List.mem_cons_self _ _)
        have hns : j ∉ s := fun hm => hj (List.mem_cons_of_mem _ hm)
        rw [hout j hns, hsame1 j hne]

/-- C24: for a well-formed table and a handle `h` with a valid descriptor, `rl_close`
returns the new `refCnt`, which is the old one minus 1 (0 when the last handle closes),
and leaves a well-formed table with the same `blockCnt` in which: the reachable records are
those of the table before, in the same order, each without the owner `h`, a record left
without an owner being removed; no reachable record has `h` among its owners; the slot of
a reachable record whose owners were all `h` is reset (start, length, type 0, no owner),
the slot of a reachable record with another owner keeps its region and type and its other
owners in order; the slots outside the list are as before; the number of free slots grows
by the number of records removed. -/
theorem rl_close_drops_owner (h : owner) (f : rl_open_file) (hwf : well_formed f)
    (hd : h.des ≠ FILE_UNK) :
    ∃ g, rl_close true h f = some (f.refCnt - 1, g)
      ∧ g.refCnt = f.refCnt - 1 ∧ g.blockCnt = f.blockCnt
      ∧ (f.refCnt = 1 → rl_close true h f = some (0, g))
      ∧ well_formed g
      ∧ (reachable g).map core = ((reachable f).map core).flatMap (drop_rec h)
      ∧ (∀ r ∈ reachable g, h ∉ r.lock_owners)
      ∧ (∀ j ∈ reachable_idx f, ∀ r0, f.lock_table[j]? = some r0 →
          ((∀ o ∈ r0.lock_owners, o = h) → slot_core g.lock_table j = core empty_slot)
          ∧ ((∃ o ∈ r0.lock_owners, o ≠ h) →
              slot_core g.lock_table j
                = core { r0 with lock_owners := drop_owner h r0.lock_owners }))
      ∧ (∀ j, j ∉ reachable_idx f → slot_core g.lock_table j = slot_core f.lock_table j)
      ∧ free_count g.lock_table
          = free_count f.lock_table + ((reachable f).map (dropped h)).sum := by
  have hat := at_of_well_formed hwf
  obtain ⟨l, hl2⟩ := Option.isSome_iff_exists.mp hwf.2.1
  obtain ⟨hc, _⟩ := chain_eq_some.mp hl2
  have hidx : reachable_idx f = l := reachable_idx_of_chain hc
  obtain ⟨g, hg, hatg, hfree, hb, hrc, hin, hout⟩ :=
    rl_close_loop_list h _ f f.first [] SCAN_FUEL l hat hc (scan_fuel_ok hat)
  have hatg2 : At { g with refCnt := g.refCnt - 1 } g.first []
      (((reachable f).map core).flatMap (drop_rec h)) := by
    simpa using hatg
  have hval : rl_close true h f = some (f.refCnt - 1, { g with refCnt := g.refCnt - 1 }) := by
    unfold rl_close
    rw [if_neg hd]
    simp only [Bool.not_true, Bool.false_eq_true, if_false, hg, hrc]
  have hmem : ∀ x ∈ ((reachable f).map core).flatMap (drop_rec h),
      0 < x.len ∧ h ∉ x.lock_owners := by
    intro x hx
    obtain ⟨c, hc2, hxc⟩ := List.mem_flatMap.mp hx
    obtain ⟨r0, hr0, rfl⟩ := List.mem_map.mp hc2
    exact ⟨pos_drop_rec (show 0 < (core r0).len from hwf.2.2 r0 hr0) hxc,
      no_owner_drop_rec hxc⟩
  have heq := at_reachable_eq hatg2
  refine ⟨{ g with refCnt := g.refCnt - 1 }, hval, by simp only [hrc], hb, ?_,
    at_to_well_formed hatg2 (fun x hx => (hmem x hx).1), heq, ?_, ?_, ?_, ?_⟩
  · intro h1
    rw [hval, h1]
    rfl
  · intro r hr
    exact (hmem (core r) (core_mem_of_reachable heq hr)).2
  · intro j hj r0 hr0
    rw [hidx] at hj
    have hslot : slot_core g.lock_table j = closed_slot h (core r0) := by
      rw [hin j hj, slot_core_of_some hr0]
    refine ⟨?_, ?_⟩
    · intro hall
      show slot_core g.lock_table j = core empty_slot
      rw [hslot]
      have hnil : drop_owner h r0.lock_owners = [] := drop_owner_only hall
      simp only [closed_slot, core, hnil, List.length_nil, if_true]
    · rintro ⟨o, ho, hne⟩
      show slot_core g.lock_table j = _
      rw [hslot]
      have hmemo : o ∈ drop_owner h r0.lock_owners := mem_drop_owner.mpr ⟨ho, hne⟩
      have hlen : (drop_owner h r0.lock_owners).length ≠ 0 := by
        intro hz
        rw [List.length_eq_zero.mp hz] at hmemo
        cases hmemo
      simp only [closed_slot, core, hlen, if_false]
  · intro j hj
    rw [hidx] at hj
    exact hout j hj
  · show free_count g.lock_table = _
    rw [hfree, List.map_map]
    rfl

/-- C24, instance: `hA` and `hC` share READ `[0, 10)` and the table has two references;
`hA` closes. -/
theorem rl_close_drops_owner_witness :
    ∃ g, rl_close true hA table_shared = some (1, g) ∧ g.refCnt = 1
      ∧ ∀ r ∈ reachable g, hA ∉ r.lock_owners :=
  (rl_close_drops_owner hA table_shared (by decide) (by decide)).imp
    (fun _ hg => ⟨hg.1, hg.2.1, hg.2.2.2.2.2.2.1⟩)

/-! ## `rl_dup` and `rl_dup2` -/

/-- C25, counterexample: `hA` holds WRITE `[0, 1500)`; `rl_dup` and `rl_dup2` to the
descriptor 7 succeed, and the record still has `hA` as its only owner. -/
theorem dup_skips_write :
    rl_dup 1 7 hA table_write_A = some (7, { table_write_A with refCnt := 3 })
    ∧ rl_dup2 1 7 7 hA table_write_A = some (7, { table_write_A with refCnt := 3 })
    ∧ reachable { table_write_A with refCnt := 3 } = [⟨NEXT_NULL, 0, 1500, F_WRLCK, [hA]⟩] := by
  decide

theorem add_new_owner_scan_exact (own new_owner : owner) :
    ∀ (n i : Nat) (r : rl_lock), r.lock_owners.length + 2 ≤ n + i →
      i ≤ r.lock_owners.length →
      add_new_owner_scan own new_owner n i r
        = some (if ((r.lock_owners.drop i).any (fun o => is_owners_are_equal o own)
                    && !has_owner r new_owner) = true
                then { r with lock_owners := r.lock_owners ++ [new_owner] } else r) := by
  intro n
  induction n with
  | zero =>
    intro i r h1 h2
    omega
  | succ n ih =>
    intro i r h1 h2
    rw [add_new_owner_scan]
    cases ho : r.lock_owners[i]? with
    | none =>
      have hge : r.lock_owners.length ≤ i := by
        by_contra hlt
        rw [List.getElem?_eq_getElem (by omega)] at ho
        cases ho
      rw [List.drop_eq_nil_of_le hge]
      simp
    | some o =>
      have hi : i < r.lock_owners.length := by
        by_contra hge
        rw [List.getElem?_eq_none (by omega)] at ho
        cases ho
      have hdrop : r.lock_owners.drop i = o :: r.lock_owners.drop (i + 1) := by
        rw [List.drop_eq_getElem_cons hi]
        congr 1
        rw [List.getElem?_eq_getElem hi] at ho
        exact Option.some.inj ho
      simp only
      rw [hdrop, List.any_cons]
      by_cases heq : is_owners_are_equal o own = true
      · rw [if_pos heq]
        by_cases hhas : has_owner r new_owner = true
        · simp only [hhas, Bool.not_true, Bool.false_eq_true, if_false, Bool.and_false]
          rw [ih (i + 1) r (by omega) (by omega)]
          simp [hhas]
        · simp only [hhas, Bool.not_false, if_true, heq, Bool.true_or, Bool.and_self]
          refine add_new_owner_scan_has own new_owner n (i + 1) _ ?_ ?_ ?_
          · simp [has_owner, is_owners_are_equal]
          · simp only [List.length_append, List.length_singleton]
            omega
          · simp only [List.length_append, List.length_singleton]
            omega
      · rw [if_neg heq]
        rw [ih (i + 1) r (by omega) (by omega)]
        simp only [Bool.not_eq_true] at heq
        rw [heq, Bool.false_or]

theorem dup_rec_core (own new_owner : owner) (r : rl_lock) :
    core (dup_rec own new_owner r) = dup_rec own new_owner (core r) := by
  unfold dup_rec
  show _ = if r.type = F_RDLCK then
      (if (has_owner r own && !has_owner r new_owner) = true then _ else _) else _
  split
  · split
    · rfl
    · rfl
  · rfl

theorem add_new_owner_loop_map (own new_owner : owner) :
    ∀ (S : List rl_lock) (f : rl_open_file) (idx : Int) (P : List rl_lock) (fuel : Nat),
      At f idx P S → (∀ r ∈ S, r.lock_owners.length ≤ NB_OWNERS) → S.length < fuel →
      ∃ g, add_new_owner_loop own new_owner fuel f idx = some g
        ∧ At g g.first [] (P ++ S.map (dup_rec own new_owner))
        ∧ g.blockCnt = f.blockCnt ∧ g.refCnt = f.refCnt := by
  intro S
  induction S with
  | nil =>
    intro f idx P fuel hat _ hfuel
    obtain ⟨n, rfl⟩ : ∃ n, fuel = n + 1 := ⟨fuel - 1, by simp at hfuel; omega⟩
    have := at_idx_neg hat
    rw [add_new_owner_loop, if_neg (by omega)]
    exact ⟨f, rfl, at_restart hat, rfl, rfl⟩
  | cons r S ih =>
    intro f idx P fuel hat hcap hfuel
    obtain ⟨n, rfl⟩ : ∃ n, fuel = n + 1 := ⟨fuel - 1, by simp at hfuel; omega⟩
    obtain ⟨i, r0, hidx, hr0, hcore, hnext⟩ := at_cons_inv hat
    subst hidx
    subst hcore
    have hr0len : r0.len ≠ 0 := hat.2.1 (core r0) (by simp)
    have hcapS : ∀ x ∈ S, x.lock_owners.length ≤ NB_OWNERS :=
      fun x hx => hcap x (List.mem_cons_of_mem _ hx)
    rw [add_new_owner_loop]
    simp only [Int.toNat_ofNat, hr0, ge_iff_le, Int.ofNat_zero_le, if_true]
    by_cases hty : r0.type = F_RDLCK
    · rw [if_pos hty]
      have hc0 : r0.lock_owners.length ≤ NB_OWNERS := hcap (core r0) (List.mem_cons_self _ S)
      have hscan := add_new_owner_scan_exact own new_owner OWNER_FUEL 0 r0
        (by simp only [OWNER_FUEL]; omega) (by omega)
      have hr2 : (if ((r0.lock_owners.drop 0).any (fun o => is_owners_are_equal o own)
                    && !has_owner r0 new_owner) = true
                then { r0 with lock_owners := r0.lock_owners ++ [new_owner] } else r0)
          = dup_rec own new_owner r0 := by
        unfold dup_rec
        rw [if_pos hty]
        rfl
      rw [hr2] at hscan
      simp only [hscan]
      have hfields : (dup_rec own new_owner r0).next_lock = r0.next_lock
          ∧ (dup_rec own new_owner r0).len = r0.len := by
        unfold dup_rec
        rw [if_pos hty]
        split
        · exact ⟨rfl, rfl⟩
        · exact ⟨rfl, rfl⟩
      have hadv := at_set_advance hat hr0 hfields.1 (by rw [hfields.2]; exact hr0len)
      rw [hfields.1]
      obtain ⟨g, hg, hatg, hb, hrc⟩ :=
        ih _ r0.next_lock _ n hadv hcapS (by simp at hfuel; omega)
      refine ⟨g, hg, ?_, hb, hrc⟩
      rw [List.map_cons, ← dup_rec_core]
      simpa using hatg
    · rw [if_neg hty]
      obtain ⟨g, hg, hatg, hb, hrc⟩ :=
        ih f r0.next_lock _ n hnext hcapS (by simp at hfuel; omega)
      refine ⟨g, hg, ?_, hb, hrc⟩
      have hid : dup_rec own new_owner (core r0) = core r0 := by
        unfold dup_rec
        rw [if_neg (show ¬ (core r0).type = F_RDLCK from hty)]
      rw [List.map_cons, hid]
      simpa using hatg

theorem can_add_new_owner_scan_exact (own : owner) (nb : Nat) :
    ∀ (os : List owner) (res : Int),
      can_add_new_owner_scan own nb os res
        = if os.any (fun o => is_owners_are_equal o own) = true then
            (if nb ≥ NB_OWNERS then none else some 1)
          else some res := by
  intro os
  induction os with
  | nil =>
    intro res
    rfl
  | cons o os ih =>
    intro res
    rw [can_add_new_owner_scan, List.any_cons]
    by_cases heq : is_owners_are_equal o own = true
    · rw [if_pos heq, heq, Bool.true_or, if_pos rfl]
      by_cases hnb : nb ≥ NB_OWNERS
      · rw [if_pos hnb, if_pos hnb]
      · rw [if_neg hnb, if_neg hnb, ih]
        split
        · rfl
        · rfl
    · rw [if_neg heq, ih]
      simp only [Bool.not_eq_true] at heq
      rw [heq, Bool.false_or]

theorem can_add_new_owner_loop_exact (own : owner) :
    ∀ (S : List rl_lock) (f : rl_open_file) (idx : Int) (P : List rl_lock) (fuel : Nat)
      (res : Int),
      At f idx P S → S.length < fuel →
      can_add_new_owner_loop own fuel f idx res = some (can_add_list own S res) := by
  intro S
  induction S with
  | nil =>
    intro f idx P fuel res hat hfuel
    obtain ⟨n, rfl⟩ : ∃ n, fuel = n + 1 := ⟨fuel - 1, by simp at hfuel; omega⟩
    have := at_idx_neg hat
    rw [can_add_new_owner_loop, if_neg (by omega)]
    rfl
  | cons r S ih =>
    intro f idx P fuel res hat hfuel
    obtain ⟨n, rfl⟩ : ∃ n, fuel = n + 1 := ⟨fuel - 1, by simp at hfuel; omega⟩
    obtain ⟨i, r0, hidx, hr0, hcore, hnext⟩ := at_cons_inv hat
    subst hidx
    subst hcore
    rw [can_add_new_owner_loop]
    simp only [Int.toNat_ofNat, hr0, ge_iff_le, Int.ofNat_zero_le, if_true]
    rw [can_add_new_owner_scan_exact]
    have hlist : can_add_list own (core r0 :: S) res
        = if has_owner r0 own = true then
            (if r0.lock_owners.length ≥ NB_OWNERS then -1 else can_add_list own S 1)
          else can_add_list own S res := rfl
    rw [hlist]
    by_cases hown : has_owner r0 own = true
    · have hany : r0.lock_owners.any (fun o => is_owners_are_equal o own) = true := hown
      rw [if_pos hany, if_pos hown]
      by_cases hfull : r0.lock_owners.length ≥ NB_OWNERS
      · rw [if_pos hfull, if_pos (show r0.nb_owners ≥ NB_OWNERS from hfull)]
      · rw [if_neg hfull, if_neg (show ¬ r0.nb_owners ≥ NB_OWNERS from hfull)]
        exact ih f r0.next_lock _ n 1 hnext (by simp at hfuel; omega)
    · have hany : ¬ r0.lock_owners.any (fun o => is_owners_are_equal o own) = true := hown
      rw [if_neg hany, if_neg hown]
      exact ih f r0.next_lock _ n res hnext (by simp at hfuel; omega)

theorem can_add_list_cases (own : owner) :
    ∀ (S : List rl_lock) (res : Int), res = 0 ∨ res = 1 →
      (can_add_list own S res = -1
          ∧ ∃ x ∈ S, has_owner x own = true ∧ x.lock_owners.length ≥ NB_OWNERS)
      ∨ (can_add_list own S res = 1
          ∧ ∀ x ∈ S, has_owner x own = true → x.lock_owners.length < NB_OWNERS)
      ∨ (can_add_list own S res = 0 ∧ res = 0 ∧ ∀ x ∈ S, has_owner x own = false) := by
  intro S
  induction S with
  | nil =>
    intro res hres
    rcases hres with rfl | rfl
    · exact Or.inr (Or.inr ⟨rfl, rfl, by simp⟩)
    · exact Or.inr (Or.inl ⟨rfl, by simp⟩)
  | cons r S ih =>
    intro res hres
    rw [can_add_list]
    by_cases hown : has_owner r own = true
    · rw [if_pos hown]
      by_cases hfull : r.lock_owners.length ≥ NB_OWNERS
      · rw [if_pos hfull]
        exact Or.inl ⟨rfl, r, List.mem_cons_self _ _, hown, hfull⟩
      · rw [if_neg hfull]
        rcases ih 1 (Or.inr rfl) with ⟨h1, x, hx, h2⟩ | ⟨h1, h2⟩ | ⟨_, h2, _⟩
        · exact Or.inl ⟨h1, x, List.mem_cons_of_mem _ hx, h2⟩
        · refine Or.inr (Or.inl ⟨h1, ?_⟩)
          intro x hx hxo
          rcases List.mem_cons.mp hx with hx | hx
          · subst hx
            omega
          · exact h2 x hx hxo
        · cases h2
    · rw [if_neg hown]
      simp only [Bool.not_eq_true] at hown
      rcases ih res hres with ⟨h1, x, hx, h2⟩ | ⟨h1, h2⟩ | ⟨h1, h2, h3⟩
      · exact Or.inl ⟨h1, x, List.mem_cons_of_mem _ hx, h2⟩
      · refine Or.inr (Or.inl ⟨h1, ?_⟩)
        intro x hx hxo
        rcases List.mem_cons.mp hx with hx | hx
        · subst hx
          rw [hown] at hxo
          cases hxo
        · exact h2 x hx hxo
      · refine Or.inr (Or.inr ⟨h1, h2, ?_⟩)
        intro x hx
        rcases List.mem_cons.mp hx with hx | hx
        · subst hx
          exact hown
        · exact h3 x hx

theorem has_owner_iff {r : rl_lock} {o : owner} : has_owner r o = true ↔ o ∈ r.lock_owners := by
  simp only [has_owner, List.any_eq_true, is_owners_are_equal, Bool.and_eq_true, beq_iff_eq]
  constructor
  · rintro ⟨x, hx, h1, h2⟩
    have : x = o := by
      cases x
      cases o
      simp_all
    rw [← this]
    exact hx
  · intro ho
    exact ⟨o, ho, rfl, rfl⟩

theorem dup_rec_no_owner {own new_owner : owner} {r : rl_lock}
    (hno : has_owner r own = false) : dup_rec own new_owner r = r := by
  unfold dup_rec
  rw [hno]
  simp

theorem dup_rec_fields (own new_owner : owner) (r : rl_lock) :
    (dup_rec own new_owner r).starting_offset = r.starting_offset
    ∧ (dup_rec own new_owner r).len = r.len ∧ (dup_rec own new_owner r).type = r.type := by
  unfold dup_rec
  split
  · split
    · exact ⟨rfl, rfl, rfl⟩
    · exact ⟨rfl, rfl, rfl⟩
  · exact ⟨rfl, rfl, rfl⟩

theorem dup_rec_read_owner {own new_owner : owner} {r : rl_lock}
    (hty : r.type = F_RDLCK) (hown : own ∈ r.lock_owners) :
    new_owner ∈ (dup_rec own new_owner r).lock_owners := by
  unfold dup_rec
  rw [if_pos hty, has_owner_iff.mpr hown, Bool.true_and]
  by_cases hhas : has_owner r new_owner = true
  · rw [hhas]
    exact has_owner_iff.mp hhas
  · simp only [Bool.not_eq_true] at hhas
    rw [hhas]
    simp

theorem dup_rec_owner_mono {own new_owner o : owner} {r : rl_lock}
    (ho : o ∈ (dup_rec own new_owner r).lock_owners) (hne : o ≠ new_owner) :
    o ∈ r.lock_owners := by
  unfold dup_rec at ho
  split at ho
  · split at ho
    · rcases List.mem_append.mp ho with ho | ho
      · exact ho
      · exact absurd (List.mem_singleton.mp ho) hne
    · exact ho
  · exact ho

theorem rl_dup_list (nb_files : Nat) (newd : Int) (h : owner) (f : rl_open_file)
    (hwf : well_formed f) (hcap : ∀ r ∈ reachable f, r.lock_owners.length ≤ NB_OWNERS) :
    (∀ c g, rl_dup nb_files newd h f = some (c, g) → c ≠ -1 →
      c = newd ∧ g.refCnt = f.refCnt + 1 ∧ g.blockCnt = f.blockCnt
      ∧ At g g.first [] (((reachable f).map core).map (dup_rec h ⟨h.proc, newd⟩)))
    ∧ (h.des ≠ FILE_UNK → nb_files < NB_FILES → newd ≠ -1 →
        (∀ r ∈ reachable f, h ∈ r.lock_owners → r.lock_owners.length < NB_OWNERS) →
        ∃ g, rl_dup nb_files newd h f = some (newd, g)) := by
  have hat := at_of_well_formed hwf
  have hcapL : ∀ r ∈ (reachable f).map core, r.lock_owners.length ≤ NB_OWNERS := by
    intro x hx
    obtain ⟨r0, hr0, rfl⟩ := List.mem_map.mp hx
    exact hcap r0 hr0
  have hcan : can_add_new_owner h f = some (can_add_list h ((reachable f).map core) 0) :=
    can_add_new_owner_loop_exact h _ f f.first [] SCAN_FUEL 0 hat (scan_fuel_ok hat)
  obtain ⟨g1, hg1, hatg1, hb1, hrc1⟩ :=
    add_new_owner_loop_map h ⟨h.proc, newd⟩ _ f f.first [] SCAN_FUEL hat hcapL (scan_fuel_ok hat)
  have hadd : add_new_owner h ⟨h.proc, newd⟩ f = some (0, g1) := by
    unfold add_new_owner
    rw [hg1]
    rfl
  have hatg1b : At { g1 with refCnt := g1.refCnt + 1 } g1.first []
      (((reachable f).map core).map (dup_rec h ⟨h.proc, newd⟩)) := by
    simpa using hatg1
  have hcases := can_add_list_cases h ((reachable f).map core) 0 (Or.inl rfl)
  refine ⟨?_, ?_⟩
  · intro c g hres hc
    unfold rl_dup at hres
    split at hres
    · cases hres
      exact absurd rfl hc
    · split at hres
      · cases hres
        exact absurd rfl hc
      · rw [hcan] at hres
        simp only at hres
        split at hres
        · cases hres
          exact absurd rfl hc
        · split at hres
          · cases hres
            exact absurd rfl hc
          · split at hres
            · rw [hadd] at hres
              cases hres
              exact ⟨rfl, by simp only [hrc1], hb1, hatg1b⟩
            · rename_i hne1 _ hne2
              cases hres
              rcases hcases with ⟨h1, _⟩ | ⟨h1, _⟩ | ⟨_, _, h3⟩
              · exact absurd h1 hne1
              · exact absurd h1 hne2
              · refine ⟨rfl, rfl, rfl, ?_⟩
                have hid : ((reachable f).map core).map (dup_rec h ⟨h.proc, newd⟩)
                    = (reachable f).map core := by
                  conv_rhs => rw [← List.map_id ((reachable f).map core)]
                  apply List.map_congr_left
                  intro x hx
                  exact dup_rec_no_owner (h3 x hx)
                rw [hid]
                exact hat
  · intro hd hfiles hnewd hroom
    have hne1 : can_add_list h ((reachable f).map core) 0 ≠ -1 := by
      intro h1
      rcases hcases with ⟨_, x, hx, hxo, hfull⟩ | ⟨h2, _⟩ | ⟨h2, _⟩
      · obtain ⟨r0, hr0, rfl⟩ := List.mem_map.mp hx
        have := hroom r0 hr0 (has_owner_iff.mp hxo)
        have hfull2 : r0.lock_owners.length ≥ NB_OWNERS := hfull
        omega
      · rw [h2] at h1
        cases h1
      · rw [h2] at h1
        cases h1
    unfold rl_dup
    rw [if_neg hd, if_neg (by omega), hcan]
    simp only [if_neg hne1, if_neg hnewd, hadd]
    split
    · exact ⟨_, rfl⟩
    · exact ⟨_, rfl⟩

theorem rl_dup2_success {nb_files : Nat} {dup2Res newd : Int} {h : owner} {f g : rl_open_file}
    {c : Int} (hres : rl_dup2 nb_files dup2Res newd h f = some (c, g)) (hc : c ≠ -1) :
    rl_dup nb_files newd h f = some (c, g) := by
  unfold rl_dup2 at hres
  unfold rl_dup
  split at hres
  · cases hres
    exact absurd rfl hc
  · rename_i hd
    rw [if_neg hd]
    split at hres
    · cases hres
      exact absurd rfl hc
    · rename_i hfiles
      rw [if_neg hfiles]
      cases hcan : can_add_new_owner h f with
      | none =>
        rw [hcan] at hres
        cases hres
      | some add =>
        rw [hcan] at hres
        simp only at hres ⊢
        split at hres
        · cases hres
          exact absurd rfl hc
        · rename_i hadd
          rw [if_neg hadd]
          split at hres
          · cases hres
            exact absurd rfl hc
          · have hnewd : newd ≠ -1 := by
              intro hn
              split at hres
              · split at hres
                · cases hres
                · cases hres
                  exact hc hn
              · cases hres
                exact hc hn
            rw [if_neg hnewd]
            by_cases h1 : add = 1
            · rw [if_pos h1] at hres ⊢
              cases hadd2 : add_new_owner h ⟨h.proc, newd⟩ f with
              | none =>
                rw [hadd2] at hres
                cases hres
              | some res =>
                rw [hadd2] at hres
                exact hres
            · rw [if_neg h1] at hres ⊢
              exact hres

theorem rl_dup2_of_rl_dup {nb_files : Nat} {dup2Res newd : Int} {h : owner}
    {f g : rl_open_file} (hres : rl_dup nb_files newd h f = some (newd, g))
    (hnewd : newd ≠ -1) (hd2 : dup2Res ≠ -1) :
    rl_dup2 nb_files dup2Res newd h f = some (newd, g) := by
  unfold rl_dup at hres
  unfold rl_dup2
  split at hres
  · cases hres
    exact absurd rfl hnewd
  · rename_i hd
    rw [if_neg hd]
    split at hres
    · cases hres
      exact absurd rfl hnewd
    · rename_i hfiles
      rw [if_neg hfiles]
      cases hcan : can_add_new_owner h f with
      | none =>
        rw [hcan] at hres
        cases hres
      | some add =>
        rw [hcan] at hres
        simp only at hres ⊢
        split at hres
        · cases hres
          exact absurd rfl hnewd
        · rename_i hadd
          rw [if_neg hadd, if_neg hd2]
          by_cases h1 : add = 1
          · rw [if_pos h1] at hres ⊢
            cases hadd2 : add_new_owner h ⟨h.proc, newd⟩ f with
            | none =>
              rw [hadd2] at hres
              cases hres
            | some res =>
              rw [hadd2] at hres
              exact hres
          · rw [if_neg h1] at hres ⊢
            exact hres

/-- C25, amended: on a well-formed table whose records have at most `NB_OWNERS` owners,
after a successful `rl_dup` or `rl_dup2` of the handle `h = (pid, d)` to the descriptor
`newd`, every reachable READ record that has `(pid, d)` among its owners also has
`(pid, newd)` among its owners; the reachable records are those of the table before, in
the same order, with the same region and type, and with the same owners, but for
`(pid, newd)` appended to the READ records of `h` that did not have it (a WRITE record of
`h` is left as it is); `refCnt` grows by 1. The call succeeds when the handle is valid,
the file table has room, `dup` or `dup2` succeeds and no record of `h` is full. -/
theorem dup_copies_read_owner (nb_files : Nat) (newd dup2Res : Int) (h : owner)
    (f : rl_open_file) (hwf : well_formed f)
    (hcap : ∀ r ∈ reachable f, r.lock_owners.length ≤ NB_OWNERS) :
    (∀ c g, (rl_dup nb_files newd h f = some (c, g)
          ∨ rl_dup2 nb_files dup2Res newd h f = some (c, g)) → c ≠ -1 →
      c = newd ∧ g.refCnt = f.refCnt + 1 ∧ g.blockCnt = f.blockCnt ∧ well_formed g
      ∧ (reachable g).map core
          = (reachable f).map (fun r => core (dup_rec h ⟨h.proc, newd⟩ r))
      ∧ (∀ r ∈ reachable g, r.type = F_RDLCK → h ∈ r.lock_owners →
          (⟨h.proc, newd⟩ : owner) ∈ r.lock_owners))
    ∧ (h.des ≠ FILE_UNK → nb_files < NB_FILES → newd ≠ -1 → dup2Res ≠ -1 →
        (∀ r ∈ reachable f, h ∈ r.lock_owners → r.lock_owners.length < NB_OWNERS) →
        ∃ g, rl_dup nb_files newd h f = some (newd, g)
          ∧ rl_dup2 nb_files dup2Res newd h f = some (newd, g)) := by
  obtain ⟨hlist, hsucc⟩ := rl_dup_list nb_files newd h f hwf hcap
  refine ⟨?_, ?_⟩
  · intro c g hres hc
    have hdup : rl_dup nb_files newd h f = some (c, g) := by
      rcases hres with hres | hres
      · exact hres
      · exact rl_dup2_success hres hc
    obtain ⟨h1, h2, h3, hatg⟩ := hlist c g hdup hc
    have heq := at_reachable_eq hatg
    have hmap : ((reachable f).map core).map (dup_rec h ⟨h.proc, newd⟩)
        = (reachable f).map (fun r => core (dup_rec h ⟨h.proc, newd⟩ r)) := by
      rw [List.map_map]
      apply List.map_congr_left
      intro x _
      exact (dup_rec_core _ _ x).symm
    refine ⟨h1, h2, h3, at_to_well_formed hatg ?_, by rw [heq, hmap], ?_⟩
    · intro x hx
      obtain ⟨y, hy, rfl⟩ := List.mem_map.mp hx
      obtain ⟨r0, hr0, rfl⟩ := List.mem_map.mp hy
      rw [(dup_rec_fields _ _ _).2.1]
      exact hwf.2.2 r0 hr0
    · intro r hr hty hown
      have hmem := core_mem_of_reachable heq hr
      obtain ⟨y, hy, hyr⟩ := List.mem_map.mp hmem
      have hlo : r.lock_owners = (dup_rec h ⟨h.proc, newd⟩ y).lock_owners := by
        have := congrArg rl_lock.lock_owners hyr
        exact this.symm
      have hty2 : y.type = F_RDLCK := by
        have := congrArg rl_lock.type hyr
        rw [(dup_rec_fields _ _ _).2.2] at this
        rw [this]
        exact hty
      rw [hlo]
      by_cases hnew : h = ⟨h.proc, newd⟩
      · rw [hlo] at hown
        have key : ∀ o : owner, o = h →
            o ∈ (dup_rec h ⟨h.proc, newd⟩ y).lock_owners := by
          intro o ho
          rw [ho]
          exact hown
        exact key _ hnew.symm
      · rw [hlo] at hown
        exact dup_rec_read_owner hty2 (dup_rec_owner_mono hown hnew)
  · intro hd hfiles hnewd hd2 hroom
    obtain ⟨g, hg⟩ := hsucc hd hfiles hnewd hroom
    exact ⟨g, hg, rl_dup2_of_rl_dup hg hnewd hd2⟩

/-- C25, amended, instance: `hA` and `hC` share READ `[0, 10)`; `hA` is duplicated to the
descriptor 7. -/
theorem dup_copies_read_owner_witness :
    ∃ g, rl_dup 1 7 hA table_shared = some (7, g)
      ∧ rl_dup2 1 7 7 hA table_shared = some (7, g) :=
  (dup_copies_read_owner 1 7 7 hA table_shared (by decide) (by decide)).2
    (by decide) (by decide) (by decide) (by decide) (by decide)

/-! ## The child-side step of `rl_fork` -/

/-- C26, counterexample: `hA = (100, 3)` holds WRITE `[0, 1500)`; the child-side step for
the parent 100 and the child 101 leaves the table as it is, so `(101, 3)` is not an owner
of the record. And on the READ record with nineteen owners, two of them of process 100,
the step adds `(101, 3)`, finds the record full and does not add `(101, 4)`. -/
theorem fork_copy_incomplete :
    add_new_owner_by_pid 100 101 table_write_A = some (0, table_write_A)
    ∧ reachable table_write_A = [⟨NEXT_NULL, 0, 1500, F_WRLCK, [hA]⟩]
    ∧ (∀ r ∈ reachable table_nineteen_owners,
        hB ∈ r.lock_owners ∧ r.lock_owners.length < NB_OWNERS)
    ∧ ∃ g, add_new_owner_by_pid 100 101 table_nineteen_owners = some (-1, g)
        ∧ ∀ r ∈ reachable g, (⟨101, 3⟩ : owner) ∈ r.lock_owners
            ∧ (⟨101, 4⟩ : owner) ∉ r.lock_owners := by
  refine ⟨by decide, by decide, by decide, ?_⟩
  refine ⟨table_of 0 [⟨NEXT_NULL, 0, 100, F_RDLCK,
    [hA, hB] ++ (List.range 17).map (fun i => ⟨300 + (i : Int), 3⟩) ++ [⟨101, 3⟩]⟩], ?_, ?_⟩
  · decide
  · decide

theorem by_pid_scan_inherits (parent fils : Int) (hne : parent ≠ fils) :
    ∀ (n i : Nat) (r : rl_lock) (res : Int), NB_OWNERS + 1 ≤ n + i → i ≤ NB_OWNERS →
      r.lock_owners.length ≤ NB_OWNERS →
      ∃ r2 res2, add_new_owner_by_pid_scan parent fils n i r res = some (r2, res2)
        ∧ r2.next_lock = r.next_lock ∧ r2.starting_offset = r.starting_offset
        ∧ r2.len = r.len ∧ r2.type = r.type
        ∧ (∃ added, r2.lock_owners = r.lock_owners ++ added ∧ ∀ a ∈ added, a.proc = fils)
        ∧ (r.lock_owners.length
              + (r.lock_owners.drop i).countP (fun o => decide (o.proc = parent))
              ≤ NB_OWNERS →
            res2 = res
            ∧ ∀ o ∈ r.lock_owners.drop i, o.proc = parent →
                (⟨fils, o.des⟩ : owner) ∈ r2.lock_owners) := by
  intro n
  induction n with
  | zero =>
    intro i r res h1 h2 _
    omega
  | succ n ih =>
    intro i r res h1 h2 h3
    rw [add_new_owner_by_pid_scan]
    cases ho : r.lock_owners[i]? with
    | none =>
      have hge : r.lock_owners.length ≤ i := by
        by_contra hlt
        rw [List.getElem?_eq_getElem (by omega)] at ho
        cases ho
      refine ⟨r, res, rfl, rfl, rfl, rfl, rfl, ⟨[], by simp, by simp⟩, ?_⟩
      intro _
      rw [List.drop_eq_nil_of_le hge]
      exact ⟨rfl, by simp⟩
    | some o =>
      have hi : i < r.lock_owners.length := by
        by_contra hge
        rw [List.getElem?_eq_none (by omega)] at ho
        cases ho
      have hdrop : r.lock_owners.drop i = o :: r.lock_owners.drop (i + 1) := by
        rw [List.drop_eq_getElem_cons hi]
        congr 1
        rw [List.getElem?_eq_getElem hi] at ho
        exact Option.some.inj ho
      simp only
      by_cases hp : o.proc = parent
      · rw [if_pos hp]
        have hcnt : (r.lock_owners.drop i).countP (fun o => decide (o.proc = parent))
            = (r.lock_owners.drop (i + 1)).countP (fun o => decide (o.proc = parent)) + 1 := by
          rw [hdrop, List.countP_cons_of_pos]
          simpa using hp
        by_cases hcap : r.nb_owners < NB_OWNERS
        · rw [if_pos hcap]
          by_cases hhas : has_owner r ⟨fils, o.des⟩ = true
          · simp only [hhas, Bool.not_true, Bool.false_eq_true, if_false]
            obtain ⟨r2, res2, h4, h5, h6, h7, h8, ⟨added, h9, h10⟩, h11⟩ :=
              ih (i + 1) r res (by omega) (by omega) h3
            refine ⟨r2, res2, h4, h5, h6, h7, h8, ⟨added, h9, h10⟩, ?_⟩
            intro hroom
            obtain ⟨h12, h13⟩ := h11 (by omega)
            refine ⟨h12, ?_⟩
            intro o2 ho2 hp2
            rw [hdrop] at ho2
            rcases List.mem_cons.mp ho2 with ho2 | ho2
            · subst ho2
              rw [h9]
              exact List.mem_append_left _ (has_owner_iff.mp hhas)
            · exact h13 o2 ho2 hp2
          · simp only [hhas, Bool.not_false, if_true]
            have hlen2 : (r.lock_owners ++ [(⟨fils, o.des⟩ : owner)]).length ≤ NB_OWNERS := by
              simp only [List.length_append, List.length_singleton]
              exact hcap
            obtain ⟨r2, res2, h4, h5, h6, h7, h8, ⟨added, h9, h10⟩, h11⟩ :=
              ih (i + 1) { r with lock_owners := r.lock_owners ++ [⟨fils, o.des⟩] } res
                (by omega) (by omega) hlen2
            have hdrop2 : (r.lock_owners ++ [(⟨fils, o.des⟩ : owner)]).drop (i + 1)
                = r.lock_owners.drop (i + 1) ++ [⟨fils, o.des⟩] :=
              List.drop_append_of_le_length (by omega)
            refine ⟨r2, res2, h4, h5, h6, h7, h8, ⟨⟨fils, o.des⟩ :: added, ?_, ?_⟩, ?_⟩
            · rw [h9]
              simp
            · intro a ha
              rcases List.mem_cons.mp ha with ha | ha
              · rw [ha]
              · exact h10 a ha
            · intro hroom
              have hroom2 : (r.lock_owners ++ [(⟨fils, o.des⟩ : owner)]).length
                  + ((r.lock_owners ++ [(⟨fils, o.des⟩ : owner)]).drop (i + 1)).countP
                      (fun o => decide (o.proc = parent)) ≤ NB_OWNERS := by
                rw [hdrop2, List.countP_append, List.countP_singleton]
                simp only [List.length_append, List.length_singleton]
                have : ¬ fils = parent := fun he => hne he.symm
                simp only [this, decide_False, Bool.false_eq_true, if_false]
                omega
              obtain ⟨h12, h13⟩ := h11 hroom2
              refine ⟨h12, ?_⟩
              intro o2 ho2 hp2
              rw [hdrop] at ho2
              rcases List.mem_cons.mp ho2 with ho2 | ho2
              · subst ho2
                rw [h9]
                simp
              · refine h13 o2 ?_ hp2
                show o2 ∈ (r.lock_owners ++ [(⟨fils, o.des⟩ : owner)]).drop (i + 1)
                rw [hdrop2]
                exact List.mem_append_left _ ho2
        · rw [if_neg hcap]
          obtain ⟨r2, res2, h4, h5, h6, h7, h8, h9, _⟩ :=
            ih (i + 1) r (-1) (by omega) (by omega) h3
          refine ⟨r2, res2, h4, h5, h6, h7, h8, h9, ?_⟩
          intro hroom
          exfalso
          have : r.lock_owners.length ≥ NB_OWNERS := by
            simp only [rl_lock.nb_owners, not_lt] at hcap
            exact hcap
          omega
      · rw [if_neg hp]
        have hcnt : (r.lock_owners.drop i).countP (fun o => decide (o.proc = parent))
            = (r.lock_owners.drop (i + 1)).countP (fun o => decide (o.proc = parent)) := by
          rw [hdrop, List.countP_cons_of_neg]
          simpa using hp
        obtain ⟨r2, res2, h4, h5, h6, h7, h8, h9, h11⟩ :=
          ih (i + 1) r res (by omega) (by omega) h3
        refine ⟨r2, res2, h4, h5, h6, h7, h8, h9, ?_⟩
        intro hroom
        obtain ⟨h12, h13⟩ := h11 (by omega)
        refine ⟨h12, ?_⟩
        intro o2 ho2 hp2
        rw [hdrop] at ho2
        rcases List.mem_cons.mp ho2 with ho2 | ho2
        · subst ho2
          exact absurd hp2 hp
        · exact h13 o2 ho2 hp2

theorem inherited_refl (parent fils : Int) (r : rl_lock) (hty : r.type ≠ F_RDLCK) :
    inherited parent fils r r :=
  ⟨rfl, rfl, rfl, ⟨[], by simp, by simp⟩, fun _ => rfl, fun h => absurd h hty⟩

theorem by_pid_loop_inherits (parent fils : Int) (hne : parent ≠ fils) :
    ∀ (S : List rl_lock) (f : rl_open_file) (idx : Int) (P : List rl_lock) (fuel : Nat)
      (res : Int),
      At f idx P S → (∀ r ∈ S, r.lock_owners.length ≤ NB_OWNERS) → S.length < fuel →
      ∃ c g L2, add_new_owner_by_pid_loop parent fils fuel f idx res = some (c, g)
        ∧ At g g.first [] (P ++ L2)
        ∧ List.Forall₂ (inherited parent fils) S L2
        ∧ g.blockCnt = f.blockCnt ∧ g.refCnt = f.refCnt := by
  intro S
  induction S with
  | nil =>
    intro f idx P fuel res hat _ hfuel
    obtain ⟨n, rfl⟩ : ∃ n, fuel = n + 1 := ⟨fuel - 1, by simp at hfuel; omega⟩
    have := at_idx_neg hat
    rw [add_new_owner_by_pid_loop, if_neg (by omega)]
    exact ⟨res, f, [], rfl, at_restart hat, List.Forall₂.nil, rfl, rfl⟩
  | cons r S ih =>
    intro f idx P fuel res hat hcap hfuel
    obtain ⟨n, rfl⟩ : ∃ n, fuel = n + 1 := ⟨fuel - 1, by simp at hfuel; omega⟩
    obtain ⟨i, r0, hidx, hr0, hcore, hnext⟩ := at_cons_inv hat
    subst hidx
    subst hcore
    have hr0len : r0.len ≠ 0 := hat.2.1 (core r0) (by simp)
    have hcapS : ∀ x ∈ S, x.lock_owners.length ≤ NB_OWNERS :=
      fun x hx => hcap x (List.mem_cons_of_mem _ hx)
    have hc0 : r0.lock_owners.length ≤ NB_OWNERS := hcap (core r0) (List.mem_cons_self _ S)
    rw [add_new_owner_by_pid_loop]
    simp only [Int.toNat_ofNat, hr0, ge_iff_le, Int.ofNat_zero_le, if_true]
    by_cases hty : r0.type = F_RDLCK
    · rw [if_pos hty]
      obtain ⟨r2, res2, hscan, h5, h6, h7, h8, h9, h11⟩ :=
        by_pid_scan_inherits parent fils hne OWNER_FUEL 0 r0 res
          (by simp only [OWNER_FUEL]; omega) (by omega) hc0
      simp only [hscan]
      have hadv := at_set_advance hat hr0 h5 (by rw [h7]; exact hr0len)
      rw [h5]
      obtain ⟨c, g, L2, hg, hatg, hrel, hb, hrc⟩ :=
        ih _ r0.next_lock _ n res2 hadv hcapS (by simp at hfuel; omega)
      refine ⟨c, g, core r2 :: L2, hg, by simpa using hatg, List.Forall₂.cons ?_ hrel, hb, hrc⟩
      refine ⟨h6, h7, h8, h9, fun hn => absurd hty hn, ?_⟩
      intro _ hroom d hd
      exact (h11 (by simpa using hroom)).2 ⟨parent, d⟩ (by simpa using hd) rfl
    · rw [if_neg hty]
      obtain ⟨c, g, L2, hg, hatg, hrel, hb, hrc⟩ :=
        ih f r0.next_lock _ n res hnext hcapS (by simp at hfuel; omega)
      exact ⟨c, g, core r0 :: L2, hg, by simpa using hatg,
        List.Forall₂.cons (inherited_refl parent fils (core r0) hty) hrel, hb, hrc⟩

/-- C26, amended: on a well-formed table whose records have at most `NB_OWNERS` owners,
the child-side step `add_new_owner_by_pid(parent, fils)` with `parent ≠ fils` returns and
leaves the reachable records in their order, each with its region, type and owners as
before, followed by entries of `fils` only (so the ownership of the parent is unchanged);
for every READ record with room for one more entry per entry of `parent` and every
descriptor `d` such that `(parent, d)` is an owner of the record, `(fils, d)` is an owner
of the record after the step; a record of another type gets no owner. -/
theorem fork_copies_read_owners (parent fils : Int) (f : rl_open_file) (hwf : well_formed f)
    (hcap : ∀ r ∈ reachable f, r.lock_owners.length ≤ NB_OWNERS) (hne : parent ≠ fils) :
    ∃ c g, add_new_owner_by_pid parent fils f = some (c, g)
      ∧ g.blockCnt = f.blockCnt ∧ g.refCnt = f.refCnt
      ∧ List.Forall₂ (inherited parent fils) (reachable f) (reachable g) := by
  have hat := at_of_well_formed hwf
  have hcapL : ∀ r ∈ (reachable f).map core, r.lock_owners.length ≤ NB_OWNERS := by
    intro x hx
    obtain ⟨r0, hr0, rfl⟩ := List.mem_map.mp hx
    exact hcap r0 hr0
  obtain ⟨c, g, L2, hg, hatg, hrel, hb, hrc⟩ :=
    by_pid_loop_inherits parent fils hne _ f f.first [] SCAN_FUEL 0 hat hcapL (scan_fuel_ok hat)
  refine ⟨c, g, hg, hb, hrc, ?_⟩
  have heq := at_reachable_eq hatg
  rw [List.nil_append] at heq
  rw [← heq] at hrel
  rw [List.forall₂_map_left_iff, List.forall₂_map_right_iff] at hrel
  exact hrel

/-- C26, amended, instance: `hA = (100, 3)` and `hC` share READ `[0, 10)`; the child-side
step for the parent 100 and the child 101. -/
theorem fork_copies_read_owners_witness :
    ∃ c g, add_new_owner_by_pid 100 101 table_shared = some (c, g)
      ∧ g.blockCnt = table_shared.blockCnt ∧ g.refCnt = table_shared.refCnt
      ∧ List.Forall₂ (inherited 100 101) (reachable table_shared) (reachable g) :=
  fork_copies_read_owners 100 101 table_shared (by decide) (by decide) (by decide)

/-! ## `rl_fork` -/

/-- C27, the code at the failing input: process 100, whose parent is process 1, calls
`rl_fork` while its handle `hA` is one of the `NB_OWNERS` owners of a record. The check
for the calling process gives -1, but `rl_fork` runs the check for the parent of the
calling process, forks and returns the pid of the child; the child inherits nothing. -/
theorem rl_fork_checks_ppid :
    well_formed table_full_caller
    ∧ (∀ r ∈ reachable table_full_caller,
        hA ∈ r.lock_owners ∧ r.lock_owners.length = NB_OWNERS)
    ∧ can_add_new_owner_by_pid 100 table_full_caller = some (-1)
    ∧ can_add_new_owner_by_pid 1 table_full_caller = some 0
    ∧ rl_fork 100 1 101 [table_full_caller]
        = some (101, [{ table_full_caller with refCnt := 3 }]) := by
  decide

/-! ## The touch-or-intersect predicate -/

/-- C31: for `len > 0` and a record of length > 0, `is_region_intersection_or_neighbour`
is true exactly when `is_region_intersection` is true or the ranges are adjacent, that is
`offset + len` is the start of the record or the end of the record is `offset`. -/
theorem is_region_intersection_or_neighbour_exact (offset len : Int) (r : rl_lock)
    (hlen : 0 < len) (hr : 0 < r.len) :
    is_region_intersection_or_neighbour offset len r = true ↔
      (is_region_intersection offset len r = true
        ∨ offset + len = r.starting_offset ∨ r.starting_offset + r.len = offset) := by
  simp only [is_region_intersection_or_neighbour, is_region_intersection, Bool.or_eq_true,
    Bool.and_eq_true, decide_eq_true_eq]
  omega

/-- C31, instance: `[0, 10)` and the record `[10, 20)` are adjacent. -/
theorem is_region_intersection_or_neighbour_exact_witness :
    is_region_intersection_or_neighbour 0 10 ⟨NEXT_NULL, 10, 10, F_RDLCK, [hA]⟩ = true ↔
      (is_region_intersection 0 10 ⟨NEXT_NULL, 10, 10, F_RDLCK, [hA]⟩ = true
        ∨ (0 : Int) + 10 = (⟨NEXT_NULL, 10, 10, F_RDLCK, [hA]⟩ : rl_lock).starting_offset
        ∨ (⟨NEXT_NULL, 10, 10, F_RDLCK, [hA]⟩ : rl_lock).starting_offset
            + (⟨NEXT_NULL, 10, 10, F_RDLCK, [hA]⟩ : rl_lock).len = 0) :=
  is_region_intersection_or_neighbour_exact 0 10 ⟨NEXT_NULL, 10, 10, F_RDLCK, [hA]⟩
    (by decide) (by decide)

/-! ## A READ request over a record of the same handle -/

/-- C32, failing input, the requests of `test_regions`: on the empty table `hA` asks READ
`[0, 100)` and then READ `[50, 150)` with `F_SETLK`. Both calls return 0 and the table
holds the single record READ `[0, 150)` of `hA`, where the test asserts that the second
call fails. -/
theorem overlapping_read_succeeds :
    run_requests all_alive (table_of NEXT_NULL [])
        [(hA, request F_RDLCK 0 100), (hA, request F_RDLCK 50 100)]
      = some ([0, 0], table_read_150)
    ∧ rl_fcntl all_alive 0 0 hA table_read_A F_SETLK (request F_RDLCK 50 100)
        = outcome.ret 0 table_read_150
    ∧ reachable table_read_A = [⟨NEXT_NULL, 0, 100, F_RDLCK, [hA]⟩]
    ∧ reachable table_read_150 = [⟨NEXT_NULL, 0, 150, F_RDLCK, [hA]⟩] := by
  decide

theorem dropped_sole_owner {h : owner} {r : rl_lock} (hall : ∀ o ∈ r.lock_owners, o = h) :
    dropped h r = 1 := by
  unfold dropped
  rw [drop_owner_only hall]
  rfl

theorem add_read_merge_frees (h : owner) (lck0 : flock) :
    ∀ (S : List rl_lock) (f : rl_open_file) (cur : flock) (idx : Int) (P : List rl_lock)
      (fuel : Nat), At f idx P S → S.length < fuel → extends_region lck0 cur →
      (∀ r ∈ S, 0 ≤ r.starting_offset ∧ 0 < r.len) →
      (∃ r ∈ S, touches lck0.l_start lck0.l_len r ∧ h ∈ r.lock_owners
        ∧ ∀ o ∈ r.lock_owners, o = h) →
      ∃ g lck2, add_read_merge h fuel f cur idx = some (g, lck2)
        ∧ At g g.first [] (P ++ (merge_list h (read_match h) cur S).2)
        ∧ free_count f.lock_table + 1 ≤ free_count g.lock_table := by
  intro S
  induction S with
  | nil =>
    intro f cur idx P fuel _ _ _ _ hex
    obtain ⟨r, hr, _⟩ := hex
    simp at hr
  | cons r S ih =>
    intro f cur idx P fuel hat hfuel hext hok hex
    obtain ⟨n, rfl⟩ : ∃ n, fuel = n + 1 := ⟨fuel - 1, by simp at hfuel; omega⟩
    obtain ⟨i, r0, hidx, hr0, hcore, hnext⟩ := at_cons_inv hat
    subst hidx
    have hn : S.length < n := by simp at hfuel; omega
    have hrok := hok r (List.mem_cons_self r S)
    have hokS : ∀ x ∈ S, 0 ≤ x.starting_offset ∧ 0 < x.len :=
      fun x hx => hok x (List.mem_cons_of_mem r hx)
    have hm : (is_region_intersection_or_neighbour cur.l_start cur.l_len r0 && is_owner h r0)
        = read_match h cur r := by rw [← hcore]; rfl
    have hab : absorb cur r0 = absorb cur r := by rw [← hcore]; rfl
    rw [add_read_merge]
    simp only [Int.toNat_ofNat, hr0, ge_iff_le, Int.ofNat_zero_le, if_true, hm, hab]
    by_cases hmatch : read_match h cur r = true
    · obtain ⟨g1, hg1, hat1, hfc1, _, _⟩ := at_delete_owner_step h hat hr0
      rw [if_pos hmatch, hg1]
      simp only [merge_list, if_pos hmatch]
      by_cases hspecial : h ∈ r.lock_owners ∧ ∀ o ∈ r.lock_owners, o = h
      · obtain ⟨g, hg, hatg, hfc, _, _⟩ :=
          add_read_merge_eq h S g1 (absorb cur r) r0.next_lock _ n hat1 hn
        have hd := dropped_sole_owner hspecial.2
        exact ⟨g, _, hg, by simpa using hatg, by omega⟩
      · have hex2 : ∃ x ∈ S, touches lck0.l_start lck0.l_len x ∧ h ∈ x.lock_owners
            ∧ ∀ o ∈ x.lock_owners, o = h := by
          obtain ⟨x, hx, h1, h2, h3⟩ := hex
          rcases List.mem_cons.mp hx with hx | hx
          · subst hx
            exact absurd ⟨h2, h3⟩ hspecial
          · exact ⟨x, hx, h1, h2, h3⟩
        obtain ⟨g, lck2, hg, hatg, hfc⟩ :=
          ih g1 (absorb cur r) r0.next_lock _ n hat1 hn
            (absorb_extends hext hrok.1 hrok.2) hokS hex2
        exact ⟨g, lck2, hg, by simpa using hatg, by omega⟩
    · have hex2 : ∃ x ∈ S, touches lck0.l_start lck0.l_len x ∧ h ∈ x.lock_owners
          ∧ ∀ o ∈ x.lock_owners, o = h := by
        obtain ⟨x, hx, h1, h2, h3⟩ := hex
        rcases List.mem_cons.mp hx with hx | hx
        · subst hx
          exfalso
          apply hmatch
          simp only [read_match, Bool.and_eq_true]
          exact ⟨(is_region_intersection_or_neighbour_iff (by have := hext.2.2.2.1; omega)
            (by omega)).mpr (touches_mono hext h1), is_owner_iff.mpr h2⟩
        · exact ⟨x, hx, h1, h2, h3⟩
      obtain ⟨g, lck2, hg, hatg, hfc⟩ := ih f cur r0.next_lock _ n hnext hn hext hokS hex2
      rw [if_neg hmatch]
      simp only [merge_list, if_neg hmatch]
      exact ⟨g, lck2, hg, by simpa using hatg, hfc⟩

/-- The overlapping READ request in general: on a well-formed table (records with
start >= 0, owners alive), when a
handle `h` is the sole owner of a reachable record `R` and asks, with `F_SETLK`, READ on a
region `r` (start >= 0, length > 0) that overlaps or touches `R`, `rl_fcntl` returns 0,
provided that the oracle reports the request compatible and that every record with exactly
the region `r` has fewer than `NB_OWNERS` owners: the request absorbs `R`, whose slot
becomes free for the merged record. -/
theorem rl_fcntl_overlap_merges (alive : Int → Bool) (pos size : Int) (h : owner)
    (f : rl_open_file) (lck : flock) (R : rl_lock) (hd : h.des ≠ FILE_UNK)
    (hwf : well_formed f) (hs : starts_nonneg f) (ha : owners_alive alive f)
    (hw : lck.l_whence = SEEK_SET) (h0 : 0 ≤ lck.l_start) (hlen : 0 < lck.l_len)
    (ht : lck.l_type = F_RDLCK) (hR : R ∈ reachable f)
    (hown : h ∈ R.lock_owners ∧ ∀ o ∈ R.lock_owners, o = h)
    (hov : touches lck.l_start lck.l_len R)
    (hcap : ∀ r ∈ reachable f, r.starting_offset = lck.l_start → r.len = lck.l_len →
      r.lock_owners.length < NB_OWNERS)
    (hcomp : is_rl_compatible h f { lck with l_pid := h.proc } = some true) :
    ∃ g, rl_fcntl alive pos size h f F_SETLK lck = outcome.ret 0 g := by
  have hat := at_of_well_formed hwf
  have hadd : ∀ lc : flock, lc.l_start = lck.l_start → lc.l_len = lck.l_len →
      ∃ g, add_read_lock_region h f lc = some (0, g) := by
    intro lc hst hln
    have hlen2 : 0 < lc.l_len := by rw [hln]; exact hlen
    have h02 : 0 ≤ lc.l_start := by rw [hst]; exact h0
    unfold add_read_lock_region
    rcases add_read_search_eq h lc _ f f.first [] SCAN_FUEL hat (scan_fuel_ok hat)
      with ⟨_, h2⟩ | ⟨c, S2, g, h1, h2, _⟩
    · rw [h2]
      obtain ⟨g1, lck2, hg1, hat1, hfc⟩ :=
        add_read_merge_frees h lc _ f lc f.first [] SCAN_FUEL hat (scan_fuel_ok hat)
          (extends_region_refl h02 hlen2) (at_records_ok hwf hs)
          ⟨core R, List.mem_map_of_mem _ hR, by rw [hst, hln]; exact hov, hown.1, hown.2⟩
      simp only [hg1]
      rcases add_lock_lk h lck2 F_RDLCK hat1 with ⟨hk, _⟩ | ⟨g2, hg2, _⟩
      · omega
      · exact ⟨g2, by rw [hg2]⟩
    · rw [h2]
      have hc : c = 0 := by
        refine search_list_code _ c S2 ?_ h1
        intro r hr hE
        obtain ⟨r0, hr0, rfl⟩ := List.mem_map.mp hr
        simp only [is_region_equal, core, Bool.and_eq_true, decide_eq_true_eq] at hE
        exact hcap r0 hr0 (by rw [← hst]; exact hE.1.symm) (by rw [← hln]; exact hE.2.symm)
      subst hc
      exact ⟨g, rfl⟩
  obtain ⟨g, hg⟩ := hadd { lck with l_pid := h.proc } rfl rfl
  have hcmd : ¬ (h.des = FILE_UNK ∨ F_SETLK = F_GETLK) := by
    rintro (h1 | h1)
    · exact hd h1
    · exact absurd h1 (by decide)
  have hun : ¬ (lck.l_type = F_UNLCK) := by rw [ht]; decide
  refine ⟨g, ?_⟩
  unfold rl_fcntl
  rw [if_neg hcmd, normalize_plain pos size h lck hw hlen]
  simp only [rl_clear_dead_owners_id hwf ha, if_neg hun, hcomp, if_pos ht, hg]

/-- The overlapping READ request, instance: the second request of `test_regions`. -/
theorem rl_fcntl_overlap_merges_witness :
    ∃ g, rl_fcntl all_alive 0 0 hA table_read_A F_SETLK (request F_RDLCK 50 100)
      = outcome.ret 0 g :=
  rl_fcntl_overlap_merges all_alive 0 0 hA table_read_A (request F_RDLCK 50 100)
    ⟨NEXT_NULL, 0, 100, F_RDLCK, [hA]⟩ (by decide) (by decide) (by decide) (by decide)
    (by decide) (by decide) (by decide) (by decide) (by decide) (by decide) (by decide)
    (by decide) (by decide)

/-! ## The sweep and the slots -/

/-- C33, the code at the failing input: on the table set up by `rl_open`, `hC` of process
200 takes WRITE `[20, 30)`; process 200 dies; `hA` takes READ `[0, 10)`. Both requests
return 0. The sweep before the second request unlinks slot 0 and leaves its length 10, so
the slot is neither reachable nor free: `add_lock` puts the record of `hA` into slot 1. -/
theorem sweep_leaks_slot :
    slot_accounting new_open_file
    ∧ rl_fcntl all_alive 0 0 hC new_open_file F_SETLK (request F_WRLCK 20 10)
        = outcome.ret 0 table_write_C
    ∧ slot_accounting table_write_C
    ∧ rl_fcntl alive_but_200 0 0 hA table_write_C F_SETLK (request F_RDLCK 0 10)
        = outcome.ret 0 table_leaked_slot
    ∧ ¬ slot_accounting table_leaked_slot
    ∧ (table_leaked_slot.lock_table[0]?).map rl_lock.len = some 10
    ∧ reachable_idx table_leaked_slot = [1]
    ∧ free_count table_leaked_slot.lock_table = 8 := by
  decide

/-- C35, the code at the failing input: the list is READ `[0, 10)` of `hA`, WRITE
`[20, 30)` of `hC`, READ `[40, 50)` of `hB`, reached from the empty table by three
requests; process 200 of `hC` is dead, the processes of `hA` and `hB` are alive. After the
sweep the record of `hC` is still linked behind that of `hA`, with no owner and
`next_lock = NEXT_NULL`, and the record READ `[40, 50)` of the live handle `hB` is no
longer reachable: a WRITE request of another process for `[40, 50)` is then granted. -/
theorem sweep_loses_live_lock :
    run_requests all_alive (table_of NEXT_NULL [])
        [(hB, request F_RDLCK 40 10), (hC, request F_WRLCK 20 10), (hA, request F_RDLCK 0 10)]
      = some ([0, 0, 0], table_dead_middle)
    ∧ well_formed table_dead_middle
    ∧ reachable table_dead_middle
        = [⟨1, 0, 10, F_RDLCK, [hA]⟩, ⟨0, 20, 10, F_WRLCK, [hC]⟩,
            ⟨NEXT_NULL, 40, 10, F_RDLCK, [hB]⟩]
    ∧ alive_but_200 hB.proc = true
    ∧ rl_clear_dead_owners alive_but_200 table_dead_middle = some table_dead_middle_swept
    ∧ reachable table_dead_middle_swept
        = [⟨1, 0, 10, F_RDLCK, [hA]⟩, ⟨NEXT_NULL, 20, 10, F_WRLCK, []⟩]
    ∧ ∃ g, rl_fcntl alive_but_200 0 0 ⟨300, 3⟩ table_dead_middle F_SETLK
        (request F_WRLCK 40 10) = outcome.ret 0 g := by
  refine ⟨by decide, by decide, by decide, by decide, by decide, by decide, ?_⟩
  exact ⟨table_of 3 [⟨NEXT_NULL, 40, 10, F_RDLCK, [hB]⟩, ⟨NEXT_NULL, 20, 10, F_WRLCK, []⟩,
    ⟨1, 0, 10, F_RDLCK, [hA]⟩, ⟨2, 40, 10, F_WRLCK, [⟨300, 3⟩]⟩], by decide⟩

/-! ## The blocking request -/

theorem rl_fcntl_wait_ret (h : owner) (lc : flock) :
    ∀ (wakes : List (rl_open_file → rl_open_file)) (f : rl_open_file) (c : Int)
      (g : rl_open_file), rl_fcntl_wait h lc wakes f = outcome.ret c g →
      ∃ t, is_rl_compatible h t lc = some true ∧ rl_fcntl_acquire h t lc = outcome.ret c g := by
  intro wakes
  induction wakes with
  | nil =>
    intro f c g hres
    rw [rl_fcntl_wait] at hres
    cases hc : is_rl_compatible h f lc with
    | none => rw [hc] at hres; cases hres
    | some b =>
      rw [hc] at hres
      cases b with
      | false => cases hres
      | true => exact ⟨f, hc, hres⟩
  | cons w ws ih =>
    intro f c g hres
    rw [rl_fcntl_wait] at hres
    cases hc : is_rl_compatible h f lc with
    | none => rw [hc] at hres; cases hres
    | some b =>
      rw [hc] at hres
      cases b with
      | false => exact ih _ c g hres
      | true => exact ⟨f, hc, hres⟩

/-- C34: in `rl_fcntl` with `F_SETLKW`, whatever happens while the caller sleeps: when the
wait loop ends with a result, the region mutator was called on a table on which
`is_rl_compatible` reports the request compatible; a pass that finds the request
incompatible leaves the table as it is but for `blockCnt`, which grows by exactly one, and
after the wake the loop tests the compatibility again on the table it finds. The first
pass is what `rl_fcntl` does after the sweep. -/
theorem rl_fcntl_wait_compatible (alive : Int → Bool) (pos size : Int) (h : owner)
    (lck : flock) (f : rl_open_file) (w : rl_open_file → rl_open_file)
    (ws : List (rl_open_file → rl_open_file)) :
    (∀ lc c g, rl_fcntl_wait h lc (w :: ws) f = outcome.ret c g →
        ∃ t, is_rl_compatible h t lc = some true
          ∧ rl_fcntl_acquire h t lc = outcome.ret c g)
    ∧ (∀ lc, is_rl_compatible h f lc = some false →
        rl_fcntl_wait h lc [] f = outcome.wait { f with blockCnt := f.blockCnt + 1 }
        ∧ rl_fcntl_wait h lc (w :: ws) f
            = rl_fcntl_wait h lc ws (w { f with blockCnt := f.blockCnt + 1 }))
    ∧ (∀ lc, is_rl_compatible h f lc = some true →
        rl_fcntl_wait h lc (w :: ws) f = rl_fcntl_acquire h f lc)
    ∧ (h.des ≠ FILE_UNK → (normalize pos size h lck).l_type ≠ F_UNLCK →
        ∀ f0, rl_clear_dead_owners alive f = some f0 →
          rl_fcntl alive pos size h f F_SETLKW lck
            = rl_fcntl_wait h (normalize pos size h lck) [] f0) := by
  refine ⟨fun lc c g hres => rl_fcntl_wait_ret h lc (w :: ws) f c g hres, ?_, ?_, ?_⟩
  · intro lc hc
    refine ⟨?_, ?_⟩
    · rw [rl_fcntl_wait, hc]
    · rw [rl_fcntl_wait, hc]
  · intro lc hc
    rw [rl_fcntl_wait, hc]
  · intro hd hty f0 hs
    have hguard : ¬ (h.des = FILE_UNK ∨ F_SETLKW = F_GETLK) := by
      rintro (h1 | h1)
      · exact hd h1
      · exact absurd h1 (by decide)
    unfold rl_fcntl
    rw [if_neg hguard]
    simp only [hs, if_neg hty, if_true]
    rw [rl_fcntl_wait]
    cases hc : is_rl_compatible h f0 (normalize pos size h lck) with
    | none => rfl
    | some b =>
      cases b with
      | false => rfl
      | true =>
        simp only
        unfold rl_fcntl_acquire
        rfl

/-- C34, instance (the scenario of `test_record_blocking_request`): `hA` holds WRITE
`[0, 800)`; the request WRITE `[200, 400)` of the child is incompatible, the child sleeps
with `blockCnt = 1`; `hA` releases `[200, 400)`, the child wakes, finds the request
compatible and gets the lock. -/
theorem rl_fcntl_wait_compatible_witness :
    (rl_fcntl_wait hD (request F_WRLCK 200 200) [] table_write_800
        = outcome.wait { table_write_800 with blockCnt := table_write_800.blockCnt + 1 }
      ∧ rl_fcntl_wait hD (request F_WRLCK 200 200) [release_200_400] table_write_800
        = rl_fcntl_wait hD (request F_WRLCK 200 200) []
            (release_200_400
              { table_write_800 with blockCnt := table_write_800.blockCnt + 1 }))
    ∧ rl_fcntl_wait hD (request F_WRLCK 200 200) [release_200_400] table_write_800
        = outcome.ret 0 (table_of 0 [⟨2, 200, 200, F_WRLCK, [hD]⟩,
            ⟨NEXT_NULL, 0, 200, F_WRLCK, [hA]⟩, ⟨1, 400, 400, F_WRLCK, [hA]⟩]) :=
  ⟨(rl_fcntl_wait_compatible all_alive 0 0 hD (request F_WRLCK 200 200) table_write_800
      release_200_400 []).2.1 (request F_WRLCK 200 200) (by decide),
   by decide⟩

/-! ## Termination of the release loop -/

theorem delete_lock_region_loop_succ (h : owner) (lck : flock) :
    ∀ (n : Nat) (f : rl_open_file) (idx : Int) (res : Int × rl_open_file),
      delete_lock_region_loop h lck n f idx = some res →
      delete_lock_region_loop h lck (n + 1) f idx = some res := by
  intro n
  induction n with
  | zero =>
    intro f idx res hres
    simp [delete_lock_region_loop] at hres
  | succ n ih =>
    intro f idx res hres
    rw [delete_lock_region_loop] at hres ⊢
    by_cases hi : idx ≥ 0
    · rw [if_pos hi] at hres ⊢
      cases hr : f.lock_table[idx.toNat]? with
      | none =>
        rw [hr] at hres
        cases hres
      | some r =>
        rw [hr] at hres
        simp only at hres ⊢
        by_cases hm : (is_region_intersection lck.l_start lck.l_len r && is_owner h r) = true
        · rw [if_pos hm] at hres ⊢
          by_cases c1 : lck.l_start ≤ r.starting_offset
              ∧ lck.l_start + lck.l_len ≥ r.starting_offset + r.len
          · rw [if_pos c1] at hres ⊢
            cases hd : delete_owner h f idx with
            | none =>
              rw [hd] at hres
              cases hres
            | some f1 =>
              rw [hd] at hres
              exact ih _ _ _ hres
          · rw [if_neg c1] at hres ⊢
            by_cases c2 : lck.l_start > r.starting_offset
                ∧ lck.l_start + lck.l_len < r.starting_offset + r.len
            · rw [if_pos c2] at hres ⊢
              split at hres
              · rename_i ha1
                rw [if_pos ha1]
                exact hres
              · rename_i ha1
                rw [if_neg ha1]
                split at hres
                · rename_i ha2
                  rw [if_pos ha2]
                  exact hres
                · rename_i ha2
                  rw [if_neg ha2]
                  split at hres
                  · cases hres
                  · exact ih _ _ _ hres
            · rw [if_neg c2] at hres ⊢
              by_cases c3 : lck.l_start ≤ r.starting_offset
                  ∧ lck.l_start + lck.l_len ≤ r.starting_offset + r.len
              · rw [if_pos c3] at hres ⊢
                split at hres
                · rename_i ha1
                  rw [if_pos ha1]
                  exact hres
                · rename_i ha1
                  rw [if_neg ha1]
                  split at hres
                  · cases hres
                  · exact ih _ _ _ hres
              · rw [if_neg c3] at hres ⊢
                by_cases c4 : lck.l_start ≥ r.starting_offset
                    ∧ lck.l_start + lck.l_len ≥ r.starting_offset + r.len
                · rw [if_pos c4] at hres ⊢
                  split at hres
                  · rename_i ha1
                    rw [if_pos ha1]
                    exact hres
                  · rename_i ha1
                    rw [if_neg ha1]
                    split at hres
                    · cases hres
                    · exact ih _ _ _ hres
                · rw [if_neg c4] at hres ⊢
                  exact ih _ _ _ hres
        · rw [if_neg hm] at hres ⊢
          exact ih _ _ _ hres
    · rw [if_neg hi] at hres ⊢
      exact hres

theorem delete_lock_region_loop_mono (h : owner) (lck : flock) (f : rl_open_file) (idx : Int)
    (res : Int × rl_open_file) (n : Nat)
    (hres : delete_lock_region_loop h lck n f idx = some res) :
    ∀ m, n ≤ m → delete_lock_region_loop h lck m f idx = some res := by
  intro m hm
  induction m with
  | zero =>
    have : n = 0 := by omega
    subst this
    exact hres
  | succ m ih =>
    by_cases hle : n ≤ m
    · exact delete_lock_region_loop_succ h lck m f idx res (ih hle)
    · have : n = m + 1 := by omega
      subst this
      exact hres

theorem unlock_cases (lck : flock) (r : rl_lock) :
    (lck.l_start ≤ r.starting_offset ∧ lck.l_start + lck.l_len ≥ r.starting_offset + r.len)
    ∨ (lck.l_start > r.starting_offset ∧ lck.l_start + lck.l_len < r.starting_offset + r.len)
    ∨ (lck.l_start ≤ r.starting_offset ∧ lck.l_start + lck.l_len ≤ r.starting_offset + r.len)
    ∨ (lck.l_start ≥ r.starting_offset
        ∧ lck.l_start + lck.l_len ≥ r.starting_offset + r.len) := by
  omega

/-- C36: on a well-formed table, for a handle `h` and a region of length > 0, the loop of
`delete_lock_region` ends: with `RESCAN_FUEL` iterations or more it returns, and the result
does not depend on the number of iterations allowed. Every record falls into one of the
four overlap cases of the loop; the record that `delete_owner` leaves in place of a record
of `h` is not a record of `h`, and the pieces that the cases 2, 3 and 4 insert do not
intersect the region, so each case takes one record off the records of `h` that intersect
the region. -/
theorem delete_lock_region_terminates (h : owner) (f : rl_open_file) (lck : flock)
    (hwf : well_formed f) (hlen : 0 < lck.l_len) :
    (∃ c g, ∀ n, RESCAN_FUEL ≤ n → delete_lock_region_loop h lck n f f.first = some (c, g))
    ∧ (∀ r : rl_lock,
        (lck.l_start ≤ r.starting_offset
          ∧ lck.l_start + lck.l_len ≥ r.starting_offset + r.len)
        ∨ (lck.l_start > r.starting_offset
          ∧ lck.l_start + lck.l_len < r.starting_offset + r.len)
        ∨ (lck.l_start ≤ r.starting_offset
          ∧ lck.l_start + lck.l_len ≤ r.starting_offset + r.len)
        ∨ (lck.l_start ≥ r.starting_offset
          ∧ lck.l_start + lck.l_len ≥ r.starting_offset + r.len))
    ∧ (∀ r : rl_lock,
        (drop_rec h r).countP (unlock_match h lck) = 0
        ∧ (lck.l_start + lck.l_len < r.starting_offset + r.len →
            unlock_match h lck (right_piece h lck r) = false)
        ∧ (r.starting_offset < lck.l_start →
            unlock_match h lck (left_piece h lck r) = false)) := by
  refine ⟨?_, fun r => unlock_cases lck r, ?_⟩
  · obtain ⟨c, g, hdel⟩ := delete_lock_region_returns h lck hwf hlen
    exact ⟨c, g, delete_lock_region_loop_mono h lck f f.first (c, g) RESCAN_FUEL hdel⟩
  · intro r
    exact ⟨drop_rec_no_match h lck r, right_piece_unmatched h lck r hlen,
      left_piece_unmatched h lck r hlen⟩

/-- C36, instance: `hA` holds WRITE `[0, 1000)` and releases `[200, 400)`. -/
theorem delete_lock_region_terminates_witness :
    ∃ c g, ∀ n, RESCAN_FUEL ≤ n →
      delete_lock_region_loop hA (request F_UNLCK 200 200) n table_write_1000
        table_write_1000.first = some (c, g) :=
  (delete_lock_region_terminates hA table_write_1000 (request F_UNLCK 200 200) (by decide)
    (by decide)).1

/-! ## Well-formedness of the list -/

/-- C37, the code at the failing input: `hA` holds READ `[-120, -100)`, a well-formed
table reached from the empty table by one request; `add_read_lock_region` for READ
`[-100, -90)`, a region of length 10, returns 0 and leaves one reachable record with start
-120 and length -90, so the table is no longer well formed. The same happens with
`add_write_lock_region` on the corresponding table. -/
theorem merge_breaks_well_formed :
    run_requests all_alive (table_of NEXT_NULL []) [(hA, request F_RDLCK (-120) 20)]
      = some ([0], table_neg_read)
    ∧ well_formed table_neg_read
    ∧ add_read_lock_region hA table_neg_read (request F_RDLCK (-100) 10)
        = some (0, table_neg_merged)
    ∧ reachable table_neg_merged = [⟨NEXT_NULL, -120, -90, F_RDLCK, [hA]⟩]
    ∧ ¬ well_formed table_neg_merged
    ∧ add_write_lock_region hA (table_of 0 [⟨NEXT_NULL, -120, 20, F_WRLCK, [hA]⟩])
        (request F_WRLCK (-100) 10)
        = some (0, table_of 0 [⟨NEXT_NULL, -120, -90, F_WRLCK, [hA]⟩]) := by
  decide

theorem at_split {f : rl_open_file} {L : List rl_lock} (hat : At f f.first [] L) {i : Nat}
    (hi : i ∈ reachable_idx f) :
    ∃ (a b : List Nat) (r0 : rl_lock), Chain f.lock_table f.first (a ++ i :: b)
      ∧ f.lock_table[i]? = some r0
      ∧ L = view f.lock_table a ++ core r0 :: view f.lock_table b
      ∧ At f (i : Int) (view f.lock_table a) (core r0 :: view f.lock_table b) := by
  obtain ⟨hl, hnz, p, s, hc, hs, hp, hv⟩ := hat
  have hp0 : p = [] := by simpa [view] using hp
  subst hp0
  have hc2 : Chain f.lock_table f.first s := by simpa using hc
  rw [reachable_idx_of_chain hc2] at hi
  obtain ⟨a, b, hab⟩ := List.append_of_mem hi
  subst hab
  obtain ⟨j, hj⟩ := chain_suffix hc2
  obtain ⟨hji, r0, hr0, _⟩ := chain_cons_inv hj
  subst hji
  have hview : view f.lock_table (a ++ i :: b)
      = view f.lock_table a ++ core r0 :: view f.lock_table b := by
    rw [view_append]
    simp only [view, List.map_cons, slot_core_of_some hr0]
  refine ⟨a, b, r0, hc2, hr0, by rw [← hv, hview], hl, ?_, a, i :: b, hc2, hj, rfl, ?_⟩
  · intro r hr
    apply hnz
    rw [List.nil_append, ← hv, hview]
    exact hr
  · simp only [view, List.map_cons, slot_core_of_some hr0]

/-- What is preserved of the well-formedness of the list (10 slots, walk from `first`
within the table, without a repeated slot and ending at a negative index, reachable records
of length > 0): `add_lock` with a region of length > 0, `delete_lock` and `delete_owner` on
a slot of the list and `delete_lock_region` with a region of length > 0 preserve it;
`add_read_lock_region` and `add_write_lock_region` preserve it when the reachable records
and the region start at offsets >= 0. -/
theorem well_formed_preserved (h : owner) (f : rl_open_file) (lck : flock) (t : Int)
    (hwf : well_formed f) (hlen : 0 < lck.l_len) :
    well_formed (add_lock h f lck t).2
    ∧ (∀ i ∈ reachable_idx f, ∃ g, delete_lock f (i : Int) = some g ∧ well_formed g)
    ∧ (∀ i ∈ reachable_idx f, ∃ g, delete_owner h f (i : Int) = some g ∧ well_formed g)
    ∧ (∃ c g, delete_lock_region h f lck = some (c, g) ∧ well_formed g)
    ∧ (starts_nonneg f → 0 ≤ lck.l_start →
        (∃ c g, add_read_lock_region h f lck = some (c, g) ∧ well_formed g)
        ∧ (∃ c g, add_write_lock_region h f lck = some (c, g) ∧ well_formed g)) := by
  have hat := at_of_well_formed hwf
  have hposL : ∀ r ∈ (reachable f).map core, 0 < r.len := by
    intro r hr
    obtain ⟨r0, hr0, rfl⟩ := List.mem_map.mp hr
    exact hwf.2.2 r0 hr0
  refine ⟨?_, ?_, ?_, ?_, ?_⟩
  · rcases at_add_lock_step h lck t hat (by omega) with ⟨_, hfail⟩ | ⟨g, hg, hatg, _⟩
    · rw [hfail]
      exact hwf
    · rw [hg]
      refine at_to_well_formed (at_restart hatg) ?_
      intro x hx
      rcases List.mem_append.mp hx with hx | hx
      · rw [List.mem_singleton] at hx
        rw [hx]
        exact hlen
      · exact hposL x hx
  · intro i hi
    obtain ⟨a, b, r0, hc, hr0, hL, _⟩ := at_split hat hi
    obtain ⟨g, hg, hcg, _, _, hsame, hlg, _, _, _⟩ :=
      delete_lock_spec (by rw [hwf.1]) hc hr0
    have hnd := chain_nodup hc
    have hia : i ∉ a := fun hm => (List.nodup_append.mp hnd).2.2 hm (List.mem_cons_self i b)
    have hib : i ∉ b := (List.nodup_cons.mp (List.nodup_append.mp hnd).2.1).1
    have hview : view g.lock_table (a ++ b) = view f.lock_table a ++ view f.lock_table b := by
      rw [view_append]
      congr 1
      · exact view_congr (fun j hj => hsame j (ne_of_mem_of_not_mem hj hia))
      · exact view_congr (fun j hj => hsame j (ne_of_mem_of_not_mem hj hib))
    have hpos : ∀ x ∈ view f.lock_table a ++ view f.lock_table b, 0 < x.len := by
      intro x hx
      apply hposL
      rw [hL]
      rcases List.mem_append.mp hx with hx | hx
      · exact List.mem_append_left _ hx
      · exact List.mem_append_right _ (List.mem_cons_of_mem _ hx)
    refine ⟨g, hg, at_to_well_formed (L := view f.lock_table a ++ view f.lock_table b) ?_ hpos⟩
    refine ⟨by rw [hlg]; exact hwf.1, ?_, [], a ++ b, by simpa using hcg, hcg, rfl, hview⟩
    intro x hx
    have := hpos x (by simpa using hx)
    omega
  · intro i hi
    obtain ⟨a, b, r0, _, hr0, hL, hati⟩ := at_split hat hi
    obtain ⟨g, hg, hatg, _⟩ := at_delete_owner_step h hati hr0
    refine ⟨g, hg, at_to_well_formed (at_restart hatg) ?_⟩
    intro x hx
    simp only [List.mem_append] at hx
    rcases hx with (hx | hx) | hx
    · exact hposL x (by rw [hL]; exact List.mem_append_left _ hx)
    · exact pos_drop_rec (hposL (core r0) (by rw [hL]; simp)) hx
    · exact hposL x (by rw [hL]; exact List.mem_append_right _ (List.mem_cons_of_mem _ hx))
  · obtain ⟨c, g, hdel⟩ := delete_lock_region_returns h lck hwf hlen
    refine ⟨c, g, hdel, ?_⟩
    have href := delete_lock_region_refines h lck hat
    cases hun : unlock_list h lck RESCAN_FUEL (free_count f.lock_table) []
        ((reachable f).map core) with
    | none =>
      rw [hun] at href
      rw [show delete_lock_region h f lck = none from href] at hdel
      cases hdel
    | some res =>
      rw [hun] at href
      obtain ⟨g2, hg2, hat2, _, _⟩ := href
      rw [hg2] at hdel
      injection hdel with hdel
      injection hdel with _ hg
      subst hg
      exact at_to_well_formed hat2
        (unlock_list_pos h lck _ _ _ _ res.1 res.2 hun (by simpa using hposL))
  · intro hs h0
    have hok := at_records_ok hwf hs
    refine ⟨?_, ?_⟩
    · obtain ⟨c, g, hrd, _, _, hcase⟩ := add_read_lock_region_cases h lck hat
      refine ⟨c, g, hrd, ?_⟩
      have hext := merge_list_region h (read_match h) lck ((reachable f).map core) lck
        (extends_region_refl h0 hlen) hok
      rcases hcase with ⟨S2, hsl, hat2⟩ | ⟨_, ⟨_, hat2, _⟩ | ⟨_, _, hat2⟩⟩
      · exact at_to_well_formed hat2 (search_list_pos h lck _ c S2 hsl hposL)
      · exact at_to_well_formed hat2 (merge_list_pos h _ lck hposL)
      · refine at_to_well_formed (hat2 (by have := hext.2.2.2.1; omega)) ?_
        intro x hx
        rcases List.mem_cons.mp hx with hx | hx
        · rw [hx]
          exact hext.2.2.2.1
        · exact merge_list_pos h _ lck hposL x hx
    · obtain ⟨c, g, hwr, _, _, hcase⟩ := add_write_lock_region_cases h lck hat
      refine ⟨c, g, hwr, ?_⟩
      have hext := merge_list_region h (write_match h) lck ((reachable f).map core) lck
        (extends_region_refl h0 hlen) hok
      rcases hcase with ⟨_, hat2, _⟩ | ⟨_, _, hat2⟩
      · exact at_to_well_formed hat2 (merge_list_pos h _ lck hposL)
      · refine at_to_well_formed (hat2 (by have := hext.2.2.2.1; omega)) ?_
        intro x hx
        rcases List.mem_cons.mp hx with hx | hx
        · rw [hx]
          exact hext.2.2.2.1
        · exact merge_list_pos h _ lck hposL x hx

/-! ## A failed acquisition -/

/-- C38, counterexample: the table has no free slot and `hA` shares READ `[0, 10)` with
`hC`. The request READ `[5, 15)` of `hA` absorbs the shared record, that is, removes `hA`
from its owners, then finds no slot for the merged record and returns -1: `hA` has lost
its READ `[0, 10)`. The same holds for `add_write_lock_region`. -/
theorem failed_acquisition_drops_owner :
    well_formed table_full_shared
    ∧ claims_of hA (reachable table_full_shared) = [(0, 10, F_RDLCK)]
    ∧ add_read_lock_region hA table_full_shared (request F_RDLCK 5 10)
        = some (-1, table_full_dropped)
    ∧ add_write_lock_region hA table_full_shared (request F_WRLCK 5 10)
        = some (-1, table_full_dropped)
    ∧ rl_fcntl all_alive 0 0 hA table_full_shared F_SETLK (request F_RDLCK 5 10)
        = outcome.ret (-1) table_full_dropped
    ∧ claims_of hA (reachable table_full_dropped) = [] := by
  decide

theorem add_owner_fail {h : owner} {r : rl_lock} (hc : (add_owner h r).1 = -1) :
    (add_owner h r).2 = r := by
  unfold add_owner at hc ⊢
  split
  · rfl
  · rename_i hcap
    rw [if_neg hcap] at hc
    split at hc <;> exact absurd hc (by simp)

theorem add_read_search_fail (h : owner) (lck : flock) :
    ∀ (n : Nat) (f : rl_open_file) (idx : Int) (g : rl_open_file),
      add_read_search h lck n f idx = some (some (-1, g)) → g = f := by
  intro n
  induction n with
  | zero =>
    intro f idx g hres
    simp [add_read_search] at hres
  | succ n ih =>
    intro f idx g hres
    rw [add_read_search] at hres
    split at hres
    · cases hr : f.lock_table[idx.toNat]? with
      | none =>
        rw [hr] at hres
        cases hres
      | some r =>
        rw [hr] at hres
        simp only at hres
        split at hres
        · split at hres
          · injection hres with hres
            injection hres with hres
            injection hres with hc _
            exact absurd hc (by decide)
          · injection hres with hres
            injection hres with hres
            injection hres with hc hg
            rw [← hg, add_owner_fail hc, set_self_of_getElem? hr]
        · exact ih _ _ _ hres
    · cases hres

theorem add_lock_fail {h : owner} {f g : rl_open_file} {lck : flock} {t : Int}
    (hres : add_lock h f lck t = (-1, g)) : g = f := by
  unfold add_lock at hres
  split at hres
  · injection hres with hc _
    exact absurd hc (by decide)
  · injection hres with _ hg
    exact hg.symm

theorem add_write_merge_id (h : owner) (lck : flock) :
    ∀ (S : List rl_lock) (f : rl_open_file) (idx : Int) (P : List rl_lock) (fuel : Nat),
      At f idx P S → (∀ r ∈ S, write_match h lck r = false) → S.length < fuel →
      add_write_merge h fuel f lck idx = some (f, lck) := by
  intro S
  induction S with
  | nil =>
    intro f idx P fuel hat _ hfuel
    obtain ⟨n, rfl⟩ : ∃ n, fuel = n + 1 := ⟨fuel - 1, by simp at hfuel; omega⟩
    have := at_idx_neg hat
    rw [add_write_merge, if_neg (by omega)]
  | cons r S ih =>
    intro f idx P fuel hat hno hfuel
    obtain ⟨n, rfl⟩ : ∃ n, fuel = n + 1 := ⟨fuel - 1, by simp at hfuel; omega⟩
    obtain ⟨i, r0, hidx, hr0, hcore, hnext⟩ := at_cons_inv hat
    subst hidx
    subst hcore
    have hm : ¬ ((((is_region_intersection_or_neighbour lck.l_start lck.l_len r0
              && decide (r0.type = lck.l_type))
            || is_region_intersection lck.l_start lck.l_len r0)
           && is_owner h r0) = true) := by
      have := hno (core r0) (List.mem_cons_self _ S)
      intro hc
      have hsame : write_match h lck (core r0)
          = (((is_region_intersection_or_neighbour lck.l_start lck.l_len r0
              && decide (r0.type = lck.l_type))
            || is_region_intersection lck.l_start lck.l_len r0)
           && is_owner h r0) := rfl
      rw [hsame, hc] at this
      cases this
    rw [add_write_merge]
    simp only [Int.toNat_ofNat, hr0, ge_iff_le, Int.ofNat_zero_le, if_true, if_neg hm]
    exact ih f r0.next_lock _ n hnext (fun x hx => hno x (List.mem_cons_of_mem _ hx))
      (by simp at hfuel; omega)

theorem acquisition_fail_frame (h : owner) (f : rl_open_file) (lck : flock)
    (hwf : well_formed f) (hlen : 0 < lck.l_len) :
    (∀ g, add_read_lock_region h f lck = some (-1, g) →
        ((∃ r ∈ reachable f, r.starting_offset = lck.l_start ∧ r.len = lck.l_len)
          ∨ (∀ r ∈ reachable f, h ∈ r.lock_owners → ¬ touches lck.l_start lck.l_len r)) →
        g = f)
    ∧ (∀ g, add_write_lock_region h f lck = some (-1, g) →
        (∀ r ∈ reachable f, h ∈ r.lock_owners → ¬ touches lck.l_start lck.l_len r) →
        g = f) := by
  have hat := at_of_well_formed hwf
  refine ⟨?_, ?_⟩
  · intro g hres hcase
    unfold add_read_lock_region at hres
    cases hs : add_read_search h lck SCAN_FUEL f f.first with
    | none =>
      rw [hs] at hres
      cases hres
    | some o =>
      rw [hs] at hres
      cases o with
      | some res =>
        simp only at hres
        injection hres with hres
        subst hres
        exact add_read_search_fail h lck _ _ _ _ hs
      | none =>
        simp only at hres
        rcases add_read_search_eq h lck _ f f.first [] SCAN_FUEL hat (scan_fuel_ok hat)
          with ⟨hnone, _⟩ | ⟨c, S2, g2, _, hsome, _⟩
        · rcases hcase with ⟨r, hr, hst, hln⟩ | hfree
          · exfalso
            have := search_list_none_inv h lck _ hnone (core r) (List.mem_map_of_mem _ hr)
            simp only [is_region_equal, core, hst, hln, decide_True, Bool.and_self] at this
            cases this
          · have hno : ∀ x ∈ (reachable f).map core, read_match h lck x = false := by
              intro x hx
              obtain ⟨r0, hr0, rfl⟩ := List.mem_map.mp hx
              exact read_match_free hlen (hwf.2.2 r0 hr0) (hfree r0 hr0)
            rw [add_read_merge_id h lck _ f f.first [] SCAN_FUEL hat hno (scan_fuel_ok hat)]
              at hres
            simp only at hres
            exact add_lock_fail (Option.some.inj hres)
        · rw [hsome] at hs
          cases hs
  · intro g hres hfree
    unfold add_write_lock_region at hres
    have hno : ∀ x ∈ (reachable f).map core, write_match h lck x = false := by
      intro x hx
      obtain ⟨r0, hr0, rfl⟩ := List.mem_map.mp hx
      exact write_match_free hlen (hwf.2.2 r0 hr0) (hfree r0 hr0)
    rw [add_write_merge_id h lck _ f f.first [] SCAN_FUEL hat hno (scan_fuel_ok hat)] at hres
    simp only at hres
    exact add_lock_fail (Option.some.inj hres)

theorem add_owner_code (h : owner) (r : rl_lock) :
    (add_owner h r).1 = 0 ∨ (add_owner h r).1 = -1 := by
  unfold add_owner
  split
  · exact Or.inr rfl
  · split
    · exact Or.inl rfl
    · exact Or.inl rfl

/-- C38, amended: on a well-formed table, for a handle `h` and a region `r` of length > 0,
when some reachable record has exactly the region `r` or `h` owns no reachable record that
touches or intersects `r`, `add_read_lock_region` either returns 0 or returns -1 and
leaves the table as it was; the same for `add_write_lock_region` when `h` owns no
reachable record that touches or intersects `r`. (When the table is full and `h` shares a
record that the call absorbs, the call returns -1 and `h` is removed from that record.) -/
theorem failed_acquisition_unchanged (h : owner) (f : rl_open_file) (lck : flock)
    (hwf : well_formed f) (hlen : 0 < lck.l_len) :
    (((∃ r ∈ reachable f, r.starting_offset = lck.l_start ∧ r.len = lck.l_len)
          ∨ (∀ r ∈ reachable f, h ∈ r.lock_owners → ¬ touches lck.l_start lck.l_len r)) →
        (add_read_lock_region h f lck = some (-1, f)
          ∨ ∃ g, add_read_lock_region h f lck = some (0, g)))
    ∧ ((∀ r ∈ reachable f, h ∈ r.lock_owners → ¬ touches lck.l_start lck.l_len r) →
        (add_write_lock_region h f lck = some (-1, f)
          ∨ ∃ g, add_write_lock_region h f lck = some (0, g))) := by
  have hat := at_of_well_formed hwf
  obtain ⟨hrd, hwr⟩ := acquisition_fail_frame h f lck hwf hlen
  refine ⟨?_, ?_⟩
  · intro hcase
    obtain ⟨c, g, hres, _, _, hc⟩ := add_read_lock_region_cases h lck hat
    have hcode : c = 0 ∨ c = -1 := by
      rcases hc with ⟨S2, hs, _⟩ | ⟨_, ⟨h1, _⟩ | ⟨h1, _⟩⟩
      · obtain ⟨_, r, _, _, _, _, hk⟩ := search_list_split h lck _ c S2 hs
        rcases hk with ⟨_, h1, _⟩ | ⟨_, h1, _⟩
        · exact Or.inl h1
        · rw [h1]
          exact add_owner_code h r
      · exact Or.inr h1
      · exact Or.inl h1
    rcases hcode with h0 | h1
    · subst h0
      exact Or.inr ⟨g, hres⟩
    · subst h1
      have := hrd g hres hcase
      subst this
      exact Or.inl hres
  · intro hcase
    obtain ⟨c, g, hres, _, _, hc⟩ := add_write_lock_region_cases h lck hat
    rcases hc with ⟨h1, _⟩ | ⟨h1, _⟩
    · subst h1
      have := hwr g hres hcase
      subst this
      exact Or.inl hres
    · subst h1
      exact Or.inr ⟨g, hres⟩

/-- C38, amended, instance: in the table without a free slot, `hB`, which owns no record,
asks READ `[50, 60)`. -/
theorem failed_acquisition_unchanged_witness :
    add_read_lock_region hB table_full_shared (request F_RDLCK 50 10)
        = some (-1, table_full_shared)
    ∨ ∃ g, add_read_lock_region hB table_full_shared (request F_RDLCK 50 10) = some (0, g) :=
  (failed_acquisition_unchanged hB table_full_shared (request F_RDLCK 50 10) (by decide)
    (by decide)).1
    (Or.inr (fun r hr ho =>
      absurd ho ((by decide : ∀ r ∈ reachable table_full_shared, hB ∉ r.lock_owners) r hr)))

/-! ## Read coverage after a READ request -/

/-- C39, counterexample: `hA` holds WRITE `[0, 10)`, a table reached from the empty one by
a single request. `add_read_lock_region` for `[0, 10)` finds the record with exactly this
region, of which `hA` is an owner, and returns 0 without touching the table: no READ
record exists afterwards. The same through `rl_fcntl`. -/
theorem read_request_keeps_write :
    run_requests all_alive (table_of NEXT_NULL []) [(hA, request F_WRLCK 0 10)]
      = some ([0], table_write_10)
    ∧ well_formed table_write_10 ∧ starts_nonneg table_write_10
    ∧ add_read_lock_region hA table_write_10 (request F_RDLCK 0 10)
        = some (0, table_write_10)
    ∧ rl_fcntl all_alive 0 0 hA table_write_10 F_SETLK (request F_RDLCK 0 10)
        = outcome.ret 0 table_write_10
    ∧ ∀ r ∈ reachable table_write_10, r.type ≠ F_RDLCK := by
  decide

/-- C39, amended: on a well-formed table whose records start at offsets >= 0, for a region
`r` with start >= 0 and length > 0, if `add_read_lock_region` returns 0 then afterwards
some reachable record that has `h` among its owners contains every byte of `r`; that
record has type READ when every record that had exactly the region `r` before the call
had type READ (in particular when there was none). -/
theorem add_read_lock_region_covers (h : owner) (f g : rl_open_file) (lck : flock)
    (hwf : well_formed f) (hs : starts_nonneg f) (h0 : 0 ≤ lck.l_start)
    (hlen : 0 < lck.l_len) (hres : add_read_lock_region h f lck = some (0, g)) :
    ∃ x ∈ reachable g, h ∈ x.lock_owners
      ∧ x.starting_offset ≤ lck.l_start
      ∧ lck.l_start + lck.l_len ≤ x.starting_offset + x.len
      ∧ ((∀ y ∈ reachable f, y.starting_offset = lck.l_start → y.len = lck.l_len →
            y.type = F_RDLCK) → x.type = F_RDLCK) := by
  have hat := at_of_well_formed hwf
  obtain ⟨c, g2, hrd, _, _, hcase⟩ := add_read_lock_region_cases h lck hat
  rw [hrd] at hres
  injection hres with hres
  injection hres with hc hg
  subst hc
  subst hg
  rcases hcase with ⟨S2, hsl, hat2⟩ | ⟨_, ⟨h1, _⟩ | ⟨_, hlk, _⟩⟩
  · obtain ⟨A, r, B, hL, _, heq, hk⟩ := search_list_split h lck _ 0 S2 hsl
    have hreg : r.starting_offset = lck.l_start ∧ r.len = lck.l_len := by
      simp only [is_region_equal, Bool.and_eq_true, decide_eq_true_eq] at heq
      exact ⟨heq.1.symm, heq.2.symm⟩
    have hrmem : r ∈ (reachable f).map core := by rw [hL]; simp
    obtain ⟨r0, hr0, hr0c⟩ := List.mem_map.mp hrmem
    have hty : (∀ y ∈ reachable f, y.starting_offset = lck.l_start → y.len = lck.l_len →
        y.type = F_RDLCK) → r.type = F_RDLCK := by
      intro hall
      rw [← hr0c]
      refine hall r0 hr0 ?_ ?_
      · rw [← hreg.1, ← hr0c]
        rfl
      · rw [← hreg.2, ← hr0c]
        rfl
    have heq2 := at_reachable_eq hat2
    rcases hk with ⟨hown, _, hS2⟩ | ⟨hown, hcode, hS2⟩
    · obtain ⟨x, hx, hxc⟩ := reachable_of_core_mem heq2 (show r ∈ S2 by rw [hS2, hL]; simp)
      refine ⟨x, hx, ?_, ?_, ?_, ?_⟩
      · have : x.lock_owners = r.lock_owners := by rw [← hxc]; rfl
        rw [this]
        exact is_owner_iff.mp hown
      · have : x.starting_offset = r.starting_offset := by rw [← hxc]; rfl
        omega
      · have h1 : x.starting_offset = r.starting_offset := by rw [← hxc]; rfl
        have h2 : x.len = r.len := by rw [← hxc]; rfl
        omega
      · intro hall
        have : x.type = r.type := by rw [← hxc]; rfl
        rw [this]
        exact hty hall
    · have hnew := add_owner_new hown hcode.symm
      obtain ⟨x, hx, hxc⟩ := reachable_of_core_mem heq2
        (show core (add_owner h r).2 ∈ S2 by rw [hS2]; simp)
      rw [hnew] at hxc
      refine ⟨x, hx, ?_, ?_, ?_, ?_⟩
      · have : x.lock_owners = r.lock_owners ++ [h] := by
          have := congrArg rl_lock.lock_owners hxc
          exact this
        rw [this]
        simp
      · have h1 := congrArg rl_lock.starting_offset hxc
        have h2 : x.starting_offset = r.starting_offset := h1
        omega
      · have h1 := congrArg rl_lock.starting_offset hxc
        have h2 := congrArg rl_lock.len hxc
        have h3 : x.starting_offset = r.starting_offset := h1
        have h4 : x.len = r.len := h2
        omega
      · intro hall
        have h1 := congrArg rl_lock.type hxc
        have h2 : x.type = r.type := h1
        rw [h2]
        exact hty hall
  · exact absurd h1 (by decide)
  · have hext := merge_list_region h (read_match h) lck ((reachable f).map core) lck
      (extends_region_refl h0 hlen) (at_records_ok hwf hs)
    obtain ⟨x, hx, hxc⟩ := reachable_of_core_mem (lk_reachable_eq hlk)
      (List.mem_cons_self _ _)
    refine ⟨x, hx, ?_, ?_, ?_, ?_⟩
    · have : x.lock_owners = [h] := congrArg rl_lock.lock_owners hxc
      rw [this]
      simp
    · have : x.starting_offset
          = (merge_list h (read_match h) lck ((reachable f).map core)).1.l_start :=
        congrArg rl_lock.starting_offset hxc
      rw [this]
      exact hext.1
    · have h1 : x.starting_offset
          = (merge_list h (read_match h) lck ((reachable f).map core)).1.l_start :=
        congrArg rl_lock.starting_offset hxc
      have h2 : x.len = (merge_list h (read_match h) lck ((reachable f).map core)).1.l_len :=
        congrArg rl_lock.len hxc
      rw [h1, h2]
      exact hext.2.1
    · intro _
      exact congrArg rl_lock.type hxc

/-- C39, amended, instance: `hA` holds READ `[0, 100)` and asks READ `[50, 150)`. -/
theorem add_read_lock_region_covers_witness :
    ∃ x ∈ reachable (table_of 0 [⟨NEXT_NULL, 0, 150, F_RDLCK, [hA]⟩]),
      hA ∈ x.lock_owners
      ∧ x.starting_offset ≤ (request F_RDLCK 50 100).l_start
      ∧ (request F_RDLCK 50 100).l_start + (request F_RDLCK 50 100).l_len
          ≤ x.starting_offset + x.len
      ∧ ((∀ y ∈ reachable table_read_A,
            y.starting_offset = (request F_RDLCK 50 100).l_start →
            y.len = (request F_RDLCK 50 100).l_len → y.type = F_RDLCK) →
          x.type = F_RDLCK) :=
  add_read_lock_region_covers hA table_read_A (table_of 0 [⟨NEXT_NULL, 0, 150, F_RDLCK, [hA]⟩])
    (request F_RDLCK 50 100) (by decide) (by decide) (by decide) (by decide) (by decide)

end RlLock
